import Mathlib

/-! # LayoutEmbedding: conflict sentinel, embedding state and branch-and-bound

A shallow embedding of

* `library/LayoutEmbedding/VirtualPathConflictSentinel.cc`
* `library/LayoutEmbedding/EmbeddingState.cc`
* `src/BranchAndBound.cc`

Conventions.

* Mesh handles (vertices, edges, halfedges, faces) are their indices, natural numbers.
* `std::set<T>` is a `Finset T`; a range-for over a set of labels visits `ascending s`, the
  members in increasing order.
* Mesh attributes (`vertex_attribute`, `edge_attribute`, ...) are total functions from indices.
* The classes `Embedding`, `VirtualPort`, `UnionFind` and the polymesh library are not part of
  the translated sources. Their queries are parameters (`LayoutMesh`, `TargetQueries`,
  `EmbeddingOps`, `SearchOps`); nothing is assumed about them unless a theorem says so.
* Costs are of type `double`. The translated functions are stated for a type `C` of costs with
  `0.0`, `+infinity` (`⊤`), a sum, a comparison and the two gap tests of `branch_and_bound`;
  the type `Dbl` gives these the meaning of IEEE 754 binary64 (round to nearest, ties to even).
  Theorems stated for an ordered commutative monoid with `⊤` are about sums without rounding.
* A failed `LE_ASSERT`, `assert`, or an access outside a container stops the run: `fatal`.
  Loops whose termination depends on the mesh take fuel; `timeout` means the fuel ran out.
-/

set_option autoImplicit false
set_option linter.unusedSectionVars false

namespace LayoutEmbedding

/-! ## Results of runs -/

/-- Result of running a method of the sentinel: it returns, or a fatal assertion (or an invalid
access) stops the program, or the fuel of the model is exhausted. -/
inductive Res (α : Type) where
  | done (a : α)
  | fatal
  | timeout
  deriving DecidableEq, Repr

/-- Result of a method of `EmbeddingState`: like `Res`, but a fatal assertion keeps the object
as it was at the moment the assertion failed. -/
inductive Outcome (σ : Type) where
  | done (s : σ)
  | fatal (s : σ)
  | timeout

/-! ## Virtual vertices, paths and ports -/

/-- Modelled from the spec: the type `VirtualVertex` (its header is not among the translated
files), a position on the target mesh that is a real vertex or a point on an edge. -/
inductive VirtualVertex where
  | vertex (v : Nat)
  | edge (e : Nat)
  deriving DecidableEq, Repr

/-- The test `is_real_vertex(vv)`. -/
def is_real_vertex : VirtualVertex → Bool
  | VirtualVertex.vertex _ => true
  | VirtualVertex.edge _ => false

/-- A virtual path: `std::vector<VirtualVertex>`. -/
abbrev VirtualPath := List VirtualVertex

/-- Modelled from the spec: the type `VirtualPort` (its header is not among the translated
files), a direction leaving the real vertex `from` towards the virtual vertex `to` (the names
`from` and `to` are reserved words here). -/
structure VirtualPort where
  from_v : Nat
  to_vv : VirtualVertex
  deriving DecidableEq, Repr

/-- The element `_path[i]`; only used at indices the caller has checked. -/
def path_at (p : VirtualPath) (i : Nat) : VirtualVertex :=
  p.getD i (VirtualVertex.vertex 0)

/-- The elements `_path[1] .. _path[size-2]`, visited by `for (i = 1; i < size - 1; ++i)`
when `size >= 2`. -/
def interior (p : VirtualPath) : List VirtualVertex :=
  (p.drop 1).dropLast

/-- The pairs `(_path[i], _path[i+1])` for `i = 0 .. size-2`. -/
def segments (p : VirtualPath) : List (VirtualVertex × VirtualVertex) :=
  p.zip (p.drop 1)

/-- Members of a `std::set` of labels in iteration order (ascending). -/
def ascending (s : Finset Nat) : List Nat :=
  (List.range (s.sup id + 1)).filter (fun x => x ∈ s)

/-! ## Meshes as seen by the translated code -/

/-- The layout mesh, through the polymesh queries the translated code uses. -/
structure LayoutMesh where
  /-- Number of layout vertices; `vertices()` visits `0 .. num_vertices-1`. -/
  num_vertices : Nat
  /-- Number of layout edges; `edges()` visits `0 .. num_edges-1`. -/
  num_edges : Nat
  halfedgeA : Nat → Nat
  halfedgeB : Nat → Nat
  /-- The edge `l_he.edge()` of a halfedge. -/
  edge_of : Nat → Nat
  vertex_from : Nat → Nat
  vertex_to : Nat → Nat
  /-- The end points `l_e.vertexA()`, `l_e.vertexB()` of an edge. -/
  vertexA : Nat → Nat
  vertexB : Nat → Nat
  /-- The range `l_v.outgoing_halfedges()`. -/
  outgoing_halfedges : Nat → List Nat
  any_outgoing_halfedge : Nat → Nat
  /-- The range `l_v.edges()`. -/
  vertex_edges : Nat → List Nat
  /-- The helper `rotated_ccw(l_he)` on layout halfedges. -/
  rotated_ccw : Nat → Nat

/-- What the sentinel reads from its `const Embedding& em` besides the layout mesh. -/
structure TargetQueries where
  /-- The edge `pm::halfedge_from_to(v0, v1).edge()`, `none` when the halfedge is invalid. -/
  edge_from_to : Nat → Nat → Option Nat
  /-- The face `triangle_with_edge_and_opposite_vertex(e, v)`, `none` when invalid. -/
  triangle_with_edge_and_opposite_vertex : Nat → Nat → Option Nat
  /-- The face `common_face(e0, e1)`, `none` when invalid. -/
  common_face : Nat → Nat → Option Nat
  /-- The flag `em.is_blocked(t_e)` of a target edge. -/
  is_blocked : Nat → Bool
  /-- The flag `em.is_embedded(l_he)` of a layout halfedge. -/
  is_embedded : Nat → Bool
  /-- The target vertex `em.matching_target_vertex(l_v)`. -/
  matching_target_vertex : Nat → Nat
  /-- The port `p.rotated_ccw()`. -/
  port_rotated_ccw : VirtualPort → VirtualPort
  /-- The port `p.rotated_cw()`. -/
  port_rotated_cw : VirtualPort → VirtualPort

/-! ## VirtualPathConflictSentinel -/

/-- The mutable members of `VirtualPathConflictSentinel`. A label is a layout edge index.
An entry `none` of `l_port` is a default-constructed port (`is_valid()` is false). -/
structure Sentinel where
  v_label : Nat → Finset Nat
  e_label : Nat → Finset Nat
  f_label : Nat → Finset Nat
  l_port : Nat → Option VirtualPort
  t_port : VirtualVertex → Finset Nat
  global_conflicts : Finset Nat
  global_conflict_relation : Finset (Nat × Nat)

/-- The sentinel right after its constructor. -/
def Sentinel.init : Sentinel where
  v_label := fun _ => ∅
  e_label := fun _ => ∅
  f_label := fun _ => ∅
  l_port := fun _ => none
  t_port := fun _ => ∅
  global_conflicts := ∅
  global_conflict_relation := ∅

/-- The pair `std::minmax(a, b)`: `(b, a)` when `b < a`, else `(a, b)`. -/
def minmax (a b : Nat) : Nat × Nat :=
  if b < a then (b, a) else (a, b)

/-- The method `mark_conflicting(_a, _b)`. -/
def mark_conflicting (a b : Nat) (s : Sentinel) : Sentinel :=
  if a = b then s
  else
    { s with
      global_conflicts := insert b (insert a s.global_conflicts)
      global_conflict_relation := insert (minmax a b) s.global_conflict_relation }

/-- The loop `for (prev_l : labels) mark_conflicting(_l, prev_l)`. -/
def mark_all (l : Nat) (labels : Finset Nat) (s : Sentinel) : Sentinel :=
  (ascending labels).foldl (fun st prev_l => mark_conflicting l prev_l st) s

/-- The method `insert(const pm::vertex_handle&, const Label&)`. -/
def insert_vertex (v l : Nat) (s : Sentinel) : Sentinel :=
  let s1 := mark_all l (s.v_label v) s
  { s1 with v_label := Function.update s1.v_label v (insert l (s1.v_label v)) }

/-- The method `insert(const pm::edge_handle&, const Label&)`. -/
def insert_edge (e l : Nat) (s : Sentinel) : Sentinel :=
  let s1 := mark_all l (s.e_label e) s
  { s1 with e_label := Function.update s1.e_label e (insert l (s1.e_label e)) }

/-- The method `insert(const pm::face_handle&, const Label&)`. -/
def insert_face (f l : Nat) (s : Sentinel) : Sentinel :=
  let s1 := mark_all l (s.f_label f) s
  { s1 with f_label := Function.update s1.f_label f (insert l (s1.f_label f)) }

/-- The method `insert_virtual_vertex(_vv, _l)`. -/
def insert_virtual_vertex (vv : VirtualVertex) (l : Nat) (s : Sentinel) : Sentinel :=
  match vv with
  | VirtualVertex.vertex v => insert_vertex v l s
  | VirtualVertex.edge e => insert_edge e l s

/-- The target element a segment is recorded on: the edge of a (V,V) segment, the face of a
(V,E), (E,V) or (E,E) segment; `none` when the handle is invalid (the `LE_ASSERT` fails). -/
inductive SegmentElement where
  | onEdge (e : Nat)
  | inFace (f : Nat)
  deriving DecidableEq, Repr

/-- The element computed in the four cases of `insert_segment`. -/
def segment_element (T : TargetQueries) : VirtualVertex → VirtualVertex → Option SegmentElement
  | VirtualVertex.vertex v0, VirtualVertex.vertex v1 =>
      (T.edge_from_to v0 v1).map SegmentElement.onEdge
  | VirtualVertex.vertex v, VirtualVertex.edge e =>
      (T.triangle_with_edge_and_opposite_vertex e v).map SegmentElement.inFace
  | VirtualVertex.edge e, VirtualVertex.vertex v =>
      (T.triangle_with_edge_and_opposite_vertex e v).map SegmentElement.inFace
  | VirtualVertex.edge e0, VirtualVertex.edge e1 =>
      (T.common_face e0 e1).map SegmentElement.inFace

/-- The method `insert_segment(_vv0, _vv1, _l)`. -/
def insert_segment (T : TargetQueries) (vv0 vv1 : VirtualVertex) (l : Nat) (s : Sentinel) :
    Res Sentinel :=
  match segment_element T vv0 vv1 with
  | none => Res.fatal
  | some (SegmentElement.onEdge e) => Res.done (insert_edge e l s)
  | some (SegmentElement.inFace f) => Res.done (insert_face f l s)

/-- The loop over the path segments in `insert_path`. -/
def insert_segments (T : TargetQueries) (l : Nat) :
    List (VirtualVertex × VirtualVertex) → Sentinel → Res Sentinel
  | [], s => Res.done s
  | (a, b) :: rest, s =>
      match insert_segment T a b l s with
      | Res.done s1 => insert_segments T l rest s1
      | Res.fatal => Res.fatal
      | Res.timeout => Res.timeout

/-- The tail of `insert_path` that records the ports, after the two loops. -/
def record_ports (L : LayoutMesh) (T : TargetQueries) (path : VirtualPath) (l : Nat)
    (s : Sentinel) : Res Sentinel :=
  match path_at path 0, path_at path (path.length - 1) with
  | VirtualVertex.vertex first, VirtualVertex.vertex last =>
      if T.matching_target_vertex (L.vertex_from (L.halfedgeA l)) = first then
        let port_A : VirtualPort := ⟨first, path_at path 1⟩
        let port_B : VirtualPort := ⟨last, path_at path (path.length - 2)⟩
        let lp := Function.update (Function.update s.l_port (L.halfedgeA l) (some port_A))
          (L.halfedgeB l) (some port_B)
        let tp1 := Function.update s.t_port (path_at path 1) (insert l (s.t_port (path_at path 1)))
        let tp2 := Function.update tp1 (path_at path (path.length - 2))
          (insert l (tp1 (path_at path (path.length - 2))))
        Res.done { s with l_port := lp, t_port := tp2 }
      else Res.fatal
  | _, _ => Res.fatal

/-- The method `insert_path(_path, _l)`. -/
def insert_path (L : LayoutMesh) (T : TargetQueries) (path : VirtualPath) (l : Nat)
    (s : Sentinel) : Res Sentinel :=
  if path.length < 2 then Res.fatal
  else
    let s1 := (interior path).foldl (fun st vv => insert_virtual_vertex vv l st) s
    match insert_segments T l (segments path) s1 with
    | Res.done s2 => record_ports L T path l s2
    | Res.fatal => Res.fatal
    | Res.timeout => Res.timeout

/-- The test made after each rotation in both sweeps of `check_path_ordering`: the port points
to a real vertex along a blocked target edge. An invalid halfedge handle stops the run. -/
def port_on_blocked_edge (T : TargetQueries) (p : VirtualPort) : Res Bool :=
  match p.to_vv with
  | VirtualVertex.vertex v =>
      match T.edge_from_to p.from_v v with
      | some e => Res.done (T.is_blocked e)
      | none => Res.fatal
  | VirtualVertex.edge _ => Res.done false

/-- The `while (_start != _end)` loop of `reachable_by_sweep_ccw_in_sector`. The result holds
the returned flag and the final value of the reference parameter `_start`. -/
def sweep_ccw (T : TargetQueries) : Nat → VirtualPort → VirtualPort → Res (Bool × VirtualPort)
  | fuel, start, end_ =>
      if start = end_ then Res.done (true, start)
      else
        match fuel with
        | 0 => Res.timeout
        | fuel1 + 1 =>
            match port_on_blocked_edge T (T.port_rotated_ccw start) with
            | Res.done true => Res.done (false, T.port_rotated_ccw start)
            | Res.done false => sweep_ccw T fuel1 (T.port_rotated_ccw start) end_
            | Res.fatal => Res.fatal
            | Res.timeout => Res.timeout

/-- The lambda `reachable_by_sweep_ccw_in_sector(_start, _end)`; `_start` is passed by
reference, its final value is the second component. -/
def reachable_by_sweep_ccw_in_sector (T : TargetQueries) (fuel : Nat)
    (start end_ : VirtualPort) : Res (Bool × VirtualPort) :=
  if start.from_v ≠ end_.from_v then Res.fatal
  else if start = end_ then Res.done (false, start)
  else sweep_ccw T fuel start end_

/-- The `while (_start != _end)` loop of `mark_and_sweep_cw_in_sector`. -/
def sweep_cw (T : TargetQueries) (l : Nat) :
    Nat → VirtualPort → VirtualPort → Sentinel → Res (Sentinel × VirtualPort)
  | fuel, start, end_, s =>
      if start = end_ then Res.done (s, start)
      else
        match fuel with
        | 0 => Res.timeout
        | fuel1 + 1 =>
            match port_on_blocked_edge T (T.port_rotated_cw start) with
            | Res.done true => Res.fatal
            | Res.done false =>
                sweep_cw T l fuel1 (T.port_rotated_cw start) end_
                  (mark_all l (s.t_port (T.port_rotated_cw start).to_vv) s)
            | Res.fatal => Res.fatal
            | Res.timeout => Res.timeout

/-- The lambda `mark_and_sweep_cw_in_sector(_start, _end, _l)`. -/
def mark_and_sweep_cw_in_sector (T : TargetQueries) (fuel : Nat)
    (start end_ : VirtualPort) (l : Nat) (s : Sentinel) : Res (Sentinel × VirtualPort) :=
  if start.from_v ≠ end_.from_v then Res.fatal
  else sweep_cw T l fuel start end_ (mark_all l (s.t_port start.to_vv) s)

/-- The `while (true)` loop over the layout halfedges of one sector. -/
def sector_loop (L : LayoutMesh) (T : TargetQueries) (fuel : Nat) :
    Nat → Nat → Option VirtualPort → Sentinel → Res Sentinel
  | 0, _, _, _ => Res.timeout
  | n + 1, l_current, current_port, s =>
      if T.is_embedded l_current then Res.done s
      else
        match current_port with
        | none => Res.fatal
        | some cur =>
            if T.is_embedded (L.rotated_ccw l_current) then Res.done s
            else
              match s.l_port (L.rotated_ccw l_current) with
              | none => Res.fatal
              | some nxt =>
                  match reachable_by_sweep_ccw_in_sector T fuel cur nxt with
                  | Res.done (true, _) =>
                      sector_loop L T fuel n (L.rotated_ccw l_current) (some nxt) s
                  | Res.done (false, cur1) =>
                      match mark_and_sweep_cw_in_sector T fuel cur1 nxt (L.edge_of l_current) s with
                      | Res.done (s1, _) =>
                          sector_loop L T fuel n (L.rotated_ccw l_current) (some nxt) s1
                      | Res.fatal => Res.fatal
                      | Res.timeout => Res.timeout
                  | Res.fatal => Res.fatal
                  | Res.timeout => Res.timeout

/-- The loop `for (l_sector_boundary_he : l_v.outgoing_halfedges())`; the flag is
`vertex_has_sectors`. -/
def sectors_of_vertex (L : LayoutMesh) (T : TargetQueries) (fuel : Nat) :
    List Nat → Bool → Sentinel → Res (Bool × Sentinel)
  | [], has_sectors, s => Res.done (has_sectors, s)
  | he :: rest, has_sectors, s =>
      if T.is_embedded he then
        match sector_loop L T fuel fuel (L.rotated_ccw he) (s.l_port (L.rotated_ccw he)) s with
        | Res.done s1 => sectors_of_vertex L T fuel rest true s1
        | Res.fatal => Res.fatal
        | Res.timeout => Res.timeout
      else sectors_of_vertex L T fuel rest has_sectors s

/-- The inner `while (t_port != t_port_next)` loop of the walk around a vertex without
sectors; the flag is `cyclic_conflict`. Rotating a default-constructed port stops the run. -/
def cyclic_inner (T : TargetQueries) :
    Nat → Option VirtualPort → Option VirtualPort → Option VirtualPort →
      Res (Option VirtualPort × Bool)
  | fuel, t_port, t_port_next, t_port_start =>
      if t_port = t_port_next then Res.done (t_port, false)
      else
        match fuel with
        | 0 => Res.timeout
        | fuel1 + 1 =>
            match t_port with
            | none => Res.fatal
            | some p =>
                if some (T.port_rotated_ccw p) = t_port_start then
                  Res.done (some (T.port_rotated_ccw p), true)
                else cyclic_inner T fuel1 (some (T.port_rotated_ccw p)) t_port_next t_port_start

/-- The `do { ... } while (l_he != l_he_start && !cyclic_conflict)` loop; returns
`cyclic_conflict`. -/
def cyclic_walk (L : LayoutMesh) (T : TargetQueries) (s : Sentinel) (fuel : Nat)
    (l_he_start : Nat) (t_port_start : Option VirtualPort) :
    Nat → Nat → Option VirtualPort → Res Bool
  | 0, _, _ => Res.timeout
  | n + 1, l_he, t_port =>
      if T.is_embedded l_he then Res.fatal
      else
        match cyclic_inner T fuel t_port (s.l_port l_he) t_port_start with
        | Res.done (t_port1, cyclic_conflict) =>
            if L.rotated_ccw l_he ≠ l_he_start ∧ cyclic_conflict = false then
              cyclic_walk L T s fuel l_he_start t_port_start n (L.rotated_ccw l_he) t_port1
            else Res.done cyclic_conflict
        | Res.fatal => Res.fatal
        | Res.timeout => Res.timeout

/-- The double loop `for (l_e_A : l_v.edges()) for (l_e_B : l_v.edges())
mark_conflicting(l_e_A, l_e_B)`. -/
def mark_all_pairs (es : List Nat) (s : Sentinel) : Sentinel :=
  es.foldl (fun st a => es.foldl (fun st1 b => mark_conflicting a b st1) st) s

/-- The branch `if (!vertex_has_sectors)` of `check_path_ordering` for the vertex `l_v`. -/
def no_sector_check (L : LayoutMesh) (T : TargetQueries) (fuel : Nat) (l_v : Nat)
    (s : Sentinel) : Res Sentinel :=
  if T.is_embedded (L.any_outgoing_halfedge l_v) then Res.fatal
  else
    match cyclic_walk L T s fuel (L.any_outgoing_halfedge l_v)
        (s.l_port (L.any_outgoing_halfedge l_v)) fuel (L.any_outgoing_halfedge l_v)
        (s.l_port (L.any_outgoing_halfedge l_v)) with
    | Res.done true => Res.done (mark_all_pairs (L.vertex_edges l_v) s)
    | Res.done false => Res.done s
    | Res.fatal => Res.fatal
    | Res.timeout => Res.timeout

/-- The body of `for (l_v : em.layout_mesh().vertices())` in `check_path_ordering`. -/
def check_vertex (L : LayoutMesh) (T : TargetQueries) (fuel : Nat) (l_v : Nat)
    (s : Sentinel) : Res Sentinel :=
  match sectors_of_vertex L T fuel (L.outgoing_halfedges l_v) false s with
  | Res.done (true, s1) => Res.done s1
  | Res.done (false, s1) => no_sector_check L T fuel l_v s1
  | Res.fatal => Res.fatal
  | Res.timeout => Res.timeout

/-- The loop over the layout vertices. -/
def check_vertices (L : LayoutMesh) (T : TargetQueries) (fuel : Nat) :
    List Nat → Sentinel → Res Sentinel
  | [], s => Res.done s
  | l_v :: rest, s =>
      match check_vertex L T fuel l_v s with
      | Res.done s1 => check_vertices L T fuel rest s1
      | Res.fatal => Res.fatal
      | Res.timeout => Res.timeout

/-- The method `check_path_ordering()`; every loop inside may run `fuel` rounds. -/
def check_path_ordering (L : LayoutMesh) (T : TargetQueries) (fuel : Nat) (s : Sentinel) :
    Res Sentinel :=
  check_vertices L T fuel (List.range L.num_vertices) s

/-! ## Costs: the type `double` -/

/-- The two tests of `branch_and_bound` on a lower bound and `global_upper_bound`, in the
arithmetic of the cost type: `1.0 - lower_bound / global_upper_bound <= max_gap` and
`1.0 - lower_bound / global_upper_bound > max_gap`, with the constant `max_gap = 0.03`. -/
class GapTests (C : Type) where
  le_max_gap : C → C → Bool
  gt_max_gap : C → C → Bool

/-- A value of type `double` that is neither negative nor NaN: a finite value, counted in
units of `2^-1074` (the least positive double, of which every finite double is a multiple), or
`+infinity`. Lengths of paths and their sums are such values. -/
inductive Dbl where
  | fin (units : Nat)
  | inf
  deriving DecidableEq

/-- The value as an extended natural number of units. -/
def Dbl.toWithTop : Dbl → WithTop Nat
  | Dbl.fin n => (n : WithTop Nat)
  | Dbl.inf => ⊤

/-- The double `m * 2^-e`, for `e <= 1074`. -/
def Dbl.mk2 (m e : Nat) : Dbl :=
  Dbl.fin (m * 2 ^ (1074 - e))

/-- The exponent of the last place of the quotient `p / q`: the least `sh` from `sh` on, within
`fuel` steps, for which `p / (q * 2^sh)` has at most `53` binary digits. -/
def Dbl.find_shift (p q : Nat) : Nat → Nat → Option Nat
  | 0, _ => none
  | fuel + 1, sh =>
      if p / (q * 2 ^ sh) < 2 ^ 53 then some sh else Dbl.find_shift p q fuel (sh + 1)

/-- Rounding to `double` of the non-negative quotient `p / q` of two numbers of units, to the
nearest value with a significand of `53` binary digits, a tie going to the even significand;
the result is `+infinity` when the rounded value reaches `2^1024` (`2^2098` units). Below
`2^53` units the values are spaced one unit apart (subnormal values and the first binade). -/
def Dbl.round_ratio (p q : Nat) : Dbl :=
  match Dbl.find_shift p q 2046 0 with
  | none => Dbl.inf
  | some sh =>
      let k := p / (q * 2 ^ sh)
      let rem := p % (q * 2 ^ sh)
      let k1 := if q * 2 ^ sh < 2 * rem ∨ (2 * rem = q * 2 ^ sh ∧ k % 2 = 1) then k + 1 else k
      if 2 ^ 2098 ≤ k1 * 2 ^ sh then Dbl.inf else Dbl.fin (k1 * 2 ^ sh)

/-- The sum `a + b` of type `double`. -/
def Dbl.add : Dbl → Dbl → Dbl
  | Dbl.fin a, Dbl.fin b => Dbl.round_ratio (a + b) 1
  | _, _ => Dbl.inf

/-- The quotient `a / b` of type `double`; `none` is NaN (`0/0` and `inf/inf`). -/
def Dbl.div : Dbl → Dbl → Option Dbl
  | Dbl.fin a, Dbl.fin b =>
      if b = 0 then (if a = 0 then none else some Dbl.inf)
      else some (Dbl.round_ratio (a * 2 ^ 1074) b)
  | Dbl.fin _, Dbl.inf => some (Dbl.fin 0)
  | Dbl.inf, Dbl.fin _ => some Dbl.inf
  | Dbl.inf, Dbl.inf => none

/-- The difference `1.0 - x` of type `double`: whether it is negative, and its magnitude. -/
def Dbl.one_minus : Dbl → Bool × Dbl
  | Dbl.fin x =>
      if x ≤ 2 ^ 1074 then (false, Dbl.round_ratio (2 ^ 1074 - x) 1)
      else (true, Dbl.round_ratio (x - 2 ^ 1074) 1)
  | Dbl.inf => (true, Dbl.inf)

instance : LinearOrder Dbl :=
  LinearOrder.lift' Dbl.toWithTop (by
    intro a b h
    cases a <;> cases b <;> simp_all [Dbl.toWithTop])

instance : OrderTop Dbl where
  top := Dbl.inf
  le_top := fun a => (le_top : a.toWithTop ≤ ⊤)

instance : Zero Dbl := ⟨Dbl.fin 0⟩

instance : Add Dbl := ⟨Dbl.add⟩

/-- The test `1.0 - lower_bound / global_upper_bound <= max_gap` of type `double`; a comparison
with NaN is false. -/
def Dbl.gap_le (max_gap lower_bound global_upper_bound : Dbl) : Bool :=
  match Dbl.div lower_bound global_upper_bound with
  | none => false
  | some x =>
      match Dbl.one_minus x with
      | (true, _) => true
      | (false, gap) => decide (gap ≤ max_gap)

/-- The test `1.0 - lower_bound / global_upper_bound > max_gap` of type `double`; a comparison
with NaN is false. -/
def Dbl.gap_gt (max_gap lower_bound global_upper_bound : Dbl) : Bool :=
  match Dbl.div lower_bound global_upper_bound with
  | none => false
  | some x =>
      match Dbl.one_minus x with
      | (true, _) => false
      | (false, gap) => decide (max_gap < gap)

/-- The constant `max_gap = 0.03` of `branch_and_bound`: the double nearest to `3/100`. -/
def Dbl.max_gap : Dbl :=
  Dbl.mk2 1080863910568919 55

instance : GapTests Dbl := ⟨Dbl.gap_le Dbl.max_gap, Dbl.gap_gt Dbl.max_gap⟩

section ExactCosts

variable {C : Type} [LinearOrderedAddCommMonoidWithTop C]

/-- The test `1.0 - lower_bound / global_upper_bound <= max_gap` with `max_gap = 0.03` for
exact non-negative costs, without rounding: a finite bound over `+infinity` gives gap `1`,
`inf/inf` and `0/0` give NaN, for which every comparison is false; otherwise the test is
`0.97 * global_upper_bound <= lower_bound`. -/
def gap_le_exact (lower_bound global_upper_bound : C) : Bool :=
  if global_upper_bound = ⊤ then false
  else if lower_bound = 0 ∧ global_upper_bound = 0 then false
  else decide (97 • global_upper_bound ≤ 100 • lower_bound)

/-- The test `1.0 - lower_bound / global_upper_bound > max_gap` with `max_gap = 0.03` for exact
costs, under the same conventions. -/
def gap_gt_exact (lower_bound global_upper_bound : C) : Bool :=
  if global_upper_bound = ⊤ then decide (lower_bound ≠ ⊤)
  else if lower_bound = 0 ∧ global_upper_bound = 0 then false
  else decide (100 • lower_bound < 97 • global_upper_bound)

instance (priority := low) exactGapTests : GapTests C := ⟨gap_le_exact, gap_gt_exact⟩

end ExactCosts

/-! ## EmbeddingState -/

/-- The class `Embedding` as `EmbeddingState` uses it. `Em` is the type of its values. The
layout mesh is shared by all of them. `embed_path` returns `none` when a fatal assertion
inside it fails. -/
structure EmbeddingOps (Em C : Type) where
  layout : LayoutMesh
  /-- The queries of the conflict sentinel on an embedding. -/
  queries : Em → TargetQueries
  /-- The call `em.find_shortest_path(l_he)`; the empty list is the empty path. -/
  find_shortest_path : Em → Nat → VirtualPath
  /-- The call `em.path_length(path)`. -/
  path_length : Em → VirtualPath → C
  /-- The call `em.embed_path(l_he, path)`. -/
  embed_path : Em → Nat → VirtualPath → Option Em

/-- One entry of `candidate_paths`. -/
structure CandidatePath (C : Type) where
  path : VirtualPath
  cost : C

/-- The data members of `EmbeddingState`. An entry `none` of `candidate_paths` is a
default-constructed record (after `clear()`), whose path is empty. -/
@[ext]
structure EmbeddingState (Em C : Type) where
  em : Em
  embedded_l_edges : Finset Nat
  candidate_paths : Nat → Option (CandidatePath C)
  conflicting_l_edges : Finset Nat
  non_conflicting_l_edges : Finset Nat
  embedded_cost : C
  unembedded_cost : C
  valid : Bool

section EmbeddingStateMethods

variable {Em C : Type} [Add C] [Zero C] [Top C]

/-- Modelled from the spec: the object right after the constructor
`EmbeddingState(const Embedding& _em)`. The member initialisers are in the class declaration,
which is not among the translated files: no embedded edge, both costs zero, `valid` true. -/
def EmbeddingState.init (em : Em) : EmbeddingState Em C where
  em := em
  embedded_l_edges := ∅
  candidate_paths := fun _ => none
  conflicting_l_edges := ∅
  non_conflicting_l_edges := ∅
  embedded_cost := 0
  unembedded_cost := 0
  valid := true

/-- The path stored in an entry of `candidate_paths`. -/
def candidate_path_of (c : Option (CandidatePath C)) : VirtualPath :=
  match c with
  | none => []
  | some r => r.path

/-- The method `extend(const pm::edge_index& _l_ei)`. -/
def extend (ops : EmbeddingOps Em C) (l_e : Nat) (s : EmbeddingState Em C) :
    Outcome (EmbeddingState Em C) :=
  if l_e ∈ s.embedded_l_edges then Outcome.fatal s
  else
    let l_he := ops.layout.halfedgeA l_e
    let path := ops.find_shortest_path s.em l_he
    if path.isEmpty then
      Outcome.done { s with embedded_cost := ⊤, valid := false }
    else
      let s1 := { s with embedded_cost := s.embedded_cost + ops.path_length s.em path }
      match ops.embed_path s.em l_he path with
      | none => Outcome.fatal s1
      | some em1 =>
          Outcome.done { s1 with em := em1, embedded_l_edges := insert l_e s1.embedded_l_edges }

/-- The method `extend(const pm::edge_index& _l_ei, const VirtualPath& _path)`. -/
def extend_path (ops : EmbeddingOps Em C) (l_e : Nat) (path : VirtualPath)
    (s : EmbeddingState Em C) : Outcome (EmbeddingState Em C) :=
  if l_e ∈ s.embedded_l_edges then Outcome.fatal s
  else if path.length < 2 then Outcome.fatal s
  else
    let l_he := ops.layout.halfedgeA l_e
    match path_at path 0, path_at path (path.length - 1) with
    | VirtualVertex.vertex front, VirtualVertex.vertex back =>
        if front ≠ (ops.queries s.em).matching_target_vertex (ops.layout.vertex_from l_he) then
          Outcome.fatal s
        else if back ≠ (ops.queries s.em).matching_target_vertex (ops.layout.vertex_to l_he) then
          Outcome.fatal s
        else
          let s1 := { s with embedded_cost := s.embedded_cost + ops.path_length s.em path }
          match ops.embed_path s.em l_he path with
          | none => Outcome.fatal s1
          | some em1 =>
              Outcome.done
                { s1 with em := em1, embedded_l_edges := insert l_e s1.embedded_l_edges }
    | _, _ => Outcome.fatal s

/-- The method `extend(const InsertionSequence& _seq)`. -/
def extend_seq (ops : EmbeddingOps Em C) :
    List Nat → EmbeddingState Em C → Outcome (EmbeddingState Em C)
  | [], s => Outcome.done s
  | l_e :: rest, s =>
      match extend ops l_e s with
      | Outcome.done s1 => if s1.valid then extend_seq ops rest s1 else Outcome.done s1
      | Outcome.fatal s1 => Outcome.fatal s1
      | Outcome.timeout => Outcome.timeout

/-- The candidate record computed for one layout edge: the traced path and its cost. -/
def trace_candidate (ops : EmbeddingOps Em C) (em : Em) (l_e : Nat) : CandidatePath C :=
  let path := ops.find_shortest_path em (ops.layout.halfedgeA l_e)
  if path.isEmpty then ⟨path, ⊤⟩ else ⟨path, ops.path_length em path⟩

/-- The body of the loop of `compute_candidate_paths` for the layout edge `l_e`. -/
def candidate_step (ops : EmbeddingOps Em C) (s : EmbeddingState Em C) (l_e : Nat) :
    EmbeddingState Em C :=
  if l_e ∈ s.embedded_l_edges then s
  else
    let path := ops.find_shortest_path s.em (ops.layout.halfedgeA l_e)
    if path.isEmpty then
      { s with
        candidate_paths := Function.update s.candidate_paths l_e (some ⟨path, ⊤⟩)
        valid := false
        unembedded_cost := s.unembedded_cost + ⊤ }
    else
      { s with
        candidate_paths :=
          Function.update s.candidate_paths l_e (some ⟨path, ops.path_length s.em path⟩)
        unembedded_cost := s.unembedded_cost + ops.path_length s.em path }

/-- The method `compute_candidate_paths()`. The assertion that `candidate_paths` lives on the
layout mesh of `em` compares addresses and always holds for an object built by the
constructor. -/
def compute_candidate_paths (ops : EmbeddingOps Em C) (s : EmbeddingState Em C) :
    EmbeddingState Em C :=
  (List.range ops.layout.num_edges).foldl (candidate_step ops)
    { s with candidate_paths := fun _ => none, unembedded_cost := 0 }

/-- The first loop of `detect_candidate_path_conflicts`: the candidate paths of the edges that
are not embedded are inserted into the sentinel, empty paths are skipped. -/
def insert_candidates (ops : EmbeddingOps Em C) (s : EmbeddingState Em C) :
    List Nat → Sentinel → Res Sentinel
  | [], st => Res.done st
  | l_e :: rest, st =>
      if l_e ∈ s.embedded_l_edges then insert_candidates ops s rest st
      else if (candidate_path_of (s.candidate_paths l_e)).isEmpty then
        insert_candidates ops s rest st
      else
        match insert_path ops.layout (ops.queries s.em)
            (candidate_path_of (s.candidate_paths l_e)) l_e st with
        | Res.done st1 => insert_candidates ops s rest st1
        | Res.fatal => Res.fatal
        | Res.timeout => Res.timeout

/-- The set `vpcs.global_conflicts` computed in the `if (valid)` block. -/
def sentinel_conflicts (ops : EmbeddingOps Em C) (fuel : Nat) (s : EmbeddingState Em C) :
    Res (Finset Nat) :=
  match insert_candidates ops s (List.range ops.layout.num_edges) Sentinel.init with
  | Res.done st =>
      match check_path_ordering ops.layout (ops.queries s.em) fuel st with
      | Res.done st1 => Res.done st1.global_conflicts
      | Res.fatal => Res.fatal
      | Res.timeout => Res.timeout
  | Res.fatal => Res.fatal
  | Res.timeout => Res.timeout

/-- The second loop of `detect_candidate_path_conflicts`. -/
def collect_non_conflicting (embedded conflicting : Finset Nat) (edges : List Nat) :
    Finset Nat :=
  edges.foldl (fun acc l_e => if l_e ∉ embedded ∧ l_e ∉ conflicting then insert l_e acc else acc)
    ∅

/-- The method `detect_candidate_path_conflicts()`; the last test is the size assertion. -/
def detect_candidate_path_conflicts (ops : EmbeddingOps Em C) (fuel : Nat)
    (s : EmbeddingState Em C) : Outcome (EmbeddingState Em C) :=
  let s0 := { s with conflicting_l_edges := ∅, non_conflicting_l_edges := ∅ }
  match (if s0.valid then sentinel_conflicts ops fuel s0 else Res.done ∅) with
  | Res.fatal => Outcome.fatal s0
  | Res.timeout => Outcome.timeout
  | Res.done conflicts =>
      let s1 :=
        { s0 with
          conflicting_l_edges := conflicts
          non_conflicting_l_edges :=
            collect_non_conflicting s0.embedded_l_edges conflicts
              (List.range ops.layout.num_edges) }
      if s1.embedded_l_edges.card + s1.conflicting_l_edges.card
          + s1.non_conflicting_l_edges.card = ops.layout.num_edges then
        Outcome.done s1
      else Outcome.fatal s1

/-- The method `cost_lower_bound()`. -/
def cost_lower_bound (s : EmbeddingState Em C) : C :=
  s.embedded_cost + s.unembedded_cost

end EmbeddingStateMethods

/-! ## A small concrete instance

A layout that is a path `v0 - v1 - v2` with the two edges `0` and `1`, embedded on a target mesh
with the same three vertices. An embedding is the list of layout edges committed so far. The
route of edge `1` is cut off once edge `0` has been committed. -/

/-- Layout mesh of the instance: halfedges `2e` and `2e+1` belong to edge `e`. -/
def toyLayout : LayoutMesh where
  num_vertices := 3
  num_edges := 2
  halfedgeA := fun e => 2 * e
  halfedgeB := fun e => 2 * e + 1
  edge_of := fun h => h / 2
  vertex_from := fun h => if h = 0 then 0 else if h = 1 then 1 else if h = 2 then 1 else 2
  vertex_to := fun h => if h = 0 then 1 else if h = 1 then 0 else if h = 2 then 2 else 1
  vertexA := fun e => e + 1
  vertexB := fun e => e
  outgoing_halfedges := fun v => if v = 0 then [0] else if v = 1 then [1, 2] else [3]
  any_outgoing_halfedge := fun v => if v = 0 then 0 else if v = 1 then 1 else 3
  vertex_edges := fun v => if v = 0 then [0] else if v = 1 then [0, 1] else [1]
  rotated_ccw := fun h => if h = 1 then 2 else if h = 2 then 1 else h

/-- Target queries of the instance for the embedding `em`. Target edge `e` joins the target
vertices `e` and `e+1`; around target vertex `1` a rotation swaps the directions to `0` and
to `2`, elsewhere there is one direction only. -/
def toyQueries (em : List Nat) : TargetQueries where
  edge_from_to := fun a b => if a + 1 = b then some a else if b + 1 = a then some b else none
  triangle_with_edge_and_opposite_vertex := fun _ _ => none
  common_face := fun _ _ => none
  is_blocked := fun e => decide (e ∈ em)
  is_embedded := fun h => decide (h / 2 ∈ em)
  matching_target_vertex := fun v => v
  port_rotated_ccw := fun p =>
    if p.from_v = 1 then
      (if p.to_vv = VirtualVertex.vertex 0 then ⟨1, VirtualVertex.vertex 2⟩
        else ⟨1, VirtualVertex.vertex 0⟩)
    else p
  port_rotated_cw := fun p =>
    if p.from_v = 1 then
      (if p.to_vv = VirtualVertex.vertex 0 then ⟨1, VirtualVertex.vertex 2⟩
        else ⟨1, VirtualVertex.vertex 0⟩)
    else p

/-- The instance: a traced path is the straight target edge, of length one. -/
def toyOps : EmbeddingOps (List Nat) ℕ∞ where
  layout := toyLayout
  queries := toyQueries
  find_shortest_path := fun em h =>
    if h / 2 = 1 ∧ 0 ∈ em then []
    else [VirtualVertex.vertex (toyLayout.vertex_from h), VirtualVertex.vertex (toyLayout.vertex_to h)]
  path_length := fun _ p => (p.length - 1 : Nat)
  embed_path := fun em h p => if h / 2 ∈ em ∨ p.length < 2 then none else some (h / 2 :: em)

/-- The state of the instance with nothing embedded. -/
def toyState : EmbeddingState (List Nat) ℕ∞ :=
  EmbeddingState.init []

section EmbeddingStateClients

variable {Em C : Type} [Add C] [Zero C] [Top C]

/-- A client calling `extend(e)` for the edges of a list, one call after the other (without the
`valid` test of `extend(const InsertionSequence&)`). -/
def extend_calls (ops : EmbeddingOps Em C) :
    List Nat → EmbeddingState Em C → Outcome (EmbeddingState Em C)
  | [], s => Outcome.done s
  | l_e :: rest, s =>
      match extend ops l_e s with
      | Outcome.done s1 => extend_calls ops rest s1
      | Outcome.fatal s1 => Outcome.fatal s1
      | Outcome.timeout => Outcome.timeout

end EmbeddingStateClients

/-- The state of the small instance after tracing candidates and committing edge `1`, then
edge `0`. -/
def toyFinal : EmbeddingState (List Nat) ℕ∞ :=
  { compute_candidate_paths toyOps toyState with
    em := [0, 1]
    embedded_l_edges := {0, 1}
    embedded_cost := 2 }

/-! ## Vocabulary for statements about the sentinel -/

/-- An element of the target mesh on which labels are recorded. -/
inductive Element where
  | vertexEl (v : Nat)
  | edgeEl (e : Nat)
  | faceEl (f : Nat)
  deriving DecidableEq, Repr

/-- The labels recorded on an element: `v_label`, `e_label` or `f_label`. -/
def Sentinel.labels_at (s : Sentinel) : Element → Finset Nat
  | Element.vertexEl v => s.v_label v
  | Element.edgeEl e => s.e_label e
  | Element.faceEl f => s.f_label f

/-- The element on which `insert_virtual_vertex` records a virtual vertex. -/
def element_of_vertex : VirtualVertex → Element
  | VirtualVertex.vertex v => Element.vertexEl v
  | VirtualVertex.edge e => Element.edgeEl e

/-- The element on which `insert_segment` records a segment. -/
def element_of_segment : SegmentElement → Element
  | SegmentElement.onEdge e => Element.edgeEl e
  | SegmentElement.inFace f => Element.faceEl f

/-- The three overloads of `insert`, by element. -/
def insert_element (el : Element) (l : Nat) (s : Sentinel) : Sentinel :=
  match el with
  | Element.vertexEl v => insert_vertex v l s
  | Element.edgeEl e => insert_edge e l s
  | Element.faceEl f => insert_face f l s

/-- Two paths share an element: a common interior virtual vertex (the same real vertex or the
same target edge), or a segment of each on the same target edge or inside the same face. -/
def SharesElement (T : TargetQueries) (p1 p2 : VirtualPath) : Prop :=
  (∃ x, x ∈ interior p1 ∧ x ∈ interior p2) ∨
  (∃ a b el, a ∈ segments p1 ∧ b ∈ segments p2 ∧
    segment_element T a.1 a.2 = some el ∧ segment_element T b.1 b.2 = some el)

/-- The sentinel `s1` has every recorded label and every conflict of `s`. -/
structure Grows (s s1 : Sentinel) : Prop where
  labels : ∀ el, s.labels_at el ⊆ s1.labels_at el
  conflicts : s.global_conflicts ⊆ s1.global_conflicts
  relation : s.global_conflict_relation ⊆ s1.global_conflict_relation

/-- Consistency of the conflict data, with all labels taken from `U`: every stored pair is
(smaller, larger) with both members in `global_conflicts`, and every member of
`global_conflicts` occurs in a stored pair. -/
structure Inv (U : Nat → Prop) (s : Sentinel) : Prop where
  labels_in : ∀ el, ∀ l ∈ s.labels_at el, U l
  ports_in : ∀ vv, ∀ l ∈ s.t_port vv, U l
  conflicts_in : ∀ l ∈ s.global_conflicts, U l
  pair_sorted : ∀ p ∈ s.global_conflict_relation, p.1 < p.2
  pair_members : ∀ p ∈ s.global_conflict_relation,
    p.1 ∈ s.global_conflicts ∧ p.2 ∈ s.global_conflicts
  covered : ∀ a ∈ s.global_conflicts, ∃ p ∈ s.global_conflict_relation, p.1 = a ∨ p.2 = a

/-- A call of a method of the sentinel. -/
inductive SentinelOp where
  | insertVertex (v l : Nat)
  | insertEdge (e l : Nat)
  | insertFace (f l : Nat)
  | insertVirtualVertex (vv : VirtualVertex) (l : Nat)
  | insertSegment (vv0 vv1 : VirtualVertex) (l : Nat)
  | insertPath (path : VirtualPath) (l : Nat)
  | markConflicting (a b : Nat)
  | checkPathOrdering (fuel : Nat)

/-- Running one call. -/
def SentinelOp.run (L : LayoutMesh) (T : TargetQueries) : SentinelOp → Sentinel → Res Sentinel
  | SentinelOp.insertVertex v l, s => Res.done (insert_vertex v l s)
  | SentinelOp.insertEdge e l, s => Res.done (insert_edge e l s)
  | SentinelOp.insertFace f l, s => Res.done (insert_face f l s)
  | SentinelOp.insertVirtualVertex vv l, s => Res.done (insert_virtual_vertex vv l s)
  | SentinelOp.insertSegment vv0 vv1 l, s => insert_segment T vv0 vv1 l s
  | SentinelOp.insertPath path l, s => insert_path L T path l s
  | SentinelOp.markConflicting a b, s => Res.done (mark_conflicting a b s)
  | SentinelOp.checkPathOrdering fuel, s => check_path_ordering L T fuel s

/-- Running a sequence of calls. -/
def run_ops (L : LayoutMesh) (T : TargetQueries) : List SentinelOp → Sentinel → Res Sentinel
  | [], s => Res.done s
  | op :: rest, s =>
      match op.run L T s with
      | Res.done s1 => run_ops L T rest s1
      | Res.fatal => Res.fatal
      | Res.timeout => Res.timeout

/-- The elements on which `insert_path` records a path, in the order of the two loops; a segment
without a valid element contributes none (the run stops there). -/
def path_elements (T : TargetQueries) (p : VirtualPath) : List Element :=
  (interior p).map element_of_vertex ++
    (segments p).filterMap (fun a => (segment_element T a.1 a.2).map element_of_segment)

/-- The labels that `check_path_ordering` can pass to `mark_conflicting` directly are in `U`:
`V` holds for the layout halfedges the sweep visits, a visited halfedge that is not embedded has
its edge in `U`, and around a vertex without embedded outgoing halfedge all edges are in `U`. -/
structure OrderingLabels (L : LayoutMesh) (T : TargetQueries) (V U : Nat → Prop) : Prop where
  out_valid : ∀ v, v < L.num_vertices → ∀ h ∈ L.outgoing_halfedges v, V h
  rot_valid : ∀ h, V h → V (L.rotated_ccw h)
  he_label : ∀ h, V h → T.is_embedded h = false → U (L.edge_of h)
  ve_label : ∀ v, v < L.num_vertices →
    (∀ h ∈ L.outgoing_halfedges v, T.is_embedded h = false) → ∀ e ∈ L.vertex_edges v, U e

/-- The run returned normally. -/
def Res.isDone {α : Type} : Res α → Bool
  | Res.done _ => true
  | Res.fatal => false
  | Res.timeout => false

/-- Two paths of the small instance's target mesh that run through the target vertex `1`. -/
def toyPathA : VirtualPath :=
  [VirtualVertex.vertex 0, VirtualVertex.vertex 1, VirtualVertex.vertex 2]

/-- A path from target vertex `2` back to `0`, again through `1`. -/
def toyPathB : VirtualPath :=
  [VirtualVertex.vertex 2, VirtualVertex.vertex 1, VirtualVertex.vertex 0]

/-- A layout for the two paths: edge `0` leaves layout vertex `0`, edge `1` leaves `2`. -/
def toyLayout2 : LayoutMesh :=
  { toyLayout with
    vertex_from := fun h => if h = 0 then 0 else if h = 1 then 2 else if h = 2 then 2 else 0 }

/-! ## Vocabulary for statements about EmbeddingState -/

/-- The method returned normally. -/
def Outcome.isDone {σ : Type} : Outcome σ → Bool
  | Outcome.done _ => true
  | Outcome.fatal _ => false
  | Outcome.timeout => false

/-- A call of a method of `EmbeddingState`. -/
inductive StateOp where
  | extendEdge (l_e : Nat)
  | extendPath (l_e : Nat) (path : VirtualPath)
  | extendSeq (seq : List Nat)
  | computeCandidatePaths
  | detectCandidatePathConflicts (fuel : Nat)

/-- The layout edges named in a call. -/
def StateOp.edges : StateOp → List Nat
  | StateOp.extendEdge l_e => [l_e]
  | StateOp.extendPath l_e _ => [l_e]
  | StateOp.extendSeq seq => seq
  | StateOp.computeCandidatePaths => []
  | StateOp.detectCandidatePathConflicts _ => []

section StateCalls

variable {Em C : Type} [Add C] [Zero C] [Top C]

/-- Running one call. -/
def StateOp.run (ops : EmbeddingOps Em C) :
    StateOp → EmbeddingState Em C → Outcome (EmbeddingState Em C)
  | StateOp.extendEdge l_e, s => extend ops l_e s
  | StateOp.extendPath l_e path, s => extend_path ops l_e path s
  | StateOp.extendSeq seq, s => extend_seq ops seq s
  | StateOp.computeCandidatePaths, s => Outcome.done (compute_candidate_paths ops s)
  | StateOp.detectCandidatePathConflicts fuel, s => detect_candidate_path_conflicts ops fuel s

/-- Running a sequence of calls. -/
def run_state_ops (ops : EmbeddingOps Em C) :
    List StateOp → EmbeddingState Em C → Outcome (EmbeddingState Em C)
  | [], s => Outcome.done s
  | op :: rest, s =>
      match op.run ops s with
      | Outcome.done s1 => run_state_ops ops rest s1
      | Outcome.fatal s1 => Outcome.fatal s1
      | Outcome.timeout => Outcome.timeout

/-- What is assumed of the class `Embedding` and of the layout mesh where a statement says so:
`embed_path` marks the halfedges of the committed edge, and no other, as embedded; `halfedgeA`
of an edge belongs to that edge; the halfedges around a layout vertex belong to layout edges
and stay so under `rotated_ccw`; the edges `l_v.edges()` are the edges of
`l_v.outgoing_halfedges()`. -/
structure TracksEmbedded (ops : EmbeddingOps Em C) : Prop where
  embed_marks : ∀ em h p em1, ops.embed_path em h p = some em1 →
    ∀ h1, (ops.queries em1).is_embedded h1 =
      ((ops.queries em).is_embedded h1 || decide (ops.layout.edge_of h1 = ops.layout.edge_of h))
  edge_of_halfedgeA : ∀ e, ops.layout.edge_of (ops.layout.halfedgeA e) = e
  outgoing_edges : ∀ v, v < ops.layout.num_vertices → ∀ h ∈ ops.layout.outgoing_halfedges v,
    ops.layout.edge_of h < ops.layout.num_edges
  rotated_edges : ∀ h, ops.layout.edge_of h < ops.layout.num_edges →
    ops.layout.edge_of (ops.layout.rotated_ccw h) < ops.layout.num_edges
  vertex_edges_outgoing : ∀ v, v < ops.layout.num_vertices → ∀ e ∈ ops.layout.vertex_edges v,
    ∃ h ∈ ops.layout.outgoing_halfedges v, ops.layout.edge_of h = e

/-- The state's own set of embedded edges agrees with the embedding and holds layout edges. -/
structure EmbeddedAgree (ops : EmbeddingOps Em C) (s : EmbeddingState Em C) : Prop where
  agree : ∀ h, (ops.queries s.em).is_embedded h = true ↔
    ops.layout.edge_of h ∈ s.embedded_l_edges
  in_range : ∀ e ∈ s.embedded_l_edges, e < ops.layout.num_edges

end StateCalls

/-! ## Branch and bound (`src/BranchAndBound.cc`) -/

/-- Modelled from the spec: the class `UnionFind` (its header is not among the translated
files), a partition of `0 .. n-1` given by a representative for every index. -/
structure UnionFind where
  rep : Nat → Nat

/-- The constructor `UnionFind(n)`: every index is its own class. -/
def UnionFind.init (_n : Nat) : UnionFind :=
  ⟨fun x => x⟩

/-- The query `equivalent(a, b)`. -/
def UnionFind.equivalent (u : UnionFind) (a b : Nat) : Bool :=
  decide (u.rep a = u.rep b)

/-- The update `merge(a, b)`: the class of `a` joins the class of `b`. -/
def UnionFind.merge (u : UnionFind) (a b : Nat) : UnionFind :=
  ⟨fun x => if u.rep x = u.rep a then u.rep b else u.rep x⟩

/-- Modelled from the spec: the settings record `{time_limit, use_hashing, max_gap}` passed to
`branch_and_bound`. -/
structure BranchAndBoundSettings where
  time_limit : ℚ
  use_hashing : Bool
  max_gap : ℚ

/-- The free functions on `Embedding` that `BranchAndBound.cc` calls. `fresh_copy em` is the
embedding built at the start of an iteration and of `calc_cost_lower_bound`: a copy of the
target mesh of `em` with the same matching vertices. `embed_path` returns `none` when a fatal
assertion inside it fails. -/
structure SearchOps (Em C : Type) where
  layout : LayoutMesh
  fresh_copy : Em → Em
  /-- The call `find_shortest_path(em, l_he)` on a layout halfedge. -/
  find_shortest_path : Em → Nat → VirtualPath
  /-- The call `find_shortest_path(em, l_e)` on a layout edge. -/
  find_shortest_path_edge : Em → Nat → VirtualPath
  path_length : Em → VirtualPath → C
  embed_path : Em → Nat → VirtualPath → Option Em

/-- The struct `Candidate`. -/
structure Candidate (C : Type) where
  lower_bound : C
  insertions : List Nat
  deriving DecidableEq

/-- The value of `path.size() - 1` computed in `size_t` (64 bit). -/
def size_minus_one (size : Nat) : Nat :=
  (size + 2 ^ 64 - 1) % 2 ^ 64

section Search

variable {Em C : Type} [LinearOrder C] [Add C] [Zero C] [Top C] [GapTests C]

/-- The test `1.0 - lower_bound / global_upper_bound <= max_gap` of line 98, with the constant
`max_gap = 0.03` of line 76, in the arithmetic of the cost type. -/
def gap_le_max_gap (lower_bound global_upper_bound : C) : Bool :=
  GapTests.le_max_gap lower_bound global_upper_bound

/-- The test `1.0 - lower_bound / global_upper_bound > max_gap` of line 210, in the arithmetic
of the cost type. -/
def gap_gt_max_gap (lower_bound global_upper_bound : C) : Bool :=
  GapTests.gt_max_gap lower_bound global_upper_bound

/-- The locals of one iteration after the loop "Embed the already embedded edges". -/
structure Replay (Em C : Type) where
  em : Em
  embedded_l_e : Finset Nat
  l_v_components : UnionFind
  embedded_cost : C

/-- The body of the loop over `c.insertions`; the `assert` is taken to be compiled in. -/
def replay_step (ops : SearchOps Em C) (r : Replay Em C) (l_e : Nat) : Res (Replay Em C) :=
  let l_he := ops.layout.halfedgeA l_e
  let path := ops.find_shortest_path r.em l_he
  match ops.embed_path r.em l_he path with
  | none => Res.fatal
  | some em1 =>
      if r.l_v_components.equivalent (ops.layout.vertexA l_e) (ops.layout.vertexB l_e) then
        Res.fatal
      else
        Res.done
          { em := em1
            embedded_l_e := insert l_e r.embedded_l_e
            l_v_components :=
              r.l_v_components.merge (ops.layout.vertexA l_e) (ops.layout.vertexB l_e)
            embedded_cost := r.embedded_cost + ops.path_length r.em path }

/-- The loop over `c.insertions`. -/
def replay_loop (ops : SearchOps Em C) : List Nat → Replay Em C → Res (Replay Em C)
  | [], r => Res.done r
  | l_e :: rest, r =>
      match replay_step ops r l_e with
      | Res.done r1 => replay_loop ops rest r1
      | Res.fatal => Res.fatal
      | Res.timeout => Res.timeout

/-- Reconstruction of the embedding of an insertion sequence (lines 103 to 136). -/
def replay (ops : SearchOps Em C) (em : Em) (insertions : List Nat) : Res (Replay Em C) :=
  replay_loop ops insertions
    { em := ops.fresh_copy em
      embedded_l_e := ∅
      l_v_components := UnionFind.init ops.layout.num_vertices
      embedded_cost := 0 }

/-- The locals of the classification loop. -/
structure Classification (C : Type) where
  covered : VirtualVertex → Finset Nat
  conflicting_l_e : Finset Nat
  blocked_l_e : Finset Nat
  unembedded_cost : C

/-- The body of `for (i = 1; i < path.size() - 1; ++i)` for the element `el = path[i]`. -/
def cover_element (l_e : Nat) (cl : Classification C) (el : VirtualVertex) : Classification C :=
  let cl1 := (ascending (cl.covered el)).foldl
    (fun c l_e_other =>
      { c with conflicting_l_e := insert l_e_other (insert l_e c.conflicting_l_e) }) cl
  { cl1 with covered := Function.update cl1.covered el (insert l_e (cl1.covered el)) }

/-- The body of the classification loop for the layout edge `l_e`. When the bound
`path.size() - 1` exceeds the size of the path (the path is empty and the bound wraps around)
the loop reads outside the path. -/
def classify_step (ops : SearchOps Em C) (r : Replay Em C) (cl : Classification C) (l_e : Nat) :
    Res (Classification C) :=
  if l_e ∈ r.embedded_l_e then Res.done cl
  else
    let path := ops.find_shortest_path_edge r.em l_e
    let cl1 := { cl with unembedded_cost := cl.unembedded_cost + ops.path_length r.em path }
    if r.l_v_components.equivalent (ops.layout.vertexA l_e) (ops.layout.vertexB l_e) then
      Res.done { cl1 with blocked_l_e := insert l_e cl1.blocked_l_e }
    else if path.length < size_minus_one path.length then Res.fatal
    else Res.done ((interior path).foldl (cover_element l_e) cl1)

/-- The classification loop over the layout edges. -/
def classify_loop (ops : SearchOps Em C) (r : Replay Em C) :
    List Nat → Classification C → Res (Classification C)
  | [], cl => Res.done cl
  | l_e :: rest, cl =>
      match classify_step ops r cl l_e with
      | Res.done cl1 => classify_loop ops r rest cl1
      | Res.fatal => Res.fatal
      | Res.timeout => Res.timeout

/-- The locals of one iteration after the classification (lines 138 to 177). -/
structure Node (Em C : Type) where
  em : Em
  embedded_l_e : Finset Nat
  conflicting_l_e : Finset Nat
  blocked_l_e : Finset Nat
  non_conflicting_l_e : Finset Nat
  cost_lower_bound : C
  deriving DecidableEq

/-- The loop that fills `non_conflicting_l_e`. -/
def collect_free (embedded blocked conflicting : Finset Nat) (edges : List Nat) : Finset Nat :=
  edges.foldl
    (fun acc l_e =>
      if l_e ∉ embedded ∧ l_e ∉ blocked ∧ l_e ∉ conflicting then insert l_e acc else acc) ∅

/-- Lines 103 to 177 of an iteration for the popped candidate `c`. -/
def evaluate_node (ops : SearchOps Em C) (em : Em) (c : Candidate C) : Res (Node Em C) :=
  match replay ops em c.insertions with
  | Res.fatal => Res.fatal
  | Res.timeout => Res.timeout
  | Res.done r =>
      match classify_loop ops r (List.range ops.layout.num_edges)
          { covered := fun _ => ∅, conflicting_l_e := ∅, blocked_l_e := ∅,
            unembedded_cost := 0 } with
      | Res.fatal => Res.fatal
      | Res.timeout => Res.timeout
      | Res.done cl =>
          Res.done
            { em := r.em
              embedded_l_e := r.embedded_l_e
              conflicting_l_e := cl.conflicting_l_e
              blocked_l_e := cl.blocked_l_e
              non_conflicting_l_e :=
                collect_free r.embedded_l_e cl.blocked_l_e cl.conflicting_l_e
                  (List.range ops.layout.num_edges)
              cost_lower_bound := r.embedded_cost + cl.unembedded_cost }

/-- The first loop of `calc_cost_lower_bound`: embedding and cost after the insertions. -/
def calc_embedded (ops : SearchOps Em C) : List Nat → Em × Finset Nat × C → Res (Em × Finset Nat × C)
  | [], acc => Res.done acc
  | l_e :: rest, (em, embedded_l_e, embedded_cost) =>
      match ops.embed_path em (ops.layout.halfedgeA l_e)
          (ops.find_shortest_path em (ops.layout.halfedgeA l_e)) with
      | none => Res.fatal
      | some em1 =>
          calc_embedded ops rest
            (em1, insert l_e embedded_l_e,
              embedded_cost + ops.path_length em
                (ops.find_shortest_path em (ops.layout.halfedgeA l_e)))

/-- The function `calc_cost_lower_bound(_em, _insertions)`. -/
def calc_cost_lower_bound (ops : SearchOps Em C) (em : Em) (insertions : List Nat) : Res C :=
  match calc_embedded ops insertions (ops.fresh_copy em, ∅, 0) with
  | Res.fatal => Res.fatal
  | Res.timeout => Res.timeout
  | Res.done (em1, embedded_l_e, embedded_cost) =>
      Res.done (embedded_cost +
        (List.range ops.layout.num_edges).foldl
          (fun unembedded_cost l_e =>
            if l_e ∈ embedded_l_e then unembedded_cost
            else unembedded_cost + ops.path_length em1 (ops.find_shortest_path_edge em1 l_e))
          0)

/-- The state of the search loop: the priority queue (as the list of its elements),
`global_upper_bound` and `best_solution`; `none` is the default-constructed candidate, whose
insertion sequence is empty. -/
structure SearchState (C : Type) where
  q : List (Candidate C)
  global_upper_bound : C
  best_solution : Option (Candidate C)
  deriving DecidableEq

/-- The state before the loop: the queue holds the empty sequence with bound zero. -/
def SearchState.init : SearchState C where
  q := [{ lower_bound := 0, insertions := [] }]
  global_upper_bound := ⊤
  best_solution := none

/-- The insertion sequence of `best_solution`. -/
def best_insertions (best : Option (Candidate C)) : List Nat :=
  match best with
  | none => []
  | some c => c.insertions

/-- The loop "Add children to the queue" over the conflicting edges. -/
def push_children (ops : SearchOps Em C) (node_em : Em) (c : Candidate C)
    (global_upper_bound : C) : List Nat → List (Candidate C) → Res (List (Candidate C))
  | [], q => Res.done q
  | l_e :: rest, q =>
      match calc_cost_lower_bound ops node_em (c.insertions ++ [l_e]) with
      | Res.fatal => Res.fatal
      | Res.timeout => Res.timeout
      | Res.done lb =>
          if gap_gt_max_gap lb global_upper_bound then
            push_children ops node_em c global_upper_bound rest
              ({ lower_bound := lb, insertions := c.insertions ++ [l_e] } :: q)
          else push_children ops node_em c global_upper_bound rest q

/-- One iteration of `while (!q.empty())`. The function `pop` stands for `q.top(); q.pop()` of
the priority queue, whose choice among candidates of equal bound is not fixed by the language.
The flag tells whether the loop goes on. -/
def search_step (pop : List (Candidate C) → Option (Candidate C × List (Candidate C)))
    (ops : SearchOps Em C) (em : Em) (st : SearchState C) : Res (Bool × SearchState C) :=
  match pop st.q with
  | none => Res.done (false, st)
  | some (c, rest) =>
      if gap_le_max_gap c.lower_bound st.global_upper_bound then
        Res.done (false, { st with q := rest })
      else
        match evaluate_node ops em c with
        | Res.fatal => Res.fatal
        | Res.timeout => Res.timeout
        | Res.done node =>
            if node.conflicting_l_e = ∅ then
              if node.cost_lower_bound < st.global_upper_bound then
                Res.done (true,
                  { q := rest, global_upper_bound := node.cost_lower_bound,
                    best_solution := some c })
              else Res.done (true, { st with q := rest })
            else if node.cost_lower_bound < st.global_upper_bound then
              match push_children ops node.em c st.global_upper_bound
                  (ascending node.conflicting_l_e) rest with
              | Res.fatal => Res.fatal
              | Res.timeout => Res.timeout
              | Res.done q1 => Res.done (true, { st with q := q1 })
            else Res.done (true, { st with q := rest })

/-- The first `k` iterations of the search loop (fewer when the loop ends before). -/
def search_iterate (pop : List (Candidate C) → Option (Candidate C × List (Candidate C)))
    (ops : SearchOps Em C) (em : Em) : Nat → SearchState C → Res (SearchState C)
  | 0, st => Res.done st
  | k + 1, st =>
      match search_step pop ops em st with
      | Res.done (true, st1) => search_iterate pop ops em k st1
      | Res.done (false, st1) => Res.done st1
      | Res.fatal => Res.fatal
      | Res.timeout => Res.timeout

/-- The search loop of `branch_and_bound`, with fuel. -/
def search_loop (pop : List (Candidate C) → Option (Candidate C × List (Candidate C)))
    (ops : SearchOps Em C) (em : Em) : Nat → SearchState C → Res (SearchState C)
  | 0, _ => Res.timeout
  | fuel + 1, st =>
      match search_step pop ops em st with
      | Res.done (true, st1) => search_loop pop ops em fuel st1
      | Res.done (false, st1) => Res.done st1
      | Res.fatal => Res.fatal
      | Res.timeout => Res.timeout

/-- The locals of the final part of `branch_and_bound`, with the log of the calls
`embed_path(_em, l_e.halfedgeA(), path)` made so far (layout edge and path). -/
structure ApplyState (Em : Type) where
  em : Em
  l_e_embedded : Finset Nat
  calls : List (Nat × VirtualPath)

/-- Tracing and committing one layout edge on the caller's embedding. -/
def apply_edge (ops : SearchOps Em C) (a : ApplyState Em) (l_e : Nat) : Outcome (ApplyState Em) :=
  let path := ops.find_shortest_path a.em (ops.layout.halfedgeA l_e)
  match ops.embed_path a.em (ops.layout.halfedgeA l_e) path with
  | none => Outcome.fatal { a with calls := a.calls ++ [(l_e, path)] }
  | some em1 =>
      Outcome.done
        { em := em1, l_e_embedded := insert l_e a.l_e_embedded,
          calls := a.calls ++ [(l_e, path)] }

/-- The loop "Edges with predefined insertion sequence". -/
def apply_insertions (ops : SearchOps Em C) :
    List Nat → ApplyState Em → Outcome (ApplyState Em)
  | [], a => Outcome.done a
  | l_e :: rest, a =>
      match apply_edge ops a l_e with
      | Outcome.done a1 => apply_insertions ops rest a1
      | Outcome.fatal a1 => Outcome.fatal a1
      | Outcome.timeout => Outcome.timeout

/-- The loop "Remaining edges". -/
def apply_remaining (ops : SearchOps Em C) :
    List Nat → ApplyState Em → Outcome (ApplyState Em)
  | [], a => Outcome.done a
  | l_e :: rest, a =>
      if l_e ∈ a.l_e_embedded then apply_remaining ops rest a
      else
        match apply_edge ops a l_e with
        | Outcome.done a1 => apply_remaining ops rest a1
        | Outcome.fatal a1 => Outcome.fatal a1
        | Outcome.timeout => Outcome.timeout

/-- Lines 218 to 236: the victorious sequence is applied to the input embedding. -/
def apply_solution (ops : SearchOps Em C) (em : Em) (best : Option (Candidate C)) :
    Outcome (ApplyState Em) :=
  match apply_insertions ops (best_insertions best)
      { em := em, l_e_embedded := ∅, calls := [] } with
  | Outcome.done a => apply_remaining ops (List.range ops.layout.num_edges) a
  | Outcome.fatal a => Outcome.fatal a
  | Outcome.timeout => Outcome.timeout

/-- The function `branch_and_bound(_em, _settings)`; it does not read `_settings`. -/
def branch_and_bound (pop : List (Candidate C) → Option (Candidate C × List (Candidate C)))
    (ops : SearchOps Em C) (fuel : Nat) (em : Em) (_settings : BranchAndBoundSettings) :
    Outcome (ApplyState Em) :=
  match search_loop pop ops em fuel SearchState.init with
  | Res.done st => apply_solution ops em st.best_solution
  | Res.fatal => Outcome.fatal { em := em, l_e_embedded := ∅, calls := [] }
  | Res.timeout => Outcome.timeout

/-- What the priority queue guarantees of `q.top(); q.pop()`: nothing is popped from the empty
queue, otherwise an element of least `lower_bound` is removed. -/
structure PopPolicy (pop : List (Candidate C) → Option (Candidate C × List (Candidate C))) :
    Prop where
  empty : pop [] = none
  nonempty : ∀ q, q ≠ [] → (pop q).isSome = true
  perm : ∀ q c rest, pop q = some (c, rest) → List.Perm q (c :: rest)
  least : ∀ q c rest, pop q = some (c, rest) → ∀ c1 ∈ rest, c.lower_bound ≤ c1.lower_bound

/-- A queue that returns the first candidate of least `lower_bound`. -/
def pop_min : List (Candidate C) → Option (Candidate C × List (Candidate C))
  | [] => none
  | c :: rest =>
      match pop_min rest with
      | none => some (c, [])
      | some (m, rest1) =>
          if c.lower_bound ≤ m.lower_bound then some (c, rest) else some (m, c :: rest1)

/-- The recorded calls, replayed from `em`: each path is what `find_shortest_path` returns on
the embedding at that moment and `embed_path` commits it; the result is the embedding after the
last call. -/
def replay_calls (ops : SearchOps Em C) : Em → List (Nat × VirtualPath) → Option Em
  | em, [] => some em
  | em, (l_e, path) :: rest =>
      if path = ops.find_shortest_path em (ops.layout.halfedgeA l_e) then
        match ops.embed_path em (ops.layout.halfedgeA l_e) path with
        | some em1 => replay_calls ops em1 rest
        | none => none
      else none

end Search

/-! ## A small instance for the search

Layout vertices `0, 1, 2, 3` with the edges `0 = (0,1)`, `1 = (1,2)`, `2 = (0,2)` and
`3 = (2,3)`; layout vertex `v` is matched to target vertex `v`, and the target vertices `10`,
`11`, `12` lie between them. An embedding is the list of committed layout edges, last first. -/

/-- Layout mesh of the search instance. -/
def bbLayout : LayoutMesh where
  num_vertices := 4
  num_edges := 4
  halfedgeA := fun e => 2 * e
  halfedgeB := fun e => 2 * e + 1
  edge_of := fun h => h / 2
  vertex_from := fun h => if h / 2 = 0 then 0 else if h / 2 = 1 then 1 else if h / 2 = 2 then 0 else 2
  vertex_to := fun h => if h / 2 = 0 then 1 else if h / 2 = 1 then 2 else if h / 2 = 2 then 2 else 3
  vertexA := fun e => if e = 0 then 0 else if e = 1 then 1 else if e = 2 then 0 else 2
  vertexB := fun e => if e = 0 then 1 else if e = 1 then 2 else if e = 2 then 2 else 3
  outgoing_halfedges := fun _ => []
  any_outgoing_halfedge := fun _ => 0
  vertex_edges := fun _ => []
  rotated_ccw := fun h => h

/-- Shortest paths of the search instance: with nothing embedded, edges `0` and `1` both pass
through target vertex `10`; once edge `0` is embedded, edges `1` and `3` pass through `11`;
once `0` and `1` are embedded, edges `2` and `3` pass through `12`; when only edge `1` is
embedded, edges `0` and `2` pass through `20` and `21`; every other path is the straight
connection of the two matched vertices. -/
def bbPath (em : List Nat) (e : Nat) : VirtualPath :=
  let a := VirtualVertex.vertex (bbLayout.vertexA e)
  let b := VirtualVertex.vertex (bbLayout.vertexB e)
  if em = [] ∧ (e = 0 ∨ e = 1) then [a, VirtualVertex.vertex 10, b]
  else if em = [0] ∧ (e = 1 ∨ e = 3) then [a, VirtualVertex.vertex 11, b]
  else if em = [1, 0] ∧ (e = 2 ∨ e = 3) then [a, VirtualVertex.vertex 12, b]
  else if em = [1] ∧ e = 0 then [a, VirtualVertex.vertex 20, b]
  else if em = [1] ∧ e = 2 then [a, VirtualVertex.vertex 21, b]
  else [a, b]

/-- The search instance: a path costs its number of segments, except on the two embeddings
`[1]` and `[3, 0]`, where every path costs `10`. -/
def bbOps : SearchOps (List Nat) ℕ∞ where
  layout := bbLayout
  fresh_copy := fun _ => []
  find_shortest_path := fun em h => bbPath em (h / 2)
  find_shortest_path_edge := fun em e => bbPath em e
  path_length := fun em p => if em = [1] ∨ em = [3, 0] then 10 else (p.length - 1 : Nat)
  embed_path := fun em h _ => some (h / 2 :: em)

/-- What the classification loop has established after the layout edges in `D`: the covered map
holds exactly the processed edges that are neither embedded nor blocked, at the interior
elements of their paths; conflicting edges are such edges; the blocked set holds the processed
edges that are not embedded and whose end points are connected; and as long as no conflict was
found, processed edges that are neither embedded nor blocked have disjoint path interiors. -/
structure ClassInv {Em C : Type} (ops : SearchOps Em C) (r : Replay Em C) (D : List Nat)
    (cl : Classification C) : Prop where
  covers : ∀ e ∈ D, e ∉ r.embedded_l_e →
    r.l_v_components.equivalent (ops.layout.vertexA e) (ops.layout.vertexB e) = false →
    ∀ x ∈ interior (ops.find_shortest_path_edge r.em e), e ∈ cl.covered x
  covered_in : ∀ x, ∀ e ∈ cl.covered x, e ∈ D ∧ e ∉ r.embedded_l_e ∧
    r.l_v_components.equivalent (ops.layout.vertexA e) (ops.layout.vertexB e) = false
  conflicting_in : ∀ e ∈ cl.conflicting_l_e, e ∈ D ∧ e ∉ r.embedded_l_e ∧
    r.l_v_components.equivalent (ops.layout.vertexA e) (ops.layout.vertexB e) = false
  blocked_iff : ∀ e, e ∈ cl.blocked_l_e ↔ e ∈ D ∧ e ∉ r.embedded_l_e ∧
    r.l_v_components.equivalent (ops.layout.vertexA e) (ops.layout.vertexB e) = true
  disjoint : cl.conflicting_l_e = ∅ → ∀ e1 ∈ D, ∀ e2 ∈ D, e1 ≠ e2 →
    e1 ∉ r.embedded_l_e → e2 ∉ r.embedded_l_e →
    r.l_v_components.equivalent (ops.layout.vertexA e1) (ops.layout.vertexB e1) = false →
    r.l_v_components.equivalent (ops.layout.vertexA e2) (ops.layout.vertexB e2) = false →
    ∀ x ∈ interior (ops.find_shortest_path_edge r.em e1),
      x ∉ interior (ops.find_shortest_path_edge r.em e2)

/-- An insertion sequence of pairwise distinct layout edges. -/
def GoodSequence (n : Nat) (insertions : List Nat) : Prop :=
  insertions.Nodup ∧ ∀ e ∈ insertions, e < n

/-- The order in which the final part of `branch_and_bound` visits the layout edges: the
insertions of the best solution, then the remaining edges by ascending index. -/
def final_order (n : Nat) (insertions : List Nat) : List Nat :=
  insertions ++ (List.range n).filter (fun e => e ∉ insertions)

/-! ## The order of the queue, the gap threshold and the children of a node -/

section SearchVocabulary

variable {Em C : Type} [LinearOrder C] [Add C] [Zero C] [Top C] [GapTests C]

/-- The comparison `Candidate::operator<`, by which the priority queue is ordered:
`lower_bound > _rhs.lower_bound`. -/
def Candidate.operator_lt (a b : Candidate C) : Bool :=
  decide (a.lower_bound > b.lower_bound)

/-- What `std::priority_queue` guarantees of `q.top(); q.pop()` in terms of the comparison of
its elements: nothing is popped from the empty queue, otherwise one element is removed and it is
not less (by `operator<`) than any element that stays. -/
structure TopPolicy (pop : List (Candidate C) → Option (Candidate C × List (Candidate C))) :
    Prop where
  empty : pop [] = none
  nonempty : ∀ q, q ≠ [] → (pop q).isSome = true
  perm : ∀ q c rest, pop q = some (c, rest) → List.Perm q (c :: rest)
  greatest : ∀ q c rest, pop q = some (c, rest) →
    ∀ c1 ∈ rest, Candidate.operator_lt c c1 = false

/-- The child that one round of the loop "Add children to the queue" pushes for the conflicting
edge `l_e`, if it pushes one. -/
def child_of (ops : SearchOps Em C) (node_em : Em) (c : Candidate C) (global_upper_bound : C)
    (l_e : Nat) : Option (Candidate C) :=
  match calc_cost_lower_bound ops node_em (c.insertions ++ [l_e]) with
  | Res.done lb =>
      if gap_gt_max_gap lb global_upper_bound then
        some { lower_bound := lb, insertions := c.insertions ++ [l_e] }
      else none
  | _ => none

/-- The union-find after `merge(vertexA, vertexB)` for the layout edges of a sequence. -/
def merge_edges (L : LayoutMesh) (u : UnionFind) (insertions : List Nat) : UnionFind :=
  insertions.foldl (fun u1 l_e => u1.merge (L.vertexA l_e) (L.vertexB l_e)) u

/-- No edge of the sequence joins two layout vertices that the edges before it (and the
classes of `u`) already connect. -/
def forest_from (L : LayoutMesh) : UnionFind → List Nat → Prop
  | _, [] => True
  | u, l_e :: rest =>
      u.equivalent (L.vertexA l_e) (L.vertexB l_e) = false ∧
        forest_from L (u.merge (L.vertexA l_e) (L.vertexB l_e)) rest

/-- The insertion sequence is a forest on the layout vertices. -/
def IsForest (L : LayoutMesh) (insertions : List Nat) : Prop :=
  forest_from L (UnionFind.init L.num_vertices) insertions

/-- The number of classes of a union-find on the indices `0 .. n-1`. -/
def UnionFind.num_classes (u : UnionFind) (n : Nat) : Nat :=
  ((Finset.range n).image u.rep).card

/-- The number of sequences of pairwise distinct edges that extend a sequence with `d` edges
left to choose from, the sequence itself included. -/
def tree_size : Nat → Nat
  | 0 => 1
  | d + 1 => 1 + (d + 1) * tree_size d

/-- The number of iterations the queue can still cause: every candidate counts for the
sequences that extend it. -/
def queue_measure (n : Nat) (q : List (Candidate C)) : Nat :=
  (q.map (fun c => tree_size (n - c.insertions.length))).sum

end SearchVocabulary

/-! ## The function `branch_and_bound2` -/

/-- The locals of `branch_and_bound2` that live across the iterations of `while (true)`; the
embedding is the caller's, and the counter `num_potential_leaves` is kept exact. -/
structure Descent (Em : Type) where
  em : Em
  embedded_l_e : Finset Nat
  l_v_components : UnionFind
  num_decisions : Nat
  num_potential_leaves : Nat

section Search2

variable {Em C : Type} [LinearOrder C] [Add C] [Zero C] [Top C] [GapTests C]

/-- The body of the classification loop of `branch_and_bound2` for the layout edge `l_e`: the
blocked test comes before the path is traced, and no cost is summed (the field
`unembedded_cost` stays as it is). -/
def classify2_step (ops : SearchOps Em C) (d : Descent Em) (cl : Classification C) (l_e : Nat) :
    Res (Classification C) :=
  if l_e ∈ d.embedded_l_e then Res.done cl
  else if d.l_v_components.equivalent (ops.layout.vertexA l_e) (ops.layout.vertexB l_e) then
    Res.done { cl with blocked_l_e := insert l_e cl.blocked_l_e }
  else
    let path := ops.find_shortest_path_edge d.em l_e
    if path.length < size_minus_one path.length then Res.fatal
    else Res.done ((interior path).foldl (cover_element l_e) cl)

/-- The classification loop of `branch_and_bound2` over the layout edges. -/
def classify2_loop (ops : SearchOps Em C) (d : Descent Em) :
    List Nat → Classification C → Res (Classification C)
  | [], cl => Res.done cl
  | l_e :: rest, cl =>
      match classify2_step ops d cl l_e with
      | Res.done cl1 => classify2_loop ops d rest cl1
      | Res.fatal => Res.fatal
      | Res.timeout => Res.timeout

/-- One iteration of `while (true)` in `branch_and_bound2`. The value `rand k` is what the
`k`-th call of `std::rand()` returns; the flag tells whether the loop goes on. The set
`non_conflicting_l_e` of the source is only printed and is left out. -/
def descend_step (rand : Nat → Nat) (ops : SearchOps Em C) (d : Descent Em) :
    Res (Bool × Descent Em) :=
  match classify2_loop ops d (List.range ops.layout.num_edges)
      { covered := fun _ => ∅, conflicting_l_e := ∅, blocked_l_e := ∅,
        unembedded_cost := 0 } with
  | Res.fatal => Res.fatal
  | Res.timeout => Res.timeout
  | Res.done cl =>
      if cl.conflicting_l_e = ∅ then Res.done (false, d)
      else
        match (ascending cl.conflicting_l_e)[rand d.num_decisions % cl.conflicting_l_e.card]? with
        | none => Res.fatal
        | some l_e_new =>
            let l_he_new := ops.layout.halfedgeA l_e_new
            let path := ops.find_shortest_path d.em l_he_new
            match ops.embed_path d.em l_he_new path with
            | none => Res.fatal
            | some em1 =>
                Res.done (true,
                  { em := em1
                    embedded_l_e := insert l_e_new d.embedded_l_e
                    l_v_components :=
                      d.l_v_components.merge (ops.layout.vertexA l_e_new)
                        (ops.layout.vertexB l_e_new)
                    num_decisions := d.num_decisions + 1
                    num_potential_leaves :=
                      d.num_potential_leaves * cl.conflicting_l_e.card })

/-- The loop `while (true)` of `branch_and_bound2`, with fuel. -/
def descend_loop (rand : Nat → Nat) (ops : SearchOps Em C) :
    Nat → Descent Em → Res (Descent Em)
  | 0, _ => Res.timeout
  | fuel + 1, d =>
      match descend_step rand ops d with
      | Res.done (true, d1) => descend_loop rand ops fuel d1
      | Res.done (false, d1) => Res.done d1
      | Res.fatal => Res.fatal
      | Res.timeout => Res.timeout

/-- The function `branch_and_bound2(_em, _settings)`; it does not read `_settings`. -/
def branch_and_bound2 (rand : Nat → Nat) (ops : SearchOps Em C) (fuel : Nat) (em : Em)
    (_settings : BranchAndBoundSettings) : Res (Descent Em) :=
  descend_loop rand ops fuel
    { em := em
      embedded_l_e := ∅
      l_v_components := UnionFind.init ops.layout.num_vertices
      num_decisions := 0
      num_potential_leaves := 1 }

end Search2

/-! ## Two more instances for the search -/

/-- The search instance `bbOps` with one change: once edge `0` is embedded, no path is found for
edge `1` (the empty path), by either overload of `find_shortest_path`. -/
def cutOps : SearchOps (List Nat) ℕ∞ :=
  { bbOps with
    find_shortest_path := fun em h => if em = [0] ∧ h / 2 = 1 then [] else bbPath em (h / 2)
    find_shortest_path_edge := fun em e => if em = [0] ∧ e = 1 then [] else bbPath em e }

/-- The cost of a path in the instance `gapOps`, by embedding. -/
def gapCost (em : List Nat) : ℕ∞ :=
  if em = [] then 9 else if em = [0] then 11 else if em = [1] then 30
  else if em = [1, 0] then 40 else if em = [9] then 9 else if em = [0, 9] then 11
  else if em = [1, 0, 9] then 39 else 50

/-- A search instance on the layout and the paths of `bbOps` in which the copy of the target
mesh of a node that has embedded something is a refined mesh (marked `9`), on which paths
cost a little less. -/
def gapOps : SearchOps (List Nat) ℕ∞ where
  layout := bbLayout
  fresh_copy := fun em => if em = [] then [] else [9]
  find_shortest_path := fun em h => bbPath em (h / 2)
  find_shortest_path_edge := fun em e => bbPath em e
  path_length := fun em _ => gapCost em
  embed_path := fun em h _ => some (h / 2 :: em)

/-! ## The summaries `hash` and `count_connected_components` of `EmbeddingState` -/

/-- What `EmbeddingState::hash` and `EmbeddingState::count_connected_components` read from the
embedding. The layout mesh has `num_faces` faces; `faceA` and `faceB` give the index of the
face on either side of a layout edge, `none` for an invalid handle. The functions `hash_pos`
(`LayoutEmbedding::hash` of a position) and `hash_combine` are those of the hashing header, on
hash values. -/
structure EmbeddingReads (Em Pos : Type) where
  layout : LayoutMesh
  num_faces : Nat
  faceA : Nat → Option Nat
  faceB : Nat → Option Nat
  /-- The number of faces of the target mesh of an embedding. -/
  target_num_faces : Em → Nat
  /-- The flag `em.is_embedded(l_e)` of a layout edge. -/
  is_embedded : Em → Nat → Bool
  /-- The target vertices `em.get_embedded_path(l_he)`. -/
  get_embedded_path : Em → Nat → List Nat
  /-- The attribute `em.target_pos()`. -/
  target_pos : Em → Nat → Pos
  hash_pos : Pos → Nat
  hash_combine : Nat → Nat → Nat

section Summaries

variable {Em Pos C : Type}

/-- The method `EmbeddingState::hash()`. -/
def hash (R : EmbeddingReads Em Pos) (s : EmbeddingState Em C) : Nat :=
  (List.range R.layout.num_edges).foldl
    (fun h l_e =>
      if R.is_embedded s.em l_e then
        (R.get_embedded_path s.em (R.layout.halfedgeA l_e)).foldl
          (fun h1 t_v => R.hash_combine h1 (R.hash_pos (R.target_pos s.em t_v))) h
      else h)
    0

/-- The positions along the committed paths of an embedding: for the embedded layout edges by
ascending index, the positions of the target vertices of the path of `halfedgeA`, in path
order. -/
def committed_positions (R : EmbeddingReads Em Pos) (em : Em) : List Pos :=
  ((List.range R.layout.num_edges).filter (fun l_e => R.is_embedded em l_e)).flatMap
    (fun l_e => (R.get_embedded_path em (R.layout.halfedgeA l_e)).map (R.target_pos em))

/-- The body of the loop of `count_connected_components` for the layout edge `l_e`, on the
counter and the union-find; an index outside the union-find is a fatal error. -/
def count_step (R : EmbeddingReads Em Pos) (em : Em) (acc : Int × UnionFind) (l_e : Nat) :
    Res (Int × UnionFind) :=
  if R.is_embedded em l_e then Res.done acc
  else
    match R.faceA l_e, R.faceB l_e with
    | some id_A, some id_B =>
        if id_A < R.num_faces ∧ id_B < R.num_faces then
          if acc.2.equivalent id_A id_B then Res.done acc
          else Res.done (acc.1 - 1, acc.2.merge id_A id_B)
        else Res.fatal
    | _, _ => Res.fatal

/-- The loop of `count_connected_components` over the layout edges. -/
def count_loop (R : EmbeddingReads Em Pos) (em : Em) :
    List Nat → Int × UnionFind → Res (Int × UnionFind)
  | [], acc => Res.done acc
  | l_e :: rest, acc =>
      match count_step R em acc l_e with
      | Res.done acc1 => count_loop R em rest acc1
      | Res.fatal => Res.fatal
      | Res.timeout => Res.timeout

/-- The method `EmbeddingState::count_connected_components()`. -/
def count_connected_components (R : EmbeddingReads Em Pos) (s : EmbeddingState Em C) : Res Int :=
  match count_loop R s.em (List.range R.layout.num_edges)
      ((R.num_faces : Int), UnionFind.init R.num_faces) with
  | Res.done acc => Res.done acc.1
  | Res.fatal => Res.fatal
  | Res.timeout => Res.timeout

/-- The union-find on the layout faces after joining the two sides of every layout edge of the
list that is not embedded. -/
def join_faces (R : EmbeddingReads Em Pos) (em : Em) (edges : List Nat) (u : UnionFind) :
    UnionFind :=
  edges.foldl
    (fun u1 l_e =>
      if R.is_embedded em l_e then u1
      else
        match R.faceA l_e, R.faceB l_e with
        | some id_A, some id_B => u1.merge id_A id_B
        | _, _ => u1)
    u

end Summaries

/-- The tetrahedron as layout (vertices and faces `0 .. 3`, face `i` opposite vertex `i`, edges
`0 = (0,1)`, `1 = (1,2)`, `2 = (0,2)`, `3 = (2,3)`, `4 = (0,3)`, `5 = (1,3)`) on a target mesh
with `8` faces and positions on a line; of the layout only `num_edges` and `halfedgeA` are
read. An embedding is the list of embedded layout edges, and the path of an embedded edge `e`
visits the target vertices `e`, `e + 10`, `e + 1`. -/
def tetraReads : EmbeddingReads (List Nat) Int where
  layout := { bbLayout with num_vertices := 4, num_edges := 6 }
  num_faces := 4
  faceA := fun e => [2, 0, 1, 0, 1, 0][e]?
  faceB := fun e => [3, 3, 3, 1, 2, 2][e]?
  target_num_faces := fun _ => 8
  is_embedded := fun em e => decide (e ∈ em)
  get_embedded_path := fun _ h => [h / 2, h / 2 + 10, h / 2 + 1]
  target_pos := fun _ v => (v : Int) - 5
  hash_pos := fun p => p.natAbs
  hash_combine := fun h k => (31 * h + k) % 2 ^ 64

/-- A state of the tetrahedral instance with the given embedded edges; the other members are
those of a fresh object. -/
def tetraState (em : List Nat) : EmbeddingState (List Nat) ℕ∞ where
  em := em
  embedded_l_edges := ∅
  candidate_paths := fun _ => none
  conflicting_l_edges := ∅
  non_conflicting_l_edges := ∅
  embedded_cost := 0
  unembedded_cost := 0
  valid := true

/-! ## Vocabulary for sequences of `extend` calls -/

/-- A call of one of the two forms of `extend` for a single layout edge. -/
inductive ExtendCall where
  | edge (l_e : Nat)
  | withPath (l_e : Nat) (path : VirtualPath)

/-- The layout edge named in the call. -/
def ExtendCall.l_e : ExtendCall → Nat
  | ExtendCall.edge l_e => l_e
  | ExtendCall.withPath l_e _ => l_e

section ExtendCalls

variable {Em C : Type} [Add C] [Zero C] [Top C]

/-- Running one call. -/
def ExtendCall.run (ops : EmbeddingOps Em C) :
    ExtendCall → EmbeddingState Em C → Outcome (EmbeddingState Em C)
  | ExtendCall.edge l_e, s => extend ops l_e s
  | ExtendCall.withPath l_e path, s => extend_path ops l_e path s

/-- Running a sequence of calls. -/
def run_extends (ops : EmbeddingOps Em C) :
    List ExtendCall → EmbeddingState Em C → Outcome (EmbeddingState Em C)
  | [], s => Outcome.done s
  | c :: rest, s =>
      match c.run ops s with
      | Outcome.done s1 => run_extends ops rest s1
      | Outcome.fatal s1 => Outcome.fatal s1
      | Outcome.timeout => Outcome.timeout

/-- The path a call hands to `embed_path` on the embedding `em`: the traced one, or the one
given by the caller. -/
def ExtendCall.path (ops : EmbeddingOps Em C) (em : Em) : ExtendCall → VirtualPath
  | ExtendCall.edge l_e => ops.find_shortest_path em (ops.layout.halfedgeA l_e)
  | ExtendCall.withPath _ path => path

/-- The commitments of a sequence of calls started on the embedding `em`: for every call the
layout edge and `path_length` of its path, measured on the embedding on which the path is
committed; the list ends where `embed_path` fails. -/
def commit_log (ops : EmbeddingOps Em C) : List ExtendCall → Em → List (Nat × C)
  | [], _ => []
  | c :: rest, em =>
      match ops.embed_path em (ops.layout.halfedgeA c.l_e) (c.path ops em) with
      | none => []
      | some em1 => (c.l_e, ops.path_length em (c.path ops em)) :: commit_log ops rest em1

/-- The length recorded in a log for the layout edge `l_e` (zero when there is none). -/
def committed_length (log : List (Nat × C)) (l_e : Nat) : C :=
  match log with
  | [] => 0
  | (k, v) :: rest => if k = l_e then v else committed_length rest l_e

end ExtendCalls

/-! ## A star-shaped instance for the ordering sweep

Layout vertex `0` is the centre of the layout edges `0`, `1`, `2`, `3`, which lead to the
layout vertices `1`, `2`, `3`, `4`; layout edge `4` joins the layout vertices `5` and `2`.
Halfedge `2e` is `halfedgeA` of edge `e` and leaves the centre (for edge `4`: vertex `5`).
Around the centre the outgoing halfedges follow each other counter-clockwise in the order
`0, 2, 4, 6`.

On the target mesh the centre is the target vertex `0`, with the neighbours
`10, 11, 12, 13, 14` in counter-clockwise order; the layout vertices `1 .. 5` are matched to
the target vertices `10`, `12`, `11`, `13` and `30`, and `30` is a neighbour of `12`. -/

/-- The layout mesh of the star. -/
def starLayout : LayoutMesh where
  num_vertices := 6
  num_edges := 5
  halfedgeA := fun e => 2 * e
  halfedgeB := fun e => 2 * e + 1
  edge_of := fun h => h / 2
  vertex_from := fun h =>
    if h = 8 then 5 else if h = 9 then 2 else if h % 2 = 0 ∧ h < 8 then 0 else h / 2 + 1
  vertex_to := fun h =>
    if h = 8 then 2 else if h = 9 then 5 else if h % 2 = 1 ∧ h < 8 then 0 else h / 2 + 1
  vertexA := fun e => if e = 4 then 2 else e + 1
  vertexB := fun e => if e = 4 then 5 else 0
  outgoing_halfedges := fun v =>
    if v = 0 then [0, 2, 4, 6] else if v = 1 then [1] else if v = 2 then [3, 9]
    else if v = 3 then [5] else if v = 4 then [7] else [8]
  any_outgoing_halfedge := fun v =>
    if v = 0 then 0 else if v = 1 then 1 else if v = 2 then 3
    else if v = 3 then 5 else if v = 4 then 7 else 8
  vertex_edges := fun v =>
    if v = 0 then [0, 1, 2, 3] else if v = 1 then [0] else if v = 2 then [1, 4]
    else if v = 3 then [2] else if v = 4 then [3] else [4]
  rotated_ccw := fun h =>
    if h = 0 then 2 else if h = 2 then 4 else if h = 4 then 6 else if h = 6 then 0
    else if h = 3 then 9 else if h = 9 then 3 else h

/-- The target queries of the star when the layout edges in `em` are embedded. The target edge
between `a` and `b` has the index `100 * min a b + max a b`; layout edge `0` is embedded along
the target edge from `0` to `10`, which is then blocked. Around the target vertex `0` a
rotation moves to the next neighbour, around `12` it swaps the directions to `0` and to `30`,
elsewhere there is one direction only. -/
def starQueries (em : List Nat) : TargetQueries where
  edge_from_to := fun a b => some (100 * min a b + max a b)
  triangle_with_edge_and_opposite_vertex := fun _ _ => none
  common_face := fun _ _ => none
  is_blocked := fun e => decide (e = 10 ∧ 0 ∈ em)
  is_embedded := fun h => decide (h / 2 ∈ em)
  matching_target_vertex := fun v =>
    if v = 0 then 0 else if v = 1 then 10 else if v = 2 then 12 else if v = 3 then 11
    else if v = 4 then 13 else 30
  port_rotated_ccw := fun p =>
    if p.from_v = 0 then
      match p.to_vv with
      | VirtualVertex.vertex w => ⟨0, VirtualVertex.vertex (if w = 14 then 10 else w + 1)⟩
      | VirtualVertex.edge _ => p
    else if p.from_v = 12 then
      (if p.to_vv = VirtualVertex.vertex 0 then ⟨12, VirtualVertex.vertex 30⟩
        else ⟨12, VirtualVertex.vertex 0⟩)
    else p
  port_rotated_cw := fun p =>
    if p.from_v = 0 then
      match p.to_vv with
      | VirtualVertex.vertex w => ⟨0, VirtualVertex.vertex (if w = 10 then 14 else w - 1)⟩
      | VirtualVertex.edge _ => p
    else if p.from_v = 12 then
      (if p.to_vv = VirtualVertex.vertex 0 then ⟨12, VirtualVertex.vertex 30⟩
        else ⟨12, VirtualVertex.vertex 0⟩)
    else p

/-- The straight path between two target vertices. -/
def starPath (a b : Nat) : VirtualPath :=
  [VirtualVertex.vertex a, VirtualVertex.vertex b]

/-- The calls that insert the candidate paths while layout edge `0` is embedded: the edges `1`,
`2`, `3` leave the centre towards `12`, `11`, `13` (the first two against the order of the
layout), and edge `4` runs from `30` to `12`. -/
def starInserts : List SentinelOp :=
  [SentinelOp.insertPath (starPath 0 12) 1, SentinelOp.insertPath (starPath 0 11) 2,
   SentinelOp.insertPath (starPath 0 13) 3, SentinelOp.insertPath (starPath 30 12) 4]

/-- The calls that insert the candidate paths while nothing is embedded: as before, and edge
`0` leaves the centre towards `10`. -/
def starInsertsAll : List SentinelOp :=
  SentinelOp.insertPath (starPath 0 10) 0 :: starInserts

/-- The run returned and its result passes the test. -/
def Res.check {α : Type} (r : Res α) (p : α → Bool) : Bool :=
  match r with
  | Res.done a => p a
  | Res.fatal => false
  | Res.timeout => false

/-! ## Vocabulary for the agreement of the two records of embedded edges -/

/-- The reads of `hash` and `count_connected_components` with the flag `em.is_embedded(l_e)`
replaced by membership of the layout edge in a given set. -/
def EmbeddingReads.asking {Em Pos : Type} (R : EmbeddingReads Em Pos) (embedded : Finset Nat) :
    EmbeddingReads Em Pos :=
  { R with is_embedded := fun _ l_e => decide (l_e ∈ embedded) }

/-! ## Vocabulary for the components counted by `count_connected_components` -/

section ComponentVocabulary

variable {Em Pos : Type}

/-- Two layout faces are adjacent: they are the faces on the two sides of a layout edge. -/
def FaceAdjacent (R : EmbeddingReads Em Pos) (a b : Nat) : Prop :=
  ∃ e, e < R.layout.num_edges ∧ R.faceA e = some a ∧ R.faceB e = some b

/-- Two layout faces are linked in the embedding `em`: they are the faces on the two sides of a
layout edge that is not embedded in `em`. -/
def FaceLinked (R : EmbeddingReads Em Pos) (em : Em) (a b : Nat) : Prop :=
  ∃ e, e < R.layout.num_edges ∧ R.is_embedded em e = false ∧
    R.faceA e = some a ∧ R.faceB e = some b

/-- Two layout faces linked through one of the layout edges of a list. -/
def FaceLinkedBy (R : EmbeddingReads Em Pos) (em : Em) (es : List Nat) (a b : Nat) : Prop :=
  ∃ e, e ∈ es ∧ R.is_embedded em e = false ∧ R.faceA e = some a ∧ R.faceB e = some b

/-- The number `k` is the number of connected components of the graph whose nodes are the
layout faces `0 .. num_faces - 1` and whose links are the layout edges that are not embedded:
there are `k` faces of which every face is connected to exactly one. -/
def IsComponentCount (R : EmbeddingReads Em Pos) (em : Em) (k : Nat) : Prop :=
  ∃ reps : Finset Nat, reps.card = k ∧ (∀ r ∈ reps, r < R.num_faces) ∧
    ∀ a, a < R.num_faces → ∃! r, r ∈ reps ∧ Relation.EqvGen (FaceLinked R em) a r

end ComponentVocabulary

/-- What `hash` and `count_connected_components` read on the small instance: the path of
three vertices lies on a sphere, with the one face `0` on both sides of either edge; the path
of an embedded edge is the straight target edge, and positions are the vertex numbers. -/
def toyReads : EmbeddingReads (List Nat) Int where
  layout := toyLayout
  num_faces := 1
  faceA := fun _ => some 0
  faceB := fun _ => some 0
  target_num_faces := fun _ => 1
  is_embedded := fun em e => decide (e ∈ em)
  get_embedded_path := fun _ h => [toyLayout.vertex_from h, toyLayout.vertex_to h]
  target_pos := fun _ v => (v : Int)
  hash_pos := fun p => p.natAbs
  hash_combine := fun h k => (31 * h + k) % 2 ^ 64

/-! ## An instance with lengths that are not sums of few powers of two -/

/-- Layout mesh of the instance: a path of three edges, edge `e` from vertex `e` to `e + 1`. -/
def dblLayout : LayoutMesh where
  num_vertices := 4
  num_edges := 3
  halfedgeA := fun e => 2 * e
  halfedgeB := fun e => 2 * e + 1
  edge_of := fun h => h / 2
  vertex_from := fun h => if h % 2 = 0 then h / 2 else h / 2 + 1
  vertex_to := fun h => if h % 2 = 0 then h / 2 + 1 else h / 2
  vertexA := fun e => e + 1
  vertexB := fun e => e
  outgoing_halfedges := fun _ => []
  any_outgoing_halfedge := fun _ => 0
  vertex_edges := fun _ => []
  rotated_ccw := fun h => h

/-- The instance: layout vertex `v` is matched to target vertex `v`, the path of a layout edge
is the straight target edge, whatever is embedded, and the three paths have the lengths
`0.1`, `0.2` and `0.3` (the doubles nearest to these numbers). An embedding is the list of the
committed layout edges. -/
def dblOps : EmbeddingOps (List Nat) Dbl where
  layout := dblLayout
  queries := toyQueries
  find_shortest_path := fun _ h =>
    [VirtualVertex.vertex (dblLayout.vertex_from h), VirtualVertex.vertex (dblLayout.vertex_to h)]
  path_length := fun _ p =>
    match p with
    | VirtualVertex.vertex 0 :: _ => Dbl.mk2 3602879701896397 55
    | VirtualVertex.vertex 1 :: _ => Dbl.mk2 3602879701896397 54
    | VirtualVertex.vertex 2 :: _ => Dbl.mk2 5404319552844595 54
    | _ => 0
  embed_path := fun em h p => if h / 2 ∈ em ∨ p.length < 2 then none else some (h / 2 :: em)

/-- A test on the state in which a method of `EmbeddingState` returns. -/
def Outcome.check {σ : Type} (r : Outcome σ) (p : σ → Bool) : Bool :=
  match r with
  | Outcome.done s => p s
  | _ => false

/-- The factor `1 + 2^-53` by which rounding to `double` changes a sum at most. -/
def Dbl.ulp_factor : ℚ :=
  1 + 1 / 2 ^ 53

/-- The number of units of a finite value (zero for `+infinity`). -/
def Dbl.units : Dbl → Nat
  | Dbl.fin n => n
  | Dbl.inf => 0

/-! ## Search instances with costs of type `double` -/

/-- The cost of a path in the instance `gapOpsD`, by embedding: the whole numbers of `gapCost`
as doubles. -/
def gapCostD (em : List Nat) : Dbl :=
  if em = [] then Dbl.mk2 9 0 else if em = [0] then Dbl.mk2 11 0 else if em = [1] then Dbl.mk2 30 0
  else if em = [1, 0] then Dbl.mk2 40 0 else if em = [9] then Dbl.mk2 9 0
  else if em = [0, 9] then Dbl.mk2 11 0 else if em = [1, 0, 9] then Dbl.mk2 39 0
  else Dbl.mk2 50 0

/-- The search instance `gapOps` with costs of type `double`. -/
def gapOpsD : SearchOps (List Nat) Dbl where
  layout := bbLayout
  fresh_copy := fun em => if em = [] then [] else [9]
  find_shortest_path := fun em h => bbPath em (h / 2)
  find_shortest_path_edge := fun em e => bbPath em e
  path_length := fun em _ => gapCostD em
  embed_path := fun em h _ => some (h / 2 :: em)

/-- The instance `gapOpsD` with one change: on the refined copy with the edges `0` and `1`
embedded a path costs `38.5`, so that the sequence `[0, 1]` has the bound `9 + 11 + 38.5 + 38.5`,
which is `97`. -/
def pruneOps : SearchOps (List Nat) Dbl :=
  { gapOpsD with
    path_length := fun em _ => if em = [1, 0, 9] then Dbl.mk2 77 1 else gapCostD em }

/-! ## Forced insertions of `branch_and_bound2` -/

section ForcedInsertions

variable {Em C : Type} [LinearOrder C] [Add C] [Zero C] [Top C] [GapTests C]

/-- One iteration of `while (true)` in `branch_and_bound2` that forces an edge, from the locals
`d` to the locals `d1`: the classification on `d` ends with the classification `cl`, whose
conflicting set is not empty; the edge `e` is the element of that set, by ascending index, at
position `rand() % conflicting_l_e.size()`; its end points are in different union-find classes;
its shortest path is embedded, the edge is recorded as embedded, its end points are merged and
`num_decisions` is incremented. -/
def ForcedInsertion (rand : Nat → Nat) (ops : SearchOps Em C) (d d1 : Descent Em) : Prop :=
  ∃ (cl : Classification C) (e : Nat) (em1 : Em),
    classify2_loop ops d (List.range ops.layout.num_edges)
      { covered := fun _ => ∅, conflicting_l_e := ∅, blocked_l_e := ∅,
        unembedded_cost := 0 } = Res.done cl ∧
    cl.conflicting_l_e ≠ ∅ ∧
    (ascending cl.conflicting_l_e)[rand d.num_decisions % cl.conflicting_l_e.card]? = some e ∧
    e ∈ cl.conflicting_l_e ∧
    d.l_v_components.equivalent (ops.layout.vertexA e) (ops.layout.vertexB e) = false ∧
    ops.embed_path d.em (ops.layout.halfedgeA e)
      (ops.find_shortest_path d.em (ops.layout.halfedgeA e)) = some em1 ∧
    d1 = { em := em1
           embedded_l_e := insert e d.embedded_l_e
           l_v_components :=
             d.l_v_components.merge (ops.layout.vertexA e) (ops.layout.vertexB e)
           num_decisions := d.num_decisions + 1
           num_potential_leaves := d.num_potential_leaves * cl.conflicting_l_e.card }

end ForcedInsertions

/-! ## A search instance whose candidate paths cross on a target edge -/

/-- The layout of the instance `crossOps`: four layout vertices and two layout edges, edge `0`
from vertex `0` to vertex `1` and edge `1` from vertex `2` to vertex `3`. The ranges around a
vertex are not read by the search and are left empty. -/
def crossLayout : LayoutMesh where
  num_vertices := 4
  num_edges := 2
  halfedgeA := fun e => 2 * e
  halfedgeB := fun e => 2 * e + 1
  edge_of := fun h => h / 2
  vertex_from := fun h => if h = 0 then 0 else if h = 1 then 1 else if h = 2 then 2 else 3
  vertex_to := fun h => if h = 0 then 1 else if h = 1 then 0 else if h = 2 then 3 else 2
  vertexA := fun e => if e = 0 then 0 else 2
  vertexB := fun e => if e = 0 then 1 else 3
  outgoing_halfedges := fun _ => []
  any_outgoing_halfedge := fun _ => 0
  vertex_edges := fun _ => []
  rotated_ccw := fun h => h

/-- The target mesh of the instance `crossOps`: the quad with the corners `0`, `2`, `1`, `3`, cut
by the diagonal from `0` to `1` (target edge `0`) into the triangles `0` (with corner `2`) and
`1` (with corner `3`); the sides are the target edges `1` (from `0` to `2`), `2` (from `2` to
`1`), `3` (from `1` to `3`) and `4` (from `3` to `0`). Layout vertex `i` is matched to target
vertex `i`, nothing is blocked or embedded; the port rotations are not read here. -/
def crossQueries : TargetQueries where
  edge_from_to := fun a b =>
    if (a = 0 ∧ b = 1) ∨ (a = 1 ∧ b = 0) then some 0
    else if (a = 0 ∧ b = 2) ∨ (a = 2 ∧ b = 0) then some 1
    else if (a = 2 ∧ b = 1) ∨ (a = 1 ∧ b = 2) then some 2
    else if (a = 1 ∧ b = 3) ∨ (a = 3 ∧ b = 1) then some 3
    else if (a = 3 ∧ b = 0) ∨ (a = 0 ∧ b = 3) then some 4
    else none
  triangle_with_edge_and_opposite_vertex := fun e v =>
    if (e = 0 ∧ v = 2) ∨ (e = 1 ∧ v = 1) ∨ (e = 2 ∧ v = 0) then some 0
    else if (e = 0 ∧ v = 3) ∨ (e = 3 ∧ v = 0) ∨ (e = 4 ∧ v = 1) then some 1
    else none
  common_face := fun e0 e1 =>
    if e0 ≠ e1 ∧ e0 ≤ 2 ∧ e1 ≤ 2 then some 0
    else if e0 ≠ e1 ∧ (e0 = 0 ∨ e0 = 3 ∨ e0 = 4) ∧ (e1 = 0 ∨ e1 = 3 ∨ e1 = 4) then some 1
    else none
  is_blocked := fun _ => false
  is_embedded := fun _ => false
  matching_target_vertex := fun v => v
  port_rotated_ccw := fun p => p
  port_rotated_cw := fun p => p

/-- Shortest paths of the instance `crossOps`: layout edge `0` runs along the diagonal, layout
edge `1` runs from corner `2` to corner `3` and crosses the diagonal in its interior. -/
def crossPath (e : Nat) : VirtualPath :=
  if e = 0 then [VirtualVertex.vertex 0, VirtualVertex.vertex 1]
  else [VirtualVertex.vertex 2, VirtualVertex.edge 0, VirtualVertex.vertex 3]

/-- The search instance on the quad: a path costs its number of segments, as a double. -/
def crossOps : SearchOps (List Nat) Dbl where
  layout := crossLayout
  fresh_copy := fun _ => []
  find_shortest_path := fun _ h => crossPath (h / 2)
  find_shortest_path_edge := fun _ e => crossPath e
  path_length := fun _ p => Dbl.mk2 (p.length - 1) 0
  embed_path := fun em h _ => some (h / 2 :: em)

/-! # Theorems -/

/-! ## Enumeration of label sets -/

theorem mem_ascending (s : Finset Nat) (x : Nat) : x ∈ ascending s ↔ x ∈ s := by
  simp only [ascending, List.mem_filter, List.mem_range, decide_eq_true_eq]
  constructor
  · exact fun h => h.2
  · intro h
    exact ⟨Nat.lt_succ_of_le (Finset.le_sup (f := id) h), h⟩

/-- The list `ascending s` is the sorted enumeration of `s`. -/
theorem ascending_eq_sort (s : Finset Nat) : ascending s = s.sort (· ≤ ·) := by
  apply List.eq_of_perm_of_sorted (r := (· ≤ ·))
  · apply (List.perm_ext_iff_of_nodup _ (Finset.sort_nodup _ _)).2
    · intro a
      rw [mem_ascending, Finset.mem_sort]
    · exact (List.nodup_range _).filter _
  · unfold ascending
    have hs : (List.range (s.sup id + 1)).Sorted (· ≤ ·) := (List.sorted_lt_range _).le_of_lt
    exact hs.filter _
  · exact Finset.sort_sorted _ _

/-! ## EmbeddingState: extend -/

section EmbeddingStateTheorems

variable {Em C : Type} [LinearOrderedAddCommMonoidWithTop C]

/-- C5. Failed tracing invalidates the state without committing anything: when the edge is not
yet embedded and `find_shortest_path` returns the empty path, `extend(edge)` returns with
`valid = false` and `embedded_cost = +infinity`, so that `cost_lower_bound()` is `+infinity`,
while the embedding and `embedded_l_edges` are what they were. -/
theorem extend_failed_tracing (ops : EmbeddingOps Em C) (l_e : Nat) (s : EmbeddingState Em C)
    (hnew : l_e ∉ s.embedded_l_edges)
    (hempty : ops.find_shortest_path s.em (ops.layout.halfedgeA l_e) = []) :
    ∃ s1, extend ops l_e s = Outcome.done s1 ∧ s1.valid = false ∧ s1.embedded_cost = ⊤ ∧
      cost_lower_bound s1 = ⊤ ∧ s1.em = s.em ∧ s1.embedded_l_edges = s.embedded_l_edges := by
  refine ⟨{ s with embedded_cost := ⊤, valid := false }, ?_, rfl, rfl, ?_, rfl, rfl⟩
  · simp [extend, hnew, hempty]
  · simp [cost_lower_bound]

/-- Witness for C5 on the small instance: edge `1` cannot be traced once edge `0` is embedded. -/
theorem extend_failed_tracing_witness :
    ∃ s1, extend toyOps 1 { toyState with em := [0], embedded_l_edges := {0} } = Outcome.done s1 ∧
      s1.valid = false ∧ s1.embedded_cost = ⊤ ∧ cost_lower_bound s1 = ⊤ ∧
      s1.em = [0] ∧ s1.embedded_l_edges = {0} :=
  extend_failed_tracing toyOps 1 { toyState with em := [0], embedded_l_edges := {0} }
    (by decide) (by decide)

end EmbeddingStateTheorems

section EmbeddingStateTheorems2

variable {Em C : Type} [Add C] [Zero C] [Top C]

/-- A run of `extend(edge, path)` that returns has committed the path by `embed_path` and
recorded the edge and the length of the path. -/
theorem extend_path_commits (ops : EmbeddingOps Em C) (l_e : Nat) (path : VirtualPath)
    (s s1 : EmbeddingState Em C) (h : extend_path ops l_e path s = Outcome.done s1) :
    ops.embed_path s.em (ops.layout.halfedgeA l_e) path = some s1.em ∧
    s1.embedded_l_edges = insert l_e s.embedded_l_edges ∧
    s1.embedded_cost = s.embedded_cost + ops.path_length s.em path := by
  unfold extend_path at h
  by_cases h1 : l_e ∈ s.embedded_l_edges
  · simp [h1] at h
  by_cases h2 : path.length < 2
  · simp [h1, h2] at h
  simp only [h1, h2, if_false] at h
  cases hf : path_at path 0 with
  | edge f => rw [hf] at h; simp at h
  | vertex f =>
      cases hb : path_at path (path.length - 1) with
      | edge b => rw [hf, hb] at h; simp at h
      | vertex b =>
          rw [hf, hb] at h
          simp only at h
          by_cases hfm : f = (ops.queries s.em).matching_target_vertex
              (ops.layout.vertex_from (ops.layout.halfedgeA l_e))
          · by_cases hbm : b = (ops.queries s.em).matching_target_vertex
                (ops.layout.vertex_to (ops.layout.halfedgeA l_e))
            · cases he : ops.embed_path s.em (ops.layout.halfedgeA l_e) path with
              | none => simp [hfm, hbm, he] at h
              | some em1 =>
                  simp only [ne_eq, hfm, hbm, not_true_eq_false, if_false, he,
                    Outcome.done.injEq] at h
                  subst h
                  exact ⟨rfl, rfl, rfl⟩
            · simp [hfm, hbm] at h
          · simp [hfm] at h

/-- C6. The method `extend(edge, path)` validates before it commits. Whenever the edge is already
in `embedded_l_edges`, or the path has fewer than two elements, or its first or last element is
not a real vertex, or the first element is not the matching target vertex of the source of
`halfedgeA`, or the last element is not the matching target vertex of its target, the run stops
in a fatal assertion with the object unchanged (so `embedded_cost`, the embedding and
`embedded_l_edges` are not modified). Hence a run that returns has committed, by `embed_path`, a
path of at least two elements whose ends are the two matching vertices. -/
theorem extend_path_validates (ops : EmbeddingOps Em C) (l_e : Nat) (path : VirtualPath)
    (s : EmbeddingState Em C) :
    ((l_e ∈ s.embedded_l_edges ∨ path.length < 2 ∨
        is_real_vertex (path_at path 0) = false ∨
        is_real_vertex (path_at path (path.length - 1)) = false ∨
        path_at path 0 ≠ VirtualVertex.vertex ((ops.queries s.em).matching_target_vertex
          (ops.layout.vertex_from (ops.layout.halfedgeA l_e))) ∨
        path_at path (path.length - 1) ≠ VirtualVertex.vertex
          ((ops.queries s.em).matching_target_vertex
            (ops.layout.vertex_to (ops.layout.halfedgeA l_e)))) →
      extend_path ops l_e path s = Outcome.fatal s) ∧
    (∀ s1, extend_path ops l_e path s = Outcome.done s1 →
      l_e ∉ s.embedded_l_edges ∧ 2 ≤ path.length ∧
      path_at path 0 = VirtualVertex.vertex ((ops.queries s.em).matching_target_vertex
          (ops.layout.vertex_from (ops.layout.halfedgeA l_e))) ∧
      path_at path (path.length - 1) = VirtualVertex.vertex
          ((ops.queries s.em).matching_target_vertex
            (ops.layout.vertex_to (ops.layout.halfedgeA l_e))) ∧
      ops.embed_path s.em (ops.layout.halfedgeA l_e) path = some s1.em ∧
      s1.embedded_l_edges = insert l_e s.embedded_l_edges ∧
      s1.embedded_cost = s.embedded_cost + ops.path_length s.em path) := by
  constructor
  · intro h
    unfold extend_path
    by_cases h1 : l_e ∈ s.embedded_l_edges
    · simp [h1]
    by_cases h2 : path.length < 2
    · simp [h1, h2]
    simp only [h1, h2, if_false]
    rcases h with h | h | h | h | h | h
    · exact absurd h h1
    · exact absurd h h2
    · cases hf : path_at path 0 with
      | vertex f => rw [hf] at h; simp [is_real_vertex] at h
      | edge f => rfl
    · cases hb : path_at path (path.length - 1) with
      | vertex b => rw [hb] at h; simp [is_real_vertex] at h
      | edge b => cases path_at path 0 <;> rfl
    · cases hf : path_at path 0 with
      | vertex f =>
          cases hb : path_at path (path.length - 1) with
          | vertex b =>
              have hne : f ≠ (ops.queries s.em).matching_target_vertex
                  (ops.layout.vertex_from (ops.layout.halfedgeA l_e)) := by
                intro he; apply h; rw [hf, he]
              simp [hne]
          | edge b => rfl
      | edge f => rfl
    · cases hf : path_at path 0 with
      | vertex f =>
          cases hb : path_at path (path.length - 1) with
          | vertex b =>
              have hne : b ≠ (ops.queries s.em).matching_target_vertex
                  (ops.layout.vertex_to (ops.layout.halfedgeA l_e)) := by
                intro he; apply h; rw [hb, he]
              by_cases hfm : f = (ops.queries s.em).matching_target_vertex
                  (ops.layout.vertex_from (ops.layout.halfedgeA l_e))
              · simp [hne, hfm]
              · simp [hfm]
          | edge b => rfl
      | edge f => rfl
  · intro s1 h
    unfold extend_path at h
    by_cases h1 : l_e ∈ s.embedded_l_edges
    · simp [h1] at h
    by_cases h2 : path.length < 2
    · simp [h1, h2] at h
    simp only [h1, h2, if_false] at h
    cases hf : path_at path 0 with
    | edge f => rw [hf] at h; simp at h
    | vertex f =>
        cases hb : path_at path (path.length - 1) with
        | edge b => rw [hf, hb] at h; simp at h
        | vertex b =>
            rw [hf, hb] at h
            simp only at h
            by_cases hfm : f = (ops.queries s.em).matching_target_vertex
                (ops.layout.vertex_from (ops.layout.halfedgeA l_e))
            · by_cases hbm : b = (ops.queries s.em).matching_target_vertex
                  (ops.layout.vertex_to (ops.layout.halfedgeA l_e))
              · cases he : ops.embed_path s.em (ops.layout.halfedgeA l_e) path with
                | none => simp [hfm, hbm, he] at h
                | some em1 =>
                    simp only [ne_eq, hfm, hbm, not_true_eq_false, if_false, he,
                      Outcome.done.injEq] at h
                    subst h
                    exact ⟨h1, by omega, by rw [hfm], by rw [hbm], rfl, rfl, rfl⟩
              · simp [hfm, hbm] at h
            · simp [hfm] at h

/-- Witness for C6 on the small instance: a one-element path is rejected with the state
unchanged, and the straight path of edge `0` is committed. -/
theorem extend_path_validates_witness :
    extend_path toyOps 0 [VirtualVertex.vertex 0] toyState = Outcome.fatal toyState ∧
    (extend_path toyOps 0 [VirtualVertex.vertex 0, VirtualVertex.vertex 1] toyState).isDone
      = true ∧
    (∀ s1, extend_path toyOps 0 [VirtualVertex.vertex 0, VirtualVertex.vertex 1] toyState
        = Outcome.done s1 → s1.embedded_l_edges = insert 0 toyState.embedded_l_edges) :=
  ⟨(extend_path_validates toyOps 0 [VirtualVertex.vertex 0] toyState).1
      (Or.inr (Or.inl (by decide))),
    by decide,
    fun s1 h =>
      ((extend_path_validates toyOps 0 [VirtualVertex.vertex 0, VirtualVertex.vertex 1]
        toyState).2 s1 h).2.2.2.2.2.1⟩

end EmbeddingStateTheorems2

/-! ## EmbeddingState: candidate paths -/

section CandidateTheorems

variable {Em C : Type} [Add C] [Zero C] [Top C]

/-- One round of the loop of `compute_candidate_paths`, in closed form. -/
theorem candidate_step_eq (ops : EmbeddingOps Em C) (t : EmbeddingState Em C) (e : Nat) :
    candidate_step ops t e =
      if e ∈ t.embedded_l_edges then t
      else
        { t with
          candidate_paths := Function.update t.candidate_paths e (some (trace_candidate ops t.em e))
          valid := t.valid && !(ops.find_shortest_path t.em (ops.layout.halfedgeA e)).isEmpty
          unembedded_cost := t.unembedded_cost + (trace_candidate ops t.em e).cost } := by
  unfold candidate_step trace_candidate
  by_cases h : e ∈ t.embedded_l_edges
  · simp [h]
  · by_cases hp : (ops.find_shortest_path t.em (ops.layout.halfedgeA e)).isEmpty = true
    · simp [h, hp]
    · simp [h, hp]

/-- The loop of `compute_candidate_paths` over a list of edges, field by field. -/
theorem foldl_candidate_step (ops : EmbeddingOps Em C) (es : List Nat) :
    ∀ t : EmbeddingState Em C,
      (es.foldl (candidate_step ops) t).em = t.em ∧
      (es.foldl (candidate_step ops) t).embedded_l_edges = t.embedded_l_edges ∧
      (es.foldl (candidate_step ops) t).conflicting_l_edges = t.conflicting_l_edges ∧
      (es.foldl (candidate_step ops) t).non_conflicting_l_edges = t.non_conflicting_l_edges ∧
      (es.foldl (candidate_step ops) t).embedded_cost = t.embedded_cost ∧
      (es.foldl (candidate_step ops) t).candidate_paths =
        (fun e => if e ∈ es ∧ e ∉ t.embedded_l_edges then some (trace_candidate ops t.em e)
          else t.candidate_paths e) ∧
      (es.foldl (candidate_step ops) t).unembedded_cost =
        (es.filter (fun e => e ∉ t.embedded_l_edges)).foldl
          (fun u e => u + (trace_candidate ops t.em e).cost) t.unembedded_cost ∧
      (es.foldl (candidate_step ops) t).valid =
        (t.valid && es.all (fun e => decide (e ∈ t.embedded_l_edges) ||
          !(ops.find_shortest_path t.em (ops.layout.halfedgeA e)).isEmpty)) := by
  induction es with
  | nil => intro t; simp
  | cons e es ih =>
      intro t
      rw [List.foldl_cons]
      obtain ⟨h1, h2, h3, h4, h5, h6, h7, h8⟩ := ih (candidate_step ops t e)
      rw [h1, h2, h3, h4, h5, h6, h7, h8]
      rw [candidate_step_eq]
      by_cases he : e ∈ t.embedded_l_edges
      · simp only [he, if_true]
        refine ⟨trivial, trivial, trivial, trivial, trivial, ?_, ?_, ?_⟩
        · funext x
          by_cases hx : x = e
          · subst hx; simp [he]
          · simp [hx]
        · simp [he]
        · simp [he]
      · simp only [he, if_false]
        refine ⟨trivial, trivial, trivial, trivial, trivial, ?_, ?_, ?_⟩
        · funext x
          by_cases hx : x = e
          · subst hx; simp [he]
          · simp [hx, Function.update_noteq hx]
        · simp [he]
        · simp [he, Bool.and_assoc]

/-- The fields of the object after `compute_candidate_paths()`. -/
theorem compute_candidate_paths_fields (ops : EmbeddingOps Em C) (s : EmbeddingState Em C) :
    (compute_candidate_paths ops s).em = s.em ∧
    (compute_candidate_paths ops s).embedded_l_edges = s.embedded_l_edges ∧
    (compute_candidate_paths ops s).conflicting_l_edges = s.conflicting_l_edges ∧
    (compute_candidate_paths ops s).non_conflicting_l_edges = s.non_conflicting_l_edges ∧
    (compute_candidate_paths ops s).embedded_cost = s.embedded_cost ∧
    (compute_candidate_paths ops s).candidate_paths =
      (fun e => if e ∈ List.range ops.layout.num_edges ∧ e ∉ s.embedded_l_edges then
          some (trace_candidate ops s.em e)
        else none) ∧
    (compute_candidate_paths ops s).unembedded_cost =
      ((List.range ops.layout.num_edges).filter (fun e => e ∉ s.embedded_l_edges)).foldl
        (fun u e => u + (trace_candidate ops s.em e).cost) 0 ∧
    (compute_candidate_paths ops s).valid =
      (s.valid && (List.range ops.layout.num_edges).all
        (fun e => decide (e ∈ s.embedded_l_edges) ||
          !(ops.find_shortest_path s.em (ops.layout.halfedgeA e)).isEmpty)) :=
  foldl_candidate_step ops (List.range ops.layout.num_edges)
    { s with candidate_paths := fun _ => none, unembedded_cost := 0 }

/-- C7. Re-tracing is idempotent: a second `compute_candidate_paths()` right after the first
leaves the whole object, in particular `candidate_paths`, `unembedded_cost`, `valid` and the
embedding, as the first call left it. -/
theorem compute_candidate_paths_idempotent (ops : EmbeddingOps Em C)
    (s : EmbeddingState Em C) :
    compute_candidate_paths ops (compute_candidate_paths ops s) =
      compute_candidate_paths ops s := by
  obtain ⟨h1, h2, h3, h4, h5, h6, h7, h8⟩ := compute_candidate_paths_fields ops s
  obtain ⟨g1, g2, g3, g4, g5, g6, g7, g8⟩ :=
    compute_candidate_paths_fields ops (compute_candidate_paths ops s)
  apply EmbeddingState.ext
  · exact g1
  · exact g2
  · rw [g6, h6, h1, h2]
  · exact g3
  · exact g4
  · exact g5
  · rw [g7, h7, h1, h2]
  · rw [g8, h8, h1, h2]
    simp [Bool.and_assoc]

end CandidateTheorems

section CandidateSumTheorems

variable {Em C : Type} [LinearOrderedAddCommMonoidWithTop C]

/-- With exact sums the additions of `compute_candidate_paths()` give the sum over the set of
the layout edges that are not embedded. -/
theorem unembedded_cost_sum (ops : EmbeddingOps Em C) (s : EmbeddingState Em C) :
    (compute_candidate_paths ops s).unembedded_cost =
      ∑ e in (Finset.range ops.layout.num_edges).filter (fun e => e ∉ s.embedded_l_edges),
        (trace_candidate ops s.em e).cost := by
  obtain ⟨_, _, _, _, _, _, h7, _⟩ := compute_candidate_paths_fields ops s
  rw [h7, ← List.foldl_map (fun e => (trace_candidate ops s.em e).cost) (· + ·),
    ← List.sum_eq_foldl, ← List.sum_toFinset _ ((List.nodup_range _).filter _)]
  congr 1
  ext x
  simp

end CandidateSumTheorems

/-! ## EmbeddingState: admissibility of the lower bound -/

section ExtendCases

variable {Em C : Type} [Add C] [Zero C] [Top C]

/-- The two ways in which `extend(e)` returns. -/
theorem extend_done (ops : EmbeddingOps Em C) (l_e : Nat) (s s1 : EmbeddingState Em C)
    (h : extend ops l_e s = Outcome.done s1) :
    l_e ∉ s.embedded_l_edges ∧
    ((ops.find_shortest_path s.em (ops.layout.halfedgeA l_e) = [] ∧
        s1 = { s with embedded_cost := ⊤, valid := false }) ∨
      (ops.find_shortest_path s.em (ops.layout.halfedgeA l_e) ≠ [] ∧
        ∃ em1, ops.embed_path s.em (ops.layout.halfedgeA l_e)
            (ops.find_shortest_path s.em (ops.layout.halfedgeA l_e)) = some em1 ∧
          s1 = { s with
            embedded_cost := s.embedded_cost + ops.path_length s.em
              (ops.find_shortest_path s.em (ops.layout.halfedgeA l_e))
            em := em1
            embedded_l_edges := insert l_e s.embedded_l_edges })) := by
  unfold extend at h
  by_cases h1 : l_e ∈ s.embedded_l_edges
  · simp [h1] at h
  refine ⟨h1, ?_⟩
  simp only [h1, if_false] at h
  cases hp : ops.find_shortest_path s.em (ops.layout.halfedgeA l_e) with
  | nil =>
      left
      rw [hp] at h
      simp only [List.isEmpty_nil, if_true, Outcome.done.injEq] at h
      exact ⟨rfl, h.symm⟩
  | cons a r =>
      right
      rw [hp] at h
      simp only [List.isEmpty_cons, Bool.false_eq_true, if_false] at h
      refine ⟨by simp, ?_⟩
      cases he : ops.embed_path s.em (ops.layout.halfedgeA l_e) (a :: r) with
      | none => rw [he] at h; simp at h
      | some em1 =>
          rw [he] at h
          simp only [Outcome.done.injEq] at h
          exact ⟨em1, rfl, h.symm⟩

end ExtendCases

section AdmissibilityTheorems

variable {Em C : Type} [LinearOrderedAddCommMonoidWithTop C]

/-- Once `embedded_cost` is `+infinity` it stays so under further `extend` calls. -/
theorem extend_calls_top (ops : EmbeddingOps Em C) (es : List Nat) :
    ∀ s sf : EmbeddingState Em C, s.embedded_cost = ⊤ →
      extend_calls ops es s = Outcome.done sf → sf.embedded_cost = ⊤ := by
  induction es with
  | nil =>
      intro s sf htop h
      simp only [extend_calls, Outcome.done.injEq] at h
      rw [← h]; exact htop
  | cons e es ih =>
      intro s sf htop h
      unfold extend_calls at h
      cases hx : extend ops e s with
      | timeout => rw [hx] at h; simp at h
      | fatal s1 => rw [hx] at h; simp at h
      | done s1 =>
          rw [hx] at h
          simp only at h
          apply ih s1 sf _ h
          obtain ⟨_, ⟨_, hs1⟩ | ⟨_, em1, _, hs1⟩⟩ := extend_done ops e s s1 hx
          · rw [hs1]
          · rw [hs1]
            simp [htop]

/-- The candidate cost of the edges that further `extend` calls commit, summed over any set of
edges all of which get committed, stays below the cost the calls add. -/
theorem extend_calls_cost_le (ops : EmbeddingOps Em C)
    (hmono : ∀ em e em1, ops.embed_path em (ops.layout.halfedgeA e)
        (ops.find_shortest_path em (ops.layout.halfedgeA e)) = some em1 →
      ∀ e1, e1 ≠ e → (trace_candidate ops em e1).cost ≤ (trace_candidate ops em1 e1).cost)
    (es : List Nat) :
    ∀ (s sf : EmbeddingState Em C) (S : Finset Nat) (f : Nat → C),
      extend_calls ops es s = Outcome.done sf →
      (∀ e ∈ es, e ∈ S ∨ e ∈ s.embedded_l_edges) →
      (∀ e ∈ S, e ∉ s.embedded_l_edges ∧ e ∈ sf.embedded_l_edges) →
      (∀ e ∈ S, f e ≤ (trace_candidate ops s.em e).cost) →
      s.embedded_cost + ∑ e in S, f e ≤ sf.embedded_cost := by
  induction es with
  | nil =>
      intro s sf S f h _ hS _
      simp only [extend_calls, Outcome.done.injEq] at h
      subst h
      have hempty : S = ∅ := by
        apply Finset.eq_empty_of_forall_not_mem
        intro e he
        exact (hS e he).1 (hS e he).2
      simp [hempty]
  | cons e es ih =>
      intro s sf S f h hes hS hf
      unfold extend_calls at h
      cases hx : extend ops e s with
      | timeout => rw [hx] at h; simp at h
      | fatal s1 => rw [hx] at h; simp at h
      | done s1 =>
          rw [hx] at h
          simp only at h
          obtain ⟨hnew, ⟨_, hs1⟩ | ⟨hne, em1, hem, hs1⟩⟩ := extend_done ops e s s1 hx
          · have htop : sf.embedded_cost = ⊤ := extend_calls_top ops es s1 sf (by rw [hs1]) h
            rw [htop]
            exact le_top
          · have hemb1 : s1.embedded_l_edges = insert e s.embedded_l_edges := by rw [hs1]
            have hem1 : s1.em = em1 := by rw [hs1]
            have hcost1 : s1.embedded_cost = s.embedded_cost + ops.path_length s.em
                (ops.find_shortest_path s.em (ops.layout.halfedgeA e)) := by rw [hs1]
            have heS : e ∈ S := by
              rcases hes e (List.mem_cons_self _ _) with h1 | h1
              · exact h1
              · exact absurd h1 hnew
            have hih := ih s1 sf (S.erase e) f h
              (by
                intro x hx
                by_cases hxe : x = e
                · right; rw [hemb1, hxe]; exact Finset.mem_insert_self _ _
                · rcases hes x (List.mem_cons_of_mem _ hx) with h1 | h1
                  · left; exact Finset.mem_erase.2 ⟨hxe, h1⟩
                  · right; rw [hemb1]; exact Finset.mem_insert_of_mem h1)
              (by
                intro x hx
                obtain ⟨hxe, hxS⟩ := Finset.mem_erase.1 hx
                refine ⟨?_, (hS x hxS).2⟩
                rw [hemb1, Finset.mem_insert]
                rintro (h1 | h1)
                · exact hxe h1
                · exact (hS x hxS).1 h1)
              (by
                intro x hx
                obtain ⟨hxe, hxS⟩ := Finset.mem_erase.1 hx
                rw [hem1]
                exact (hf x hxS).trans (hmono s.em e em1 hem x hxe))
            have hfe : f e ≤ ops.path_length s.em
                (ops.find_shortest_path s.em (ops.layout.halfedgeA e)) := by
              have h2 := hf e heS
              unfold trace_candidate at h2
              have h3 : (ops.find_shortest_path s.em (ops.layout.halfedgeA e)).isEmpty = false := by
                cases hq : ops.find_shortest_path s.em (ops.layout.halfedgeA e) with
                | nil => exact absurd hq hne
                | cons a r => rfl
              simpa [h3] using h2
            calc s.embedded_cost + ∑ x in S, f x
                = s.embedded_cost + (f e + ∑ x in S.erase e, f x) := by
                  rw [Finset.add_sum_erase S f heS]
              _ = (s.embedded_cost + f e) + ∑ x in S.erase e, f x := by rw [add_assoc]
              _ ≤ (s.embedded_cost + ops.path_length s.em
                    (ops.find_shortest_path s.em (ops.layout.halfedgeA e)))
                    + ∑ x in S.erase e, f x := by
                  exact add_le_add_right (add_le_add_left hfe _) _
              _ = s1.embedded_cost + ∑ x in S.erase e, f x := by rw [hcost1]
              _ ≤ sf.embedded_cost := hih

/-- With exact sums the lower bound is admissible. Let `compute_candidate_paths()` have been
run (no commit since), and let a complete state be reached from there by further calls
`extend(e)` on layout edges. If committing a traced path never shortens the candidate of
another layout edge, then the sum of `embedded_cost` and `unembedded_cost` of the first state
is at most `embedded_cost` of the complete state, for costs that add up without rounding. -/
theorem admissible_for_exact_sums (ops : EmbeddingOps Em C)
    (s0 sf : EmbeddingState Em C) (es : List Nat)
    (hmono : ∀ em e em1, ops.embed_path em (ops.layout.halfedgeA e)
        (ops.find_shortest_path em (ops.layout.halfedgeA e)) = some em1 →
      ∀ e1, e1 ≠ e → (trace_candidate ops em e1).cost ≤ (trace_candidate ops em1 e1).cost)
    (hes : ∀ e ∈ es, e < ops.layout.num_edges)
    (hrun : extend_calls ops es (compute_candidate_paths ops s0) = Outcome.done sf)
    (hcomplete : ∀ e, e < ops.layout.num_edges → e ∈ sf.embedded_l_edges) :
    cost_lower_bound (compute_candidate_paths ops s0) ≤ sf.embedded_cost := by
  have hsum := unembedded_cost_sum ops s0
  obtain ⟨hem, hemb, _⟩ := compute_candidate_paths_fields ops s0
  unfold cost_lower_bound
  rw [hsum]
  apply extend_calls_cost_le ops hmono es _ sf _ _ hrun
  · intro e he
    by_cases hm : e ∈ s0.embedded_l_edges
    · right; rw [hemb]; exact hm
    · left
      exact Finset.mem_filter.2 ⟨Finset.mem_range.2 (hes e he), hm⟩
  · intro e he
    obtain ⟨h1, h2⟩ := Finset.mem_filter.1 he
    refine ⟨?_, hcomplete e (Finset.mem_range.1 h1)⟩
    rw [hemb]; exact h2
  · intro e _
    rw [hem]

/-- Candidate costs in the small instance. -/
theorem toyOps_cost (em : List Nat) (e1 : Nat) :
    (trace_candidate toyOps em e1).cost = if e1 = 1 ∧ 0 ∈ em then ⊤ else 1 := by
  have hdiv : 2 * e1 / 2 = e1 := by omega
  unfold trace_candidate
  simp only [toyOps, toyLayout, hdiv]
  by_cases c1 : e1 = 1 ∧ 0 ∈ em
  · simp [c1]
  · simp [c1]

/-- In the small instance committing an edge never shortens another candidate. -/
theorem toyOps_monotone (em : List Nat) (e : Nat) (em1 : List Nat)
    (h : toyOps.embed_path em (toyOps.layout.halfedgeA e)
      (toyOps.find_shortest_path em (toyOps.layout.halfedgeA e)) = some em1)
    (e1 : Nat) (_ : e1 ≠ e) :
    (trace_candidate toyOps em e1).cost ≤ (trace_candidate toyOps em1 e1).cost := by
  have key : ∀ hh p, toyOps.embed_path em hh p = some em1 → em1 = hh / 2 :: em := by
    intro hh p hq
    simp only [toyOps] at hq
    by_cases c : hh / 2 ∈ em ∨ p.length < 2
    · rw [if_pos c] at hq; simp at hq
    · rw [if_neg c] at hq; exact (Option.some.inj hq).symm
  have hem1 : ∃ x, em1 = x :: em := ⟨_, key _ _ h⟩
  obtain ⟨x, rfl⟩ := hem1
  rw [toyOps_cost, toyOps_cost]
  by_cases c1 : e1 = 1 ∧ 0 ∈ x :: em
  · rw [if_pos c1]; exact le_top
  · have c2 : ¬ (e1 = 1 ∧ 0 ∈ em) := fun hc =>
      c1 ⟨hc.1, List.mem_cons_of_mem _ hc.2⟩
    rw [if_neg c1, if_neg c2]

end AdmissibilityTheorems

/-! ## Sentinel: marking conflicts -/

theorem minmax_comm (a b : Nat) : minmax a b = minmax b a := by
  unfold minmax
  by_cases h1 : b < a
  · have h2 : ¬ a < b := by omega
    simp [h1, h2]
  · by_cases h2 : a < b
    · simp [h1, h2]
    · have : a = b := by omega
      subst this; rfl

theorem minmax_eq (a b : Nat) : minmax a b = (min a b, max a b) := by
  unfold minmax
  by_cases h1 : b < a
  · simp [h1, Nat.min_eq_right (Nat.le_of_lt h1), Nat.max_eq_left (Nat.le_of_lt h1)]
  · have h2 : a ≤ b := by omega
    simp [h1, Nat.min_eq_left h2, Nat.max_eq_right h2]

theorem minmax_lt (a b : Nat) (h : a ≠ b) : (minmax a b).1 < (minmax a b).2 := by
  rw [minmax_eq]
  simp only [min_lt_max]
  exact h

theorem minmax_cases (a b : Nat) : minmax a b = (a, b) ∨ minmax a b = (b, a) := by
  unfold minmax
  by_cases h1 : b < a
  · right; simp [h1]
  · left; simp [h1]

theorem mark_conflicting_labels (a b : Nat) (s : Sentinel) :
    (mark_conflicting a b s).v_label = s.v_label ∧ (mark_conflicting a b s).e_label = s.e_label ∧
    (mark_conflicting a b s).f_label = s.f_label ∧ (mark_conflicting a b s).l_port = s.l_port ∧
    (mark_conflicting a b s).t_port = s.t_port := by
  unfold mark_conflicting
  by_cases h : a = b
  · simp [h]
  · simp [h]

theorem mark_conflicting_labels_at (a b : Nat) (s : Sentinel) (el : Element) :
    (mark_conflicting a b s).labels_at el = s.labels_at el := by
  obtain ⟨h1, h2, h3, _, _⟩ := mark_conflicting_labels a b s
  cases el <;> simp [Sentinel.labels_at, h1, h2, h3]

theorem Grows.refl (s : Sentinel) : Grows s s :=
  ⟨fun _ => Finset.Subset.refl _, Finset.Subset.refl _, Finset.Subset.refl _⟩

theorem Grows.trans {s1 s2 s3 : Sentinel} (h1 : Grows s1 s2) (h2 : Grows s2 s3) : Grows s1 s3 :=
  ⟨fun el => (h1.labels el).trans (h2.labels el), h1.conflicts.trans h2.conflicts,
    h1.relation.trans h2.relation⟩

theorem mark_conflicting_grows (a b : Nat) (s : Sentinel) : Grows s (mark_conflicting a b s) := by
  refine ⟨fun el => ?_, ?_, ?_⟩
  · rw [mark_conflicting_labels_at]
  · unfold mark_conflicting
    by_cases h : a = b
    · simp [h]
    · simp only [h, if_false]
      intro x hx
      exact Finset.mem_insert_of_mem (Finset.mem_insert_of_mem hx)
  · unfold mark_conflicting
    by_cases h : a = b
    · simp [h]
    · simp only [h, if_false]
      intro x hx
      exact Finset.mem_insert_of_mem hx

/-- What `mark_conflicting(a, b)` records for distinct labels. -/
theorem mark_conflicting_records (a b : Nat) (s : Sentinel) (h : a ≠ b) :
    a ∈ (mark_conflicting a b s).global_conflicts ∧
    b ∈ (mark_conflicting a b s).global_conflicts ∧
    minmax a b ∈ (mark_conflicting a b s).global_conflict_relation := by
  unfold mark_conflicting
  simp [h]

theorem mark_conflicting_inv (U : Nat → Prop) (a b : Nat) (s : Sentinel)
    (ha : U a) (hb : U b) (hs : Inv U s) : Inv U (mark_conflicting a b s) := by
  by_cases h : a = b
  · unfold mark_conflicting; simp only [h, if_true]; exact hs
  have hg := mark_conflicting_grows a b s
  obtain ⟨r1, r2, r3⟩ := mark_conflicting_records a b s h
  have hgc : ∀ x, x ∈ (mark_conflicting a b s).global_conflicts ↔
      x = b ∨ x = a ∨ x ∈ s.global_conflicts := by
    intro x; unfold mark_conflicting; simp [h]
  have hrel : ∀ p, p ∈ (mark_conflicting a b s).global_conflict_relation ↔
      p = minmax a b ∨ p ∈ s.global_conflict_relation := by
    intro p; unfold mark_conflicting; simp [h]
  obtain ⟨_, _, _, _, k5⟩ := mark_conflicting_labels a b s
  refine ⟨?_, ?_, ?_, ?_, ?_, ?_⟩
  · intro el l hl
    rw [mark_conflicting_labels_at] at hl
    exact hs.labels_in el l hl
  · intro vv l hl
    rw [k5] at hl
    exact hs.ports_in vv l hl
  · intro l hl
    rcases (hgc l).1 hl with h1 | h1 | h1
    · rw [h1]; exact hb
    · rw [h1]; exact ha
    · exact hs.conflicts_in l h1
  · intro p hp
    rcases (hrel p).1 hp with h1 | h1
    · rw [h1]; exact minmax_lt a b h
    · exact hs.pair_sorted p h1
  · intro p hp
    rcases (hrel p).1 hp with h1 | h1
    · rw [h1]
      rcases minmax_cases a b with h2 | h2 <;> rw [h2]
      · exact ⟨r1, r2⟩
      · exact ⟨r2, r1⟩
    · exact ⟨hg.conflicts (hs.pair_members p h1).1, hg.conflicts (hs.pair_members p h1).2⟩
  · intro x hx
    rcases (hgc x).1 hx with h1 | h1 | h1
    · refine ⟨minmax a b, r3, ?_⟩
      rcases minmax_cases a b with h2 | h2 <;> rw [h2, h1]
      · right; rfl
      · left; rfl
    · refine ⟨minmax a b, r3, ?_⟩
      rcases minmax_cases a b with h2 | h2 <;> rw [h2, h1]
      · left; rfl
      · right; rfl
    · obtain ⟨p, hp, hpa⟩ := hs.covered x h1
      exact ⟨p, hg.relation hp, hpa⟩

/-! ## Sentinel: recording elements -/

theorem foldl_preserve {α : Type} (P : Sentinel → Prop) (f : Sentinel → α → Sentinel)
    (xs : List α) (h : ∀ s x, x ∈ xs → P s → P (f s x)) :
    ∀ s, P s → P (xs.foldl f s) := by
  induction xs with
  | nil => intro s hs; exact hs
  | cons x xs ih =>
      intro s hs
      rw [List.foldl_cons]
      exact ih (fun s1 y hy => h s1 y (List.mem_cons_of_mem _ hy)) _
        (h s x (List.mem_cons_self _ _) hs)

theorem foldl_grows {α : Type} (f : Sentinel → α → Sentinel) (xs : List α)
    (h : ∀ s x, Grows s (f s x)) : ∀ s, Grows s (xs.foldl f s) := by
  induction xs with
  | nil => intro s; exact Grows.refl s
  | cons x xs ih =>
      intro s
      rw [List.foldl_cons]
      exact (h s x).trans (ih _)

/-- A fact established by the round for `x` and kept by every round holds after the loop. -/
theorem foldl_records {α : Type} (Q : Sentinel → Prop) (f : Sentinel → α → Sentinel)
    (xs : List α) (x : α) (hx : x ∈ xs) (hset : ∀ s, Q (f s x)) (hkeep : ∀ s y, Q s → Q (f s y)) :
    ∀ s, Q (xs.foldl f s) := by
  induction xs with
  | nil => simp at hx
  | cons y ys ih =>
      intro s
      rw [List.foldl_cons]
      rcases List.mem_cons.1 hx with h1 | h1
      · subst h1
        exact foldl_preserve Q f ys (fun s1 z _ hq => hkeep s1 z hq) _ (hset s)
      · exact ih h1 _

theorem mark_all_grows (l : Nat) (labels : Finset Nat) (s : Sentinel) :
    Grows s (mark_all l labels s) :=
  foldl_grows _ _ (fun s1 x => mark_conflicting_grows l x s1) s

theorem mark_all_labels (l : Nat) (labels : Finset Nat) (s : Sentinel) :
    (mark_all l labels s).v_label = s.v_label ∧ (mark_all l labels s).e_label = s.e_label ∧
    (mark_all l labels s).f_label = s.f_label ∧ (mark_all l labels s).l_port = s.l_port ∧
    (mark_all l labels s).t_port = s.t_port := by
  unfold mark_all
  apply foldl_preserve (fun s1 => s1.v_label = s.v_label ∧ s1.e_label = s.e_label ∧
    s1.f_label = s.f_label ∧ s1.l_port = s.l_port ∧ s1.t_port = s.t_port)
  · intro s1 x _ h
    obtain ⟨k1, k2, k3, k4, k5⟩ := mark_conflicting_labels l x s1
    exact ⟨k1.trans h.1, k2.trans h.2.1, k3.trans h.2.2.1, k4.trans h.2.2.2.1,
      k5.trans h.2.2.2.2⟩
  · exact ⟨rfl, rfl, rfl, rfl, rfl⟩

theorem mark_all_inv (U : Nat → Prop) (l : Nat) (labels : Finset Nat) (s : Sentinel)
    (hl : U l) (hlabels : ∀ x ∈ labels, U x) (hs : Inv U s) : Inv U (mark_all l labels s) := by
  unfold mark_all
  apply foldl_preserve (Inv U) _ _ _ s hs
  intro s1 x hx h1
  exact mark_conflicting_inv U l x s1 hl (hlabels x ((mem_ascending labels x).1 hx)) h1

theorem mark_all_records (l l1 : Nat) (labels : Finset Nat) (s : Sentinel)
    (hmem : l1 ∈ labels) (hne : l1 ≠ l) :
    l ∈ (mark_all l labels s).global_conflicts ∧ l1 ∈ (mark_all l labels s).global_conflicts ∧
    minmax l l1 ∈ (mark_all l labels s).global_conflict_relation := by
  unfold mark_all
  apply foldl_records (fun s1 => l ∈ s1.global_conflicts ∧ l1 ∈ s1.global_conflicts ∧
    minmax l l1 ∈ s1.global_conflict_relation) _ _ l1 ((mem_ascending labels l1).2 hmem)
  · intro s1
    exact mark_conflicting_records l l1 s1 (Ne.symm hne)
  · intro s1 y h
    have hg := mark_conflicting_grows l y s1
    exact ⟨hg.conflicts h.1, hg.conflicts h.2.1, hg.relation h.2.2⟩

/-- The three overloads of `insert` in one form. -/
theorem insert_element_fields (el : Element) (l : Nat) (s : Sentinel) :
    (∀ el1, (insert_element el l s).labels_at el1 =
      if el1 = el then insert l (s.labels_at el) else s.labels_at el1) ∧
    (insert_element el l s).global_conflicts
      = (mark_all l (s.labels_at el) s).global_conflicts ∧
    (insert_element el l s).global_conflict_relation
      = (mark_all l (s.labels_at el) s).global_conflict_relation ∧
    (insert_element el l s).t_port = s.t_port ∧
    (insert_element el l s).l_port = s.l_port := by
  cases el with
  | vertexEl v =>
      obtain ⟨k1, k2, k3, k4, k5⟩ := mark_all_labels l (s.v_label v) s
      refine ⟨?_, rfl, rfl, k5, k4⟩
      intro el1
      cases el1 with
      | vertexEl w =>
          by_cases hw : w = v
          · subst hw; simp [insert_element, insert_vertex, Sentinel.labels_at, k1]
          · simp [insert_element, insert_vertex, Sentinel.labels_at, k1, hw]
      | edgeEl w => simp [insert_element, insert_vertex, Sentinel.labels_at, k2]
      | faceEl w => simp [insert_element, insert_vertex, Sentinel.labels_at, k3]
  | edgeEl v =>
      obtain ⟨k1, k2, k3, k4, k5⟩ := mark_all_labels l (s.e_label v) s
      refine ⟨?_, rfl, rfl, k5, k4⟩
      intro el1
      cases el1 with
      | edgeEl w =>
          by_cases hw : w = v
          · subst hw; simp [insert_element, insert_edge, Sentinel.labels_at, k2]
          · simp [insert_element, insert_edge, Sentinel.labels_at, k2, hw]
      | vertexEl w => simp [insert_element, insert_edge, Sentinel.labels_at, k1]
      | faceEl w => simp [insert_element, insert_edge, Sentinel.labels_at, k3]
  | faceEl v =>
      obtain ⟨k1, k2, k3, k4, k5⟩ := mark_all_labels l (s.f_label v) s
      refine ⟨?_, rfl, rfl, k5, k4⟩
      intro el1
      cases el1 with
      | faceEl w =>
          by_cases hw : w = v
          · subst hw; simp [insert_element, insert_face, Sentinel.labels_at, k3]
          · simp [insert_element, insert_face, Sentinel.labels_at, k3, hw]
      | vertexEl w => simp [insert_element, insert_face, Sentinel.labels_at, k1]
      | edgeEl w => simp [insert_element, insert_face, Sentinel.labels_at, k2]

theorem insert_element_grows (el : Element) (l : Nat) (s : Sentinel) :
    Grows s (insert_element el l s) := by
  obtain ⟨h1, h2, h3, _, _⟩ := insert_element_fields el l s
  have hg := mark_all_grows l (s.labels_at el) s
  refine ⟨fun el1 => ?_, ?_, ?_⟩
  · rw [h1]
    by_cases he : el1 = el
    · rw [if_pos he, he]; exact Finset.subset_insert _ _
    · rw [if_neg he]
  · rw [h2]; exact hg.conflicts
  · rw [h3]; exact hg.relation

theorem insert_element_registers (el : Element) (l : Nat) (s : Sentinel) :
    l ∈ (insert_element el l s).labels_at el := by
  rw [(insert_element_fields el l s).1]
  simp

theorem insert_element_detects (el : Element) (l l1 : Nat) (s : Sentinel)
    (hmem : l1 ∈ s.labels_at el) (hne : l1 ≠ l) :
    l ∈ (insert_element el l s).global_conflicts ∧
    l1 ∈ (insert_element el l s).global_conflicts ∧
    minmax l l1 ∈ (insert_element el l s).global_conflict_relation := by
  obtain ⟨_, h2, h3, _, _⟩ := insert_element_fields el l s
  rw [h2, h3]
  exact mark_all_records l l1 _ s hmem hne

theorem insert_element_inv (U : Nat → Prop) (el : Element) (l : Nat) (s : Sentinel)
    (hl : U l) (hs : Inv U s) : Inv U (insert_element el l s) := by
  obtain ⟨h1, h2, h3, h4, _⟩ := insert_element_fields el l s
  have hm := mark_all_inv U l (s.labels_at el) s hl (hs.labels_in el) hs
  refine ⟨?_, ?_, ?_, ?_, ?_, ?_⟩
  · intro el1 x hx
    rw [h1] at hx
    by_cases he : el1 = el
    · rw [if_pos he] at hx
      rcases Finset.mem_insert.1 hx with h5 | h5
      · rw [h5]; exact hl
      · exact hs.labels_in el x h5
    · rw [if_neg he] at hx
      exact hs.labels_in el1 x hx
  · intro vv x hx
    rw [h4] at hx
    exact hs.ports_in vv x hx
  · intro x hx; rw [h2] at hx; exact hm.conflicts_in x hx
  · intro p hp; rw [h3] at hp; exact hm.pair_sorted p hp
  · intro p hp; rw [h3] at hp; rw [h2]; exact hm.pair_members p hp
  · intro a ha; rw [h2] at ha; rw [h3]; exact hm.covered a ha

theorem insert_virtual_vertex_eq (vv : VirtualVertex) (l : Nat) (s : Sentinel) :
    insert_virtual_vertex vv l s = insert_element (element_of_vertex vv) l s := by
  cases vv <;> rfl

theorem insert_segment_eq (T : TargetQueries) (a b : VirtualVertex) (l : Nat) (s : Sentinel) :
    insert_segment T a b l s =
      match segment_element T a b with
      | none => Res.fatal
      | some se => Res.done (insert_element (element_of_segment se) l s) := by
  unfold insert_segment
  cases segment_element T a b with
  | none => rfl
  | some se => cases se <;> rfl

theorem insert_segments_eq (T : TargetQueries) (l : Nat)
    (segs : List (VirtualVertex × VirtualVertex)) :
    ∀ s s1, insert_segments T l segs s = Res.done s1 →
      s1 = (segs.filterMap
        (fun a => (segment_element T a.1 a.2).map element_of_segment)).foldl
          (fun st el => insert_element el l st) s := by
  induction segs with
  | nil =>
      intro s s1 h
      simp only [insert_segments, Res.done.injEq] at h
      simp [h]
  | cons a segs ih =>
      intro s s1 h
      obtain ⟨a1, a2⟩ := a
      unfold insert_segments at h
      rw [insert_segment_eq] at h
      cases hse : segment_element T a1 a2 with
      | none => rw [hse] at h; simp at h
      | some se =>
          rw [hse] at h
          simp only at h
          rw [ih _ _ h]
          simp [hse]

/-- A returning `insert_path` has recorded the path on its elements, one `insert` after the
other, and then recorded the two ports. -/
theorem insert_path_eq (L : LayoutMesh) (T : TargetQueries) (p : VirtualPath) (l : Nat)
    (s s1 : Sentinel) (h : insert_path L T p l s = Res.done s1) :
    2 ≤ p.length ∧
    record_ports L T p l
      ((path_elements T p).foldl (fun st el => insert_element el l st) s) = Res.done s1 := by
  unfold insert_path at h
  by_cases hlen : p.length < 2
  · simp [hlen] at h
  simp only [hlen, if_false] at h
  refine ⟨by omega, ?_⟩
  cases hseg : insert_segments T l (segments p)
      ((interior p).foldl (fun st vv => insert_virtual_vertex vv l st) s) with
  | fatal => rw [hseg] at h; simp at h
  | timeout => rw [hseg] at h; simp at h
  | done s2 =>
      rw [hseg] at h
      simp only at h
      rw [← h]
      congr 1
      rw [insert_segments_eq T l _ _ _ hseg]
      unfold path_elements
      rw [List.foldl_append, List.foldl_map]
      congr 1
      congr 1
      funext st vv
      exact (insert_virtual_vertex_eq vv l st).symm

/-! ## Sentinel: what the ordering sweep can change -/

section SweepPreserves

variable (P : Sentinel → Prop) (U : Nat → Prop)

/-- A property kept by `mark_conflicting` on labels from `U` or from `t_port` is kept by the
loop over a label set. -/
theorem mark_all_preserves
    (hP : ∀ a b s, U a → (U b ∨ ∃ vv, b ∈ s.t_port vv) → P s → P (mark_conflicting a b s))
    (l : Nat) (labels : Finset Nat) (s : Sentinel) (hl : U l)
    (hlabels : ∀ x ∈ labels, U x ∨ ∃ vv, x ∈ s.t_port vv) (hs : P s) :
    P (mark_all l labels s) := by
  have h := foldl_preserve (fun s1 => P s1 ∧ s1.t_port = s.t_port)
    (fun st prev_l => mark_conflicting l prev_l st) (ascending labels)
    (by
      intro s1 x hx h1
      refine ⟨hP l x s1 hl ?_ h1.1, ?_⟩
      · rcases hlabels x ((mem_ascending labels x).1 hx) with h2 | ⟨vv, h2⟩
        · exact Or.inl h2
        · exact Or.inr ⟨vv, by rw [h1.2]; exact h2⟩
      · exact (mark_conflicting_labels l x s1).2.2.2.2.trans h1.2)
    s ⟨hs, rfl⟩
  exact h.1

theorem sweep_cw_preserves
    (hP : ∀ a b s, U a → (U b ∨ ∃ vv, b ∈ s.t_port vv) → P s → P (mark_conflicting a b s))
    (T : TargetQueries) (l : Nat) (hl : U l) (end_ : VirtualPort) :
    ∀ (fuel : Nat) (start : VirtualPort) (s s1 : Sentinel) (p : VirtualPort),
      P s → sweep_cw T l fuel start end_ s = Res.done (s1, p) → P s1 := by
  intro fuel
  induction fuel with
  | zero =>
      intro start s s1 p hs h
      unfold sweep_cw at h
      by_cases he : start = end_
      · simp only [he, if_true, Res.done.injEq, Prod.mk.injEq] at h
        rw [← h.1]; exact hs
      · simp [he] at h
  | succ n ih =>
      intro start s s1 p hs h
      unfold sweep_cw at h
      by_cases he : start = end_
      · simp only [he, if_true, Res.done.injEq, Prod.mk.injEq] at h
        rw [← h.1]; exact hs
      · simp only [he, if_false] at h
        cases hb : port_on_blocked_edge T (T.port_rotated_cw start) with
        | fatal => rw [hb] at h; simp at h
        | timeout => rw [hb] at h; simp at h
        | done b =>
            rw [hb] at h
            cases b with
            | true => simp at h
            | false =>
                simp only at h
                refine ih _ _ _ _ ?_ h
                exact mark_all_preserves P U hP l _ s hl (fun x hx => Or.inr ⟨_, hx⟩) hs

theorem mark_and_sweep_preserves
    (hP : ∀ a b s, U a → (U b ∨ ∃ vv, b ∈ s.t_port vv) → P s → P (mark_conflicting a b s))
    (T : TargetQueries) (fuel : Nat) (start end_ : VirtualPort) (l : Nat) (hl : U l)
    (s s1 : Sentinel) (p : VirtualPort) (hs : P s)
    (h : mark_and_sweep_cw_in_sector T fuel start end_ l s = Res.done (s1, p)) : P s1 := by
  unfold mark_and_sweep_cw_in_sector at h
  by_cases hf : start.from_v ≠ end_.from_v
  · simp [hf] at h
  · simp only [hf, if_false] at h
    refine sweep_cw_preserves P U hP T l hl end_ fuel start _ s1 p ?_ h
    exact mark_all_preserves P U hP l _ s hl (fun x hx => Or.inr ⟨_, hx⟩) hs

theorem sector_loop_preserves
    (hP : ∀ a b s, U a → (U b ∨ ∃ vv, b ∈ s.t_port vv) → P s → P (mark_conflicting a b s))
    (L : LayoutMesh) (T : TargetQueries) (V : Nat → Prop) (hO : OrderingLabels L T V U)
    (fuel : Nat) :
    ∀ (n l_current : Nat) (port : Option VirtualPort) (s s1 : Sentinel),
      V l_current → P s → sector_loop L T fuel n l_current port s = Res.done s1 → P s1 := by
  intro n
  induction n with
  | zero =>
      intro l_current port s s1 _ _ h
      simp [sector_loop] at h
  | succ n ih =>
      intro l_current port s s1 hv hs h
      unfold sector_loop at h
      by_cases he : T.is_embedded l_current = true
      · simp only [he, if_true, Res.done.injEq] at h
        rw [← h]; exact hs
      simp only [he, Bool.false_eq_true, if_false] at h
      cases port with
      | none => simp at h
      | some cur =>
          simp only at h
          by_cases he2 : T.is_embedded (L.rotated_ccw l_current) = true
          · simp only [he2, if_true, Res.done.injEq] at h
            rw [← h]; exact hs
          simp only [he2, Bool.false_eq_true, if_false] at h
          cases hn : s.l_port (L.rotated_ccw l_current) with
          | none => rw [hn] at h; simp at h
          | some nxt =>
              rw [hn] at h
              simp only at h
              cases hr : reachable_by_sweep_ccw_in_sector T fuel cur nxt with
              | fatal => rw [hr] at h; simp at h
              | timeout => rw [hr] at h; simp at h
              | done r =>
                  rw [hr] at h
                  obtain ⟨flag, cur1⟩ := r
                  cases flag with
                  | true =>
                      simp only at h
                      exact ih _ _ _ _ (hO.rot_valid _ hv) hs h
                  | false =>
                      simp only at h
                      cases hm : mark_and_sweep_cw_in_sector T fuel cur1 nxt
                          (L.edge_of l_current) s with
                      | fatal => rw [hm] at h; simp at h
                      | timeout => rw [hm] at h; simp at h
                      | done r2 =>
                          rw [hm] at h
                          obtain ⟨s2, p2⟩ := r2
                          simp only at h
                          refine ih _ _ _ _ (hO.rot_valid _ hv) ?_ h
                          have hlab : U (L.edge_of l_current) :=
                            hO.he_label _ hv (by simpa using he)
                          exact mark_and_sweep_preserves P U hP T fuel cur1 nxt _ hlab s s2 p2
                            hs hm

theorem sectors_of_vertex_preserves
    (hP : ∀ a b s, U a → (U b ∨ ∃ vv, b ∈ s.t_port vv) → P s → P (mark_conflicting a b s))
    (L : LayoutMesh) (T : TargetQueries) (V : Nat → Prop) (hO : OrderingLabels L T V U)
    (fuel : Nat) (hes : List Nat) :
    ∀ (flag : Bool) (s : Sentinel) (flag1 : Bool) (s1 : Sentinel),
      (∀ h ∈ hes, V h) → P s →
      sectors_of_vertex L T fuel hes flag s = Res.done (flag1, s1) →
      P s1 ∧ (flag1 = false → ∀ h ∈ hes, T.is_embedded h = false) := by
  induction hes with
  | nil =>
      intro flag s flag1 s1 _ hs h
      simp only [sectors_of_vertex, Res.done.injEq, Prod.mk.injEq] at h
      rw [← h.2]
      exact ⟨hs, fun _ x hx => by simp at hx⟩
  | cons he rest ih =>
      intro flag s flag1 s1 hv hs h
      unfold sectors_of_vertex at h
      by_cases hemb : T.is_embedded he = true
      · simp only [hemb, if_true] at h
        cases hl : sector_loop L T fuel fuel (L.rotated_ccw he) (s.l_port (L.rotated_ccw he)) s with
        | fatal => rw [hl] at h; simp at h
        | timeout => rw [hl] at h; simp at h
        | done s2 =>
            rw [hl] at h
            simp only at h
            have hs2 : P s2 := sector_loop_preserves P U hP L T V hO fuel fuel _ _ s s2
              (hO.rot_valid _ (hv he (List.mem_cons_self _ _))) hs hl
            have hrec := ih true s2 flag1 s1 (fun x hx => hv x (List.mem_cons_of_mem _ hx)) hs2 h
            refine ⟨hrec.1, fun hf => ?_⟩
            exfalso
            -- the flag was set and is never cleared
            have hflag : ∀ (es : List Nat) (t t1 : Sentinel) (f1 : Bool),
                sectors_of_vertex L T fuel es true t = Res.done (f1, t1) → f1 = true := by
              intro es
              induction es with
              | nil =>
                  intro t t1 f1 hq
                  simp only [sectors_of_vertex, Res.done.injEq, Prod.mk.injEq] at hq
                  exact hq.1.symm
              | cons y ys ihy =>
                  intro t t1 f1 hq
                  unfold sectors_of_vertex at hq
                  by_cases hy : T.is_embedded y = true
                  · simp only [hy, if_true] at hq
                    cases hl2 : sector_loop L T fuel fuel (L.rotated_ccw y)
                        (t.l_port (L.rotated_ccw y)) t with
                    | fatal => rw [hl2] at hq; simp at hq
                    | timeout => rw [hl2] at hq; simp at hq
                    | done t2 =>
                        rw [hl2] at hq
                        exact ihy _ _ _ hq
                  · simp only [hy, Bool.false_eq_true, if_false] at hq
                    exact ihy _ _ _ hq
            have := hflag rest s2 s1 flag1 h
            rw [hf] at this
            exact Bool.false_ne_true this
      · simp only [hemb, Bool.false_eq_true, if_false] at h
        have hrec := ih flag s flag1 s1 (fun x hx => hv x (List.mem_cons_of_mem _ hx)) hs h
        refine ⟨hrec.1, fun hf x hx => ?_⟩
        rcases List.mem_cons.1 hx with h1 | h1
        · rw [h1]; simpa using hemb
        · exact hrec.2 hf x h1

theorem mark_all_pairs_preserves
    (hP : ∀ a b s, U a → (U b ∨ ∃ vv, b ∈ s.t_port vv) → P s → P (mark_conflicting a b s))
    (es : List Nat) (s : Sentinel) (hes : ∀ e ∈ es, U e) (hs : P s) :
    P (mark_all_pairs es s) := by
  unfold mark_all_pairs
  apply foldl_preserve P _ _ _ s hs
  intro s1 a ha h1
  apply foldl_preserve P _ _ _ s1 h1
  intro s2 b hb h2
  exact hP a b s2 (hes a ha) (Or.inl (hes b hb)) h2

theorem check_vertex_preserves
    (hP : ∀ a b s, U a → (U b ∨ ∃ vv, b ∈ s.t_port vv) → P s → P (mark_conflicting a b s))
    (L : LayoutMesh) (T : TargetQueries) (V : Nat → Prop) (hO : OrderingLabels L T V U)
    (fuel l_v : Nat) (hv : l_v < L.num_vertices) (s s1 : Sentinel) (hs : P s)
    (h : check_vertex L T fuel l_v s = Res.done s1) : P s1 := by
  unfold check_vertex at h
  cases hsec : sectors_of_vertex L T fuel (L.outgoing_halfedges l_v) false s with
  | fatal => rw [hsec] at h; simp at h
  | timeout => rw [hsec] at h; simp at h
  | done r =>
      rw [hsec] at h
      obtain ⟨flag, s2⟩ := r
      obtain ⟨hs2, hflag⟩ := sectors_of_vertex_preserves P U hP L T V hO fuel _ false s flag s2
        (hO.out_valid l_v hv) hs hsec
      cases flag with
      | true =>
          simp only [Res.done.injEq] at h
          rw [← h]; exact hs2
      | false =>
          simp only at h
          unfold no_sector_check at h
          by_cases hemb : T.is_embedded (L.any_outgoing_halfedge l_v) = true
          · simp [hemb] at h
          simp only [hemb, Bool.false_eq_true, if_false] at h
          cases hw : cyclic_walk L T s2 fuel (L.any_outgoing_halfedge l_v)
              (s2.l_port (L.any_outgoing_halfedge l_v)) fuel (L.any_outgoing_halfedge l_v)
              (s2.l_port (L.any_outgoing_halfedge l_v)) with
          | fatal => rw [hw] at h; simp at h
          | timeout => rw [hw] at h; simp at h
          | done c =>
              rw [hw] at h
              cases c with
              | false =>
                  simp only [Res.done.injEq] at h
                  rw [← h]; exact hs2
              | true =>
                  simp only [Res.done.injEq] at h
                  rw [← h]
                  exact mark_all_pairs_preserves P U hP _ s2
                    (hO.ve_label l_v hv (hflag rfl)) hs2

theorem check_vertices_preserves
    (hP : ∀ a b s, U a → (U b ∨ ∃ vv, b ∈ s.t_port vv) → P s → P (mark_conflicting a b s))
    (L : LayoutMesh) (T : TargetQueries) (V : Nat → Prop) (hO : OrderingLabels L T V U)
    (fuel : Nat) (vs : List Nat) :
    ∀ (s s1 : Sentinel), (∀ v ∈ vs, v < L.num_vertices) → P s →
      check_vertices L T fuel vs s = Res.done s1 → P s1 := by
  induction vs with
  | nil =>
      intro s s1 _ hs h
      simp only [check_vertices, Res.done.injEq] at h
      rw [← h]; exact hs
  | cons v vs ih =>
      intro s s1 hv hs h
      unfold check_vertices at h
      cases hc : check_vertex L T fuel v s with
      | fatal => rw [hc] at h; simp at h
      | timeout => rw [hc] at h; simp at h
      | done s2 =>
          rw [hc] at h
          simp only at h
          exact ih s2 s1 (fun x hx => hv x (List.mem_cons_of_mem _ hx))
            (check_vertex_preserves P U hP L T V hO fuel v (hv v (List.mem_cons_self _ _))
              s s2 hs hc) h

/-- A property kept by `mark_conflicting` on labels from `U` or from `t_port` is kept by
`check_path_ordering`. -/
theorem check_path_ordering_preserves
    (hP : ∀ a b s, U a → (U b ∨ ∃ vv, b ∈ s.t_port vv) → P s → P (mark_conflicting a b s))
    (L : LayoutMesh) (T : TargetQueries) (V : Nat → Prop) (hO : OrderingLabels L T V U)
    (fuel : Nat) (s s1 : Sentinel) (hs : P s)
    (h : check_path_ordering L T fuel s = Res.done s1) : P s1 :=
  check_vertices_preserves P U hP L T V hO fuel _ s s1
    (fun _ hv => List.mem_range.1 hv) hs h

end SweepPreserves

/-! ## Sentinel: paths, sequences of calls -/

theorem Res.done_of_isDone {α : Type} {r : Res α} (h : r.isDone = true) :
    ∃ a, r = Res.done a := by
  cases r with
  | done a => exact ⟨a, rfl⟩
  | fatal => simp [Res.isDone] at h
  | timeout => simp [Res.isDone] at h

/-- The tail of `insert_path` touches the ports only. -/
theorem record_ports_fields (L : LayoutMesh) (T : TargetQueries) (p : VirtualPath) (l : Nat)
    (s s1 : Sentinel) (h : record_ports L T p l s = Res.done s1) :
    s1.v_label = s.v_label ∧ s1.e_label = s.e_label ∧ s1.f_label = s.f_label ∧
    s1.global_conflicts = s.global_conflicts ∧
    s1.global_conflict_relation = s.global_conflict_relation ∧
    (∀ vv x, x ∈ s1.t_port vv → x = l ∨ x ∈ s.t_port vv) := by
  unfold record_ports at h
  cases h0 : path_at p 0 with
  | edge e => rw [h0] at h; simp at h
  | vertex first =>
      cases h1 : path_at p (p.length - 1) with
      | edge e => rw [h0, h1] at h; simp at h
      | vertex last =>
          rw [h0, h1] at h
          simp only at h
          by_cases hm : T.matching_target_vertex (L.vertex_from (L.halfedgeA l)) = first
          · simp only [hm, if_true, Res.done.injEq] at h
            subst h
            refine ⟨rfl, rfl, rfl, rfl, rfl, ?_⟩
            intro vv x hx
            simp only at hx
            by_cases c2 : vv = path_at p (p.length - 2)
            · subst c2
              rw [Function.update_same] at hx
              rcases Finset.mem_insert.1 hx with h5 | h5
              · exact Or.inl h5
              · by_cases c1 : path_at p (p.length - 2) = path_at p 1
                · rw [c1, Function.update_same] at h5
                  rcases Finset.mem_insert.1 h5 with h6 | h6
                  · exact Or.inl h6
                  · right; rw [c1]; exact h6
                · rw [Function.update_noteq c1] at h5
                  exact Or.inr h5
            · rw [Function.update_noteq c2] at hx
              by_cases c1 : vv = path_at p 1
              · subst c1
                rw [Function.update_same] at hx
                rcases Finset.mem_insert.1 hx with h6 | h6
                · exact Or.inl h6
                · exact Or.inr h6
              · rw [Function.update_noteq c1] at hx
                exact Or.inr hx
          · simp [hm] at h

theorem record_ports_labels_at (L : LayoutMesh) (T : TargetQueries) (p : VirtualPath) (l : Nat)
    (s s1 : Sentinel) (h : record_ports L T p l s = Res.done s1) (el : Element) :
    s1.labels_at el = s.labels_at el := by
  obtain ⟨k1, k2, k3, _, _, _⟩ := record_ports_fields L T p l s s1 h
  cases el <;> simp [Sentinel.labels_at, k1, k2, k3]

theorem record_ports_grows (L : LayoutMesh) (T : TargetQueries) (p : VirtualPath) (l : Nat)
    (s s1 : Sentinel) (h : record_ports L T p l s = Res.done s1) : Grows s s1 := by
  obtain ⟨_, _, _, k4, k5, _⟩ := record_ports_fields L T p l s s1 h
  refine ⟨fun el => ?_, ?_, ?_⟩
  · rw [record_ports_labels_at L T p l s s1 h]
  · rw [k4]
  · rw [k5]

theorem record_ports_inv (U : Nat → Prop) (L : LayoutMesh) (T : TargetQueries) (p : VirtualPath)
    (l : Nat) (s s1 : Sentinel) (hl : U l) (hs : Inv U s)
    (h : record_ports L T p l s = Res.done s1) : Inv U s1 := by
  obtain ⟨_, _, _, k4, k5, k6⟩ := record_ports_fields L T p l s s1 h
  refine ⟨?_, ?_, ?_, ?_, ?_, ?_⟩
  · intro el x hx
    rw [record_ports_labels_at L T p l s s1 h] at hx
    exact hs.labels_in el x hx
  · intro vv x hx
    rcases k6 vv x hx with h1 | h1
    · rw [h1]; exact hl
    · exact hs.ports_in vv x h1
  · intro x hx; rw [k4] at hx; exact hs.conflicts_in x hx
  · intro q hq; rw [k5] at hq; exact hs.pair_sorted q hq
  · intro q hq; rw [k5] at hq; rw [k4]; exact hs.pair_members q hq
  · intro a ha; rw [k4] at ha; rw [k5]; exact hs.covered a ha

theorem insert_elements_grows (l : Nat) (els : List Element) (s : Sentinel) :
    Grows s (els.foldl (fun st el => insert_element el l st) s) :=
  foldl_grows _ _ (fun s1 el => insert_element_grows el l s1) s

theorem insert_elements_inv (U : Nat → Prop) (l : Nat) (els : List Element) (s : Sentinel)
    (hl : U l) (hs : Inv U s) : Inv U (els.foldl (fun st el => insert_element el l st) s) :=
  foldl_preserve (Inv U) _ _ (fun s1 el _ h1 => insert_element_inv U el l s1 hl h1) s hs

theorem insert_elements_registers (l : Nat) (els : List Element) (el : Element) (hel : el ∈ els)
    (s : Sentinel) : l ∈ (els.foldl (fun st el => insert_element el l st) s).labels_at el :=
  foldl_records (fun s1 => l ∈ s1.labels_at el) _ els el hel
    (fun s1 => insert_element_registers el l s1)
    (fun s1 y h => (insert_element_grows y l s1).labels el h) s

theorem insert_elements_detects (l l1 : Nat) (hne : l1 ≠ l) (el : Element) (els : List Element) :
    ∀ s : Sentinel, el ∈ els → l1 ∈ s.labels_at el →
      l ∈ (els.foldl (fun st el => insert_element el l st) s).global_conflicts ∧
      l1 ∈ (els.foldl (fun st el => insert_element el l st) s).global_conflicts ∧
      minmax l l1 ∈ (els.foldl (fun st el => insert_element el l st) s).global_conflict_relation := by
  induction els with
  | nil => intro s hel; simp at hel
  | cons y ys ih =>
      intro s hel hmem
      rw [List.foldl_cons]
      by_cases hy : el = y
      · subst hy
        obtain ⟨r1, r2, r3⟩ := insert_element_detects el l l1 s hmem hne
        have hg := insert_elements_grows l ys (insert_element el l s)
        exact ⟨hg.conflicts r1, hg.conflicts r2, hg.relation r3⟩
      · rcases List.mem_cons.1 hel with h1 | h1
        · exact absurd h1 hy
        · exact ih _ h1 ((insert_element_grows y l s).labels el hmem)

theorem insert_path_grows (L : LayoutMesh) (T : TargetQueries) (p : VirtualPath) (l : Nat)
    (s s1 : Sentinel) (h : insert_path L T p l s = Res.done s1) : Grows s s1 :=
  (insert_elements_grows l _ s).trans
    (record_ports_grows L T p l _ s1 (insert_path_eq L T p l s s1 h).2)

theorem insert_path_inv (U : Nat → Prop) (L : LayoutMesh) (T : TargetQueries) (p : VirtualPath)
    (l : Nat) (s s1 : Sentinel) (hl : U l) (hs : Inv U s)
    (h : insert_path L T p l s = Res.done s1) : Inv U s1 :=
  record_ports_inv U L T p l _ s1 hl (insert_elements_inv U l _ s hl hs)
    (insert_path_eq L T p l s s1 h).2

theorem inv_mark_conflicting (U : Nat → Prop) (a b : Nat) (s : Sentinel) (ha : U a)
    (hb : U b ∨ ∃ vv, b ∈ s.t_port vv) (hs : Inv U s) : Inv U (mark_conflicting a b s) := by
  apply mark_conflicting_inv U a b s ha _ hs
  rcases hb with h1 | ⟨vv, h1⟩
  · exact h1
  · exact hs.ports_in vv b h1

theorem check_path_ordering_inv (U V : Nat → Prop) (L : LayoutMesh) (T : TargetQueries)
    (hO : OrderingLabels L T V U) (fuel : Nat) (s s1 : Sentinel) (hs : Inv U s)
    (h : check_path_ordering L T fuel s = Res.done s1) : Inv U s1 :=
  check_path_ordering_preserves (Inv U) U (inv_mark_conflicting U) L T V hO fuel s s1 hs h

theorem orderingLabels_trivial (L : LayoutMesh) (T : TargetQueries) :
    OrderingLabels L T (fun _ => True) (fun _ => True) :=
  ⟨fun _ _ _ _ => trivial, fun _ _ => trivial, fun _ _ _ => trivial, fun _ _ _ _ _ => trivial⟩

theorem check_path_ordering_grows (L : LayoutMesh) (T : TargetQueries) (fuel : Nat)
    (s s1 : Sentinel) (h : check_path_ordering L T fuel s = Res.done s1) : Grows s s1 :=
  check_path_ordering_preserves (fun t => Grows s t) (fun _ => True)
    (fun a b t _ _ ht => ht.trans (mark_conflicting_grows a b t)) L T (fun _ => True)
    (orderingLabels_trivial L T) fuel s s1 (Grows.refl s) h

theorem insert_segment_done (T : TargetQueries) (a b : VirtualVertex) (l : Nat)
    (s s1 : Sentinel) (h : insert_segment T a b l s = Res.done s1) :
    ∃ el, s1 = insert_element el l s := by
  rw [insert_segment_eq] at h
  cases hse : segment_element T a b with
  | none => rw [hse] at h; simp at h
  | some se =>
      rw [hse] at h
      simp only [Res.done.injEq] at h
      exact ⟨_, h.symm⟩

/-- Every call of a method keeps the conflict data consistent and only adds to it. -/
theorem SentinelOp.run_spec (L : LayoutMesh) (T : TargetQueries) (op : SentinelOp)
    (s s1 : Sentinel) (h : op.run L T s = Res.done s1) :
    Grows s s1 ∧ (Inv (fun _ => True) s → Inv (fun _ => True) s1) := by
  cases op with
  | insertVertex v l =>
      simp only [SentinelOp.run, Res.done.injEq] at h
      subst h
      exact ⟨insert_element_grows (Element.vertexEl v) l s,
        insert_element_inv _ (Element.vertexEl v) l s trivial⟩
  | insertEdge e l =>
      simp only [SentinelOp.run, Res.done.injEq] at h
      subst h
      exact ⟨insert_element_grows (Element.edgeEl e) l s,
        insert_element_inv _ (Element.edgeEl e) l s trivial⟩
  | insertFace f l =>
      simp only [SentinelOp.run, Res.done.injEq] at h
      subst h
      exact ⟨insert_element_grows (Element.faceEl f) l s,
        insert_element_inv _ (Element.faceEl f) l s trivial⟩
  | insertVirtualVertex vv l =>
      simp only [SentinelOp.run, Res.done.injEq] at h
      subst h
      rw [insert_virtual_vertex_eq]
      exact ⟨insert_element_grows _ l s, insert_element_inv _ _ l s trivial⟩
  | insertSegment a b l =>
      simp only [SentinelOp.run] at h
      obtain ⟨el, rfl⟩ := insert_segment_done T a b l s s1 h
      exact ⟨insert_element_grows _ l s, insert_element_inv _ _ l s trivial⟩
  | insertPath p l =>
      simp only [SentinelOp.run] at h
      exact ⟨insert_path_grows L T p l s s1 h, fun hs => insert_path_inv _ L T p l s s1 trivial hs h⟩
  | markConflicting a b =>
      simp only [SentinelOp.run, Res.done.injEq] at h
      subst h
      exact ⟨mark_conflicting_grows a b s, mark_conflicting_inv _ a b s trivial trivial⟩
  | checkPathOrdering fuel =>
      simp only [SentinelOp.run] at h
      exact ⟨check_path_ordering_grows L T fuel s s1 h,
        fun hs => check_path_ordering_inv _ _ L T (orderingLabels_trivial L T) fuel s s1 hs h⟩

theorem run_ops_spec (L : LayoutMesh) (T : TargetQueries) (ops : List SentinelOp) :
    ∀ s s1 : Sentinel, run_ops L T ops s = Res.done s1 →
      Grows s s1 ∧ (Inv (fun _ => True) s → Inv (fun _ => True) s1) := by
  induction ops with
  | nil =>
      intro s s1 h
      simp only [run_ops, Res.done.injEq] at h
      subst h
      exact ⟨Grows.refl s, id⟩
  | cons op ops ih =>
      intro s s1 h
      unfold run_ops at h
      cases hop : op.run L T s with
      | fatal => rw [hop] at h; simp at h
      | timeout => rw [hop] at h; simp at h
      | done s2 =>
          rw [hop] at h
          simp only at h
          obtain ⟨g1, i1⟩ := SentinelOp.run_spec L T op s s2 hop
          obtain ⟨g2, i2⟩ := ih s2 s1 h
          exact ⟨g1.trans g2, fun hs => i2 (i1 hs)⟩

theorem inv_init (U : Nat → Prop) : Inv U Sentinel.init := by
  refine ⟨?_, ?_, ?_, ?_, ?_, ?_⟩
  · intro el l hl
    cases el <;> simp [Sentinel.labels_at, Sentinel.init] at hl
  · intro vv l hl; simp [Sentinel.init] at hl
  · intro l hl; simp [Sentinel.init] at hl
  · intro p hp; simp [Sentinel.init] at hp
  · intro p hp; simp [Sentinel.init] at hp
  · intro a ha; simp [Sentinel.init] at ha

/-- C3. The conflict relation of the sentinel is symmetric and irreflexive:
`mark_conflicting(a, b)` and `mark_conflicting(b, a)` produce the same state,
`mark_conflicting(a, a)` changes nothing, and after any sequence of calls of the sentinel's
methods on a fresh sentinel every pair in `global_conflict_relation` is stored as
(smaller, larger) with both members in `global_conflicts`, and every member of
`global_conflicts` occurs in some stored pair. -/
theorem conflict_relation_symmetric_irreflexive (L : LayoutMesh) (T : TargetQueries)
    (a b : Nat) (s : Sentinel) (ops : List SentinelOp) (s1 : Sentinel)
    (hrun : run_ops L T ops Sentinel.init = Res.done s1) :
    mark_conflicting a b s = mark_conflicting b a s ∧
    mark_conflicting a a s = s ∧
    (∀ p ∈ s1.global_conflict_relation,
      p.1 < p.2 ∧ p.1 ∈ s1.global_conflicts ∧ p.2 ∈ s1.global_conflicts) ∧
    (∀ x ∈ s1.global_conflicts, ∃ p ∈ s1.global_conflict_relation, p.1 = x ∨ p.2 = x) := by
  have hinv := (run_ops_spec L T ops _ s1 hrun).2 (inv_init _)
  refine ⟨?_, ?_, ?_, hinv.covered⟩
  · unfold mark_conflicting
    by_cases h : a = b
    · subst h; rfl
    · have h2 : ¬ b = a := fun hc => h hc.symm
      simp only [h, h2, if_false]
      rw [minmax_comm a b, Finset.Insert.comm]
  · simp [mark_conflicting]
  · intro p hp
    exact ⟨hinv.pair_sorted p hp, hinv.pair_members p hp⟩

/-- Witness for C3: on the small instance two paths through the same target vertex are inserted
and the ordering sweep is run; the run returns and the conflict data is consistent. -/
theorem conflict_relation_symmetric_irreflexive_witness :
    ∃ s1, run_ops toyLayout2 (toyQueries [])
        [SentinelOp.insertPath toyPathA 0, SentinelOp.insertPath toyPathB 1,
          SentinelOp.checkPathOrdering 4] Sentinel.init = Res.done s1 ∧
      mark_conflicting 0 1 Sentinel.init = mark_conflicting 1 0 Sentinel.init ∧
      (∀ p ∈ s1.global_conflict_relation,
        p.1 < p.2 ∧ p.1 ∈ s1.global_conflicts ∧ p.2 ∈ s1.global_conflicts) := by
  obtain ⟨s1, h⟩ := Res.done_of_isDone (r := run_ops toyLayout2 (toyQueries [])
    [SentinelOp.insertPath toyPathA 0, SentinelOp.insertPath toyPathB 1,
      SentinelOp.checkPathOrdering 4] Sentinel.init) (by decide)
  have hthm := conflict_relation_symmetric_irreflexive toyLayout2 (toyQueries []) 0 1
    Sentinel.init _ s1 h
  exact ⟨s1, h, hthm.1, hthm.2.2.1⟩

/-- A shared element of two paths is one of the elements each of them is recorded on. -/
theorem sharesElement_common (T : TargetQueries) (p1 p2 : VirtualPath)
    (h : SharesElement T p1 p2) :
    ∃ el, el ∈ path_elements T p1 ∧ el ∈ path_elements T p2 := by
  rcases h with ⟨x, hx1, hx2⟩ | ⟨a, b, se, ha, hb, hsa, hsb⟩
  · refine ⟨element_of_vertex x, ?_, ?_⟩
    · exact List.mem_append_left _ (List.mem_map_of_mem _ hx1)
    · exact List.mem_append_left _ (List.mem_map_of_mem _ hx2)
  · refine ⟨element_of_segment se, ?_, ?_⟩
    · apply List.mem_append_right
      exact List.mem_filterMap.2 ⟨a, ha, by simp [hsa]⟩
    · apply List.mem_append_right
      exact List.mem_filterMap.2 ⟨b, hb, by simp [hsb]⟩

/-- C2. Element sharing is detected. Let two paths be inserted with `insert_path` under distinct
labels, both calls returning (all assertions pass), with any calls of the sentinel in between.
If the paths have a common interior virtual vertex (the same real vertex or the same target
edge), or a segment of each lies on the same target edge or inside the same target face, then
after the second insertion both labels are in `global_conflicts` and their pair, stored as
(smaller, larger), is in `global_conflict_relation`. -/
theorem insert_path_detects_sharing (L : LayoutMesh) (T : TargetQueries)
    (p1 p2 : VirtualPath) (l1 l2 : Nat) (between : List SentinelOp) (s0 s1 s2 s3 : Sentinel)
    (h1 : insert_path L T p1 l1 s0 = Res.done s1)
    (hmid : run_ops L T between s1 = Res.done s2)
    (h2 : insert_path L T p2 l2 s2 = Res.done s3)
    (hne : l1 ≠ l2) (hshare : SharesElement T p1 p2) :
    l1 ∈ s3.global_conflicts ∧ l2 ∈ s3.global_conflicts ∧
    (min l1 l2, max l1 l2) ∈ s3.global_conflict_relation := by
  obtain ⟨el, hel1, hel2⟩ := sharesElement_common T p1 p2 hshare
  have hr1 := (insert_path_eq L T p1 l1 s0 s1 h1).2
  have hreg1 : l1 ∈ s1.labels_at el := by
    rw [record_ports_labels_at L T p1 l1 _ s1 hr1]
    exact insert_elements_registers l1 _ el hel1 s0
  have hreg2 : l1 ∈ s2.labels_at el := (run_ops_spec L T between s1 s2 hmid).1.labels el hreg1
  have hr2 := (insert_path_eq L T p2 l2 s2 s3 h2).2
  obtain ⟨r1, r2, r3⟩ := insert_elements_detects l2 l1 hne el (path_elements T p2) s2 hel2 hreg2
  have hg := record_ports_grows L T p2 l2 _ s3 hr2
  refine ⟨hg.conflicts r2, hg.conflicts r1, ?_⟩
  have := hg.relation r3
  rw [minmax_eq, min_comm, max_comm] at this
  exact this

/-- Witness for C2: the two paths of the small instance share the target vertex `1`. -/
theorem insert_path_detects_sharing_witness :
    ∃ s1 s3, insert_path toyLayout2 (toyQueries []) toyPathA 0 Sentinel.init = Res.done s1 ∧
      insert_path toyLayout2 (toyQueries []) toyPathB 1 s1 = Res.done s3 ∧
      0 ∈ s3.global_conflicts ∧ 1 ∈ s3.global_conflicts ∧
      (min 0 1, max 0 1) ∈ s3.global_conflict_relation := by
  obtain ⟨s1, h1⟩ := Res.done_of_isDone
    (r := insert_path toyLayout2 (toyQueries []) toyPathA 0 Sentinel.init) (by decide)
  have hboth : (run_ops toyLayout2 (toyQueries [])
      [SentinelOp.insertPath toyPathA 0, SentinelOp.insertPath toyPathB 1]
      Sentinel.init).isDone = true := by decide
  have h3 : ∃ s3, insert_path toyLayout2 (toyQueries []) toyPathB 1 s1 = Res.done s3 := by
    simp only [run_ops, SentinelOp.run, h1] at hboth
    cases hq : insert_path toyLayout2 (toyQueries []) toyPathB 1 s1 with
    | done s3 => exact ⟨s3, rfl⟩
    | fatal => rw [hq] at hboth; simp [Res.isDone] at hboth
    | timeout => rw [hq] at hboth; simp [Res.isDone] at hboth
  obtain ⟨s3, h3⟩ := h3
  exact ⟨s1, s3, h1, h3,
    insert_path_detects_sharing toyLayout2 (toyQueries []) toyPathA toyPathB 0 1 []
      Sentinel.init s1 s1 s3 h1 rfl h3 (by decide)
      (Or.inl ⟨VirtualVertex.vertex 1, by decide, by decide⟩)⟩

/-! ## EmbeddingState: classification of the layout edges -/

section ClassificationTheorems

variable {Em C : Type} [Add C] [Zero C] [Top C]

theorem Outcome.returned_of_isDone {σ : Type} {r : Outcome σ} (h : r.isDone = true) :
    ∃ a, r = Outcome.done a := by
  cases r with
  | done a => exact ⟨a, rfl⟩
  | fatal a => simp [Outcome.isDone] at h
  | timeout => simp [Outcome.isDone] at h

theorem embeddedAgree_init (ops : EmbeddingOps Em C) (em0 : Em)
    (h0 : ∀ h, (ops.queries em0).is_embedded h = false) :
    EmbeddedAgree ops (EmbeddingState.init em0 : EmbeddingState Em C) := by
  refine ⟨fun h => ?_, fun e he => ?_⟩
  · simp [EmbeddingState.init, h0 h]
  · simp [EmbeddingState.init] at he

/-- Committing the edge `l_e` through `embed_path` keeps the two views of "embedded" equal. -/
theorem embeddedAgree_commit (ops : EmbeddingOps Em C) (hW : TracksEmbedded ops)
    (s s1 : EmbeddingState Em C) (l_e : Nat) (p : VirtualPath)
    (hl : l_e < ops.layout.num_edges) (hs : EmbeddedAgree ops s)
    (hem : ops.embed_path s.em (ops.layout.halfedgeA l_e) p = some s1.em)
    (hemb : s1.embedded_l_edges = insert l_e s.embedded_l_edges) : EmbeddedAgree ops s1 := by
  refine ⟨fun h => ?_, fun e he => ?_⟩
  · rw [hW.embed_marks s.em _ p s1.em hem h, hW.edge_of_halfedgeA, hemb, Finset.mem_insert,
      Bool.or_eq_true, decide_eq_true_eq, hs.agree h]
    exact or_comm
  · rw [hemb] at he
    rcases Finset.mem_insert.1 he with h1 | h1
    · rw [h1]; exact hl
    · exact hs.in_range e h1

theorem embeddedAgree_extend (ops : EmbeddingOps Em C) (hW : TracksEmbedded ops)
    (s s1 : EmbeddingState Em C) (l_e : Nat) (hl : l_e < ops.layout.num_edges)
    (hs : EmbeddedAgree ops s) (h : extend ops l_e s = Outcome.done s1) :
    EmbeddedAgree ops s1 := by
  obtain ⟨_, ⟨_, hs1⟩ | ⟨_, em1, hem, hs1⟩⟩ := extend_done ops l_e s s1 h
  · rw [hs1]; exact ⟨hs.agree, hs.in_range⟩
  · apply embeddedAgree_commit ops hW s s1 l_e _ hl hs
    · rw [hs1]; exact hem
    · rw [hs1]

theorem embeddedAgree_extend_seq (ops : EmbeddingOps Em C) (hW : TracksEmbedded ops)
    (seq : List Nat) :
    ∀ s s1 : EmbeddingState Em C, (∀ e ∈ seq, e < ops.layout.num_edges) →
      EmbeddedAgree ops s → extend_seq ops seq s = Outcome.done s1 → EmbeddedAgree ops s1 := by
  induction seq with
  | nil =>
      intro s s1 _ hs h
      simp only [extend_seq, Outcome.done.injEq] at h
      rw [← h]; exact hs
  | cons e seq ih =>
      intro s s1 hl hs h
      unfold extend_seq at h
      cases hx : extend ops e s with
      | timeout => rw [hx] at h; simp at h
      | fatal s2 => rw [hx] at h; simp at h
      | done s2 =>
          rw [hx] at h
          simp only at h
          have hs2 := embeddedAgree_extend ops hW s s2 e (hl e (List.mem_cons_self _ _)) hs hx
          by_cases hv : s2.valid = true
          · simp only [hv, if_true] at h
            exact ih s2 s1 (fun x hx1 => hl x (List.mem_cons_of_mem _ hx1)) hs2 h
          · simp only [hv, Bool.false_eq_true, if_false, Outcome.done.injEq] at h
            rw [← h]; exact hs2

/-- The second loop of `detect_candidate_path_conflicts` collects the edges that are in neither
of the two other sets. -/
theorem collect_non_conflicting_eq (embedded conflicting : Finset Nat) (n : Nat) :
    collect_non_conflicting embedded conflicting (List.range n) =
      (Finset.range n).filter (fun e => e ∉ embedded ∧ e ∉ conflicting) := by
  have key : ∀ (es : List Nat) (acc : Finset Nat),
      es.foldl (fun acc l_e =>
          if l_e ∉ embedded ∧ l_e ∉ conflicting then insert l_e acc else acc) acc =
        acc ∪ es.toFinset.filter (fun e => e ∉ embedded ∧ e ∉ conflicting) := by
    intro es
    induction es with
    | nil => intro acc; simp
    | cons e es ih =>
        intro acc
        rw [List.foldl_cons, ih]
        by_cases hc : e ∉ embedded ∧ e ∉ conflicting
        · rw [if_pos hc]
          ext x
          simp only [Finset.mem_union, Finset.mem_insert, Finset.mem_filter,
            List.toFinset_cons, List.mem_toFinset]
          constructor
          · rintro ((h1 | h1) | ⟨h1, h2⟩)
            · right; exact ⟨Or.inl h1, h1 ▸ hc⟩
            · left; exact h1
            · right; exact ⟨Or.inr h1, h2⟩
          · rintro (h1 | ⟨h1 | h1, h2⟩)
            · left; right; exact h1
            · left; left; exact h1
            · right; exact ⟨h1, h2⟩
        · rw [if_neg hc]
          ext x
          simp only [Finset.mem_union, Finset.mem_insert, Finset.mem_filter,
            List.toFinset_cons, List.mem_toFinset]
          constructor
          · rintro (h1 | ⟨h1, h2⟩)
            · left; exact h1
            · right; exact ⟨Or.inr h1, h2⟩
          · rintro (h1 | ⟨h1 | h1, h2⟩)
            · left; exact h1
            · exact absurd (h1 ▸ h2) hc
            · right; exact ⟨h1, h2⟩
  unfold collect_non_conflicting
  rw [key]
  ext x
  simp

/-- The first loop of `detect_candidate_path_conflicts` inserts labels of edges that are in the
list and not embedded. -/
theorem insert_candidates_inv (ops : EmbeddingOps Em C) (s : EmbeddingState Em C)
    (U : Nat → Prop) (es : List Nat) :
    ∀ st st1 : Sentinel, (∀ e ∈ es, e ∉ s.embedded_l_edges → U e) → Inv U st →
      insert_candidates ops s es st = Res.done st1 → Inv U st1 := by
  induction es with
  | nil =>
      intro st st1 _ hst h
      simp only [insert_candidates, Res.done.injEq] at h
      rw [← h]; exact hst
  | cons e es ih =>
      intro st st1 hU hst h
      unfold insert_candidates at h
      have hU1 : ∀ x ∈ es, x ∉ s.embedded_l_edges → U x :=
        fun x hx => hU x (List.mem_cons_of_mem _ hx)
      by_cases he : e ∈ s.embedded_l_edges
      · simp only [he, if_true] at h
        exact ih st st1 hU1 hst h
      simp only [he, if_false] at h
      by_cases hp : (candidate_path_of (s.candidate_paths e)).isEmpty = true
      · simp only [hp, if_true] at h
        exact ih st st1 hU1 hst h
      simp only [hp, Bool.false_eq_true, if_false] at h
      cases hi : insert_path ops.layout (ops.queries s.em)
          (candidate_path_of (s.candidate_paths e)) e st with
      | fatal => rw [hi] at h; simp at h
      | timeout => rw [hi] at h; simp at h
      | done st2 =>
          rw [hi] at h
          simp only at h
          exact ih st2 st1 hU1
            (insert_path_inv U _ _ _ e st st2 (hU e (List.mem_cons_self _ _) he) hst hi) h

/-- The sentinel reports layout edges that are not embedded, when the state's set of embedded
edges agrees with the embedding. -/
theorem sentinel_conflicts_unembedded (ops : EmbeddingOps Em C) (hW : TracksEmbedded ops)
    (fuel : Nat) (s : EmbeddingState Em C) (hs : EmbeddedAgree ops s) (conflicts : Finset Nat)
    (h : sentinel_conflicts ops fuel s = Res.done conflicts) :
    ∀ e ∈ conflicts, e < ops.layout.num_edges ∧ e ∉ s.embedded_l_edges := by
  unfold sentinel_conflicts at h
  cases hi : insert_candidates ops s (List.range ops.layout.num_edges) Sentinel.init with
  | fatal => rw [hi] at h; simp at h
  | timeout => rw [hi] at h; simp at h
  | done st =>
      rw [hi] at h
      simp only at h
      cases hc : check_path_ordering ops.layout (ops.queries s.em) fuel st with
      | fatal => rw [hc] at h; simp at h
      | timeout => rw [hc] at h; simp at h
      | done st1 =>
          rw [hc] at h
          simp only [Res.done.injEq] at h
          have hst : Inv (fun e => e < ops.layout.num_edges ∧ e ∉ s.embedded_l_edges) st :=
            insert_candidates_inv ops s _ _ _ st
              (fun e he hne => ⟨List.mem_range.1 he, hne⟩) (inv_init _) hi
          have hunemb : ∀ h1, (ops.queries s.em).is_embedded h1 = false →
              ops.layout.edge_of h1 ∉ s.embedded_l_edges := by
            intro h1 hf hmem
            have := (hs.agree h1).2 hmem
            rw [hf] at this
            exact Bool.false_ne_true this
          have hO : OrderingLabels ops.layout (ops.queries s.em)
              (fun h1 => ops.layout.edge_of h1 < ops.layout.num_edges)
              (fun e => e < ops.layout.num_edges ∧ e ∉ s.embedded_l_edges) := by
            refine ⟨hW.outgoing_edges, hW.rotated_edges, ?_, ?_⟩
            · intro h1 hv hf
              exact ⟨hv, hunemb h1 hf⟩
            · intro v hv hall e he
              obtain ⟨h1, hh1, hedge⟩ := hW.vertex_edges_outgoing v hv e he
              rw [← hedge]
              exact ⟨hW.outgoing_edges v hv h1 hh1, hunemb h1 (hall h1 hh1)⟩
          have hst1 := check_path_ordering_inv _ _ _ _ hO fuel st st1 hst hc
          intro e he
          rw [← h] at he
          exact hst1.conflicts_in e he

/-- The three sets after the two loops of `detect_candidate_path_conflicts` always have the
sizes the final assertion asks for. -/
theorem classification_card (embedded conflicts : Finset Nat) (n : Nat)
    (hemb : ∀ e ∈ embedded, e < n) (hconf : ∀ e ∈ conflicts, e < n ∧ e ∉ embedded) :
    embedded.card + conflicts.card +
      ((Finset.range n).filter (fun e => e ∉ embedded ∧ e ∉ conflicts)).card = n := by
  have hd1 : Disjoint embedded conflicts := by
    rw [Finset.disjoint_left]
    intro e he hc
    exact (hconf e hc).2 he
  have hd2 : Disjoint (embedded ∪ conflicts)
      ((Finset.range n).filter (fun e => e ∉ embedded ∧ e ∉ conflicts)) := by
    rw [Finset.disjoint_left]
    intro e he hf
    obtain ⟨_, h1, h2⟩ := Finset.mem_filter.1 hf
    rcases Finset.mem_union.1 he with h3 | h3
    · exact h1 h3
    · exact h2 h3
  have hunion : (embedded ∪ conflicts) ∪
      ((Finset.range n).filter (fun e => e ∉ embedded ∧ e ∉ conflicts)) = Finset.range n := by
    ext e
    simp only [Finset.mem_union, Finset.mem_filter, Finset.mem_range]
    constructor
    · rintro ((h1 | h1) | h1)
      · exact hemb e h1
      · exact (hconf e h1).1
      · exact h1.1
    · intro h1
      by_cases h2 : e ∈ embedded
      · exact Or.inl (Or.inl h2)
      · by_cases h3 : e ∈ conflicts
        · exact Or.inl (Or.inr h3)
        · exact Or.inr ⟨h1, h2, h3⟩
  rw [← Finset.card_union_of_disjoint hd1, ← Finset.card_union_of_disjoint hd2, hunion,
    Finset.card_range]

/-- The method `detect_candidate_path_conflicts()` in terms of the set the sentinel returns. -/
theorem detect_eq (ops : EmbeddingOps Em C) (fuel : Nat) (s : EmbeddingState Em C) :
    detect_candidate_path_conflicts ops fuel s =
      match (if s.valid = true then sentinel_conflicts ops fuel
          { s with conflicting_l_edges := ∅, non_conflicting_l_edges := ∅ }
        else Res.done ∅) with
      | Res.fatal =>
          Outcome.fatal { s with conflicting_l_edges := ∅, non_conflicting_l_edges := ∅ }
      | Res.timeout => Outcome.timeout
      | Res.done conflicts =>
          if s.embedded_l_edges.card + conflicts.card
              + (collect_non_conflicting s.embedded_l_edges conflicts
                  (List.range ops.layout.num_edges)).card = ops.layout.num_edges then
            Outcome.done
              { s with
                conflicting_l_edges := conflicts
                non_conflicting_l_edges := collect_non_conflicting s.embedded_l_edges conflicts
                  (List.range ops.layout.num_edges) }
          else
            Outcome.fatal
              { s with
                conflicting_l_edges := conflicts
                non_conflicting_l_edges := collect_non_conflicting s.embedded_l_edges conflicts
                  (List.range ops.layout.num_edges) } := by
  unfold detect_candidate_path_conflicts
  rfl

/-- The outcome of `detect_candidate_path_conflicts()` on a state whose set of embedded edges
agrees with the embedding: the size assertion holds, so a fatal stop comes from inside the
sentinel, and after a return the three sets partition the layout edges. -/
theorem detect_partition_of_agree (ops : EmbeddingOps Em C) (hW : TracksEmbedded ops)
    (fuel : Nat) (s : EmbeddingState Em C) (hs : EmbeddedAgree ops s) :
    (∀ s1, detect_candidate_path_conflicts ops fuel s = Outcome.fatal s1 →
      s.valid = true ∧
      sentinel_conflicts ops fuel
        { s with conflicting_l_edges := ∅, non_conflicting_l_edges := ∅ } = Res.fatal) ∧
    (∀ s1, detect_candidate_path_conflicts ops fuel s = Outcome.done s1 →
      s1.em = s.em ∧ s1.embedded_l_edges = s.embedded_l_edges ∧
      (∀ e ∈ s1.conflicting_l_edges, e < ops.layout.num_edges ∧ e ∉ s1.embedded_l_edges) ∧
      (∀ e, e ∈ s1.non_conflicting_l_edges ↔
        e < ops.layout.num_edges ∧ e ∉ s1.embedded_l_edges ∧ e ∉ s1.conflicting_l_edges) ∧
      s1.embedded_l_edges.card + s1.conflicting_l_edges.card
        + s1.non_conflicting_l_edges.card = ops.layout.num_edges) := by
  have hconf : ∀ conflicts,
      (if s.valid = true then sentinel_conflicts ops fuel
          { s with conflicting_l_edges := ∅, non_conflicting_l_edges := ∅ }
        else Res.done ∅) = Res.done conflicts →
      ∀ e ∈ conflicts, e < ops.layout.num_edges ∧ e ∉ s.embedded_l_edges := by
    intro conflicts hc
    by_cases hv : s.valid = true
    · rw [if_pos hv] at hc
      exact sentinel_conflicts_unembedded ops hW fuel
        { s with conflicting_l_edges := ∅, non_conflicting_l_edges := ∅ }
        ⟨hs.agree, hs.in_range⟩ conflicts hc
    · rw [if_neg hv] at hc
      simp only [Res.done.injEq] at hc
      intro e he
      rw [← hc] at he
      simp at he
  constructor
  · intro s1 h
    rw [detect_eq] at h
    cases hr : (if s.valid = true then sentinel_conflicts ops fuel
          { s with conflicting_l_edges := ∅, non_conflicting_l_edges := ∅ }
        else Res.done ∅) with
    | timeout => rw [hr] at h; simp at h
    | fatal =>
        by_cases hv : s.valid = true
        · rw [if_pos hv] at hr
          exact ⟨hv, hr⟩
        · rw [if_neg hv] at hr
          simp at hr
    | done conflicts =>
        exfalso
        have hc := hconf conflicts hr
        rw [hr] at h
        simp only at h
        rw [collect_non_conflicting_eq] at h
        rw [if_pos (classification_card _ _ _ hs.in_range hc)] at h
        simp at h
  · intro s1 h
    rw [detect_eq] at h
    cases hr : (if s.valid = true then sentinel_conflicts ops fuel
          { s with conflicting_l_edges := ∅, non_conflicting_l_edges := ∅ }
        else Res.done ∅) with
    | fatal => rw [hr] at h; simp at h
    | timeout => rw [hr] at h; simp at h
    | done conflicts =>
        have hc := hconf conflicts hr
        rw [hr] at h
        simp only at h
        rw [collect_non_conflicting_eq] at h
        rw [if_pos (classification_card _ _ _ hs.in_range hc)] at h
        simp only [Outcome.done.injEq] at h
        subst h
        refine ⟨rfl, rfl, hc, ?_, classification_card _ _ _ hs.in_range hc⟩
        intro e
        simp [Finset.mem_filter]

end ClassificationTheorems

section ReachableStates

variable {Em C : Type} [Add C] [Zero C] [Top C]

theorem StateOp.run_agree (ops : EmbeddingOps Em C) (hW : TracksEmbedded ops) (op : StateOp)
    (s s1 : EmbeddingState Em C) (hop : ∀ e ∈ op.edges, e < ops.layout.num_edges)
    (hs : EmbeddedAgree ops s) (h : op.run ops s = Outcome.done s1) : EmbeddedAgree ops s1 := by
  cases op with
  | extendEdge l_e =>
      exact embeddedAgree_extend ops hW s s1 l_e (hop l_e (by simp [StateOp.edges])) hs h
  | extendPath l_e path =>
      obtain ⟨hem, hemb, _⟩ := extend_path_commits ops l_e path s s1 h
      exact embeddedAgree_commit ops hW s s1 l_e path (hop l_e (by simp [StateOp.edges])) hs
        hem hemb
  | extendSeq seq =>
      exact embeddedAgree_extend_seq ops hW seq s s1 hop hs h
  | computeCandidatePaths =>
      simp only [StateOp.run, Outcome.done.injEq] at h
      obtain ⟨h1, h2, _⟩ := compute_candidate_paths_fields ops s
      rw [← h]
      refine ⟨fun x => ?_, fun e he => ?_⟩
      · rw [h1, h2]; exact hs.agree x
      · rw [h2] at he; exact hs.in_range e he
  | detectCandidatePathConflicts fuel =>
      obtain ⟨h1, h2, _⟩ := (detect_partition_of_agree ops hW fuel s hs).2 s1 h
      refine ⟨fun x => ?_, fun e he => ?_⟩
      · rw [h1, h2]; exact hs.agree x
      · rw [h2] at he; exact hs.in_range e he

theorem run_state_ops_agree (ops : EmbeddingOps Em C) (hW : TracksEmbedded ops)
    (calls : List StateOp) :
    ∀ s s1 : EmbeddingState Em C,
      (∀ c ∈ calls, ∀ e ∈ c.edges, e < ops.layout.num_edges) → EmbeddedAgree ops s →
      run_state_ops ops calls s = Outcome.done s1 → EmbeddedAgree ops s1 := by
  induction calls with
  | nil =>
      intro s s1 _ hs h
      simp only [run_state_ops, Outcome.done.injEq] at h
      rw [← h]; exact hs
  | cons op calls ih =>
      intro s s1 hc hs h
      unfold run_state_ops at h
      cases hop : op.run ops s with
      | timeout => rw [hop] at h; simp at h
      | fatal s2 => rw [hop] at h; simp at h
      | done s2 =>
          rw [hop] at h
          simp only at h
          exact ih s2 s1 (fun c hc1 => hc c (List.mem_cons_of_mem _ hc1))
            (StateOp.run_agree ops hW op s s2 (hc op (List.mem_cons_self _ _)) hs hop) h

/-- C4. Classification is a partition. Take an `EmbeddingState` built on an embedding without
committed paths and any sequence of calls of `extend` (in its three forms),
`compute_candidate_paths` and `detect_candidate_path_conflicts` on layout edges. Then
`detect_candidate_path_conflicts()` never stops in its size assertion (a fatal stop can only
come from inside the sentinel), and after it has returned every layout edge belongs to exactly
one of `embedded_l_edges`, `conflicting_l_edges` and `non_conflicting_l_edges`; in particular
no embedded edge is reported as conflicting, and the three sizes add up to the number of layout
edges. The class `Embedding` is assumed to mark exactly the committed edge as embedded. -/
theorem detect_classification_partition (ops : EmbeddingOps Em C) (hW : TracksEmbedded ops)
    (em0 : Em) (h0 : ∀ h, (ops.queries em0).is_embedded h = false)
    (calls : List StateOp) (hcalls : ∀ c ∈ calls, ∀ e ∈ c.edges, e < ops.layout.num_edges)
    (s : EmbeddingState Em C)
    (hreach : run_state_ops ops calls (EmbeddingState.init em0) = Outcome.done s)
    (fuel : Nat) :
    (∀ s1, detect_candidate_path_conflicts ops fuel s = Outcome.fatal s1 →
      s.valid = true ∧
      sentinel_conflicts ops fuel
        { s with conflicting_l_edges := ∅, non_conflicting_l_edges := ∅ } = Res.fatal) ∧
    (∀ s1, detect_candidate_path_conflicts ops fuel s = Outcome.done s1 →
      (∀ e, e < ops.layout.num_edges →
        (e ∈ s1.embedded_l_edges ∧ e ∉ s1.conflicting_l_edges ∧
            e ∉ s1.non_conflicting_l_edges) ∨
        (e ∉ s1.embedded_l_edges ∧ e ∈ s1.conflicting_l_edges ∧
            e ∉ s1.non_conflicting_l_edges) ∨
        (e ∉ s1.embedded_l_edges ∧ e ∉ s1.conflicting_l_edges ∧
            e ∈ s1.non_conflicting_l_edges)) ∧
      (∀ e ∈ s1.conflicting_l_edges, e ∉ s1.embedded_l_edges) ∧
      s1.embedded_l_edges.card + s1.conflicting_l_edges.card
        + s1.non_conflicting_l_edges.card = ops.layout.num_edges) := by
  have hs : EmbeddedAgree ops s :=
    run_state_ops_agree ops hW calls _ s hcalls (embeddedAgree_init ops em0 h0) hreach
  obtain ⟨hfatal, hdone⟩ := detect_partition_of_agree ops hW fuel s hs
  refine ⟨hfatal, fun s1 h => ?_⟩
  obtain ⟨_, _, hconf, hnon, hcard⟩ := hdone s1 h
  refine ⟨fun e he => ?_, fun e he => (hconf e he).2, hcard⟩
  by_cases h1 : e ∈ s1.embedded_l_edges
  · left
    exact ⟨h1, fun hc => (hconf e hc).2 h1, fun hn => ((hnon e).1 hn).2.1 h1⟩
  · by_cases h2 : e ∈ s1.conflicting_l_edges
    · right; left
      exact ⟨h1, h2, fun hn => ((hnon e).1 hn).2.2 h2⟩
    · right; right
      exact ⟨h1, h2, (hnon e).2 ⟨he, h1, h2⟩⟩

theorem run_state_ops_append (ops : EmbeddingOps Em C) (l1 l2 : List StateOp) :
    ∀ s s1 : EmbeddingState Em C, run_state_ops ops l1 s = Outcome.done s1 →
      run_state_ops ops (l1 ++ l2) s = run_state_ops ops l2 s1 := by
  induction l1 with
  | nil =>
      intro s s1 h
      simp only [run_state_ops, Outcome.done.injEq] at h
      rw [← h]; rfl
  | cons op l1 ih =>
      intro s s1 h
      rw [List.cons_append]
      unfold run_state_ops at h
      cases hop : op.run ops s with
      | timeout => rw [hop] at h; simp at h
      | fatal s2 => rw [hop] at h; simp at h
      | done s2 =>
          rw [hop] at h
          simp only at h
          rw [← ih s2 s1 h]
          simp only [run_state_ops, hop]

end ReachableStates

/-- The small instance satisfies what is assumed of `Embedding` and of the layout mesh. -/
theorem toyOps_tracks : TracksEmbedded toyOps := by
  refine ⟨?_, ?_, ?_, ?_, ?_⟩
  · intro em h p em1 hq h1
    have hem1 : em1 = h / 2 :: em := by
      simp only [toyOps] at hq
      by_cases c : h / 2 ∈ em ∨ p.length < 2
      · rw [if_pos c] at hq; simp at hq
      · rw [if_neg c] at hq; exact (Option.some.inj hq).symm
    subst hem1
    simp only [toyOps, toyQueries, toyLayout, List.mem_cons]
    by_cases c1 : h1 / 2 = h / 2
    · simp [c1]
    · simp [c1]
  · intro e
    simp only [toyOps, toyLayout]
    omega
  · intro v hv h hh
    simp only [toyOps, toyLayout] at hv hh ⊢
    interval_cases v <;> simp at hh <;> omega
  · intro h hh
    simp only [toyOps, toyLayout] at hh ⊢
    split_ifs <;> omega
  · intro v hv e he
    simp only [toyOps, toyLayout] at hv he ⊢
    interval_cases v <;> simp at he ⊢ <;> omega

/-- Witness for C4 on the small instance: edge `1` is committed, candidates are traced, and the
classification returns with sizes that add up to the two layout edges. -/
theorem detect_classification_partition_witness :
    ∃ s s1, run_state_ops toyOps [StateOp.extendEdge 1, StateOp.computeCandidatePaths]
        (EmbeddingState.init []) = Outcome.done s ∧
      detect_candidate_path_conflicts toyOps 4 s = Outcome.done s1 ∧
      (∀ e ∈ s1.conflicting_l_edges, e ∉ s1.embedded_l_edges) ∧
      s1.embedded_l_edges.card + s1.conflicting_l_edges.card
        + s1.non_conflicting_l_edges.card = 2 := by
  obtain ⟨s, hs⟩ := Outcome.returned_of_isDone
    (r := run_state_ops toyOps [StateOp.extendEdge 1, StateOp.computeCandidatePaths]
      (EmbeddingState.init [])) (by decide)
  have hall : (run_state_ops toyOps
      ([StateOp.extendEdge 1, StateOp.computeCandidatePaths]
        ++ [StateOp.detectCandidatePathConflicts 4]) (EmbeddingState.init [])).isDone = true := by
    decide
  rw [run_state_ops_append toyOps _ _ _ s hs] at hall
  have hdet : (detect_candidate_path_conflicts toyOps 4 s).isDone = true := by
    simp only [run_state_ops, StateOp.run] at hall
    cases hq : detect_candidate_path_conflicts toyOps 4 s with
    | done s1 => rfl
    | fatal s1 => rw [hq] at hall; simp [Outcome.isDone] at hall
    | timeout => rw [hq] at hall; simp [Outcome.isDone] at hall
  obtain ⟨s1, hs1⟩ := Outcome.returned_of_isDone hdet
  have hthm := (detect_classification_partition toyOps toyOps_tracks []
    (fun h => by simp [toyOps, toyQueries])
    [StateOp.extendEdge 1, StateOp.computeCandidatePaths]
    (by simp [StateOp.edges, toyOps, toyLayout]) s hs 4).2 s1 hs1
  exact ⟨s, s1, hs, hs1, hthm.2.1, hthm.2.2⟩

/-! ## Branch and bound: classification of a node -/

section NodeTheorems

variable {Em C : Type} [LinearOrder C] [Add C] [Zero C] [Top C] [GapTests C]

/-- The loop over `covered[el]` inside `cover_element`. -/
theorem cover_marks (l_e : Nat) (others : List Nat) :
    ∀ cl : Classification C,
      (others.foldl (fun c l_e_other =>
        { c with conflicting_l_e := insert l_e_other (insert l_e c.conflicting_l_e) })
        cl).covered = cl.covered ∧
      (others.foldl (fun c l_e_other =>
        { c with conflicting_l_e := insert l_e_other (insert l_e c.conflicting_l_e) })
        cl).blocked_l_e = cl.blocked_l_e ∧
      (others.foldl (fun c l_e_other =>
        { c with conflicting_l_e := insert l_e_other (insert l_e c.conflicting_l_e) })
        cl).conflicting_l_e =
          cl.conflicting_l_e ∪ (if others = [] then ∅ else insert l_e others.toFinset) := by
  induction others with
  | nil => intro cl; simp
  | cons o os ih =>
      intro cl
      rw [List.foldl_cons]
      obtain ⟨h1, h2, h3⟩ := ih
        { cl with conflicting_l_e := insert o (insert l_e cl.conflicting_l_e) }
      refine ⟨h1, h2, ?_⟩
      rw [h3]
      ext x
      by_cases hos : os = []
      · simp [hos]
        tauto
      · simp [hos]
        tauto

theorem cover_element_fields (l_e : Nat) (cl : Classification C) (el : VirtualVertex) :
    (cover_element l_e cl el).covered =
      Function.update cl.covered el (insert l_e (cl.covered el)) ∧
    (cover_element l_e cl el).blocked_l_e = cl.blocked_l_e ∧
    (cover_element l_e cl el).conflicting_l_e =
      cl.conflicting_l_e ∪ (if cl.covered el = ∅ then ∅ else insert l_e (cl.covered el)) := by
  obtain ⟨h1, h2, h3⟩ := cover_marks l_e (ascending (cl.covered el)) cl
  unfold cover_element
  refine ⟨?_, h2, ?_⟩
  · simp only [h1]
  · simp only
    rw [h3]
    have hnil : ascending (cl.covered el) = [] ↔ cl.covered el = ∅ := by
      constructor
      · intro h
        apply Finset.eq_empty_of_forall_not_mem
        intro x hx
        have := (mem_ascending _ x).2 hx
        rw [h] at this
        simp at this
      · intro h
        apply List.eq_nil_iff_forall_not_mem.2
        intro x hx
        have := (mem_ascending _ x).1 hx
        rw [h] at this
        simp at this
    have hfin : (ascending (cl.covered el)).toFinset = cl.covered el := by
      ext x
      rw [List.mem_toFinset, mem_ascending]
    by_cases hc : cl.covered el = ∅
    · rw [if_pos (hnil.2 hc), if_pos hc]
    · rw [if_neg (fun h => hc (hnil.1 h)), if_neg hc, hfin]

/-- The loop over the interior of the path of `l_e`, started from `cl`: what is covered
afterwards, and what an empty conflicting set afterwards says about `cl`. -/
theorem cover_interior (l_e : Nat) (xs : List VirtualVertex) :
    ∀ cl : Classification C,
      (∀ x, (xs.foldl (cover_element l_e) cl).covered x =
        if x ∈ xs then insert l_e (cl.covered x) else cl.covered x) ∧
      (xs.foldl (cover_element l_e) cl).blocked_l_e = cl.blocked_l_e ∧
      (∀ e ∈ (xs.foldl (cover_element l_e) cl).conflicting_l_e,
        e ∈ cl.conflicting_l_e ∨ e = l_e ∨ ∃ x, e ∈ cl.covered x) ∧
      ((xs.foldl (cover_element l_e) cl).conflicting_l_e = ∅ →
        cl.conflicting_l_e = ∅ ∧ ∀ x ∈ xs, cl.covered x = ∅) := by
  induction xs with
  | nil =>
      intro cl
      refine ⟨fun x => by simp, rfl, fun e he => Or.inl he, fun h => ⟨h, fun x hx => by simp at hx⟩⟩
  | cons y ys ih =>
      intro cl
      rw [List.foldl_cons]
      obtain ⟨k1, k2, k3, k4⟩ := ih (cover_element l_e cl y)
      obtain ⟨c1, c2, c3⟩ := cover_element_fields l_e cl y
      refine ⟨?_, ?_, ?_, ?_⟩
      · intro x
        rw [k1, c1]
        by_cases hxy : x = y
        · subst hxy
          simp
        · by_cases hx : x ∈ ys
          · simp [hx, hxy, Function.update_noteq hxy]
          · simp [hx, hxy, Function.update_noteq hxy]
      · rw [k2, c2]
      · intro e he
        rcases k3 e he with h1 | h1 | ⟨x, h1⟩
        · rw [c3] at h1
          rcases Finset.mem_union.1 h1 with h2 | h2
          · exact Or.inl h2
          · by_cases hc : cl.covered y = ∅
            · rw [if_pos hc] at h2; simp at h2
            · rw [if_neg hc] at h2
              rcases Finset.mem_insert.1 h2 with h3 | h3
              · exact Or.inr (Or.inl h3)
              · exact Or.inr (Or.inr ⟨y, h3⟩)
        · exact Or.inr (Or.inl h1)
        · rw [c1] at h1
          by_cases hxy : x = y
          · subst hxy
            rw [Function.update_same] at h1
            rcases Finset.mem_insert.1 h1 with h3 | h3
            · exact Or.inr (Or.inl h3)
            · exact Or.inr (Or.inr ⟨x, h3⟩)
          · rw [Function.update_noteq hxy] at h1
            exact Or.inr (Or.inr ⟨x, h1⟩)
      · intro hempty
        obtain ⟨e1, e2⟩ := k4 hempty
        rw [c3] at e1
        have hcl : cl.conflicting_l_e = ∅ := by
          apply Finset.eq_empty_of_forall_not_mem
          intro x hx
          have : x ∈ cl.conflicting_l_e ∪
              (if cl.covered y = ∅ then ∅ else insert l_e (cl.covered y)) :=
            Finset.mem_union_left _ hx
          rw [e1] at this
          simp at this
        have hy : cl.covered y = ∅ := by
          by_contra hne
          rw [if_neg hne] at e1
          have : l_e ∈ cl.conflicting_l_e ∪ insert l_e (cl.covered y) :=
            Finset.mem_union_right _ (Finset.mem_insert_self _ _)
          rw [e1] at this
          simp at this
        refine ⟨hcl, fun x hx => ?_⟩
        rcases List.mem_cons.1 hx with h1 | h1
        · rw [h1]; exact hy
        · have := e2 x h1
          rw [c1] at this
          by_cases hxy : x = y
          · rw [hxy]; exact hy
          · rw [Function.update_noteq hxy] at this
            exact this

theorem classInv_init (ops : SearchOps Em C) (r : Replay Em C) :
    ClassInv ops r []
      ({ covered := fun _ => ∅, conflicting_l_e := ∅, blocked_l_e := ∅, unembedded_cost := 0 } :
        Classification C) := by
  refine ⟨?_, ?_, ?_, ?_, ?_⟩
  · intro e he; simp at he
  · intro x e he; simp at he
  · intro e he; simp at he
  · intro e; simp
  · intro _ e1 he1; simp at he1

/-- One round of the classification loop extends the invariant by the edge it visits. -/
theorem classInv_step (ops : SearchOps Em C) (r : Replay Em C) (D : List Nat)
    (cl cl1 : Classification C) (l_e : Nat) (hinv : ClassInv ops r D cl)
    (h : classify_step ops r cl l_e = Res.done cl1) : ClassInv ops r (l_e :: D) cl1 := by
  unfold classify_step at h
  by_cases hemb : l_e ∈ r.embedded_l_e
  · simp only [hemb, if_true, Res.done.injEq] at h
    subst h
    refine ⟨?_, ?_, ?_, ?_, ?_⟩
    · intro e he hne hfree x hx
      rcases List.mem_cons.1 he with h1 | h1
      · rw [h1] at hne; exact absurd hemb hne
      · exact hinv.covers e h1 hne hfree x hx
    · intro x e he
      obtain ⟨h1, h2, h3⟩ := hinv.covered_in x e he
      exact ⟨List.mem_cons_of_mem _ h1, h2, h3⟩
    · intro e he
      obtain ⟨h1, h2, h3⟩ := hinv.conflicting_in e he
      exact ⟨List.mem_cons_of_mem _ h1, h2, h3⟩
    · intro e
      rw [hinv.blocked_iff e]
      constructor
      · rintro ⟨h1, h2, h3⟩; exact ⟨List.mem_cons_of_mem _ h1, h2, h3⟩
      · rintro ⟨h1, h2, h3⟩
        rcases List.mem_cons.1 h1 with h4 | h4
        · rw [h4] at h2; exact absurd hemb h2
        · exact ⟨h4, h2, h3⟩
    · intro hempty e1 he1 e2 he2 hne hn1 hn2 hf1 hf2
      rcases List.mem_cons.1 he1 with h1 | h1
      · rw [h1] at hn1; exact absurd hemb hn1
      rcases List.mem_cons.1 he2 with h2 | h2
      · rw [h2] at hn2; exact absurd hemb hn2
      exact hinv.disjoint hempty e1 h1 e2 h2 hne hn1 hn2 hf1 hf2
  simp only [hemb, if_false] at h
  by_cases hblk : r.l_v_components.equivalent (ops.layout.vertexA l_e)
      (ops.layout.vertexB l_e) = true
  · simp only [hblk, if_true, Res.done.injEq] at h
    subst h
    refine ⟨?_, ?_, ?_, ?_, ?_⟩
    · intro e he hne hfree x hx
      rcases List.mem_cons.1 he with h1 | h1
      · rw [h1, hblk] at hfree; exact absurd hfree (by simp)
      · exact hinv.covers e h1 hne hfree x hx
    · intro x e he
      obtain ⟨h1, h2, h3⟩ := hinv.covered_in x e he
      exact ⟨List.mem_cons_of_mem _ h1, h2, h3⟩
    · intro e he
      obtain ⟨h1, h2, h3⟩ := hinv.conflicting_in e he
      exact ⟨List.mem_cons_of_mem _ h1, h2, h3⟩
    · intro e
      simp only [Finset.mem_insert, hinv.blocked_iff e, List.mem_cons]
      constructor
      · rintro (h1 | ⟨h1, h2, h3⟩)
        · rw [h1]; exact ⟨Or.inl rfl, hemb, hblk⟩
        · exact ⟨Or.inr h1, h2, h3⟩
      · rintro ⟨h1 | h1, h2, h3⟩
        · exact Or.inl h1
        · exact Or.inr ⟨h1, h2, h3⟩
    · intro hempty e1 he1 e2 he2 hne hn1 hn2 hf1 hf2
      rcases List.mem_cons.1 he1 with h1 | h1
      · rw [h1, hblk] at hf1; exact absurd hf1 (by simp)
      rcases List.mem_cons.1 he2 with h2 | h2
      · rw [h2, hblk] at hf2; exact absurd hf2 (by simp)
      exact hinv.disjoint hempty e1 h1 e2 h2 hne hn1 hn2 hf1 hf2
  have hfree : r.l_v_components.equivalent (ops.layout.vertexA l_e)
      (ops.layout.vertexB l_e) = false := by simpa using hblk
  simp only [hblk, Bool.false_eq_true, if_false] at h
  by_cases hoob : (ops.find_shortest_path_edge r.em l_e).length <
      size_minus_one (ops.find_shortest_path_edge r.em l_e).length
  · simp [hoob] at h
  simp only [hoob, if_false, Res.done.injEq] at h
  obtain ⟨k1, k2, k3, k4⟩ := cover_interior l_e (interior (ops.find_shortest_path_edge r.em l_e))
    { cl with unembedded_cost := cl.unembedded_cost +
        ops.path_length r.em (ops.find_shortest_path_edge r.em l_e) }
  rw [h] at k1 k2 k3 k4
  simp only at k1 k2 k3 k4
  refine ⟨?_, ?_, ?_, ?_, ?_⟩
  · intro e he hne hf x hx
    rw [k1]
    rcases List.mem_cons.1 he with h1 | h1
    · rw [h1] at hx ⊢
      rw [if_pos hx]; exact Finset.mem_insert_self _ _
    · have := hinv.covers e h1 hne hf x hx
      by_cases hxi : x ∈ interior (ops.find_shortest_path_edge r.em l_e)
      · rw [if_pos hxi]; exact Finset.mem_insert_of_mem this
      · rw [if_neg hxi]; exact this
  · intro x e he
    rw [k1] at he
    have hold : e ∈ cl.covered x → e ∈ l_e :: D ∧ e ∉ r.embedded_l_e ∧
        r.l_v_components.equivalent (ops.layout.vertexA e) (ops.layout.vertexB e) = false := by
      intro h1
      obtain ⟨h2, h3, h4⟩ := hinv.covered_in x e h1
      exact ⟨List.mem_cons_of_mem _ h2, h3, h4⟩
    by_cases hxi : x ∈ interior (ops.find_shortest_path_edge r.em l_e)
    · rw [if_pos hxi] at he
      rcases Finset.mem_insert.1 he with h1 | h1
      · rw [h1]; exact ⟨List.mem_cons_self _ _, hemb, hfree⟩
      · exact hold h1
    · rw [if_neg hxi] at he
      exact hold he
  · intro e he
    rcases k3 e he with h1 | h1 | ⟨x, h1⟩
    · obtain ⟨h2, h3, h4⟩ := hinv.conflicting_in e h1
      exact ⟨List.mem_cons_of_mem _ h2, h3, h4⟩
    · rw [h1]; exact ⟨List.mem_cons_self _ _, hemb, hfree⟩
    · obtain ⟨h2, h3, h4⟩ := hinv.covered_in x e h1
      exact ⟨List.mem_cons_of_mem _ h2, h3, h4⟩
  · intro e
    rw [k2, hinv.blocked_iff e]
    constructor
    · rintro ⟨h1, h2, h3⟩; exact ⟨List.mem_cons_of_mem _ h1, h2, h3⟩
    · rintro ⟨h1, h2, h3⟩
      rcases List.mem_cons.1 h1 with h4 | h4
      · rw [h4, hfree] at h3; exact absurd h3 (by simp)
      · exact ⟨h4, h2, h3⟩
  · intro hempty e1 he1 e2 he2 hne hn1 hn2 hf1 hf2 x hx1 hx2
    obtain ⟨hclempty, hcov⟩ := k4 hempty
    rcases List.mem_cons.1 he1 with h1 | h1
    · rcases List.mem_cons.1 he2 with h2 | h2
      · exact hne (h1.trans h2.symm)
      · rw [h1] at hx1
        have h3 := hinv.covers e2 h2 hn2 hf2 x hx2
        rw [hcov x hx1] at h3
        simp at h3
    · rcases List.mem_cons.1 he2 with h2 | h2
      · rw [h2] at hx2
        have h3 := hinv.covers e1 h1 hn1 hf1 x hx1
        rw [hcov x hx2] at h3
        simp at h3
      · exact hinv.disjoint hclempty e1 h1 e2 h2 hne hn1 hn2 hf1 hf2 x hx1 hx2

theorem classInv_loop (ops : SearchOps Em C) (r : Replay Em C) (es : List Nat) :
    ∀ (D : List Nat) (cl cl1 : Classification C), es.Nodup → (∀ e ∈ es, e ∉ D) →
      ClassInv ops r D cl → classify_loop ops r es cl = Res.done cl1 →
      ∃ D1, (∀ e, e ∈ D1 ↔ e ∈ es ∨ e ∈ D) ∧ ClassInv ops r D1 cl1 := by
  induction es with
  | nil =>
      intro D cl cl1 _ _ hinv h
      simp only [classify_loop, Res.done.injEq] at h
      subst h
      exact ⟨D, fun e => by simp, hinv⟩
  | cons e es ih =>
      intro D cl cl1 hnd hD hinv h
      unfold classify_loop at h
      cases hs : classify_step ops r cl e with
      | fatal => rw [hs] at h; simp at h
      | timeout => rw [hs] at h; simp at h
      | done cl2 =>
          rw [hs] at h
          simp only at h
          have hinv2 := classInv_step ops r D cl cl2 e hinv hs
          obtain ⟨D1, hD1, hinv1⟩ := ih (e :: D) cl2 cl1 (List.nodup_cons.1 hnd).2
            (by
              intro x hx hxD
              rcases List.mem_cons.1 hxD with h1 | h1
              · rw [h1] at hx; exact (List.nodup_cons.1 hnd).1 hx
              · exact hD x (List.mem_cons_of_mem _ hx) h1)
            hinv2 h
          refine ⟨D1, fun x => ?_, hinv1⟩
          rw [hD1 x]
          simp only [List.mem_cons]
          tauto

/-- After the replay loop the set `embedded_l_e` holds the insertions. -/
theorem replay_loop_embedded (ops : SearchOps Em C) (ins : List Nat) :
    ∀ r r1 : Replay Em C, replay_loop ops ins r = Res.done r1 →
      r1.embedded_l_e = r.embedded_l_e ∪ ins.toFinset := by
  induction ins with
  | nil =>
      intro r r1 h
      simp only [replay_loop, Res.done.injEq] at h
      subst h; simp
  | cons e ins ih =>
      intro r r1 h
      unfold replay_loop at h
      cases hs : replay_step ops r e with
      | fatal => rw [hs] at h; simp at h
      | timeout => rw [hs] at h; simp at h
      | done r2 =>
          rw [hs] at h
          simp only at h
          rw [ih r2 r1 h]
          have hr2 : r2.embedded_l_e = insert e r.embedded_l_e := by
            unfold replay_step at hs
            simp only at hs
            cases he : ops.embed_path r.em (ops.layout.halfedgeA e)
                (ops.find_shortest_path r.em (ops.layout.halfedgeA e)) with
            | none => rw [he] at hs; simp at hs
            | some em1 =>
                rw [he] at hs
                simp only at hs
                by_cases hq : r.l_v_components.equivalent (ops.layout.vertexA e)
                    (ops.layout.vertexB e) = true
                · simp [hq] at hs
                · simp only [hq, Bool.false_eq_true, if_false, Res.done.injEq] at hs
                  rw [← hs]
          rw [hr2]
          ext x
          simp only [Finset.mem_union, Finset.mem_insert, List.toFinset_cons, List.mem_toFinset]
          tauto

/-- The node computed for a candidate: its embedded edges are the insertions, its conflicting
edges are layout edges that are neither embedded nor blocked, its blocked edges are the layout
edges that are not embedded and whose end points the insertions connect, and if no edge is
conflicting then the candidate paths of the edges that are neither embedded nor blocked have
disjoint interiors. -/
theorem evaluate_node_spec (ops : SearchOps Em C) (em : Em) (c : Candidate C) (node : Node Em C)
    (h : evaluate_node ops em c = Res.done node) :
    (∀ e, e ∈ node.embedded_l_e ↔ e ∈ c.insertions) ∧
    (∀ e ∈ node.conflicting_l_e,
      e < ops.layout.num_edges ∧ e ∉ c.insertions ∧ e ∉ node.blocked_l_e) ∧
    (node.conflicting_l_e = ∅ → ∀ e1 e2, e1 < ops.layout.num_edges →
      e2 < ops.layout.num_edges → e1 ≠ e2 → e1 ∉ c.insertions → e2 ∉ c.insertions →
      e1 ∉ node.blocked_l_e → e2 ∉ node.blocked_l_e →
      ∀ x ∈ interior (ops.find_shortest_path_edge node.em e1),
        x ∉ interior (ops.find_shortest_path_edge node.em e2)) := by
  unfold evaluate_node at h
  cases hr : replay ops em c.insertions with
  | fatal => rw [hr] at h; simp at h
  | timeout => rw [hr] at h; simp at h
  | done r =>
      rw [hr] at h
      simp only at h
      cases hc : classify_loop ops r (List.range ops.layout.num_edges)
          { covered := fun _ => ∅, conflicting_l_e := ∅, blocked_l_e := ∅,
            unembedded_cost := 0 } with
      | fatal => rw [hc] at h; simp at h
      | timeout => rw [hc] at h; simp at h
      | done cl =>
          rw [hc] at h
          simp only [Res.done.injEq] at h
          subst h
          simp only
          have hemb : ∀ e, e ∈ r.embedded_l_e ↔ e ∈ c.insertions := by
            intro e
            unfold replay at hr
            rw [replay_loop_embedded ops _ _ r hr]
            simp
          obtain ⟨D, hD, hinv⟩ := classInv_loop ops r (List.range ops.layout.num_edges) [] _ cl
            (List.nodup_range _) (fun e _ => by simp) (classInv_init ops r) hc
          have hDr : ∀ e, e ∈ D ↔ e < ops.layout.num_edges := by
            intro e; rw [hD e]; simp
          have hblocked : ∀ e, e ∈ D → e ∉ r.embedded_l_e → e ∉ cl.blocked_l_e →
              r.l_v_components.equivalent (ops.layout.vertexA e) (ops.layout.vertexB e)
                = false := by
            intro e heD hne hnb
            by_contra hq
            exact hnb ((hinv.blocked_iff e).2 ⟨heD, hne, by simpa using hq⟩)
          refine ⟨hemb, ?_, ?_⟩
          · intro e he
            obtain ⟨h1, h2, h3⟩ := hinv.conflicting_in e he
            refine ⟨(hDr e).1 h1, fun hm => h2 ((hemb e).2 hm), fun hb => ?_⟩
            have := ((hinv.blocked_iff e).1 hb).2.2
            rw [h3] at this
            exact Bool.false_ne_true this
          · intro hempty e1 e2 h1 h2 hne hi1 hi2 hb1 hb2
            have hn1 : e1 ∉ r.embedded_l_e := fun hm => hi1 ((hemb e1).1 hm)
            have hn2 : e2 ∉ r.embedded_l_e := fun hm => hi2 ((hemb e2).1 hm)
            exact hinv.disjoint hempty e1 ((hDr e1).2 h1) e2 ((hDr e2).2 h2) hne hn1 hn2
              (hblocked e1 ((hDr e1).2 h1) hn1 hb1) (hblocked e2 ((hDr e2).2 h2) hn2 hb2)

end NodeTheorems

/-! ## Branch and bound: the search loop and the final application -/

section SearchTheorems

variable {Em C : Type} [LinearOrder C] [Add C] [Zero C] [Top C] [GapTests C]

theorem pop_min_spec (q : List (Candidate C)) :
    ∀ c rest, pop_min q = some (c, rest) →
      List.Perm q (c :: rest) ∧ ∀ c1 ∈ rest, c.lower_bound ≤ c1.lower_bound := by
  induction q with
  | nil => intro c rest h; simp [pop_min] at h
  | cons a q ih =>
      intro c rest h
      unfold pop_min at h
      cases hq : pop_min q with
      | none =>
          rw [hq] at h
          simp only [Option.some.injEq, Prod.mk.injEq] at h
          have hnil : q = [] := by
            cases q with
            | nil => rfl
            | cons b q1 =>
                exfalso
                unfold pop_min at hq
                cases hq1 : pop_min q1 with
                | none => rw [hq1] at hq; simp at hq
                | some r =>
                    rw [hq1] at hq
                    obtain ⟨m, rest1⟩ := r
                    simp only at hq
                    split at hq <;> simp at hq
          rw [← h.1, ← h.2, hnil]
          exact ⟨List.Perm.refl _, fun c1 hc1 => by simp at hc1⟩
      | some r =>
          rw [hq] at h
          obtain ⟨m, rest1⟩ := r
          obtain ⟨hperm, hleast⟩ := ih m rest1 hq
          simp only at h
          by_cases hle : a.lower_bound ≤ m.lower_bound
          · rw [if_pos hle] at h
            simp only [Option.some.injEq, Prod.mk.injEq] at h
            rw [← h.1, ← h.2]
            refine ⟨List.Perm.refl _, fun c1 hc1 => ?_⟩
            rcases List.mem_cons.1 (hperm.subset hc1) with h1 | h1
            · rw [h1]; exact hle
            · exact hle.trans (hleast c1 h1)
          · rw [if_neg hle] at h
            simp only [Option.some.injEq, Prod.mk.injEq] at h
            rw [← h.1, ← h.2]
            refine ⟨?_, fun c1 hc1 => ?_⟩
            · exact (List.Perm.cons a hperm).trans (List.Perm.swap m a rest1)
            · rcases List.mem_cons.1 hc1 with h1 | h1
              · rw [h1]; exact le_of_lt (lt_of_not_le hle)
              · exact hleast c1 h1

theorem pop_min_nonempty (q : List (Candidate C)) (h : q ≠ []) : (pop_min q).isSome = true := by
  cases q with
  | nil => exact absurd rfl h
  | cons a q =>
      unfold pop_min
      cases pop_min q with
      | none => rfl
      | some r =>
          obtain ⟨m, rest1⟩ := r
          simp only
          split <;> rfl

/-- The queue `pop_min` is a priority queue in the sense of `PopPolicy`. -/
theorem pop_min_policy : PopPolicy (pop_min : List (Candidate C) → _) :=
  ⟨rfl, pop_min_nonempty, fun q c rest h => (pop_min_spec q c rest h).1,
    fun q c rest h => (pop_min_spec q c rest h).2⟩

theorem push_children_good (ops : SearchOps Em C) (node_em : Em) (c : Candidate C) (ub : C)
    (n : Nat) (hc : GoodSequence n c.insertions) (es : List Nat) :
    ∀ q q1 : List (Candidate C), (∀ e ∈ es, e < n ∧ e ∉ c.insertions) →
      (∀ x ∈ q, GoodSequence n x.insertions) →
      push_children ops node_em c ub es q = Res.done q1 →
      ∀ x ∈ q1, GoodSequence n x.insertions := by
  induction es with
  | nil =>
      intro q q1 _ hq h
      simp only [push_children, Res.done.injEq] at h
      rw [← h]; exact hq
  | cons e es ih =>
      intro q q1 hes hq h
      unfold push_children at h
      cases hlb : calc_cost_lower_bound ops node_em (c.insertions ++ [e]) with
      | fatal => rw [hlb] at h; simp at h
      | timeout => rw [hlb] at h; simp at h
      | done lb =>
          rw [hlb] at h
          simp only at h
          have hes1 : ∀ x ∈ es, x < n ∧ x ∉ c.insertions :=
            fun x hx => hes x (List.mem_cons_of_mem _ hx)
          by_cases hg : gap_gt_max_gap lb ub = true
          · rw [if_pos hg] at h
            refine ih _ q1 hes1 ?_ h
            intro x hx
            rcases List.mem_cons.1 hx with h1 | h1
            · rw [h1]
              obtain ⟨he1, he2⟩ := hes e (List.mem_cons_self _ _)
              refine ⟨?_, ?_⟩
              · simp only
                rw [List.nodup_append]
                refine ⟨hc.1, List.nodup_singleton e, ?_⟩
                intro a ha1 ha2
                rw [List.mem_singleton] at ha2
                rw [ha2] at ha1
                exact he2 ha1
              · intro a ha
                simp only [List.mem_append, List.mem_singleton] at ha
                rcases ha with h2 | h2
                · exact hc.2 a h2
                · rw [h2]; exact he1
            · exact hq x h1
          · rw [if_neg hg] at h
            exact ih q q1 hes1 hq h

/-- One iteration keeps every queued sequence and the best solution free of repetitions. -/
theorem search_step_good (pop : List (Candidate C) → Option (Candidate C × List (Candidate C)))
    (hpop : PopPolicy pop) (ops : SearchOps Em C) (em : Em) (st st1 : SearchState C) (b : Bool)
    (hq : ∀ x ∈ st.q, GoodSequence ops.layout.num_edges x.insertions)
    (hbest : GoodSequence ops.layout.num_edges (best_insertions st.best_solution))
    (h : search_step pop ops em st = Res.done (b, st1)) :
    (∀ x ∈ st1.q, GoodSequence ops.layout.num_edges x.insertions) ∧
    GoodSequence ops.layout.num_edges (best_insertions st1.best_solution) := by
  unfold search_step at h
  cases hp : pop st.q with
  | none =>
      rw [hp] at h
      simp only [Res.done.injEq, Prod.mk.injEq] at h
      rw [← h.2]; exact ⟨hq, hbest⟩
  | some r =>
      rw [hp] at h
      obtain ⟨c, rest⟩ := r
      have hperm := hpop.perm st.q c rest hp
      have hc : GoodSequence ops.layout.num_edges c.insertions :=
        hq c (hperm.symm.subset (List.mem_cons_self _ _))
      have hrest : ∀ x ∈ rest, GoodSequence ops.layout.num_edges x.insertions :=
        fun x hx => hq x (hperm.symm.subset (List.mem_cons_of_mem _ hx))
      simp only at h
      by_cases hgap : gap_le_max_gap c.lower_bound st.global_upper_bound = true
      · rw [if_pos hgap] at h
        simp only [Res.done.injEq, Prod.mk.injEq] at h
        rw [← h.2]; exact ⟨hrest, hbest⟩
      rw [if_neg hgap] at h
      cases hn : evaluate_node ops em c with
      | fatal => rw [hn] at h; simp at h
      | timeout => rw [hn] at h; simp at h
      | done node =>
          rw [hn] at h
          simp only at h
          obtain ⟨_, hconf, _⟩ := evaluate_node_spec ops em c node hn
          by_cases he : node.conflicting_l_e = ∅
          · rw [if_pos he] at h
            by_cases hlt : node.cost_lower_bound < st.global_upper_bound
            · rw [if_pos hlt] at h
              simp only [Res.done.injEq, Prod.mk.injEq] at h
              rw [← h.2]; exact ⟨hrest, hc⟩
            · rw [if_neg hlt] at h
              simp only [Res.done.injEq, Prod.mk.injEq] at h
              rw [← h.2]; exact ⟨hrest, hbest⟩
          · rw [if_neg he] at h
            by_cases hlt : node.cost_lower_bound < st.global_upper_bound
            · rw [if_pos hlt] at h
              cases hpc : push_children ops node.em c st.global_upper_bound
                  (ascending node.conflicting_l_e) rest with
              | fatal => rw [hpc] at h; simp at h
              | timeout => rw [hpc] at h; simp at h
              | done q1 =>
                  rw [hpc] at h
                  simp only [Res.done.injEq, Prod.mk.injEq] at h
                  rw [← h.2]
                  refine ⟨?_, hbest⟩
                  apply push_children_good ops node.em c st.global_upper_bound _ hc _ rest q1
                    _ hrest hpc
                  intro e he1
                  obtain ⟨k1, k2, _⟩ := hconf e ((mem_ascending _ e).1 he1)
                  exact ⟨k1, k2⟩
            · rw [if_neg hlt] at h
              simp only [Res.done.injEq, Prod.mk.injEq] at h
              rw [← h.2]; exact ⟨hrest, hbest⟩

theorem search_loop_good (pop : List (Candidate C) → Option (Candidate C × List (Candidate C)))
    (hpop : PopPolicy pop) (ops : SearchOps Em C) (em : Em) (fuel : Nat) :
    ∀ st st1 : SearchState C,
      (∀ x ∈ st.q, GoodSequence ops.layout.num_edges x.insertions) →
      GoodSequence ops.layout.num_edges (best_insertions st.best_solution) →
      search_loop pop ops em fuel st = Res.done st1 →
      GoodSequence ops.layout.num_edges (best_insertions st1.best_solution) := by
  induction fuel with
  | zero => intro st st1 _ _ h; simp [search_loop] at h
  | succ n ih =>
      intro st st1 hq hbest h
      unfold search_loop at h
      cases hs : search_step pop ops em st with
      | fatal => rw [hs] at h; simp at h
      | timeout => rw [hs] at h; simp at h
      | done r =>
          rw [hs] at h
          obtain ⟨b, st2⟩ := r
          obtain ⟨g1, g2⟩ := search_step_good pop hpop ops em st st2 b hq hbest hs
          cases b with
          | true => exact ih st2 st1 g1 g2 h
          | false =>
              simp only [Res.done.injEq] at h
              rw [← h]; exact g2

theorem replay_calls_append (ops : SearchOps Em C) (l_e : Nat) (path : VirtualPath)
    (calls : List (Nat × VirtualPath)) :
    ∀ em em1 em2 : Em, replay_calls ops em calls = some em1 →
      path = ops.find_shortest_path em1 (ops.layout.halfedgeA l_e) →
      ops.embed_path em1 (ops.layout.halfedgeA l_e) path = some em2 →
      replay_calls ops em (calls ++ [(l_e, path)]) = some em2 := by
  induction calls with
  | nil =>
      intro em em1 em2 h hp he
      simp only [replay_calls, Option.some.injEq] at h
      subst h
      simp only [List.nil_append, replay_calls, ← hp, if_true, he]
  | cons a calls ih =>
      intro em em1 em2 h hp he
      obtain ⟨e0, p0⟩ := a
      rw [List.cons_append]
      unfold replay_calls at h ⊢
      by_cases hp0 : p0 = ops.find_shortest_path em (ops.layout.halfedgeA e0)
      · rw [if_pos hp0] at h ⊢
        cases hq : ops.embed_path em (ops.layout.halfedgeA e0) p0 with
        | none => rw [hq] at h; simp at h
        | some em3 =>
            rw [hq] at h
            simp only at h ⊢
            exact ih em3 em1 em2 h hp he
      · rw [if_neg hp0] at h; simp at h

/-- What one call of `embed_path` in the final part does to the log. -/
theorem apply_edge_spec (ops : SearchOps Em C) (a : ApplyState Em) (l_e : Nat) :
    (∀ a1, apply_edge ops a l_e = Outcome.done a1 →
      a1.calls.map Prod.fst = a.calls.map Prod.fst ++ [l_e] ∧
      a1.l_e_embedded = insert l_e a.l_e_embedded ∧
      ∀ em0, replay_calls ops em0 a.calls = some a.em →
        replay_calls ops em0 a1.calls = some a1.em) ∧
    (∀ a1, apply_edge ops a l_e = Outcome.fatal a1 →
      a1.calls.map Prod.fst = a.calls.map Prod.fst ++ [l_e]) ∧
    apply_edge ops a l_e ≠ Outcome.timeout := by
  have key : apply_edge ops a l_e =
      match ops.embed_path a.em (ops.layout.halfedgeA l_e)
          (ops.find_shortest_path a.em (ops.layout.halfedgeA l_e)) with
      | none =>
          Outcome.fatal { a with calls := a.calls ++
            [(l_e, ops.find_shortest_path a.em (ops.layout.halfedgeA l_e))] }
      | some em1 =>
          Outcome.done
            { em := em1, l_e_embedded := insert l_e a.l_e_embedded,
              calls := a.calls ++
                [(l_e, ops.find_shortest_path a.em (ops.layout.halfedgeA l_e))] } := rfl
  rw [key]
  cases he : ops.embed_path a.em (ops.layout.halfedgeA l_e)
      (ops.find_shortest_path a.em (ops.layout.halfedgeA l_e)) with
  | none =>
      refine ⟨fun a1 h => by simp at h, fun a1 h => ?_, by simp⟩
      simp only [Outcome.fatal.injEq] at h
      rw [← h]; simp
  | some em1 =>
      refine ⟨fun a1 h => ?_, fun a1 h => by simp at h, by simp⟩
      simp only [Outcome.done.injEq] at h
      rw [← h]
      refine ⟨by simp, rfl, fun em0 hr => ?_⟩
      exact replay_calls_append ops l_e _ a.calls em0 a.em em1 hr rfl he

theorem apply_insertions_spec (ops : SearchOps Em C) (es : List Nat) :
    ∀ a : ApplyState Em,
      (∀ a1, apply_insertions ops es a = Outcome.done a1 →
        a1.calls.map Prod.fst = a.calls.map Prod.fst ++ es ∧
        a1.l_e_embedded = a.l_e_embedded ∪ es.toFinset ∧
        ∀ em0, replay_calls ops em0 a.calls = some a.em →
          replay_calls ops em0 a1.calls = some a1.em) ∧
      (∀ a1, apply_insertions ops es a = Outcome.fatal a1 →
        ∃ t, a1.calls.map Prod.fst ++ t = a.calls.map Prod.fst ++ es) := by
  induction es with
  | nil =>
      intro a
      refine ⟨fun a1 h => ?_, fun a1 h => by simp [apply_insertions] at h⟩
      simp only [apply_insertions, Outcome.done.injEq] at h
      rw [← h]
      exact ⟨by simp, by simp, fun em0 hr => hr⟩
  | cons e es ih =>
      intro a
      obtain ⟨s1, s2, s3⟩ := apply_edge_spec ops a e
      unfold apply_insertions
      cases hx : apply_edge ops a e with
      | timeout => exact absurd hx s3
      | fatal a2 =>
          refine ⟨fun a1 h => by simp at h, fun a1 h => ?_⟩
          simp only [Outcome.fatal.injEq] at h
          rw [← h, s2 a2 hx]
          exact ⟨es, by simp⟩
      | done a2 =>
          obtain ⟨k1, k2, k3⟩ := s1 a2 hx
          obtain ⟨i1, i2⟩ := ih a2
          simp only
          refine ⟨fun a1 h => ?_, fun a1 h => ?_⟩
          · obtain ⟨j1, j2, j3⟩ := i1 a1 h
            refine ⟨by rw [j1, k1]; simp, ?_, fun em0 hr => j3 em0 (k3 em0 hr)⟩
            rw [j2, k2]
            ext x
            simp only [Finset.mem_union, Finset.mem_insert, List.toFinset_cons, List.mem_toFinset]
            tauto
          · obtain ⟨t, ht⟩ := i2 a1 h
            exact ⟨t, by rw [ht, k1]; simp⟩

theorem apply_remaining_spec (ops : SearchOps Em C) (es : List Nat) :
    ∀ a : ApplyState Em, es.Nodup →
      (∀ a1, apply_remaining ops es a = Outcome.done a1 →
        a1.calls.map Prod.fst =
          a.calls.map Prod.fst ++ es.filter (fun e => e ∉ a.l_e_embedded) ∧
        ∀ em0, replay_calls ops em0 a.calls = some a.em →
          replay_calls ops em0 a1.calls = some a1.em) ∧
      (∀ a1, apply_remaining ops es a = Outcome.fatal a1 →
        ∃ t, a1.calls.map Prod.fst ++ t =
          a.calls.map Prod.fst ++ es.filter (fun e => e ∉ a.l_e_embedded)) := by
  induction es with
  | nil =>
      intro a _
      refine ⟨fun a1 h => ?_, fun a1 h => by simp [apply_remaining] at h⟩
      simp only [apply_remaining, Outcome.done.injEq] at h
      rw [← h]
      exact ⟨by simp, fun em0 hr => hr⟩
  | cons e es ih =>
      intro a hnd
      obtain ⟨hne, hnd1⟩ := List.nodup_cons.1 hnd
      unfold apply_remaining
      by_cases hm : e ∈ a.l_e_embedded
      · rw [if_pos hm]
        obtain ⟨i1, i2⟩ := ih a hnd1
        have hf : (e :: es).filter (fun e => e ∉ a.l_e_embedded)
            = es.filter (fun e => e ∉ a.l_e_embedded) := by
          simp [List.filter_cons, hm]
        rw [hf]
        exact ⟨i1, i2⟩
      · rw [if_neg hm]
        have hf : (e :: es).filter (fun e => e ∉ a.l_e_embedded)
            = e :: es.filter (fun e => e ∉ a.l_e_embedded) := by
          simp [List.filter_cons, hm]
        rw [hf]
        obtain ⟨s1, s2, s3⟩ := apply_edge_spec ops a e
        cases hx : apply_edge ops a e with
        | timeout => exact absurd hx s3
        | fatal a2 =>
            refine ⟨fun a1 h => by simp at h, fun a1 h => ?_⟩
            simp only [Outcome.fatal.injEq] at h
            rw [← h, s2 a2 hx]
            exact ⟨es.filter (fun e => e ∉ a.l_e_embedded), by simp⟩
        | done a2 =>
            obtain ⟨k1, k2, k3⟩ := s1 a2 hx
            obtain ⟨i1, i2⟩ := ih a2 hnd1
            have hfilter : es.filter (fun x => x ∉ a2.l_e_embedded)
                = es.filter (fun x => x ∉ a.l_e_embedded) := by
              apply List.filter_congr
              intro x hx1
              have hxe : x ≠ e := fun hc => hne (hc ▸ hx1)
              rw [k2]
              simp [Finset.mem_insert, hxe]
            simp only
            refine ⟨fun a1 h => ?_, fun a1 h => ?_⟩
            · obtain ⟨j1, j3⟩ := i1 a1 h
              exact ⟨by rw [j1, k1, hfilter]; simp, fun em0 hr => j3 em0 (k3 em0 hr)⟩
            · obtain ⟨t, ht⟩ := i2 a1 h
              exact ⟨t, by rw [ht, k1, hfilter]; simp⟩

/-- The final order visits every layout edge exactly once when the insertions are pairwise
distinct layout edges. -/
theorem final_order_perm (n : Nat) (ins : List Nat) (h : GoodSequence n ins) :
    List.Perm (final_order n ins) (List.range n) := by
  unfold final_order
  apply (List.perm_ext_iff_of_nodup _ (List.nodup_range n)).2
  · intro e
    simp only [List.mem_append, List.mem_filter, List.mem_range, decide_eq_true_eq]
    constructor
    · rintro (h1 | h1)
      · exact h.2 e h1
      · exact h1.1
    · intro h1
      by_cases h2 : e ∈ ins
      · exact Or.inl h2
      · exact Or.inr ⟨h1, h2⟩
  · rw [List.nodup_append]
    refine ⟨h.1, (List.nodup_range n).filter _, ?_⟩
    intro a ha1 ha2
    simp only [List.mem_filter, decide_eq_true_eq] at ha2
    exact ha2.2 ha1

/-- C9. Final application of `branch_and_bound`. After the search loop has ended, the function
goes on with the final part on the caller's embedding. There `embed_path` is called for the
layout edges in this order: first the edges of `best_solution.insertions` in sequence order,
then all remaining layout edges by ascending index. This order holds every layout edge exactly
once. When no incumbent was recorded the sequence is empty and the order is the index order.
Each call gets the path `find_shortest_path` returns on the caller's embedding at that moment.
A run in which no call of `embed_path` stops in a fatal assertion makes all these calls; a run
that stops has made an initial part of them. -/
theorem branch_and_bound_final_application
    (pop : List (Candidate C) → Option (Candidate C × List (Candidate C)))
    (hpop : PopPolicy pop) (ops : SearchOps Em C) (em : Em) (fuel : Nat)
    (settings : BranchAndBoundSettings) (st : SearchState C)
    (hsearch : search_loop pop ops em fuel SearchState.init = Res.done st) :
    branch_and_bound pop ops fuel em settings = apply_solution ops em st.best_solution ∧
    List.Perm (final_order ops.layout.num_edges (best_insertions st.best_solution))
      (List.range ops.layout.num_edges) ∧
    (st.best_solution = none →
      final_order ops.layout.num_edges (best_insertions st.best_solution)
        = List.range ops.layout.num_edges) ∧
    (∀ a, apply_solution ops em st.best_solution = Outcome.done a →
      a.calls.map Prod.fst
        = final_order ops.layout.num_edges (best_insertions st.best_solution) ∧
      replay_calls ops em a.calls = some a.em) ∧
    (∀ a, apply_solution ops em st.best_solution = Outcome.fatal a →
      ∃ t, a.calls.map Prod.fst ++ t
        = final_order ops.layout.num_edges (best_insertions st.best_solution)) := by
  have hgood : GoodSequence ops.layout.num_edges (best_insertions st.best_solution) := by
    apply search_loop_good pop hpop ops em fuel SearchState.init st _ _ hsearch
    · intro x hx
      simp only [SearchState.init, List.mem_singleton] at hx
      rw [hx]
      exact ⟨List.nodup_nil, fun e he => by simp at he⟩
    · exact ⟨List.nodup_nil, fun e he => by simp [SearchState.init, best_insertions] at he⟩
  have hfilter : ∀ a1 : ApplyState Em,
      a1.l_e_embedded = (∅ : Finset Nat) ∪ (best_insertions st.best_solution).toFinset →
      (List.range ops.layout.num_edges).filter (fun e => e ∉ a1.l_e_embedded)
        = (List.range ops.layout.num_edges).filter
            (fun e => e ∉ best_insertions st.best_solution) := by
    intro a1 h1
    apply List.filter_congr
    intro x _
    rw [h1]
    simp
  refine ⟨?_, final_order_perm _ _ hgood, ?_, ?_, ?_⟩
  · unfold branch_and_bound
    rw [hsearch]
  · intro hnone
    rw [hnone]
    simp [final_order, best_insertions]
  · intro a h
    unfold apply_solution at h
    obtain ⟨i1, i2⟩ := apply_insertions_spec ops (best_insertions st.best_solution)
      { em := em, l_e_embedded := ∅, calls := [] }
    cases hx : apply_insertions ops (best_insertions st.best_solution)
        { em := em, l_e_embedded := ∅, calls := [] } with
    | timeout => rw [hx] at h; simp at h
    | fatal a1 => rw [hx] at h; simp at h
    | done a1 =>
        rw [hx] at h
        simp only at h
        obtain ⟨j1, j2, j3⟩ := i1 a1 hx
        obtain ⟨k1, k3⟩ := (apply_remaining_spec ops _ a1 (List.nodup_range _)).1 a h
        refine ⟨?_, k3 em (j3 em rfl)⟩
        rw [k1, j1, hfilter a1 j2]
        simp [final_order]
  · intro a h
    unfold apply_solution at h
    obtain ⟨i1, i2⟩ := apply_insertions_spec ops (best_insertions st.best_solution)
      { em := em, l_e_embedded := ∅, calls := [] }
    cases hx : apply_insertions ops (best_insertions st.best_solution)
        { em := em, l_e_embedded := ∅, calls := [] } with
    | timeout => rw [hx] at h; simp at h
    | fatal a1 =>
        rw [hx] at h
        simp only [Outcome.fatal.injEq] at h
        obtain ⟨t, ht⟩ := i2 a1 hx
        rw [← h]
        refine ⟨t ++ (List.range ops.layout.num_edges).filter
          (fun e => e ∉ best_insertions st.best_solution), ?_⟩
        rw [← List.append_assoc, ht]
        simp [final_order]
    | done a1 =>
        rw [hx] at h
        simp only at h
        obtain ⟨j1, j2, _⟩ := i1 a1 hx
        obtain ⟨t, ht⟩ := (apply_remaining_spec ops _ a1 (List.nodup_range _)).2 a h
        refine ⟨t, ?_⟩
        rw [ht, j1, hfilter a1 j2]
        simp [final_order]

end SearchTheorems

/-- Witness for C9 on the search instance: the search ends with the best solution `[0, 1]`, and
the final part commits the layout edges in the order `0, 1, 2, 3`. -/
theorem branch_and_bound_final_application_witness :
    search_loop pop_min bbOps [] 10 SearchState.init = Res.done ⟨[⟨32, [1]⟩], 8, some ⟨8, [0, 1]⟩⟩ ∧
    final_order 4 [0, 1] = [0, 1, 2, 3] ∧
    (apply_solution bbOps [] (some ⟨8, [0, 1]⟩)).isDone = true ∧
    ∀ a, apply_solution bbOps [] (some ⟨8, [0, 1]⟩) = Outcome.done a →
      a.calls.map Prod.fst = final_order 4 [0, 1] ∧ replay_calls bbOps [] a.calls = some a.em :=
  ⟨by decide, by decide, by decide,
    (branch_and_bound_final_application pop_min pop_min_policy bbOps [] 10 ⟨0, false, 0⟩
      ⟨[⟨32, [1]⟩], 8, some ⟨8, [0, 1]⟩⟩ (by decide)).2.2.2.1⟩

/-! ## The search loop, case by case -/

section SearchStepTheorems

variable {Em C : Type} [LinearOrder C] [Add C] [Zero C] [Top C] [GapTests C]

/-- The cases of one iteration of the search loop that returns. -/
theorem search_step_cases
    (pop : List (Candidate C) → Option (Candidate C × List (Candidate C)))
    (ops : SearchOps Em C) (em : Em) (st st1 : SearchState C) (b : Bool)
    (h : search_step pop ops em st = Res.done (b, st1)) :
    (pop st.q = none ∧ b = false ∧ st1 = st) ∨
    ∃ c rest, pop st.q = some (c, rest) ∧
      ((gap_le_max_gap c.lower_bound st.global_upper_bound = true ∧ b = false ∧
          st1 = { st with q := rest }) ∨
       (gap_le_max_gap c.lower_bound st.global_upper_bound = false ∧ b = true ∧
         ∃ node, evaluate_node ops em c = Res.done node ∧
          ((node.conflicting_l_e = ∅ ∧ node.cost_lower_bound < st.global_upper_bound ∧
              st1 = { q := rest, global_upper_bound := node.cost_lower_bound,
                      best_solution := some c }) ∨
           (¬ node.cost_lower_bound < st.global_upper_bound ∧ st1 = { st with q := rest }) ∨
           (node.conflicting_l_e ≠ ∅ ∧ node.cost_lower_bound < st.global_upper_bound ∧
             ∃ q1, push_children ops node.em c st.global_upper_bound
                 (ascending node.conflicting_l_e) rest = Res.done q1 ∧
               st1 = { st with q := q1 })))) := by
  unfold search_step at h
  cases hp : pop st.q with
  | none =>
      rw [hp] at h
      simp only [Res.done.injEq, Prod.mk.injEq] at h
      exact Or.inl ⟨rfl, h.1.symm, h.2.symm⟩
  | some r =>
      rw [hp] at h
      obtain ⟨c, rest⟩ := r
      refine Or.inr ⟨c, rest, rfl, ?_⟩
      simp only at h
      by_cases hgap : gap_le_max_gap c.lower_bound st.global_upper_bound = true
      · rw [if_pos hgap] at h
        simp only [Res.done.injEq, Prod.mk.injEq] at h
        exact Or.inl ⟨hgap, h.1.symm, h.2.symm⟩
      rw [if_neg hgap] at h
      have hgap1 : gap_le_max_gap c.lower_bound st.global_upper_bound = false := by
        simpa using hgap
      cases hn : evaluate_node ops em c with
      | fatal => rw [hn] at h; simp at h
      | timeout => rw [hn] at h; simp at h
      | done node =>
          rw [hn] at h
          simp only at h
          by_cases he : node.conflicting_l_e = ∅
          · rw [if_pos he] at h
            by_cases hlt : node.cost_lower_bound < st.global_upper_bound
            · rw [if_pos hlt] at h
              simp only [Res.done.injEq, Prod.mk.injEq] at h
              exact Or.inr ⟨hgap1, h.1.symm, node, rfl, Or.inl ⟨he, hlt, h.2.symm⟩⟩
            · rw [if_neg hlt] at h
              simp only [Res.done.injEq, Prod.mk.injEq] at h
              exact Or.inr ⟨hgap1, h.1.symm, node, rfl, Or.inr (Or.inl ⟨hlt, h.2.symm⟩)⟩
          · rw [if_neg he] at h
            by_cases hlt : node.cost_lower_bound < st.global_upper_bound
            · rw [if_pos hlt] at h
              cases hpc : push_children ops node.em c st.global_upper_bound
                  (ascending node.conflicting_l_e) rest with
              | fatal => rw [hpc] at h; simp at h
              | timeout => rw [hpc] at h; simp at h
              | done q1 =>
                  rw [hpc] at h
                  simp only [Res.done.injEq, Prod.mk.injEq] at h
                  exact Or.inr ⟨hgap1, h.1.symm, node, rfl,
                    Or.inr (Or.inr ⟨he, hlt, q1, hpc, h.2.symm⟩)⟩
            · rw [if_neg hlt] at h
              simp only [Res.done.injEq, Prod.mk.injEq] at h
              exact Or.inr ⟨hgap1, h.1.symm, node, rfl, Or.inr (Or.inl ⟨hlt, h.2.symm⟩)⟩

/-- The incumbent after one iteration: unchanged, or replaced by the popped candidate and the
bound of its node, which has no conflicts and improves on the old bound. -/
theorem search_step_incumbent
    (pop : List (Candidate C) → Option (Candidate C × List (Candidate C)))
    (ops : SearchOps Em C) (em : Em) (st st1 : SearchState C) (b : Bool)
    (h : search_step pop ops em st = Res.done (b, st1)) :
    (st1.global_upper_bound = st.global_upper_bound ∧ st1.best_solution = st.best_solution) ∨
    ∃ c rest node, pop st.q = some (c, rest) ∧ evaluate_node ops em c = Res.done node ∧
      node.conflicting_l_e = ∅ ∧ node.cost_lower_bound < st.global_upper_bound ∧
      st1.global_upper_bound = node.cost_lower_bound ∧ st1.best_solution = some c := by
  rcases search_step_cases pop ops em st st1 b h with ⟨_, _, h1⟩ | ⟨c, rest, hp, hc⟩
  · subst h1; exact Or.inl ⟨rfl, rfl⟩
  · rcases hc with ⟨_, _, h1⟩ | ⟨_, _, node, hn, hc⟩
    · subst h1; exact Or.inl ⟨rfl, rfl⟩
    · rcases hc with ⟨he, hlt, h1⟩ | ⟨_, h1⟩ | ⟨_, _, q1, _, h1⟩
      · subst h1; exact Or.inr ⟨c, rest, node, hp, hn, he, hlt, rfl, rfl⟩
      · subst h1; exact Or.inl ⟨rfl, rfl⟩
      · subst h1; exact Or.inl ⟨rfl, rfl⟩

/-- The bound `global_upper_bound` never grows over the iterations. -/
theorem search_iterate_upper_bound
    (pop : List (Candidate C) → Option (Candidate C × List (Candidate C)))
    (ops : SearchOps Em C) (em : Em) (k : Nat) :
    ∀ st st1 : SearchState C, search_iterate pop ops em k st = Res.done st1 →
      st1.global_upper_bound ≤ st.global_upper_bound := by
  induction k with
  | zero =>
      intro st st1 h
      simp only [search_iterate, Res.done.injEq] at h
      subst h; exact le_refl _
  | succ k ih =>
      intro st st1 h
      unfold search_iterate at h
      cases hs : search_step pop ops em st with
      | fatal => rw [hs] at h; simp at h
      | timeout => rw [hs] at h; simp at h
      | done r =>
          rw [hs] at h
          obtain ⟨b, st2⟩ := r
          have hstep : st2.global_upper_bound ≤ st.global_upper_bound := by
            rcases search_step_incumbent pop ops em st st2 b hs with ⟨h1, _⟩ |
              ⟨c, rest, node, _, _, _, hlt, h1, _⟩
            · exact le_of_eq h1
            · rw [h1]; exact le_of_lt hlt
          cases b with
          | true => exact le_trans (ih st2 st1 h) hstep
          | false =>
              simp only [Res.done.injEq] at h
              subst h; exact hstep

end SearchStepTheorems

section IncumbentTheorems

variable {Em C : Type} [LinearOrder C] [Add C] [Zero C] [Top C] [GapTests C]

/-- The node of a candidate is put together from the replay of its insertions and the
classification of the layout edges on the replayed embedding. -/
theorem evaluate_node_parts (ops : SearchOps Em C) (em : Em) (c : Candidate C) (node : Node Em C)
    (h : evaluate_node ops em c = Res.done node) :
    ∃ r cl, replay ops em c.insertions = Res.done r ∧
      classify_loop ops r (List.range ops.layout.num_edges)
        { covered := fun _ => ∅, conflicting_l_e := ∅, blocked_l_e := ∅,
          unembedded_cost := 0 } = Res.done cl ∧
      node.em = r.em ∧ node.embedded_l_e = r.embedded_l_e ∧
      node.conflicting_l_e = cl.conflicting_l_e ∧ node.blocked_l_e = cl.blocked_l_e ∧
      node.cost_lower_bound = r.embedded_cost + cl.unembedded_cost := by
  unfold evaluate_node at h
  cases hr : replay ops em c.insertions with
  | fatal => rw [hr] at h; simp at h
  | timeout => rw [hr] at h; simp at h
  | done r =>
      rw [hr] at h
      simp only at h
      cases hc : classify_loop ops r (List.range ops.layout.num_edges)
          { covered := fun _ => ∅, conflicting_l_e := ∅, blocked_l_e := ∅,
            unembedded_cost := 0 } with
      | fatal => rw [hc] at h; simp at h
      | timeout => rw [hc] at h; simp at h
      | done cl =>
          rw [hc] at h
          simp only [Res.done.injEq] at h
          subst h
          exact ⟨r, cl, rfl, hc, rfl, rfl, rfl, rfl, rfl⟩

/-- C13: the incumbent only tightens. For an iteration of the loop of `branch_and_bound` that
takes the state `st` to `st1`: `global_upper_bound` does not grow; either it and
`best_solution` are both unchanged, or the node of the popped candidate has an empty
conflicting set and a bound `embedded_cost + unembedded_cost` strictly below the old
`global_upper_bound`, which becomes the new one while the popped candidate becomes
`best_solution`; whenever a node with these two properties is evaluated the update takes
place; and however many iterations follow, `global_upper_bound` stays at or below its old
value. -/
theorem incumbent_only_tightens
    (pop : List (Candidate C) → Option (Candidate C × List (Candidate C)))
    (ops : SearchOps Em C) (em : Em) (st st1 : SearchState C) (b : Bool)
    (h : search_step pop ops em st = Res.done (b, st1)) :
    st1.global_upper_bound ≤ st.global_upper_bound ∧
    ((st1.global_upper_bound = st.global_upper_bound ∧ st1.best_solution = st.best_solution) ∨
      ∃ c rest node r cl, pop st.q = some (c, rest) ∧
        evaluate_node ops em c = Res.done node ∧
        replay ops em c.insertions = Res.done r ∧
        classify_loop ops r (List.range ops.layout.num_edges)
          { covered := fun _ => ∅, conflicting_l_e := ∅, blocked_l_e := ∅,
            unembedded_cost := 0 } = Res.done cl ∧
        cl.conflicting_l_e = ∅ ∧
        r.embedded_cost + cl.unembedded_cost < st.global_upper_bound ∧
        st1.global_upper_bound = r.embedded_cost + cl.unembedded_cost ∧
        st1.best_solution = some c) ∧
    (∀ c rest node, pop st.q = some (c, rest) →
      gap_le_max_gap c.lower_bound st.global_upper_bound = false →
      evaluate_node ops em c = Res.done node →
      node.conflicting_l_e = ∅ → node.cost_lower_bound < st.global_upper_bound →
      st1.global_upper_bound = node.cost_lower_bound ∧ st1.best_solution = some c) ∧
    (∀ k st2, search_iterate pop ops em k st1 = Res.done st2 →
      st2.global_upper_bound ≤ st.global_upper_bound) := by
  have hinc := search_step_incumbent pop ops em st st1 b h
  have hle : st1.global_upper_bound ≤ st.global_upper_bound := by
    rcases hinc with ⟨h1, _⟩ | ⟨c, rest, node, _, _, _, hlt, h1, _⟩
    · exact le_of_eq h1
    · rw [h1]; exact le_of_lt hlt
  refine ⟨hle, ?_, ?_, ?_⟩
  · rcases hinc with h1 | ⟨c, rest, node, hp, hn, he, hlt, h1, h2⟩
    · exact Or.inl h1
    · obtain ⟨r, cl, hr, hc, _, _, k3, _, k5⟩ := evaluate_node_parts ops em c node hn
      refine Or.inr ⟨c, rest, node, r, cl, hp, hn, hr, hc, ?_, ?_, ?_, h2⟩
      · rw [← k3]; exact he
      · rw [← k5]; exact hlt
      · rw [← k5]; exact h1
  · intro c rest node hp hgap hn he hlt
    rcases search_step_cases pop ops em st st1 b h with ⟨h0, _, _⟩ | ⟨c1, rest1, hp1, hc⟩
    · rw [h0] at hp; simp at hp
    · rw [hp1] at hp
      simp only [Option.some.injEq, Prod.mk.injEq] at hp
      obtain ⟨rfl, rfl⟩ := hp
      rcases hc with ⟨hg, _, _⟩ | ⟨_, _, node1, hn1, hc⟩
      · rw [hg] at hgap; simp at hgap
      · rw [hn1] at hn
        simp only [Res.done.injEq] at hn
        subst hn
        rcases hc with ⟨_, _, h1⟩ | ⟨hnlt, _⟩ | ⟨hne, _⟩
        · subst h1; exact ⟨rfl, rfl⟩
        · exact absurd hlt hnlt
        · exact absurd he hne
  · intro k st2 h2
    exact le_trans (search_iterate_upper_bound pop ops em k st1 st2 h2) hle

end IncumbentTheorems

/-- C13 on the search instance: the third iteration pops the sequence `[0, 1]`, whose node has
no conflicts and bound `8`, and tightens the incumbent from `+infinity` to `8`. -/
theorem incumbent_only_tightens_witness :
    search_step pop_min bbOps []
        ⟨[⟨24, [0, 3]⟩, ⟨8, [0, 1]⟩, ⟨32, [1]⟩], ⊤, none⟩ =
      Res.done (true, ⟨[⟨24, [0, 3]⟩, ⟨32, [1]⟩], 8, some ⟨8, [0, 1]⟩⟩) ∧
    (8 : ℕ∞) ≤ ⊤ ∧
    ∀ k st2,
      search_iterate pop_min bbOps [] k ⟨[⟨24, [0, 3]⟩, ⟨32, [1]⟩], 8, some ⟨8, [0, 1]⟩⟩ =
        Res.done st2 →
      st2.global_upper_bound ≤ (⊤ : ℕ∞) :=
  ⟨by decide,
    (incumbent_only_tightens pop_min bbOps []
      ⟨[⟨24, [0, 3]⟩, ⟨8, [0, 1]⟩, ⟨32, [1]⟩], ⊤, none⟩
      ⟨[⟨24, [0, 3]⟩, ⟨32, [1]⟩], 8, some ⟨8, [0, 1]⟩⟩ true (by decide)).1,
    (incumbent_only_tightens pop_min bbOps []
      ⟨[⟨24, [0, 3]⟩, ⟨8, [0, 1]⟩, ⟨32, [1]⟩], ⊤, none⟩
      ⟨[⟨24, [0, 3]⟩, ⟨32, [1]⟩], 8, some ⟨8, [0, 1]⟩⟩ true (by decide)).2.2.2⟩

section OrderTheorems

variable {Em C : Type} [LinearOrder C] [Add C] [Zero C] [Top C] [GapTests C]

/-- The comparison `operator<` is the reverse of the order on `lower_bound`. -/
theorem operator_lt_iff (a b : Candidate C) :
    Candidate.operator_lt a b = true ↔ b.lower_bound < a.lower_bound := by
  unfold Candidate.operator_lt
  simp

/-- A queue ordered by `operator<` pops an element of least `lower_bound`. -/
theorem popPolicy_of_topPolicy
    (pop : List (Candidate C) → Option (Candidate C × List (Candidate C)))
    (h : TopPolicy pop) : PopPolicy pop where
  empty := h.empty
  nonempty := h.nonempty
  perm := h.perm
  least := by
    intro q c rest hp c1 hc1
    have := h.greatest q c rest hp c1 hc1
    unfold Candidate.operator_lt at this
    simpa using this

/-- A queue that pops an element of least `lower_bound` pops a greatest one by `operator<`. -/
theorem topPolicy_of_popPolicy
    (pop : List (Candidate C) → Option (Candidate C × List (Candidate C)))
    (h : PopPolicy pop) : TopPolicy pop where
  empty := h.empty
  nonempty := h.nonempty
  perm := h.perm
  greatest := by
    intro q c rest hp c1 hc1
    have := h.least q c rest hp c1 hc1
    unfold Candidate.operator_lt
    simpa using this

end OrderTheorems

section ExactOrderTheorems

variable {Em C : Type} [LinearOrderedAddCommMonoidWithTop C]

/-- The gap test is monotone in the lower bound. -/
theorem gap_le_max_gap_mono (a b ub : C) (hab : a ≤ b) (h : gap_le_max_gap a ub = true) :
    gap_le_max_gap b ub = true := by
  change gap_le_exact a ub = true at h
  change gap_le_exact b ub = true
  unfold gap_le_exact at h ⊢
  by_cases htop : ub = ⊤
  · rw [if_pos htop] at h; exact absurd h (by simp)
  rw [if_neg htop] at h ⊢
  by_cases hz : a = 0 ∧ ub = 0
  · rw [if_pos hz] at h; exact absurd h (by simp)
  rw [if_neg hz] at h
  have h1 : 97 • ub ≤ 100 • a := by simpa using h
  by_cases hzb : b = 0 ∧ ub = 0
  · exfalso
    obtain ⟨hb, hu⟩ := hzb
    have ha0 : a ≠ 0 := fun ha => hz ⟨ha, hu⟩
    have ha : a < 0 := lt_of_le_of_ne (hb ▸ hab) ha0
    have hneg : 100 • a < 0 := nsmul_neg ha (by norm_num)
    rw [hu, smul_zero] at h1
    exact absurd hneg (not_lt_of_le h1)
  rw [if_neg hzb]
  simpa using le_trans h1 (nsmul_le_nsmul_right hab 100)

end ExactOrderTheorems

section ChildTheorems

variable {Em C : Type} [LinearOrder C] [Add C] [Zero C] [Top C] [GapTests C]

/-- When a child is pushed for an edge, and which one. -/
theorem child_of_eq_some (ops : SearchOps Em C) (node_em : Em) (c : Candidate C) (ub : C)
    (e : Nat) (x : Candidate C) :
    child_of ops node_em c ub e = some x ↔
      calc_cost_lower_bound ops node_em (c.insertions ++ [e]) = Res.done x.lower_bound ∧
      x.insertions = c.insertions ++ [e] ∧ gap_gt_max_gap x.lower_bound ub = true := by
  unfold child_of
  cases hcalc : calc_cost_lower_bound ops node_em (c.insertions ++ [e]) with
  | fatal => simp
  | timeout => simp
  | done lb =>
      simp only [Res.done.injEq]
      by_cases hg : gap_gt_max_gap lb ub = true
      · rw [if_pos hg]
        constructor
        · intro h
          simp only [Option.some.injEq] at h
          subst h
          exact ⟨rfl, rfl, hg⟩
        · rintro ⟨h1, h2, _⟩
          obtain ⟨lb1, ins1⟩ := x
          simp only at h1 h2
          subst h1; subst h2; rfl
      · rw [if_neg hg]
        constructor
        · intro h; simp at h
        · rintro ⟨h1, _, h3⟩
          rw [← h1] at h3
          exact absurd h3 hg

/-- The loop "Add children to the queue" puts the children of the edges it visits on top of
the queue, the last one first. -/
theorem push_children_eq (ops : SearchOps Em C) (node_em : Em) (c : Candidate C) (ub : C)
    (es : List Nat) :
    ∀ q q1 : List (Candidate C), push_children ops node_em c ub es q = Res.done q1 →
      q1 = (es.filterMap (child_of ops node_em c ub)).reverse ++ q := by
  induction es with
  | nil =>
      intro q q1 h
      simp only [push_children, Res.done.injEq] at h
      subst h; simp
  | cons e es ih =>
      intro q q1 h
      unfold push_children at h
      cases hcalc : calc_cost_lower_bound ops node_em (c.insertions ++ [e]) with
      | fatal => rw [hcalc] at h; simp at h
      | timeout => rw [hcalc] at h; simp at h
      | done lb =>
          rw [hcalc] at h
          simp only at h
          by_cases hg : gap_gt_max_gap lb ub = true
          · rw [if_pos hg] at h
            have hchild : child_of ops node_em c ub e =
                some { lower_bound := lb, insertions := c.insertions ++ [e] } := by
              unfold child_of
              rw [hcalc]
              simp only [hg, if_true]
            rw [ih _ q1 h, List.filterMap_cons, hchild]
            simp
          · rw [if_neg hg] at h
            have hchild : child_of ops node_em c ub e = none := by
              unfold child_of
              rw [hcalc]
              simp only [hg]
              rfl
            rw [ih _ q1 h, List.filterMap_cons, hchild]

/-- The list `ascending s` has no repetition. -/
theorem ascending_nodup (s : Finset Nat) : (ascending s).Nodup := by
  unfold ascending
  exact (List.nodup_range _).filter _

end ChildTheorems

section EmptyPathTheorems

variable {Em C : Type} [LinearOrder C] [Add C] [Zero C] [Top C] [GapTests C]

/-- The classification loop of `branch_and_bound` reads outside an empty path: for a layout
edge that is neither embedded nor blocked the bound `path.size() - 1` wraps around. -/
theorem classify_step_empty_path (ops : SearchOps Em C) (r : Replay Em C)
    (cl : Classification C) (l_e : Nat) (hemb : l_e ∉ r.embedded_l_e)
    (hfree : r.l_v_components.equivalent (ops.layout.vertexA l_e) (ops.layout.vertexB l_e)
      = false)
    (hempty : ops.find_shortest_path_edge r.em l_e = []) :
    classify_step ops r cl l_e = Res.fatal := by
  unfold classify_step
  rw [if_neg hemb]
  simp only [hfree, hempty, List.length_nil]
  rfl

end EmptyPathTheorems

/-- C11 (the code departs from the claim): on the instance `cutOps` the first iteration
pushes the sequences `[0]` and `[1]`; the second pops `[0]`, and on its embedding no path
exists for layout edge `1` (the empty path). The classification then reads outside the empty
path, so the node is not evaluated, the loop does not go on to the candidate `[1]`, and
`branch_and_bound` ends in a fatal error instead of discarding the candidate. -/
theorem empty_path_is_fatal :
    search_iterate pop_min cutOps [] 1 SearchState.init =
      Res.done ⟨[⟨32, [1]⟩, ⟨5, [0]⟩], ⊤, none⟩ ∧
    pop_min ([⟨32, [1]⟩, ⟨5, [0]⟩] : List (Candidate ℕ∞)) = some (⟨5, [0]⟩, [⟨32, [1]⟩]) ∧
    replay cutOps [] [0] = Res.done ⟨[0], {0}, (UnionFind.init 4).merge 0 1, 2⟩ ∧
    cutOps.find_shortest_path_edge [0] 1 = [] ∧
    evaluate_node cutOps [] ⟨5, [0]⟩ = Res.fatal ∧
    search_step pop_min cutOps [] ⟨[⟨32, [1]⟩, ⟨5, [0]⟩], ⊤, none⟩ = Res.fatal ∧
    search_loop pop_min cutOps [] 10 SearchState.init = Res.fatal ∧
    branch_and_bound pop_min cutOps 10 [] ⟨10, false, 0⟩ =
      Outcome.fatal { em := [], l_e_embedded := ∅, calls := [] } := by
  refine ⟨by decide, by decide, ?_, by decide, by decide, by decide, by decide, ?_⟩
  · rfl
  · have h : search_loop pop_min cutOps [] 10 (SearchState.init : SearchState ℕ∞) = Res.fatal := by
      decide
    unfold branch_and_bound
    rw [h]

/-! ## Insertion sequences are forests -/

section ForestTheorems

variable {Em C : Type} [LinearOrder C] [Add C] [Zero C] [Top C] [GapTests C]

theorem merge_edges_append (L : LayoutMesh) (u : UnionFind) (xs ys : List Nat) :
    merge_edges L u (xs ++ ys) = merge_edges L (merge_edges L u xs) ys := by
  unfold merge_edges
  rw [List.foldl_append]

theorem forest_from_append (L : LayoutMesh) (xs ys : List Nat) :
    ∀ u, forest_from L u (xs ++ ys) ↔
      forest_from L u xs ∧ forest_from L (merge_edges L u xs) ys := by
  induction xs with
  | nil => intro u; simp [forest_from, merge_edges]
  | cons x xs ih =>
      intro u
      have key : forest_from L u (x :: xs ++ ys) ↔
          u.equivalent (L.vertexA x) (L.vertexB x) = false ∧
            forest_from L (u.merge (L.vertexA x) (L.vertexB x)) (xs ++ ys) := Iff.rfl
      have key2 : forest_from L u (x :: xs) ↔
          u.equivalent (L.vertexA x) (L.vertexB x) = false ∧
            forest_from L (u.merge (L.vertexA x) (L.vertexB x)) xs := Iff.rfl
      have key3 : merge_edges L u (x :: xs) =
          merge_edges L (u.merge (L.vertexA x) (L.vertexB x)) xs := rfl
      rw [key, key2, key3, ih, and_assoc]

/-- The replay of a sequence merges the end points of its edges, and it passes the assertion
at every edge only when the sequence is a forest over the classes it starts from. -/
theorem replay_loop_components (ops : SearchOps Em C) (ins : List Nat) :
    ∀ r r1 : Replay Em C, replay_loop ops ins r = Res.done r1 →
      r1.l_v_components = merge_edges ops.layout r.l_v_components ins ∧
      forest_from ops.layout r.l_v_components ins := by
  induction ins with
  | nil =>
      intro r r1 h
      simp only [replay_loop, Res.done.injEq] at h
      subst h
      exact ⟨rfl, trivial⟩
  | cons e ins ih =>
      intro r r1 h
      unfold replay_loop at h
      cases hs : replay_step ops r e with
      | fatal => rw [hs] at h; simp at h
      | timeout => rw [hs] at h; simp at h
      | done r2 =>
          rw [hs] at h
          simp only at h
          unfold replay_step at hs
          simp only at hs
          cases hemb : ops.embed_path r.em (ops.layout.halfedgeA e)
              (ops.find_shortest_path r.em (ops.layout.halfedgeA e)) with
          | none => rw [hemb] at hs; simp at hs
          | some em1 =>
              rw [hemb] at hs
              simp only at hs
              by_cases heq : r.l_v_components.equivalent (ops.layout.vertexA e)
                  (ops.layout.vertexB e) = true
              · rw [if_pos heq] at hs; simp at hs
              · rw [if_neg heq] at hs
                simp only [Res.done.injEq] at hs
                subst hs
                obtain ⟨k1, k2⟩ := ih _ r1 h
                simp only at k1 k2
                refine ⟨?_, ?_, k2⟩
                · rw [k1]; rfl
                · simpa using heq

/-- The node of a candidate with the invariant of the classification loop behind it. -/
theorem evaluate_node_class (ops : SearchOps Em C) (em : Em) (c : Candidate C) (node : Node Em C)
    (h : evaluate_node ops em c = Res.done node) :
    ∃ r cl D, replay ops em c.insertions = Res.done r ∧
      classify_loop ops r (List.range ops.layout.num_edges)
        { covered := fun _ => ∅, conflicting_l_e := ∅, blocked_l_e := ∅,
          unembedded_cost := 0 } = Res.done cl ∧
      (∀ e, e ∈ D ↔ e < ops.layout.num_edges) ∧ ClassInv ops r D cl ∧
      (∀ e, e ∈ r.embedded_l_e ↔ e ∈ c.insertions) ∧
      node.conflicting_l_e = cl.conflicting_l_e ∧ node.blocked_l_e = cl.blocked_l_e := by
  obtain ⟨r, cl, hr, hc, _, _, k3, k4, _⟩ := evaluate_node_parts ops em c node h
  obtain ⟨D, hD, hinv⟩ := classInv_loop ops r (List.range ops.layout.num_edges) [] _ cl
    (List.nodup_range _) (fun e _ => by simp) (classInv_init ops r) hc
  refine ⟨r, cl, D, hr, hc, fun e => by rw [hD e]; simp, hinv, ?_, k3, k4⟩
  intro e
  unfold replay at hr
  rw [replay_loop_embedded ops _ _ r hr]
  simp

/-- An iteration keeps every sequence in the queue a forest. -/
theorem search_step_forest
    (pop : List (Candidate C) → Option (Candidate C × List (Candidate C)))
    (hpop : PopPolicy pop) (ops : SearchOps Em C) (em : Em) (st st1 : SearchState C) (b : Bool)
    (hq : ∀ x ∈ st.q, IsForest ops.layout x.insertions)
    (h : search_step pop ops em st = Res.done (b, st1)) :
    ∀ x ∈ st1.q, IsForest ops.layout x.insertions := by
  rcases search_step_cases pop ops em st st1 b h with ⟨_, _, h1⟩ | ⟨c, rest, hp, hc⟩
  · subst h1; exact hq
  have hperm := hpop.perm st.q c rest hp
  have hcf : IsForest ops.layout c.insertions :=
    hq c (hperm.symm.subset (List.mem_cons_self _ _))
  have hrest : ∀ x ∈ rest, IsForest ops.layout x.insertions :=
    fun x hx => hq x (hperm.symm.subset (List.mem_cons_of_mem _ hx))
  rcases hc with ⟨_, _, h1⟩ | ⟨_, _, node, hn, hc⟩
  · subst h1; exact hrest
  rcases hc with ⟨_, _, h1⟩ | ⟨_, h1⟩ | ⟨_, _, q1, hq1, h1⟩
  · subst h1; exact hrest
  · subst h1; exact hrest
  · subst h1
    intro x hx
    simp only at hx
    rw [push_children_eq ops _ c _ _ rest q1 hq1] at hx
    rcases List.mem_append.1 hx with hx1 | hx1
    · rw [List.mem_reverse, List.mem_filterMap] at hx1
      obtain ⟨e, he, hxe⟩ := hx1
      have hins := ((child_of_eq_some ops _ c _ e x).1 hxe).2.1
      obtain ⟨r, cl, D, hr, _, _, hinv, _, k3, _⟩ := evaluate_node_class ops em c node hn
      have hcomp := (replay_loop_components ops _ _ r hr).1
      simp only at hcomp
      have hfree := (hinv.conflicting_in e (k3 ▸ (mem_ascending _ e).1 he)).2.2
      rw [hins]
      unfold IsForest
      rw [forest_from_append]
      refine ⟨hcf, ?_, trivial⟩
      rw [← hcomp]; exact hfree
    · exact hrest x hx1

/-- Every state the loop reaches from the start holds only forests of pairwise distinct layout
edges in its queue. -/
theorem search_iterate_forest
    (pop : List (Candidate C) → Option (Candidate C × List (Candidate C)))
    (hpop : PopPolicy pop) (ops : SearchOps Em C) (em : Em) (k : Nat) :
    ∀ st st1 : SearchState C,
      (∀ x ∈ st.q, GoodSequence ops.layout.num_edges x.insertions) →
      GoodSequence ops.layout.num_edges (best_insertions st.best_solution) →
      (∀ x ∈ st.q, IsForest ops.layout x.insertions) →
      search_iterate pop ops em k st = Res.done st1 →
      (∀ x ∈ st1.q, GoodSequence ops.layout.num_edges x.insertions) ∧
      (∀ x ∈ st1.q, IsForest ops.layout x.insertions) := by
  induction k with
  | zero =>
      intro st st1 hg _ hf h
      simp only [search_iterate, Res.done.injEq] at h
      subst h; exact ⟨hg, hf⟩
  | succ k ih =>
      intro st st1 hg hbest hf h
      unfold search_iterate at h
      cases hs : search_step pop ops em st with
      | fatal => rw [hs] at h; simp at h
      | timeout => rw [hs] at h; simp at h
      | done r =>
          rw [hs] at h
          obtain ⟨b, st2⟩ := r
          obtain ⟨g1, g2⟩ := search_step_good pop hpop ops em st st2 b hg hbest hs
          have g3 := search_step_forest pop hpop ops em st st2 b hf hs
          cases b with
          | true => exact ih st2 st1 g1 g2 g3 h
          | false =>
              simp only [Res.done.injEq] at h
              subst h; exact ⟨g1, g3⟩

theorem num_classes_init (n : Nat) : (UnionFind.init n).num_classes n = n := by
  unfold UnionFind.num_classes UnionFind.init
  simp

theorem num_classes_pos (u : UnionFind) (n : Nat) (h : 0 < n) : 0 < u.num_classes n := by
  unfold UnionFind.num_classes
  rw [Finset.card_pos]
  exact ⟨u.rep 0, Finset.mem_image.2 ⟨0, Finset.mem_range.2 h, rfl⟩⟩

/-- Merging two classes leaves one class less. -/
theorem num_classes_merge (u : UnionFind) (n a b : Nat) (ha : a < n) (hb : b < n)
    (h : u.equivalent a b = false) : (u.merge a b).num_classes n + 1 = u.num_classes n := by
  have hne : u.rep a ≠ u.rep b := by
    unfold UnionFind.equivalent at h
    simpa using h
  unfold UnionFind.num_classes
  have himg : (Finset.range n).image (u.merge a b).rep =
      ((Finset.range n).image u.rep).erase (u.rep a) := by
    ext y
    simp only [UnionFind.merge, Finset.mem_image, Finset.mem_range, Finset.mem_erase]
    constructor
    · rintro ⟨x, hx, hy⟩
      by_cases hxa : u.rep x = u.rep a
      · rw [if_pos hxa] at hy
        exact ⟨hy ▸ hne.symm, b, hb, hy⟩
      · rw [if_neg hxa] at hy
        exact ⟨hy ▸ hxa, x, hx, hy⟩
    · rintro ⟨hya, x, hx, hy⟩
      refine ⟨x, hx, ?_⟩
      rw [if_neg (by rw [hy]; exact hya)]
      exact hy
  rw [himg, Finset.card_erase_of_mem (Finset.mem_image.2 ⟨a, Finset.mem_range.2 ha, rfl⟩)]
  have hpos : 0 < ((Finset.range n).image u.rep).card :=
    Finset.card_pos.2 ⟨u.rep a, Finset.mem_image.2 ⟨a, Finset.mem_range.2 ha, rfl⟩⟩
  omega

/-- Every edge of a forest takes one class away. -/
theorem forest_length (L : LayoutMesh) (n : Nat) (ins : List Nat) :
    ∀ u, forest_from L u ins → (∀ e ∈ ins, L.vertexA e < n ∧ L.vertexB e < n) →
      ins.length + (merge_edges L u ins).num_classes n = u.num_classes n := by
  induction ins with
  | nil => intro u _ _; simp [merge_edges]
  | cons e ins ih =>
      intro u hf hv
      obtain ⟨h1, h2⟩ := hf
      have hve := hv e (List.mem_cons_self _ _)
      have := ih _ h2 (fun x hx => hv x (List.mem_cons_of_mem _ hx))
      have hm := num_classes_merge u n _ _ hve.1 hve.2 h1
      simp only [merge_edges, List.foldl_cons, List.length_cons] at this ⊢
      omega

/-- C19: every insertion sequence in the queue is a forest. In every state that the loop of
`branch_and_bound` reaches from its start, on a layout whose edges end at layout vertices, each
candidate in the queue has insertions that are pairwise distinct layout edges; no edge of
the sequence joins two layout vertices that the edges before it connect; the assertion
`!l_v_components.equivalent(a, b)` holds at every edge that a replay of the sequence reaches;
and the sequence is no longer than the number of layout vertices minus one. -/
theorem insertion_sequences_are_forests
    (pop : List (Candidate C) → Option (Candidate C × List (Candidate C)))
    (hpop : PopPolicy pop) (ops : SearchOps Em C) (em : Em)
    (hV : ∀ e, e < ops.layout.num_edges →
      ops.layout.vertexA e < ops.layout.num_vertices ∧
      ops.layout.vertexB e < ops.layout.num_vertices)
    (k : Nat) (st : SearchState C)
    (h : search_iterate pop ops em k SearchState.init = Res.done st)
    (c : Candidate C) (hc : c ∈ st.q) :
    c.insertions.Nodup ∧ (∀ e ∈ c.insertions, e < ops.layout.num_edges) ∧
    (∀ p e t, c.insertions = p ++ e :: t →
      (merge_edges ops.layout (UnionFind.init ops.layout.num_vertices) p).equivalent
        (ops.layout.vertexA e) (ops.layout.vertexB e) = false) ∧
    (∀ p e t r, c.insertions = p ++ e :: t → replay ops em p = Res.done r →
      r.l_v_components.equivalent (ops.layout.vertexA e) (ops.layout.vertexB e) = false) ∧
    c.insertions.length ≤ ops.layout.num_vertices - 1 := by
  have hinit : ∀ x ∈ (SearchState.init : SearchState C).q,
      x.insertions = [] := by
    intro x hx
    simp only [SearchState.init, List.mem_singleton] at hx
    subst hx; rfl
  obtain ⟨hg, hf⟩ := search_iterate_forest pop hpop ops em k SearchState.init st
    (fun x hx => by rw [hinit x hx]; exact ⟨List.nodup_nil, fun e he => by simp at he⟩)
    ⟨List.nodup_nil, fun e he => by simp [SearchState.init, best_insertions] at he⟩
    (fun x hx => by rw [hinit x hx]; exact trivial) h
  obtain ⟨hnd, hlt⟩ := hg c hc
  have hfor := hf c hc
  have hpre : ∀ p e t, c.insertions = p ++ e :: t →
      (merge_edges ops.layout (UnionFind.init ops.layout.num_vertices) p).equivalent
        (ops.layout.vertexA e) (ops.layout.vertexB e) = false := by
    intro p e t hsplit
    unfold IsForest at hfor
    rw [hsplit, forest_from_append] at hfor
    exact hfor.2.1
  refine ⟨hnd, hlt, hpre, ?_, ?_⟩
  · intro p e t r hsplit hr
    have hcomp := (replay_loop_components ops _ _ r hr).1
    simp only at hcomp
    rw [hcomp]
    exact hpre p e t hsplit
  · have hlen := forest_length ops.layout ops.layout.num_vertices c.insertions _ hfor
      (fun e he => hV e (hlt e he))
    rw [num_classes_init] at hlen
    cases hins : c.insertions with
    | nil => simp
    | cons e t =>
        have hve := hV e (hlt e (by rw [hins]; exact List.mem_cons_self _ _))
        have hpos := num_classes_pos
          (merge_edges ops.layout (UnionFind.init ops.layout.num_vertices) c.insertions)
          ops.layout.num_vertices (by omega)
        rw [← hins]
        omega

end ForestTheorems

/-- C19 on the search instance: after two iterations the queue holds the sequences `[0, 3]`,
`[0, 1]` and `[1]`; the sequence `[0, 1]` is a path on the layout vertices `0`, `1`, `2`. -/
theorem insertion_sequences_are_forests_witness :
    search_iterate pop_min bbOps [] 2 SearchState.init =
      Res.done ⟨[⟨24, [0, 3]⟩, ⟨8, [0, 1]⟩, ⟨32, [1]⟩], ⊤, none⟩ ∧
    ([0, 1] : List Nat).Nodup ∧ ([0, 1] : List Nat).length ≤ bbOps.layout.num_vertices - 1 :=
  ⟨by decide,
    (insertion_sequences_are_forests pop_min pop_min_policy bbOps [] (by decide) 2
      ⟨[⟨24, [0, 3]⟩, ⟨8, [0, 1]⟩, ⟨32, [1]⟩], ⊤, none⟩ (by decide) ⟨8, [0, 1]⟩
      (by decide)).1,
    (insertion_sequences_are_forests pop_min pop_min_policy bbOps [] (by decide) 2
      ⟨[⟨24, [0, 3]⟩, ⟨8, [0, 1]⟩, ⟨32, [1]⟩], ⊤, none⟩ (by decide) ⟨8, [0, 1]⟩
      (by decide)).2.2.2.2⟩

/-! ## Termination of the search loop -/

section TerminationTheorems

variable {Em C : Type} [LinearOrder C] [Add C] [Zero C] [Top C] [GapTests C]

theorem replay_loop_ne_timeout (ops : SearchOps Em C) (ins : List Nat) :
    ∀ r : Replay Em C, replay_loop ops ins r ≠ Res.timeout := by
  induction ins with
  | nil => intro r; simp [replay_loop]
  | cons e ins ih =>
      intro r
      unfold replay_loop
      cases hs : replay_step ops r e with
      | fatal => simp
      | done r1 => exact ih r1
      | timeout =>
          exfalso
          unfold replay_step at hs
          simp only at hs
          split at hs
          · simp at hs
          · split at hs <;> simp at hs

theorem classify_loop_ne_timeout (ops : SearchOps Em C) (r : Replay Em C) (es : List Nat) :
    ∀ cl : Classification C, classify_loop ops r es cl ≠ Res.timeout := by
  induction es with
  | nil => intro cl; simp [classify_loop]
  | cons e es ih =>
      intro cl
      unfold classify_loop
      cases hs : classify_step ops r cl e with
      | fatal => simp
      | done cl1 => exact ih cl1
      | timeout =>
          exfalso
          unfold classify_step at hs
          simp only at hs
          split at hs
          · simp at hs
          · split at hs
            · simp at hs
            · split at hs <;> simp at hs

theorem evaluate_node_ne_timeout (ops : SearchOps Em C) (em : Em) (c : Candidate C) :
    evaluate_node ops em c ≠ Res.timeout := by
  unfold evaluate_node
  cases hr : replay ops em c.insertions with
  | fatal => simp
  | timeout => exact absurd hr (replay_loop_ne_timeout ops _ _)
  | done r =>
      simp only
      cases hc : classify_loop ops r (List.range ops.layout.num_edges)
          { covered := fun _ => ∅, conflicting_l_e := ∅, blocked_l_e := ∅,
            unembedded_cost := 0 } with
      | fatal => simp
      | timeout => exact absurd hc (classify_loop_ne_timeout ops r _ _)
      | done cl => simp

theorem calc_embedded_ne_timeout (ops : SearchOps Em C) (ins : List Nat) :
    ∀ acc : Em × Finset Nat × C, calc_embedded ops ins acc ≠ Res.timeout := by
  induction ins with
  | nil => intro acc; simp [calc_embedded]
  | cons e ins ih =>
      intro acc
      obtain ⟨em, emb, cost⟩ := acc
      unfold calc_embedded
      cases hemb : ops.embed_path em (ops.layout.halfedgeA e)
          (ops.find_shortest_path em (ops.layout.halfedgeA e)) with
      | none => simp
      | some em1 => exact ih _

theorem calc_cost_lower_bound_ne_timeout (ops : SearchOps Em C) (em : Em) (ins : List Nat) :
    calc_cost_lower_bound ops em ins ≠ Res.timeout := by
  unfold calc_cost_lower_bound
  cases hc : calc_embedded ops ins (ops.fresh_copy em, ∅, 0) with
  | fatal => simp
  | timeout => exact absurd hc (calc_embedded_ne_timeout ops _ _)
  | done acc => obtain ⟨em1, emb, cost⟩ := acc; simp

theorem push_children_ne_timeout (ops : SearchOps Em C) (node_em : Em) (c : Candidate C)
    (ub : C) (es : List Nat) :
    ∀ q : List (Candidate C), push_children ops node_em c ub es q ≠ Res.timeout := by
  induction es with
  | nil => intro q; simp [push_children]
  | cons e es ih =>
      intro q
      unfold push_children
      cases hc : calc_cost_lower_bound ops node_em (c.insertions ++ [e]) with
      | fatal => simp
      | timeout => exact absurd hc (calc_cost_lower_bound_ne_timeout ops _ _)
      | done lb =>
          simp only
          split
          · exact ih _
          · exact ih _

/-- An iteration of the search loop returns or stops at a fatal error. -/
theorem search_step_ne_timeout
    (pop : List (Candidate C) → Option (Candidate C × List (Candidate C)))
    (ops : SearchOps Em C) (em : Em) (st : SearchState C) :
    search_step pop ops em st ≠ Res.timeout := by
  unfold search_step
  cases hp : pop st.q with
  | none => simp
  | some r =>
      obtain ⟨c, rest⟩ := r
      simp only
      split
      · simp
      · cases hn : evaluate_node ops em c with
        | fatal => simp
        | timeout => exact absurd hn (evaluate_node_ne_timeout ops em c)
        | done node =>
            simp only
            split
            · split <;> simp
            · split
              · cases hpc : push_children ops node.em c st.global_upper_bound
                    (ascending node.conflicting_l_e) rest with
                | fatal => simp
                | timeout => exact absurd hpc (push_children_ne_timeout ops _ _ _ _ _)
                | done q1 => simp
              · simp

theorem tree_size_pos (d : Nat) : 0 < tree_size d := by
  cases d with
  | zero => simp [tree_size]
  | succ d => simp only [tree_size]; omega

theorem queue_measure_cons (n : Nat) (c : Candidate C) (q : List (Candidate C)) :
    queue_measure n (c :: q) = tree_size (n - c.insertions.length) + queue_measure n q := by
  simp [queue_measure]

theorem queue_measure_append (n : Nat) (q1 q2 : List (Candidate C)) :
    queue_measure n (q1 ++ q2) = queue_measure n q1 + queue_measure n q2 := by
  simp [queue_measure]

theorem queue_measure_perm (n : Nat) (q1 q2 : List (Candidate C)) (h : List.Perm q1 q2) :
    queue_measure n q1 = queue_measure n q2 := by
  unfold queue_measure
  exact (h.map _).sum_eq

theorem queue_measure_children (n len : Nat) (kids : List (Candidate C))
    (hk : ∀ x ∈ kids, x.insertions.length = len + 1) :
    queue_measure n kids = kids.length * tree_size (n - (len + 1)) := by
  induction kids with
  | nil => simp [queue_measure]
  | cons x kids ih =>
      rw [queue_measure_cons, ih (fun y hy => hk y (List.mem_cons_of_mem _ hy)),
        hk x (List.mem_cons_self _ _), List.length_cons]
      ring

theorem ascending_length (s : Finset Nat) : (ascending s).length = s.card := by
  rw [← List.toFinset_card_of_nodup (ascending_nodup s)]
  congr 1
  ext x
  simp [mem_ascending]

/-- The edges left to choose from are at most those outside the sequence. -/
theorem free_edges_card (n : Nat) (ins : List Nat) (hg : GoodSequence n ins) (s : Finset Nat)
    (hs : ∀ e ∈ s, e < n ∧ e ∉ ins) : s.card + ins.length ≤ n := by
  have hdis : Disjoint s ins.toFinset := by
    rw [Finset.disjoint_left]
    intro e he hi
    exact (hs e he).2 (List.mem_toFinset.1 hi)
  have hsub : s ∪ ins.toFinset ⊆ Finset.range n := by
    intro e he
    rw [Finset.mem_range]
    rcases Finset.mem_union.1 he with h1 | h1
    · exact (hs e h1).1
    · exact hg.2 e (List.mem_toFinset.1 h1)
  have := Finset.card_le_card hsub
  rw [Finset.card_union_of_disjoint hdis, List.toFinset_card_of_nodup hg.1,
    Finset.card_range] at this
  exact this

/-- An iteration after which the loop goes on leaves a smaller queue measure, and what it adds
to the queue is one edge longer than the candidate it removed. -/
theorem search_step_measure
    (pop : List (Candidate C) → Option (Candidate C × List (Candidate C)))
    (hpop : PopPolicy pop) (ops : SearchOps Em C) (em : Em) (st st1 : SearchState C)
    (hq : ∀ x ∈ st.q, GoodSequence ops.layout.num_edges x.insertions)
    (h : search_step pop ops em st = Res.done (true, st1)) :
    queue_measure ops.layout.num_edges st1.q < queue_measure ops.layout.num_edges st.q ∧
    ∃ c rest, pop st.q = some (c, rest) ∧
      ∀ x ∈ st1.q, x ∈ rest ∨ x.insertions.length = c.insertions.length + 1 := by
  rcases search_step_cases pop ops em st st1 true h with ⟨_, hb, _⟩ | ⟨c, rest, hp, hc⟩
  · simp at hb
  have hperm := hpop.perm st.q c rest hp
  have hm : queue_measure ops.layout.num_edges st.q =
      tree_size (ops.layout.num_edges - c.insertions.length) +
        queue_measure ops.layout.num_edges rest := by
    rw [queue_measure_perm _ _ _ hperm, queue_measure_cons]
  have hpos := tree_size_pos (ops.layout.num_edges - c.insertions.length)
  have hsame : st1.q = rest →
      queue_measure ops.layout.num_edges st1.q < queue_measure ops.layout.num_edges st.q ∧
      ∃ c rest, pop st.q = some (c, rest) ∧
        ∀ x ∈ st1.q, x ∈ rest ∨ x.insertions.length = c.insertions.length + 1 := by
    intro h1
    rw [h1, hm]
    exact ⟨by omega, c, rest, hp, fun x hx => Or.inl hx⟩
  rcases hc with ⟨_, hb, _⟩ | ⟨_, _, node, hn, hc⟩
  · simp at hb
  rcases hc with ⟨_, _, h1⟩ | ⟨_, h1⟩ | ⟨hne, _, q1, hq1, h1⟩
  · exact hsame (by rw [h1])
  · exact hsame (by rw [h1])
  · have hq1eq := push_children_eq ops _ c _ _ rest q1 hq1
    have hkids : ∀ x ∈ (ascending node.conflicting_l_e).filterMap
        (child_of ops node.em c st.global_upper_bound),
        x.insertions.length = c.insertions.length + 1 := by
      intro x hx
      rw [List.mem_filterMap] at hx
      obtain ⟨e, _, hxe⟩ := hx
      rw [((child_of_eq_some ops _ c _ e x).1 hxe).2.1]
      simp
    have hc_good := hq c (hperm.symm.subset (List.mem_cons_self _ _))
    obtain ⟨_, hconf, _⟩ := evaluate_node_spec ops em c node hn
    have hcard := free_edges_card _ _ hc_good node.conflicting_l_e
      (fun e he => ⟨(hconf e he).1, (hconf e he).2.1⟩)
    have hcpos : 0 < node.conflicting_l_e.card :=
      Finset.card_pos.2 (Finset.nonempty_iff_ne_empty.2 hne)
    have hlen : ((ascending node.conflicting_l_e).filterMap
        (child_of ops node.em c st.global_upper_bound)).length ≤ node.conflicting_l_e.card := by
      rw [← ascending_length]
      exact List.length_filterMap_le _ _
    subst h1
    refine ⟨?_, c, rest, hp, ?_⟩
    · simp only
      rw [hq1eq, hm, queue_measure_append,
        queue_measure_perm _ _ _ (List.reverse_perm _),
        queue_measure_children _ c.insertions.length _ hkids]
      obtain ⟨d, hd⟩ : ∃ d, ops.layout.num_edges - c.insertions.length = d + 1 :=
        ⟨ops.layout.num_edges - c.insertions.length - 1, by omega⟩
      have hd1 : ops.layout.num_edges - (c.insertions.length + 1) = d := by omega
      rw [hd, hd1]
      simp only [tree_size]
      have : ((ascending node.conflicting_l_e).filterMap
          (child_of ops node.em c st.global_upper_bound)).length * tree_size d
          ≤ (d + 1) * tree_size d := Nat.mul_le_mul_right _ (by omega)
      omega
    · intro x hx
      simp only at hx
      rw [hq1eq] at hx
      rcases List.mem_append.1 hx with hx1 | hx1
      · exact Or.inr (hkids x (List.mem_reverse.1 hx1))
      · exact Or.inl hx1

/-- With more fuel than the measure of the queue the search loop does not run out of fuel. -/
theorem search_loop_enough_fuel
    (pop : List (Candidate C) → Option (Candidate C × List (Candidate C)))
    (hpop : PopPolicy pop) (ops : SearchOps Em C) (em : Em) (fuel : Nat) :
    ∀ st : SearchState C,
      (∀ x ∈ st.q, GoodSequence ops.layout.num_edges x.insertions) →
      GoodSequence ops.layout.num_edges (best_insertions st.best_solution) →
      queue_measure ops.layout.num_edges st.q < fuel →
      search_loop pop ops em fuel st ≠ Res.timeout := by
  induction fuel with
  | zero => intro st _ _ h; omega
  | succ n ih =>
      intro st hq hbest hlt
      unfold search_loop
      cases hs : search_step pop ops em st with
      | fatal => simp
      | timeout => exact absurd hs (search_step_ne_timeout pop ops em st)
      | done r =>
          obtain ⟨b, st1⟩ := r
          cases b with
          | false => simp
          | true =>
              simp only
              obtain ⟨g1, g2⟩ := search_step_good pop hpop ops em st st1 true hq hbest hs
              have := (search_step_measure pop hpop ops em st st1 hq hs).1
              exact ih st1 g1 g2 (by omega)

/-- More fuel does not change a result of the search loop. -/
theorem search_loop_more_fuel
    (pop : List (Candidate C) → Option (Candidate C × List (Candidate C)))
    (ops : SearchOps Em C) (em : Em) (fuel : Nat) :
    ∀ (st : SearchState C) (extra : Nat), search_loop pop ops em fuel st ≠ Res.timeout →
      search_loop pop ops em (fuel + extra) st = search_loop pop ops em fuel st := by
  induction fuel with
  | zero => intro st extra h; simp [search_loop] at h
  | succ n ih =>
      intro st extra h
      have hfuel : n + 1 + extra = (n + extra) + 1 := by omega
      rw [hfuel]
      unfold search_loop at h ⊢
      cases hs : search_step pop ops em st with
      | fatal => rfl
      | timeout => rfl
      | done r =>
          obtain ⟨b, st1⟩ := r
          rw [hs] at h
          cases b with
          | false => rfl
          | true => exact ih st1 extra h

/-- Every state the loop reaches holds sequences of pairwise distinct layout edges. -/
theorem search_iterate_good
    (pop : List (Candidate C) → Option (Candidate C × List (Candidate C)))
    (hpop : PopPolicy pop) (ops : SearchOps Em C) (em : Em) (k : Nat) :
    ∀ st st1 : SearchState C,
      (∀ x ∈ st.q, GoodSequence ops.layout.num_edges x.insertions) →
      GoodSequence ops.layout.num_edges (best_insertions st.best_solution) →
      search_iterate pop ops em k st = Res.done st1 →
      (∀ x ∈ st1.q, GoodSequence ops.layout.num_edges x.insertions) ∧
      GoodSequence ops.layout.num_edges (best_insertions st1.best_solution) := by
  induction k with
  | zero =>
      intro st st1 hg hb h
      simp only [search_iterate, Res.done.injEq] at h
      subst h; exact ⟨hg, hb⟩
  | succ k ih =>
      intro st st1 hg hb h
      unfold search_iterate at h
      cases hs : search_step pop ops em st with
      | fatal => rw [hs] at h; simp at h
      | timeout => rw [hs] at h; simp at h
      | done r =>
          rw [hs] at h
          obtain ⟨b, st2⟩ := r
          obtain ⟨g1, g2⟩ := search_step_good pop hpop ops em st st2 b hg hb hs
          cases b with
          | true => exact ih st2 st1 g1 g2 h
          | false =>
              simp only [Res.done.injEq] at h
              subst h; exact ⟨g1, g2⟩

/-- C20: the search loop of `branch_and_bound` terminates. On a layout with `n` edges and a
priority queue that pops one of its elements, the loop started from the initial queue does not
run out of fuel once it is given more than `tree_size n` iterations, and more fuel does not
change its result; in every state reached from the start, an iteration after which the loop
goes on removes the popped candidate, adds only sequences one edge longer than it, none longer
than `n`, and lowers the measure of the queue. -/
theorem search_loop_terminates
    (pop : List (Candidate C) → Option (Candidate C × List (Candidate C)))
    (hpop : PopPolicy pop) (ops : SearchOps Em C) (em : Em) (fuel : Nat)
    (hfuel : tree_size ops.layout.num_edges < fuel) :
    search_loop pop ops em fuel SearchState.init ≠ Res.timeout ∧
    (∀ extra, search_loop pop ops em (fuel + extra) SearchState.init =
      search_loop pop ops em fuel SearchState.init) ∧
    (∀ k st st1, search_iterate pop ops em k SearchState.init = Res.done st →
      search_step pop ops em st = Res.done (true, st1) →
      (∃ c rest, pop st.q = some (c, rest) ∧
        ∀ x ∈ st1.q, x ∈ rest ∨ x.insertions.length = c.insertions.length + 1) ∧
      (∀ x ∈ st1.q, x.insertions.length ≤ ops.layout.num_edges) ∧
      queue_measure ops.layout.num_edges st1.q < queue_measure ops.layout.num_edges st.q) := by
  have hinit : ∀ x ∈ (SearchState.init : SearchState C).q,
      GoodSequence ops.layout.num_edges x.insertions := by
    intro x hx
    simp only [SearchState.init, List.mem_singleton] at hx
    subst hx
    exact ⟨List.nodup_nil, fun e he => by simp at he⟩
  have hbest : GoodSequence ops.layout.num_edges
      (best_insertions (SearchState.init : SearchState C).best_solution) :=
    ⟨List.nodup_nil, fun e he => by simp [SearchState.init, best_insertions] at he⟩
  have hmeasure : queue_measure ops.layout.num_edges (SearchState.init : SearchState C).q
      = tree_size ops.layout.num_edges := by
    simp [SearchState.init, queue_measure]
  have hterm := search_loop_enough_fuel pop hpop ops em fuel SearchState.init hinit hbest
    (by rw [hmeasure]; exact hfuel)
  refine ⟨hterm, fun extra => search_loop_more_fuel pop ops em fuel _ extra hterm, ?_⟩
  intro k st st1 hk hs
  obtain ⟨hg, hb⟩ := search_iterate_good pop hpop ops em k SearchState.init st hinit hbest hk
  obtain ⟨h1, h2⟩ := search_step_measure pop hpop ops em st st1 hg hs
  refine ⟨h2, ?_, h1⟩
  intro x hx
  have hgx := (search_step_good pop hpop ops em st st1 true hg hb hs).1 x hx
  have := free_edges_card _ _ hgx ∅ (fun e he => by simp at he)
  simpa using this

end TerminationTheorems

/-- C20 on the search instance: the layout has four edges, and `66` iterations are more than
the `65` sequences of pairwise distinct edges. -/
theorem search_loop_terminates_witness :
    tree_size bbOps.layout.num_edges < 66 ∧
    search_loop pop_min bbOps [] 66 SearchState.init ≠ Res.timeout :=
  ⟨by decide, (search_loop_terminates pop_min pop_min_policy bbOps [] 66 (by decide)).1⟩

/-! ## Blocked edges -/

section BlockedTheorems

variable {Em C : Type} [LinearOrder C] [Add C] [Zero C] [Top C] [GapTests C]

/-- The loop over the interior of a path reads and writes only the covered map and the
conflicting set. -/
theorem cover_fold_congr (l_e : Nat) (xs : List VirtualVertex) :
    ∀ cl cl1 : Classification C, cl.covered = cl1.covered →
      cl.conflicting_l_e = cl1.conflicting_l_e → cl.blocked_l_e = cl1.blocked_l_e →
      (xs.foldl (cover_element l_e) cl).covered = (xs.foldl (cover_element l_e) cl1).covered ∧
      (xs.foldl (cover_element l_e) cl).conflicting_l_e =
        (xs.foldl (cover_element l_e) cl1).conflicting_l_e ∧
      (xs.foldl (cover_element l_e) cl).blocked_l_e =
        (xs.foldl (cover_element l_e) cl1).blocked_l_e := by
  induction xs with
  | nil => intro cl cl1 h1 h2 h3; exact ⟨h1, h2, h3⟩
  | cons x xs ih =>
      intro cl cl1 h1 h2 h3
      rw [List.foldl_cons, List.foldl_cons]
      obtain ⟨a1, a2, a3⟩ := cover_element_fields l_e cl x
      obtain ⟨b1, b2, b3⟩ := cover_element_fields l_e cl1 x
      apply ih
      · rw [a1, b1, h1]
      · rw [a3, b3, h1, h2]
      · rw [a2, b2, h3]

/-- The invariant of the classification does not read the cost. -/
theorem classInv_congr (ops : SearchOps Em C) (r : Replay Em C) (D : List Nat)
    (cl cl1 : Classification C) (h1 : cl.covered = cl1.covered)
    (h2 : cl.conflicting_l_e = cl1.conflicting_l_e) (h3 : cl.blocked_l_e = cl1.blocked_l_e)
    (hinv : ClassInv ops r D cl) : ClassInv ops r D cl1 where
  covers := by rw [← h1]; exact hinv.covers
  covered_in := by rw [← h1]; exact hinv.covered_in
  conflicting_in := by rw [← h2]; exact hinv.conflicting_in
  blocked_iff := by rw [← h3]; exact hinv.blocked_iff
  disjoint := by rw [← h2]; exact hinv.disjoint

/-- A round of the classification of `branch_and_bound2` does what a round of the
classification of `branch_and_bound` does, the cost apart. -/
theorem classify2_step_eq (ops : SearchOps Em C) (d : Descent Em) (cl cl1 : Classification C)
    (l_e : Nat) (h : classify2_step ops d cl l_e = Res.done cl1) :
    ∃ cl2, classify_step ops
        { em := d.em, embedded_l_e := d.embedded_l_e, l_v_components := d.l_v_components,
          embedded_cost := 0 } cl l_e = Res.done cl2 ∧
      cl2.covered = cl1.covered ∧ cl2.conflicting_l_e = cl1.conflicting_l_e ∧
      cl2.blocked_l_e = cl1.blocked_l_e := by
  unfold classify2_step at h
  unfold classify_step
  by_cases hemb : l_e ∈ d.embedded_l_e
  · rw [if_pos hemb] at h
    simp only [Res.done.injEq] at h
    subst h
    exact ⟨cl, by simp only [hemb, if_true], rfl, rfl, rfl⟩
  rw [if_neg hemb] at h
  simp only [hemb, if_false]
  by_cases heq : d.l_v_components.equivalent (ops.layout.vertexA l_e)
      (ops.layout.vertexB l_e) = true
  · rw [if_pos heq] at h
    simp only [Res.done.injEq] at h
    subst h
    simp only [heq, if_true]
    exact ⟨_, rfl, rfl, rfl, rfl⟩
  rw [if_neg heq] at h
  simp only [heq]
  simp only at h
  by_cases hw : (ops.find_shortest_path_edge d.em l_e).length <
      size_minus_one (ops.find_shortest_path_edge d.em l_e).length
  · rw [if_pos hw] at h; simp at h
  rw [if_neg hw] at h
  simp only [Res.done.injEq] at h
  subst h
  simp only [hw, if_false, Bool.false_eq_true]
  refine ⟨_, rfl, ?_⟩
  exact cover_fold_congr l_e _ _ _ rfl rfl rfl

/-- The invariant of the classification after the loop of `branch_and_bound2`. -/
theorem classInv2_loop (ops : SearchOps Em C) (d : Descent Em) (es : List Nat) :
    ∀ (D : List Nat) (cl cl1 : Classification C), es.Nodup → (∀ e ∈ es, e ∉ D) →
      ClassInv ops
        { em := d.em, embedded_l_e := d.embedded_l_e, l_v_components := d.l_v_components,
          embedded_cost := 0 } D cl →
      classify2_loop ops d es cl = Res.done cl1 →
      ∃ D1, (∀ e, e ∈ D1 ↔ e ∈ es ∨ e ∈ D) ∧
        ClassInv ops
          { em := d.em, embedded_l_e := d.embedded_l_e, l_v_components := d.l_v_components,
            embedded_cost := 0 } D1 cl1 := by
  induction es with
  | nil =>
      intro D cl cl1 _ _ hinv h
      simp only [classify2_loop, Res.done.injEq] at h
      subst h
      exact ⟨D, fun e => by simp, hinv⟩
  | cons e es ih =>
      intro D cl cl1 hnd hD hinv h
      unfold classify2_loop at h
      cases hs : classify2_step ops d cl e with
      | fatal => rw [hs] at h; simp at h
      | timeout => rw [hs] at h; simp at h
      | done cl2 =>
          rw [hs] at h
          simp only at h
          obtain ⟨cl3, hs3, k1, k2, k3⟩ := classify2_step_eq ops d cl cl2 e hs
          have hinv2 := classInv_congr ops _ _ cl3 cl2 k1 k2 k3
            (classInv_step ops _ D cl cl3 e hinv hs3)
          obtain ⟨D1, hD1, hinv1⟩ := ih (e :: D) cl2 cl1 (List.nodup_cons.1 hnd).2
            (by
              intro x hx hxD
              rcases List.mem_cons.1 hxD with h1 | h1
              · rw [h1] at hx; exact (List.nodup_cons.1 hnd).1 hx
              · exact hD x (List.mem_cons_of_mem _ hx) h1)
            hinv2 h
          refine ⟨D1, fun x => ?_, hinv1⟩
          rw [hD1 x]
          simp only [List.mem_cons]
          tauto

/-- What the invariant of the classification says of a blocked edge. -/
theorem classInv_blocked (ops : SearchOps Em C) (r : Replay Em C) (D : List Nat)
    (cl : Classification C) (hinv : ClassInv ops r D cl) (e : Nat) (hD : e ∈ D)
    (hemb : e ∉ r.embedded_l_e)
    (heq : r.l_v_components.equivalent (ops.layout.vertexA e) (ops.layout.vertexB e) = true) :
    e ∈ cl.blocked_l_e ∧ e ∉ cl.conflicting_l_e ∧ ∀ x, e ∉ cl.covered x := by
  refine ⟨(hinv.blocked_iff e).2 ⟨hD, hemb, heq⟩, ?_, ?_⟩
  · intro hc
    have := (hinv.conflicting_in e hc).2.2
    rw [heq] at this
    exact Bool.noConfusion this
  · intro x hc
    have := (hinv.covered_in x e hc).2.2
    rw [heq] at this
    exact Bool.noConfusion this

/-- C18: blocked edges are never forced. In `branch_and_bound`, for the node of a candidate: a
layout edge outside the insertions whose end points lie in the same class of the union-find
of the inserted edges is in the blocked set, is not in the conflicting set and is at no
element of the covered map; and every candidate that an iteration adds to the queue extends
the popped one by an edge of the conflicting set that is not blocked. In
`branch_and_bound2`, after the classification of an iteration an edge that is not embedded and
whose end points lie in the same class is in the blocked set, not in the conflicting set and
nowhere in the covered map; and the edge that the iteration embeds is conflicting, not
blocked, and joins two different classes. -/
theorem blocked_edges_never_forced
    (pop : List (Candidate C) → Option (Candidate C × List (Candidate C)))
    (rand : Nat → Nat) (ops : SearchOps Em C) (em : Em) :
    (∀ c node r cl, evaluate_node ops em c = Res.done node →
      replay ops em c.insertions = Res.done r →
      classify_loop ops r (List.range ops.layout.num_edges)
        { covered := fun _ => ∅, conflicting_l_e := ∅, blocked_l_e := ∅,
          unembedded_cost := 0 } = Res.done cl →
      r.l_v_components =
        merge_edges ops.layout (UnionFind.init ops.layout.num_vertices) c.insertions ∧
      ∀ e, e < ops.layout.num_edges → e ∉ c.insertions →
        r.l_v_components.equivalent (ops.layout.vertexA e) (ops.layout.vertexB e) = true →
        e ∈ node.blocked_l_e ∧ e ∉ node.conflicting_l_e ∧ ∀ x, e ∉ cl.covered x) ∧
    (∀ st st1 b c rest node, pop st.q = some (c, rest) →
      search_step pop ops em st = Res.done (b, st1) →
      evaluate_node ops em c = Res.done node →
      ∀ x ∈ st1.q, x ∈ rest ∨ ∃ e, x.insertions = c.insertions ++ [e] ∧
        e ∈ node.conflicting_l_e ∧ e ∉ node.blocked_l_e) ∧
    (∀ d cl, classify2_loop ops d (List.range ops.layout.num_edges)
        { covered := fun _ => ∅, conflicting_l_e := ∅, blocked_l_e := ∅,
          unembedded_cost := 0 } = Res.done cl →
      ∀ e, e < ops.layout.num_edges → e ∉ d.embedded_l_e →
        d.l_v_components.equivalent (ops.layout.vertexA e) (ops.layout.vertexB e) = true →
        e ∈ cl.blocked_l_e ∧ e ∉ cl.conflicting_l_e ∧ ∀ x, e ∉ cl.covered x) ∧
    (∀ d d1, descend_step rand ops d = Res.done (true, d1) →
      ∃ cl e, classify2_loop ops d (List.range ops.layout.num_edges)
          { covered := fun _ => ∅, conflicting_l_e := ∅, blocked_l_e := ∅,
            unembedded_cost := 0 } = Res.done cl ∧
        e ∈ cl.conflicting_l_e ∧ e ∉ cl.blocked_l_e ∧
        d.l_v_components.equivalent (ops.layout.vertexA e) (ops.layout.vertexB e) = false ∧
        d1.embedded_l_e = insert e d.embedded_l_e ∧
        d1.l_v_components =
          d.l_v_components.merge (ops.layout.vertexA e) (ops.layout.vertexB e)) := by
  have hclass2 : ∀ (d : Descent Em) (cl : Classification C),
      classify2_loop ops d (List.range ops.layout.num_edges)
        { covered := fun _ => ∅, conflicting_l_e := ∅, blocked_l_e := ∅,
          unembedded_cost := 0 } = Res.done cl →
      ∃ D, (∀ e, e ∈ D ↔ e < ops.layout.num_edges) ∧
        ClassInv ops
          { em := d.em, embedded_l_e := d.embedded_l_e, l_v_components := d.l_v_components,
            embedded_cost := 0 } D cl := by
    intro d cl hc
    obtain ⟨D, hD, hinv⟩ := classInv2_loop ops d (List.range ops.layout.num_edges) [] _ cl
      (List.nodup_range _) (fun e _ => by simp) (classInv_init ops _) hc
    exact ⟨D, fun e => by rw [hD e]; simp, hinv⟩
  refine ⟨?_, ?_, ?_, ?_⟩
  · intro c node r cl hn hr hc
    obtain ⟨r1, cl1, D, hr1, hc1, hD, hinv, hemb, k3, k4⟩ := evaluate_node_class ops em c node hn
    rw [hr] at hr1
    simp only [Res.done.injEq] at hr1
    subst hr1
    rw [hc] at hc1
    simp only [Res.done.injEq] at hc1
    subst hc1
    refine ⟨(replay_loop_components ops _ _ r hr).1, ?_⟩
    intro e he hni heq
    rw [k3, k4]
    exact classInv_blocked ops r D cl hinv e ((hD e).2 he) (fun hm => hni ((hemb e).1 hm)) heq
  · intro st st1 b c rest node hp hs hn x hx
    rcases search_step_cases pop ops em st st1 b hs with ⟨h0, _, _⟩ | ⟨c1, rest1, hp1, hc⟩
    · rw [h0] at hp; simp at hp
    rw [hp1] at hp
    simp only [Option.some.injEq, Prod.mk.injEq] at hp
    obtain ⟨rfl, rfl⟩ := hp
    rcases hc with ⟨_, _, h1⟩ | ⟨_, _, node1, hn1, hc⟩
    · subst h1; exact Or.inl hx
    rw [hn1] at hn
    simp only [Res.done.injEq] at hn
    subst hn
    rcases hc with ⟨_, _, h1⟩ | ⟨_, h1⟩ | ⟨_, _, q1, hq1, h1⟩
    · subst h1; exact Or.inl hx
    · subst h1; exact Or.inl hx
    · subst h1
      simp only at hx
      rw [push_children_eq ops _ c1 _ _ rest1 q1 hq1] at hx
      rcases List.mem_append.1 hx with hx1 | hx1
      · rw [List.mem_reverse, List.mem_filterMap] at hx1
        obtain ⟨e, he, hxe⟩ := hx1
        have hmem := (mem_ascending _ e).1 he
        obtain ⟨_, hconf, _⟩ := evaluate_node_spec ops em c1 node1 hn1
        exact Or.inr ⟨e, ((child_of_eq_some ops _ c1 _ e x).1 hxe).2.1, hmem,
          (hconf e hmem).2.2⟩
      · exact Or.inl hx1
  · intro d cl hc e he hemb heq
    obtain ⟨D, hD, hinv⟩ := hclass2 d cl hc
    exact classInv_blocked ops _ D cl hinv e ((hD e).2 he) hemb heq
  · intro d d1 h
    unfold descend_step at h
    cases hc : classify2_loop ops d (List.range ops.layout.num_edges)
        { covered := fun _ => ∅, conflicting_l_e := ∅, blocked_l_e := ∅,
          unembedded_cost := 0 } with
    | fatal => rw [hc] at h; simp at h
    | timeout => rw [hc] at h; simp at h
    | done cl =>
        rw [hc] at h
        simp only at h
        by_cases hempty : cl.conflicting_l_e = ∅
        · rw [if_pos hempty] at h; simp at h
        rw [if_neg hempty] at h
        cases hget : (ascending cl.conflicting_l_e)[rand d.num_decisions %
            cl.conflicting_l_e.card]? with
        | none => rw [hget] at h; simp at h
        | some e =>
            rw [hget] at h
            simp only at h
            cases hemb : ops.embed_path d.em (ops.layout.halfedgeA e)
                (ops.find_shortest_path d.em (ops.layout.halfedgeA e)) with
            | none => rw [hemb] at h; simp at h
            | some em1 =>
                rw [hemb] at h
                simp only [Res.done.injEq, Prod.mk.injEq, true_and] at h
                subst h
                have hmem : e ∈ cl.conflicting_l_e :=
                  (mem_ascending _ e).1 (List.getElem?_mem hget)
                obtain ⟨D, hD, hinv⟩ := hclass2 d cl hc
                have hfree := (hinv.conflicting_in e hmem).2.2
                refine ⟨cl, e, rfl, hmem, ?_, hfree, rfl, rfl⟩
                intro hb
                have := ((hinv.blocked_iff e).1 hb).2.2
                rw [hfree] at this
                exact Bool.noConfusion this

end BlockedTheorems

/-- C18 on the search instance: once the edges `0 = (0,1)` and `1 = (1,2)` are inserted, the
edge `2 = (0,2)` joins two connected layout vertices; it is blocked and not conflicting. -/
theorem blocked_edges_never_forced_witness :
    evaluate_node bbOps [] ⟨8, [0, 1]⟩ = Res.done ⟨[1, 0], {1, 0}, ∅, {2}, {3}, 8⟩ ∧
    (merge_edges bbLayout (UnionFind.init 4) [0, 1]).equivalent
      (bbLayout.vertexA 2) (bbLayout.vertexB 2) = true ∧
    (2 ∈ ({2} : Finset Nat) ∧ 2 ∉ (∅ : Finset Nat)) := by
  have hn : evaluate_node bbOps [] ⟨8, [0, 1]⟩ =
      Res.done ⟨[1, 0], {1, 0}, ∅, {2}, {3}, 8⟩ := by decide
  obtain ⟨r, cl, hr, hc, _⟩ := evaluate_node_parts bbOps [] ⟨8, [0, 1]⟩ _ hn
  obtain ⟨hcomp, hb⟩ :=
    (blocked_edges_never_forced pop_min (fun _ => 0) bbOps []).1 ⟨8, [0, 1]⟩ _ r cl hn hr hc
  have heq : (merge_edges bbLayout (UnionFind.init 4) [0, 1]).equivalent
      (bbLayout.vertexA 2) (bbLayout.vertexB 2) = true := by decide
  have h2 := hb 2 (by decide) (by decide) (by rw [hcomp]; exact heq)
  exact ⟨hn, heq, h2.1, h2.2.1⟩

/-! ## The summaries of `EmbeddingState` -/

section SummaryTheorems

variable {Em Pos C : Type}

/-- The two nested loops of `hash` are one fold over the positions of the embedded paths. -/
theorem hash_fold (emb : Nat → Bool) (path : Nat → List Nat) (pos : Nat → Pos)
    (step : Nat → Pos → Nat) (es : List Nat) :
    ∀ h0 : Nat,
      es.foldl (fun h l_e =>
        if emb l_e then (path l_e).foldl (fun h1 t_v => step h1 (pos t_v)) h else h) h0 =
      ((es.filter emb).flatMap (fun l_e => (path l_e).map pos)).foldl step h0 := by
  induction es with
  | nil => intro h0; rfl
  | cons e es ih =>
      intro h0
      rw [List.foldl_cons, ih]
      by_cases he : emb e = true
      · rw [if_pos he, List.filter_cons_of_pos he, List.flatMap_cons, List.foldl_append,
          List.foldl_map]
      · rw [if_neg he, List.filter_cons_of_neg he]

/-- The positions of the committed paths depend on the embedded edges and on the positions
along their paths only. -/
theorem positions_congr (emb1 emb2 : Nat → Bool) (g1 g2 : Nat → List Pos) (es : List Nat) :
    (∀ e ∈ es, emb1 e = emb2 e) → (∀ e ∈ es, emb1 e = true → g1 e = g2 e) →
      (es.filter emb1).flatMap g1 = (es.filter emb2).flatMap g2 := by
  induction es with
  | nil => intro _ _; rfl
  | cons e es ih =>
      intro h1 h2
      have ih1 := ih (fun x hx => h1 x (List.mem_cons_of_mem _ hx))
        (fun x hx => h2 x (List.mem_cons_of_mem _ hx))
      have he := h1 e (List.mem_cons_self _ _)
      by_cases hemb : emb1 e = true
      · rw [List.filter_cons_of_pos hemb, List.filter_cons_of_pos (he ▸ hemb),
          List.flatMap_cons, List.flatMap_cons, ih1, h2 e (List.mem_cons_self _ _) hemb]
      · rw [List.filter_cons_of_neg hemb, List.filter_cons_of_neg (he ▸ hemb), ih1]

/-- The method `hash` folds `hash_combine` from `0` over the committed positions. -/
theorem hash_eq_fold (R : EmbeddingReads Em Pos) (s : EmbeddingState Em C) :
    hash R s = (committed_positions R s.em).foldl
      (fun h p => R.hash_combine h (R.hash_pos p)) 0 := by
  unfold hash committed_positions
  exact hash_fold (fun l_e => R.is_embedded s.em l_e)
    (fun l_e => R.get_embedded_path s.em (R.layout.halfedgeA l_e)) (R.target_pos s.em)
    (fun h p => R.hash_combine h (R.hash_pos p)) _ 0

/-- C15: `hash()` is a function of the committed paths only. Two states in which the same
layout edges are embedded, with the same sequences of positions along the paths of their
`halfedgeA`, have the same hash, whatever their other members are; the hash is the left
fold of `hash_combine` from `0` over the positions of the embedded edges by ascending index and
in path order; and a state with no embedded edge hashes to `0`. -/
theorem hash_of_committed_paths (R : EmbeddingReads Em Pos) (s1 s2 : EmbeddingState Em C)
    (hemb : ∀ e, e < R.layout.num_edges → R.is_embedded s1.em e = R.is_embedded s2.em e)
    (hpos : ∀ e, e < R.layout.num_edges → R.is_embedded s1.em e = true →
      (R.get_embedded_path s1.em (R.layout.halfedgeA e)).map (R.target_pos s1.em) =
        (R.get_embedded_path s2.em (R.layout.halfedgeA e)).map (R.target_pos s2.em)) :
    hash R s1 = hash R s2 ∧
    hash R s1 = (committed_positions R s1.em).foldl
      (fun h p => R.hash_combine h (R.hash_pos p)) 0 ∧
    ((∀ e, e < R.layout.num_edges → R.is_embedded s1.em e = false) → hash R s1 = 0) := by
  refine ⟨?_, hash_eq_fold R s1, ?_⟩
  · rw [hash_eq_fold R s1, hash_eq_fold R s2]
    have : committed_positions R s1.em = committed_positions R s2.em := by
      unfold committed_positions
      exact positions_congr _ _ _ _ _
        (fun e he => hemb e (List.mem_range.1 he))
        (fun e he h => hpos e (List.mem_range.1 he) h)
    rw [this]
  · intro hnone
    rw [hash_eq_fold R s1]
    have : committed_positions R s1.em = [] := by
      unfold committed_positions
      rw [List.filter_eq_nil_iff.2 (fun e he => by
        rw [hnone e (List.mem_range.1 he)]; simp)]
      rfl
    rw [this]
    rfl

end SummaryTheorems

/-- C15 on the tetrahedral instance: the edges `0` and `3` committed in either order, with
other members of the state that differ, hash alike. -/
theorem hash_of_committed_paths_witness :
    hash tetraReads (tetraState [0, 3]) =
      hash tetraReads
        { tetraState [3, 0] with valid := false, embedded_cost := 7,
                                 conflicting_l_edges := {1, 2} } :=
  (hash_of_committed_paths tetraReads (tetraState [0, 3])
    { tetraState [3, 0] with valid := false, embedded_cost := 7,
                             conflicting_l_edges := {1, 2} }
    (by decide) (by decide)).1

section ComponentTheorems

variable {Em Pos C : Type}

/-- Merging two indices of one class changes nothing. -/
theorem merge_of_equivalent (u : UnionFind) (a b : Nat) (h : u.equivalent a b = true) :
    u.merge a b = u := by
  have hab : u.rep a = u.rep b := by
    unfold UnionFind.equivalent at h
    simpa using h
  obtain ⟨rep⟩ := u
  unfold UnionFind.merge
  congr 1
  funext x
  simp only at hab ⊢
  by_cases hx : rep x = rep a
  · rw [if_pos hx, hx, hab]
  · rw [if_neg hx]

/-- The loop of `count_connected_components` keeps the counter equal to the number of classes
of the union-find, which it joins across the edges that are not embedded. -/
theorem count_loop_spec (R : EmbeddingReads Em Pos) (em : Em) (es : List Nat) :
    ∀ acc : Int × UnionFind, acc.1 = (acc.2.num_classes R.num_faces : Int) →
      (∀ e ∈ es, R.is_embedded em e = false →
        ∃ a b, R.faceA e = some a ∧ R.faceB e = some b ∧ a < R.num_faces ∧ b < R.num_faces) →
      count_loop R em es acc =
        Res.done (((join_faces R em es acc.2).num_classes R.num_faces : Int),
          join_faces R em es acc.2) := by
  induction es with
  | nil =>
      intro acc hacc _
      simp only [count_loop, join_faces, List.foldl_nil, ← hacc]
  | cons e es ih =>
      intro acc hacc hv
      have hv1 : ∀ x ∈ es, R.is_embedded em x = false →
          ∃ a b, R.faceA x = some a ∧ R.faceB x = some b ∧ a < R.num_faces ∧ b < R.num_faces :=
        fun x hx => hv x (List.mem_cons_of_mem _ hx)
      unfold count_loop
      by_cases hemb : R.is_embedded em e = true
      · have hstep : count_step R em acc e = Res.done acc := by
          unfold count_step
          rw [if_pos hemb]
        have hjoin : join_faces R em (e :: es) acc.2 = join_faces R em es acc.2 := by
          unfold join_faces
          rw [List.foldl_cons, if_pos hemb]
        rw [hstep, hjoin]
        exact ih acc hacc hv1
      · obtain ⟨a, b, ha, hb, hal, hbl⟩ := hv e (List.mem_cons_self _ _) (by simpa using hemb)
        have hjoin : join_faces R em (e :: es) acc.2 =
            join_faces R em es (acc.2.merge a b) := by
          unfold join_faces
          rw [List.foldl_cons, if_neg hemb, ha, hb]
        by_cases heq : acc.2.equivalent a b = true
        · have hstep : count_step R em acc e = Res.done acc := by
            unfold count_step
            rw [if_neg hemb, ha, hb]
            simp only [hal, hbl, and_self, if_true, heq]
          rw [hstep, hjoin, merge_of_equivalent _ _ _ heq]
          exact ih acc hacc hv1
        · have hstep : count_step R em acc e = Res.done (acc.1 - 1, acc.2.merge a b) := by
            unfold count_step
            rw [if_neg hemb, ha, hb]
            simp only [hal, hbl, and_self, if_true, heq]
            rfl
          rw [hstep, hjoin]
          have hm := num_classes_merge acc.2 R.num_faces a b hal hbl (by simpa using heq)
          have := ih (acc.1 - 1, acc.2.merge a b) (by simp only; rw [hacc]; omega) hv1
          exact this

/-- C16 (amended): `count_connected_components()` counts components of the faces of the
layout mesh. It starts from one component per face of the layout mesh and joins the two layout
faces on either side of every layout edge that is not embedded: when every such edge has two
faces of the layout mesh, the result is the number of classes of the faces so joined; and
when every layout edge is embedded, the result is the number of faces of the layout mesh. -/
theorem count_connected_components_layout_faces (R : EmbeddingReads Em Pos)
    (s : EmbeddingState Em C) :
    ((∀ e, e < R.layout.num_edges → R.is_embedded s.em e = false →
        ∃ a b, R.faceA e = some a ∧ R.faceB e = some b ∧ a < R.num_faces ∧ b < R.num_faces) →
      count_connected_components R s =
        Res.done (((join_faces R s.em (List.range R.layout.num_edges)
          (UnionFind.init R.num_faces)).num_classes R.num_faces : Nat) : Int)) ∧
    ((∀ e, e < R.layout.num_edges → R.is_embedded s.em e = true) →
      count_connected_components R s = Res.done (R.num_faces : Int)) := by
  have key : (∀ e, e < R.layout.num_edges → R.is_embedded s.em e = false →
        ∃ a b, R.faceA e = some a ∧ R.faceB e = some b ∧ a < R.num_faces ∧ b < R.num_faces) →
      count_connected_components R s =
        Res.done (((join_faces R s.em (List.range R.layout.num_edges)
          (UnionFind.init R.num_faces)).num_classes R.num_faces : Nat) : Int) := by
    intro hv
    unfold count_connected_components
    rw [count_loop_spec R s.em _ ((R.num_faces : Int), UnionFind.init R.num_faces)
      (by simp only; rw [num_classes_init])
      (fun e he => hv e (List.mem_range.1 he))]
  refine ⟨key, ?_⟩
  intro hall
  rw [key (fun e he hf => by rw [hall e he] at hf; exact Bool.noConfusion hf)]
  have hjoin : ∀ (es : List Nat) (u : UnionFind),
      (∀ e ∈ es, R.is_embedded s.em e = true) → join_faces R s.em es u = u := by
    intro es
    induction es with
    | nil => intro u _; rfl
    | cons e es ih =>
        intro u h
        unfold join_faces
        rw [List.foldl_cons, if_pos (h e (List.mem_cons_self _ _))]
        exact ih u (fun x hx => h x (List.mem_cons_of_mem _ hx))
  rw [hjoin _ _ (fun e he => hall e (List.mem_range.1 he)), num_classes_init]

end ComponentTheorems

/-- C16 (amended) on the tetrahedral instance: with all edges but edge `0` embedded, the two
layout faces at edge `0` are joined and three components remain; with all six edges embedded
the count is the number `4` of layout faces. -/
theorem count_connected_components_layout_faces_witness :
    count_connected_components tetraReads (tetraState [1, 2, 3, 4, 5]) = Res.done 3 ∧
    count_connected_components tetraReads (tetraState [0, 1, 2, 3, 4, 5]) =
      Res.done (tetraReads.num_faces : Int) :=
  ⟨by decide,
    (count_connected_components_layout_faces tetraReads (tetraState [0, 1, 2, 3, 4, 5])).2
      (by decide)⟩

/-- C16 as stated fails on the tetrahedral instance: every layout edge is embedded and the
target mesh has `8` faces, but the count is `4`, the number of faces of the layout mesh. -/
theorem count_connected_components_counterexample :
    (∀ e, e < tetraReads.layout.num_edges →
      tetraReads.is_embedded (tetraState [0, 1, 2, 3, 4, 5]).em e = true) ∧
    tetraReads.target_num_faces (tetraState [0, 1, 2, 3, 4, 5]).em = 8 ∧
    tetraReads.num_faces = 4 ∧
    count_connected_components tetraReads (tetraState [0, 1, 2, 3, 4, 5]) = Res.done 4 ∧
    count_connected_components tetraReads (tetraState [0, 1, 2, 3, 4, 5]) ≠
      Res.done (tetraReads.target_num_faces (tetraState [0, 1, 2, 3, 4, 5]).em : Int) := by
  refine ⟨by decide, rfl, rfl, by decide, by decide⟩

/-! ## EmbeddingState: an invalid state, and what `extend` leaves alone -/

section InvalidStateTheorems

variable {Em C : Type} [Add C] [Zero C] [Top C]

/-- The sizes of the embedded set and of the rest of the layout edges add up to the number of
layout edges exactly when every embedded edge is a layout edge. -/
theorem card_embedded_rest (embedded : Finset Nat) (n : Nat) :
    embedded.card + ((Finset.range n).filter (fun e => e ∉ embedded ∧ e ∉ (∅ : Finset Nat))).card
      = n ↔ ∀ e ∈ embedded, e < n := by
  have hfilter : (Finset.range n).filter (fun e => e ∉ embedded ∧ e ∉ (∅ : Finset Nat))
      = Finset.range n \ embedded := by
    ext e
    simp
  rw [hfilter]
  constructor
  · intro h e he
    by_contra hlt
    have hsub : embedded ∪ (Finset.range n \ embedded) = embedded ∪ Finset.range n := by
      ext x; simp
    have hcard : (embedded ∪ Finset.range n).card = n := by
      rw [← hsub, Finset.card_union_of_disjoint Finset.disjoint_sdiff, h]
    have hins : insert e (Finset.range n) ⊆ embedded ∪ Finset.range n := by
      intro x hx
      rcases Finset.mem_insert.1 hx with h1 | h1
      · rw [h1]; exact Finset.mem_union_left _ he
      · exact Finset.mem_union_right _ h1
    have := Finset.card_le_card hins
    rw [Finset.card_insert_of_not_mem (by simpa using hlt), Finset.card_range, hcard] at this
    omega
  · intro h
    have hsub : embedded ⊆ Finset.range n := fun e he => Finset.mem_range.2 (h e he)
    rw [Finset.card_sdiff hsub, Finset.card_range]
    have := Finset.card_le_card hsub
    rw [Finset.card_range] at this
    omega

/-- C29: an invalid state reports no conflicts. When `valid` is false at the call of
`detect_candidate_path_conflicts()`, the method does not consult the sentinel: it ends (by
returning, or in its size assertion) in the state whose `conflicting_l_edges` is empty and
whose `non_conflicting_l_edges` holds exactly the layout edges that are not in
`embedded_l_edges`, whatever their candidate paths are, the other members being as before; and
it returns exactly when every member of `embedded_l_edges` is a layout edge. -/
theorem invalid_state_reports_no_conflicts (ops : EmbeddingOps Em C) (fuel : Nat)
    (s : EmbeddingState Em C) (hv : s.valid = false) :
    ∃ s1, (detect_candidate_path_conflicts ops fuel s = Outcome.done s1 ∨
        detect_candidate_path_conflicts ops fuel s = Outcome.fatal s1) ∧
      s1.conflicting_l_edges = ∅ ∧
      (∀ e, e ∈ s1.non_conflicting_l_edges ↔
        e < ops.layout.num_edges ∧ e ∉ s.embedded_l_edges) ∧
      s1.valid = false ∧ s1.em = s.em ∧ s1.embedded_l_edges = s.embedded_l_edges ∧
      s1.candidate_paths = s.candidate_paths ∧ s1.embedded_cost = s.embedded_cost ∧
      s1.unembedded_cost = s.unembedded_cost ∧
      (detect_candidate_path_conflicts ops fuel s = Outcome.done s1 ↔
        ∀ e ∈ s.embedded_l_edges, e < ops.layout.num_edges) := by
  have hmem : ∀ e, e ∈ collect_non_conflicting s.embedded_l_edges ∅
      (List.range ops.layout.num_edges) ↔
      e < ops.layout.num_edges ∧ e ∉ s.embedded_l_edges := by
    intro e
    rw [collect_non_conflicting_eq]
    simp
  have hcard := card_embedded_rest s.embedded_l_edges ops.layout.num_edges
  rw [← collect_non_conflicting_eq] at hcard
  refine ⟨{ s with
      conflicting_l_edges := ∅
      non_conflicting_l_edges := collect_non_conflicting s.embedded_l_edges ∅
        (List.range ops.layout.num_edges) }, ?_, rfl, hmem, hv, rfl, rfl, rfl, rfl, rfl, ?_⟩
  · rw [detect_eq]
    simp only [hv, Bool.false_eq_true, if_false, Finset.card_empty, add_zero]
    split
    · exact Or.inl rfl
    · exact Or.inr rfl
  · rw [detect_eq]
    simp only [hv, Bool.false_eq_true, if_false, Finset.card_empty, add_zero]
    rw [← hcard]
    split
    · rename_i hc
      simp [hc]
    · rename_i hc
      simp [hc]

end InvalidStateTheorems

/-- C29 on the small instance: committing edge `0` cuts the route of edge `1`, so tracing the
candidates makes the state invalid; the classification then reports no conflict and puts edge
`1`, whose candidate path is empty, into the non-conflicting set. -/
theorem invalid_state_reports_no_conflicts_witness :
    ∃ s s1, run_state_ops toyOps [StateOp.extendEdge 0, StateOp.computeCandidatePaths]
        (EmbeddingState.init []) = Outcome.done s ∧
      s.valid = false ∧ candidate_path_of (s.candidate_paths 1) = [] ∧
      detect_candidate_path_conflicts toyOps 4 s = Outcome.done s1 ∧
      s1.conflicting_l_edges = ∅ ∧ 1 ∈ s1.non_conflicting_l_edges := by
  obtain ⟨s, hs⟩ := Outcome.returned_of_isDone
    (r := run_state_ops toyOps [StateOp.extendEdge 0, StateOp.computeCandidatePaths]
      (EmbeddingState.init [])) (by decide)
  have hs0 := hs
  simp only [run_state_ops, StateOp.run] at hs0
  have hext : extend toyOps 0 (EmbeddingState.init []) = Outcome.done
      { (EmbeddingState.init [] : EmbeddingState (List Nat) ℕ∞) with
        embedded_cost := 0 + 1, em := [0], embedded_l_edges := {0} } := by
    rfl
  rw [hext] at hs0
  simp only [Outcome.done.injEq] at hs0
  obtain ⟨k1, k2, _, _, _, k6, _, k8⟩ := compute_candidate_paths_fields toyOps
    { (EmbeddingState.init [] : EmbeddingState (List Nat) ℕ∞) with
      embedded_cost := 0 + 1, em := [0], embedded_l_edges := {0} }
  rw [hs0] at k1 k2 k6 k8
  have hvalid : s.valid = false := by
    rw [k8]; decide
  have hpath : candidate_path_of (s.candidate_paths 1) = [] := by
    rw [k6]; decide
  obtain ⟨s1, _, hc, hnc, _, _, _, _, _, _, hiff⟩ :=
    invalid_state_reports_no_conflicts toyOps 4 s hvalid
  refine ⟨s, s1, hs, hvalid, hpath, hiff.2 ?_, hc, (hnc 1).2 ⟨by decide, ?_⟩⟩
  · rw [k2]; decide
  · rw [k2]; decide

section ExtendFrameTheorems

variable {Em C : Type} [LinearOrderedAddCommMonoidWithTop C]

/-- The first form of `extend` ends, returning or in an assertion, in a state that differs
from the state before in the embedding, `embedded_cost`, `embedded_l_edges` and `valid` at
most; `valid` changes only when no path was found. -/
theorem extend_frame (ops : EmbeddingOps Em C) (l_e : Nat) (s : EmbeddingState Em C) :
    ∃ s1, (extend ops l_e s = Outcome.done s1 ∨ extend ops l_e s = Outcome.fatal s1) ∧
      s1.candidate_paths = s.candidate_paths ∧ s1.unembedded_cost = s.unembedded_cost ∧
      s1.conflicting_l_edges = s.conflicting_l_edges ∧
      s1.non_conflicting_l_edges = s.non_conflicting_l_edges ∧
      (s1.valid = s.valid ∨
        (s1.valid = false ∧ ops.find_shortest_path s.em (ops.layout.halfedgeA l_e) = [])) := by
  unfold extend
  by_cases hemb : l_e ∈ s.embedded_l_edges
  · exact ⟨s, Or.inr (by rw [if_pos hemb]), rfl, rfl, rfl, rfl, Or.inl rfl⟩
  rw [if_neg hemb]
  simp only
  by_cases hp : (ops.find_shortest_path s.em (ops.layout.halfedgeA l_e)).isEmpty = true
  · rw [if_pos hp]
    exact ⟨_, Or.inl rfl, rfl, rfl, rfl, rfl, Or.inr ⟨rfl, List.isEmpty_iff.1 hp⟩⟩
  rw [if_neg hp]
  cases hembed : ops.embed_path s.em (ops.layout.halfedgeA l_e)
      (ops.find_shortest_path s.em (ops.layout.halfedgeA l_e)) with
  | none => exact ⟨_, Or.inr rfl, rfl, rfl, rfl, rfl, Or.inl rfl⟩
  | some em1 => exact ⟨_, Or.inl rfl, rfl, rfl, rfl, rfl, Or.inl rfl⟩

/-- The second form of `extend` ends in a state that differs from the state before in the
embedding, `embedded_cost` and `embedded_l_edges` at most. -/
theorem extend_path_frame (ops : EmbeddingOps Em C) (l_e : Nat) (path : VirtualPath)
    (s : EmbeddingState Em C) :
    ∃ s1, (extend_path ops l_e path s = Outcome.done s1 ∨
        extend_path ops l_e path s = Outcome.fatal s1) ∧
      s1.candidate_paths = s.candidate_paths ∧ s1.unembedded_cost = s.unembedded_cost ∧
      s1.conflicting_l_edges = s.conflicting_l_edges ∧
      s1.non_conflicting_l_edges = s.non_conflicting_l_edges ∧ s1.valid = s.valid := by
  unfold extend_path
  by_cases hemb : l_e ∈ s.embedded_l_edges
  · exact ⟨s, Or.inr (by rw [if_pos hemb]), rfl, rfl, rfl, rfl, rfl⟩
  rw [if_neg hemb]
  by_cases hlen : path.length < 2
  · exact ⟨s, Or.inr (by rw [if_pos hlen]), rfl, rfl, rfl, rfl, rfl⟩
  rw [if_neg hlen]
  simp only
  cases hfront : path_at path 0 with
  | edge e => exact ⟨s, Or.inr rfl, rfl, rfl, rfl, rfl, rfl⟩
  | vertex front =>
      cases hback : path_at path (path.length - 1) with
      | edge e => exact ⟨s, Or.inr rfl, rfl, rfl, rfl, rfl, rfl⟩
      | vertex back =>
          simp only
          split
          · exact ⟨s, Or.inr rfl, rfl, rfl, rfl, rfl, rfl⟩
          · split
            · exact ⟨s, Or.inr rfl, rfl, rfl, rfl, rfl, rfl⟩
            · cases hembed : ops.embed_path s.em (ops.layout.halfedgeA l_e) path with
              | none => exact ⟨_, Or.inr rfl, rfl, rfl, rfl, rfl, rfl⟩
              | some em1 => exact ⟨_, Or.inl rfl, rfl, rfl, rfl, rfl, rfl⟩

/-- The candidate costs of a state, summed over the layout edges outside a set. -/
theorem candidate_cost_split (ops : EmbeddingOps Em C) (em : Em) (embedded : Finset Nat)
    (n l_e : Nat) (hl : l_e < n) (hemb : l_e ∉ embedded) :
    (((List.range n).filter (fun e => e ∉ embedded)).map
        (fun e => (trace_candidate ops em e).cost)).sum =
      (trace_candidate ops em l_e).cost +
        (((List.range n).filter (fun e => e ∉ insert l_e embedded)).map
          (fun e => (trace_candidate ops em e).cost)).sum := by
  have hgen : ∀ es : List Nat, es.Nodup → l_e ∈ es →
      ((es.filter (fun e => e ∉ embedded)).map
          (fun e => (trace_candidate ops em e).cost)).sum =
        (trace_candidate ops em l_e).cost +
          ((es.filter (fun e => e ∉ insert l_e embedded)).map
            (fun e => (trace_candidate ops em e).cost)).sum := by
    intro es
    induction es with
    | nil => intro _ h; simp at h
    | cons x xs ih =>
        intro hnd hmem
        obtain ⟨hx, hnd1⟩ := List.nodup_cons.1 hnd
        by_cases hxl : x = l_e
        · subst hxl
          have hrest : xs.filter (fun e => e ∉ insert x embedded) =
              xs.filter (fun e => e ∉ embedded) := by
            apply List.filter_congr
            intro y hy
            have : y ≠ x := fun h => hx (h ▸ hy)
            simp [this]
          rw [List.filter_cons_of_pos (by simpa using hemb),
            List.filter_cons_of_neg (by simp), hrest, List.map_cons, List.sum_cons]
        · have hmem1 : l_e ∈ xs := by
            rcases List.mem_cons.1 hmem with h | h
            · exact absurd h.symm hxl
            · exact h
          have ih1 := ih hnd1 hmem1
          by_cases hxe : x ∈ embedded
          · rw [List.filter_cons_of_neg (by simpa using hxe),
              List.filter_cons_of_neg (by simp [hxe])]
            exact ih1
          · rw [List.filter_cons_of_pos (by simpa using hxe),
              List.filter_cons_of_pos (by simp [hxe, hxl]), List.map_cons, List.sum_cons,
              List.map_cons, List.sum_cons, ih1,
              ← add_assoc, add_comm (trace_candidate ops em x).cost, add_assoc]
  exact hgen _ (List.nodup_range n) (List.mem_range.2 hl)

end ExtendFrameTheorems

section ExtendCallCases

variable {Em C : Type} [Add C] [Zero C] [Top C]

/-- A call that returns with `valid` still set has committed its path. -/
theorem extendCall_done (ops : EmbeddingOps Em C) (c : ExtendCall) (s s1 : EmbeddingState Em C)
    (h : c.run ops s = Outcome.done s1) (hv : s1.valid = true) :
    c.l_e ∉ s.embedded_l_edges ∧ s.valid = true ∧
    ∃ em1, ops.embed_path s.em (ops.layout.halfedgeA c.l_e) (c.path ops s.em) = some em1 ∧
      s1.em = em1 ∧ s1.embedded_l_edges = insert c.l_e s.embedded_l_edges ∧
      s1.embedded_cost = s.embedded_cost + ops.path_length s.em (c.path ops s.em) := by
  cases c with
  | edge l_e =>
      simp only [ExtendCall.run] at h
      obtain ⟨h1, h2⟩ := extend_done ops l_e s s1 h
      rcases h2 with ⟨_, h3⟩ | ⟨_, em1, h4, h3⟩
      · rw [h3] at hv; simp at hv
      · rw [h3] at hv ⊢
        exact ⟨h1, hv, em1, h4, rfl, rfl, rfl⟩
  | withPath l_e path =>
      simp only [ExtendCall.run] at h
      simp only [ExtendCall.l_e, ExtendCall.path]
      have hnot : l_e ∉ s.embedded_l_edges := by
        intro hin
        unfold extend_path at h
        rw [if_pos hin] at h
        cases h
      unfold extend_path at h
      rw [if_neg hnot] at h
      split at h
      · cases h
      · simp only at h
        split at h
        · split at h
          · cases h
          · split at h
            · cases h
            · split at h
              · cases h
              · rename_i em1 hemb
                simp only [Outcome.done.injEq] at h
                rw [← h] at hv ⊢
                exact ⟨hnot, hv, em1, hemb, rfl, rfl, rfl⟩
        · cases h

/-- No call sets `valid`. -/
theorem extendCall_valid (ops : EmbeddingOps Em C) (c : ExtendCall) (s s1 : EmbeddingState Em C)
    (h : c.run ops s = Outcome.done s1) (hv : s1.valid = true) : s.valid = true :=
  (extendCall_done ops c s s1 h hv).2.1

/-- A sequence of calls does not set `valid`. -/
theorem run_extends_valid (ops : EmbeddingOps Em C) (calls : List ExtendCall) :
    ∀ s s1 : EmbeddingState Em C, run_extends ops calls s = Outcome.done s1 →
      s1.valid = true → s.valid = true := by
  induction calls with
  | nil =>
      intro s s1 h hv
      simp only [run_extends, Outcome.done.injEq] at h
      rw [h]; exact hv
  | cons d ds ih =>
      intro s s1 h hv
      unfold run_extends at h
      cases hd : d.run ops s with
      | fatal s3 => rw [hd] at h; cases h
      | timeout => rw [hd] at h; cases h
      | done s3 =>
          rw [hd] at h
          exact extendCall_valid ops d s s3 hd (ih s3 s1 h hv)

end ExtendCallCases

/-! ## Termination of `branch_and_bound2` -/

section DescentTheorems

variable {Em C : Type} [LinearOrder C] [Add C] [Zero C] [Top C] [GapTests C]

theorem classify2_loop_ne_timeout (ops : SearchOps Em C) (d : Descent Em) (es : List Nat) :
    ∀ cl : Classification C, classify2_loop ops d es cl ≠ Res.timeout := by
  induction es with
  | nil => intro cl; simp [classify2_loop]
  | cons e es ih =>
      intro cl
      unfold classify2_loop
      cases hs : classify2_step ops d cl e with
      | fatal => simp
      | done cl1 => exact ih cl1
      | timeout =>
          exfalso
          unfold classify2_step at hs
          split at hs
          · simp at hs
          · split at hs
            · simp at hs
            · simp only at hs
              split at hs <;> simp at hs

/-- The cases of one iteration of `branch_and_bound2` that returns: the conflicting set of the
classification is empty and the loop is left with nothing changed, or the loop goes on after
one edge of the conflicting set, which is a layout edge that is neither embedded nor blocked,
was embedded and its end points merged. -/
theorem descend_step_cases (rand : Nat → Nat) (ops : SearchOps Em C) (d d1 : Descent Em)
    (b : Bool) (h : descend_step rand ops d = Res.done (b, d1)) :
    ∃ cl, classify2_loop ops d (List.range ops.layout.num_edges)
        { covered := fun _ => ∅, conflicting_l_e := ∅, blocked_l_e := ∅,
          unembedded_cost := 0 } = Res.done cl ∧
      ((cl.conflicting_l_e = ∅ ∧ b = false ∧ d1 = d) ∨
       (cl.conflicting_l_e ≠ ∅ ∧ b = true ∧
         ∃ e em1, e ∈ cl.conflicting_l_e ∧ e < ops.layout.num_edges ∧
           e ∉ d.embedded_l_e ∧ e ∉ cl.blocked_l_e ∧
           d.l_v_components.equivalent (ops.layout.vertexA e) (ops.layout.vertexB e) = false ∧
           ops.embed_path d.em (ops.layout.halfedgeA e)
             (ops.find_shortest_path d.em (ops.layout.halfedgeA e)) = some em1 ∧
           d1 = { em := em1
                  embedded_l_e := insert e d.embedded_l_e
                  l_v_components :=
                    d.l_v_components.merge (ops.layout.vertexA e) (ops.layout.vertexB e)
                  num_decisions := d.num_decisions + 1
                  num_potential_leaves :=
                    d.num_potential_leaves * cl.conflicting_l_e.card })) := by
  unfold descend_step at h
  cases hc : classify2_loop ops d (List.range ops.layout.num_edges)
      { covered := fun _ => ∅, conflicting_l_e := ∅, blocked_l_e := ∅,
        unembedded_cost := 0 } with
  | fatal => rw [hc] at h; simp at h
  | timeout => rw [hc] at h; simp at h
  | done cl =>
      rw [hc] at h
      simp only at h
      refine ⟨cl, rfl, ?_⟩
      by_cases hempty : cl.conflicting_l_e = ∅
      · rw [if_pos hempty] at h
        simp only [Res.done.injEq, Prod.mk.injEq] at h
        exact Or.inl ⟨hempty, h.1.symm, h.2.symm⟩
      rw [if_neg hempty] at h
      cases hget : (ascending cl.conflicting_l_e)[rand d.num_decisions %
          cl.conflicting_l_e.card]? with
      | none => rw [hget] at h; simp at h
      | some e =>
          rw [hget] at h
          simp only at h
          cases hemb : ops.embed_path d.em (ops.layout.halfedgeA e)
              (ops.find_shortest_path d.em (ops.layout.halfedgeA e)) with
          | none => rw [hemb] at h; simp at h
          | some em1 =>
              rw [hemb] at h
              simp only [Res.done.injEq, Prod.mk.injEq] at h
              have hmem : e ∈ cl.conflicting_l_e :=
                (mem_ascending _ e).1 (List.getElem?_mem hget)
              obtain ⟨D, hD, hinv⟩ := classInv2_loop ops d (List.range ops.layout.num_edges)
                [] _ cl (List.nodup_range _) (fun e _ => by simp) (classInv_init ops _) hc
              obtain ⟨g1, g2, g3⟩ := hinv.conflicting_in e hmem
              refine Or.inr ⟨hempty, h.1.symm, e, em1, hmem, ?_, g2, ?_, g3, hemb, h.2.symm⟩
              · have := (hD e).1 g1
                simpa using this
              · intro hb
                have := ((hinv.blocked_iff e).1 hb).2.2
                rw [g3] at this
                exact Bool.noConfusion this

theorem descend_step_ne_timeout (rand : Nat → Nat) (ops : SearchOps Em C) (d : Descent Em) :
    descend_step rand ops d ≠ Res.timeout := by
  unfold descend_step
  cases hc : classify2_loop ops d (List.range ops.layout.num_edges)
      { covered := fun _ => ∅, conflicting_l_e := ∅, blocked_l_e := ∅,
        unembedded_cost := 0 } with
  | fatal => simp
  | timeout => exact absurd hc (classify2_loop_ne_timeout ops d _ _)
  | done cl =>
      simp only
      split
      · simp
      · split
        · simp
        · split <;> simp

/-- The loop of `branch_and_bound2` with as much fuel as the union-find has classes: it does not
run out of fuel, and the decisions made and the classes left add up to what they were. -/
theorem descend_loop_spec (rand : Nat → Nat) (ops : SearchOps Em C)
    (hV : ∀ e, e < ops.layout.num_edges →
      ops.layout.vertexA e < ops.layout.num_vertices ∧
      ops.layout.vertexB e < ops.layout.num_vertices)
    (fuel : Nat) :
    ∀ d : Descent Em, d.l_v_components.num_classes ops.layout.num_vertices ≤ fuel →
      0 < fuel →
      descend_loop rand ops fuel d ≠ Res.timeout ∧
      ∀ d1, descend_loop rand ops fuel d = Res.done d1 →
        d1.num_decisions + d1.l_v_components.num_classes ops.layout.num_vertices =
          d.num_decisions + d.l_v_components.num_classes ops.layout.num_vertices := by
  induction fuel with
  | zero => intro d _ h; omega
  | succ n ih =>
      intro d hle _
      unfold descend_loop
      cases hs : descend_step rand ops d with
      | fatal => exact ⟨by simp, fun d1 h => by cases h⟩
      | timeout => exact absurd hs (descend_step_ne_timeout rand ops d)
      | done r =>
          obtain ⟨b, d2⟩ := r
          obtain ⟨cl, _, hcase⟩ := descend_step_cases rand ops d d2 b hs
          rcases hcase with ⟨_, hb, hd⟩ | ⟨_, hb, e, em1, _, he, _, _, hfree, _, hd⟩
          · subst hb; subst hd
            refine ⟨by simp, fun d1 h => ?_⟩
            simp only [Res.done.injEq] at h
            rw [h]
          · subst hb
            simp only
            have hve := hV e he
            have hm := num_classes_merge d.l_v_components ops.layout.num_vertices _ _
              hve.1 hve.2 hfree
            have hpos := num_classes_pos
              (d.l_v_components.merge (ops.layout.vertexA e) (ops.layout.vertexB e))
              ops.layout.num_vertices (by omega)
            have hd2 : d2.l_v_components =
                d.l_v_components.merge (ops.layout.vertexA e) (ops.layout.vertexB e) := by
              rw [hd]
            have hd3 : d2.num_decisions = d.num_decisions + 1 := by rw [hd]
            obtain ⟨i1, i2⟩ := ih d2 (by rw [hd2]; omega) (by omega)
            refine ⟨i1, fun d1 h => ?_⟩
            rw [i2 d1 h, hd2, hd3]
            omega

end DescentTheorems

/-! ## Sentinel: paths that meet at their ends only -/

/-- Marking a label against itself alone changes nothing. -/
theorem mark_all_self (l : Nat) (labels : Finset Nat) (s : Sentinel)
    (h : ∀ y ∈ labels, y = l) : mark_all l labels s = s := by
  unfold mark_all
  have hgen : ∀ xs : List Nat, (∀ y ∈ xs, y = l) →
      xs.foldl (fun st prev_l => mark_conflicting l prev_l st) s = s := by
    intro xs
    induction xs with
    | nil => intro _; rfl
    | cons x xs ih =>
        intro hx
        rw [List.foldl_cons]
        have hxl : x = l := hx x (List.mem_cons_self _ _)
        have hstep : mark_conflicting l x s = s := by
          unfold mark_conflicting
          rw [if_pos hxl.symm]
        rw [hstep]
        exact ih (fun y hy => hx y (List.mem_cons_of_mem _ hy))
  exact hgen _ (fun y hy => h y ((mem_ascending labels y).1 hy))

/-- Recording a label on elements that hold no other label marks no conflict, and the label
is recorded on exactly those elements. -/
theorem insert_elements_quiet (l : Nat) (els : List Element) :
    ∀ s : Sentinel, (∀ el ∈ els, ∀ y ∈ s.labels_at el, y = l) →
      (els.foldl (fun st el => insert_element el l st) s).global_conflicts
        = s.global_conflicts ∧
      (els.foldl (fun st el => insert_element el l st) s).global_conflict_relation
        = s.global_conflict_relation ∧
      ∀ el1, (els.foldl (fun st el => insert_element el l st) s).labels_at el1 =
        if el1 ∈ els then insert l (s.labels_at el1) else s.labels_at el1 := by
  induction els with
  | nil => intro s _; simp
  | cons el els ih =>
      intro s h
      rw [List.foldl_cons]
      obtain ⟨f1, f2, f3, _, _⟩ := insert_element_fields el l s
      have hself := mark_all_self l (s.labels_at el) s (h el (List.mem_cons_self _ _))
      rw [hself] at f2 f3
      obtain ⟨i1, i2, i3⟩ := ih (insert_element el l s) (by
        intro el1 hel1 y hy
        rw [f1 el1] at hy
        by_cases he : el1 = el
        · rw [if_pos he] at hy
          rcases Finset.mem_insert.1 hy with h1 | h1
          · exact h1
          · exact h el (List.mem_cons_self _ _) y h1
        · rw [if_neg he] at hy
          exact h el1 (List.mem_cons_of_mem _ hel1) y hy)
      refine ⟨i1.trans f2, i2.trans f3, ?_⟩
      intro el1
      rw [i3 el1, f1 el1]
      by_cases he : el1 = el
      · subst he
        by_cases hin : el1 ∈ els
        · simp [hin]
        · simp [hin]
      · by_cases hin : el1 ∈ els
        · simp [hin, he]
        · simp [hin, he]

/-- A real vertex is among the elements of a path exactly when it is an interior vertex. -/
theorem vertexEl_mem_path_elements (T : TargetQueries) (p : VirtualPath) (v : Nat) :
    Element.vertexEl v ∈ path_elements T p ↔ VirtualVertex.vertex v ∈ interior p := by
  unfold path_elements
  rw [List.mem_append]
  constructor
  · rintro (h | h)
    · rw [List.mem_map] at h
      obtain ⟨x, hx, hxe⟩ := h
      cases x with
      | vertex w =>
          simp only [element_of_vertex, Element.vertexEl.injEq] at hxe
          rw [← hxe]; exact hx
      | edge e => simp [element_of_vertex] at hxe
    · rw [List.mem_filterMap] at h
      obtain ⟨a, _, ha⟩ := h
      cases hseg : segment_element T a.1 a.2 with
      | none => rw [hseg] at ha; simp at ha
      | some se =>
          rw [hseg] at ha
          cases se <;> simp [element_of_segment] at ha
  · intro h
    exact Or.inl (List.mem_map.2 ⟨_, h, rfl⟩)

/-- C25: shared endpoints are not conflicts. Two paths are inserted one after the other on
a sentinel that records no label on the target elements of either path (its interior virtual
vertices, and the edge or face of each of its segments); if no such element is common to the
two paths (they meet, if at all, in a first or last vertex only), then both calls of
`insert_path` leave `global_conflicts` and `global_conflict_relation` as they were; and a call
of `insert_path` changes `v_label` at the interior real vertices of the path only, so the first
and the last vertex of a path are not recorded there. -/
theorem shared_endpoints_are_not_conflicts (L : LayoutMesh) (T : TargetQueries)
    (p1 p2 : VirtualPath) (l1 l2 : Nat) (s0 s1 s2 : Sentinel)
    (h1 : insert_path L T p1 l1 s0 = Res.done s1)
    (h2 : insert_path L T p2 l2 s1 = Res.done s2)
    (hfree : ∀ el, el ∈ path_elements T p1 ∨ el ∈ path_elements T p2 → s0.labels_at el = ∅)
    (hdisj : ∀ el, el ∈ path_elements T p1 → el ∉ path_elements T p2) :
    s1.global_conflicts = s0.global_conflicts ∧ s2.global_conflicts = s0.global_conflicts ∧
    s2.global_conflict_relation = s0.global_conflict_relation ∧
    (∀ v, VirtualVertex.vertex v ∉ interior p1 → s1.v_label v = s0.v_label v) ∧
    (∀ v, VirtualVertex.vertex v ∉ interior p2 → s2.v_label v = s1.v_label v) := by
  obtain ⟨_, hr1⟩ := insert_path_eq L T p1 l1 s0 s1 h1
  obtain ⟨_, hr2⟩ := insert_path_eq L T p2 l2 s1 s2 h2
  obtain ⟨_, _, _, a4, a5, _⟩ := record_ports_fields L T p1 l1 _ s1 hr1
  obtain ⟨_, _, _, b4, b5, _⟩ := record_ports_fields L T p2 l2 _ s2 hr2
  obtain ⟨q1, q2, q3⟩ := insert_elements_quiet l1 (path_elements T p1) s0 (by
    intro el hel y hy
    rw [hfree el (Or.inl hel)] at hy
    simp at hy)
  have hlab1 : ∀ el, s1.labels_at el =
      if el ∈ path_elements T p1 then insert l1 (s0.labels_at el) else s0.labels_at el := by
    intro el
    rw [record_ports_labels_at L T p1 l1 _ s1 hr1 el, q3 el]
  obtain ⟨r1, r2, r3⟩ := insert_elements_quiet l2 (path_elements T p2) s1 (by
    intro el hel y hy
    rw [hlab1 el, if_neg (fun hin => hdisj el hin hel), hfree el (Or.inr hel)] at hy
    simp at hy)
  have hlab2 : ∀ el, s2.labels_at el =
      if el ∈ path_elements T p2 then insert l2 (s1.labels_at el) else s1.labels_at el := by
    intro el
    rw [record_ports_labels_at L T p2 l2 _ s2 hr2 el, r3 el]
  refine ⟨a4.trans q1, (b4.trans r1).trans (a4.trans q1), (b5.trans r2).trans (a5.trans q2),
    ?_, ?_⟩
  · intro v hv
    have := hlab1 (Element.vertexEl v)
    rw [if_neg (fun hin => hv ((vertexEl_mem_path_elements T p1 v).1 hin))] at this
    exact this
  · intro v hv
    have := hlab2 (Element.vertexEl v)
    rw [if_neg (fun hin => hv ((vertexEl_mem_path_elements T p2 v).1 hin))] at this
    exact this

/-- C25 on the small target mesh: the path `0 - 1 - 2` of layout edge `0` ends at the target
vertex `2`, where the path `2 - 3` of layout edge `1` starts; no conflict is marked, and
vertex `2` is not recorded in `v_label`. -/
theorem shared_endpoints_are_not_conflicts_witness :
    ∃ s1 s2, insert_path toyLayout2 (toyQueries []) toyPathA 0 Sentinel.init = Res.done s1 ∧
      insert_path toyLayout2 (toyQueries [])
        [VirtualVertex.vertex 2, VirtualVertex.vertex 3] 1 s1 = Res.done s2 ∧
      s2.global_conflicts = ∅ ∧ s2.v_label 2 = ∅ := by
  have e1 : path_elements (toyQueries []) toyPathA =
      [Element.vertexEl 1, Element.edgeEl 0, Element.edgeEl 1] := by decide
  have e2 : path_elements (toyQueries []) [VirtualVertex.vertex 2, VirtualVertex.vertex 3] =
      [Element.edgeEl 2] := by decide
  obtain ⟨s1, hs1⟩ := Res.done_of_isDone
    (r := insert_path toyLayout2 (toyQueries []) toyPathA 0 Sentinel.init) (by decide)
  have hrun : (run_ops toyLayout2 (toyQueries [])
      [SentinelOp.insertPath toyPathA 0,
        SentinelOp.insertPath [VirtualVertex.vertex 2, VirtualVertex.vertex 3] 1]
      Sentinel.init).isDone = true := by decide
  simp only [run_ops, SentinelOp.run, hs1] at hrun
  obtain ⟨s2, hs2⟩ : ∃ s2, insert_path toyLayout2 (toyQueries [])
      [VirtualVertex.vertex 2, VirtualVertex.vertex 3] 1 s1 = Res.done s2 := by
    cases hq : insert_path toyLayout2 (toyQueries [])
        [VirtualVertex.vertex 2, VirtualVertex.vertex 3] 1 s1 with
    | done s2 => exact ⟨s2, rfl⟩
    | fatal => rw [hq] at hrun; simp [Res.isDone] at hrun
    | timeout => rw [hq] at hrun; simp [Res.isDone] at hrun
  obtain ⟨_, k2, _, k4, k5⟩ := shared_endpoints_are_not_conflicts toyLayout2 (toyQueries [])
    toyPathA [VirtualVertex.vertex 2, VirtualVertex.vertex 3] 0 1 Sentinel.init s1 s2 hs1 hs2
    (fun el _ => by cases el <;> rfl)
    (by rw [e1, e2]; decide)
  refine ⟨s1, s2, hs1, hs2, k2, ?_⟩
  rw [k5 2 (by decide), k4 2 (by decide)]
  rfl

/-! ## Sentinel: the fallback around a vertex without sectors -/

theorem Res.of_check {α : Type} {r : Res α} {p : α → Bool} (h : r.check p = true) :
    ∃ a, r = Res.done a ∧ p a = true := by
  cases r with
  | done a => exact ⟨a, rfl, h⟩
  | fatal => simp [Res.check] at h
  | timeout => simp [Res.check] at h

/-- The walk around a vertex reads the ports of the layout halfedges only. -/
theorem cyclic_walk_congr (L : LayoutMesh) (T : TargetQueries) (s s1 : Sentinel)
    (h : s1.l_port = s.l_port) (fuel l_he_start : Nat) (t_port_start : Option VirtualPort) :
    ∀ (n l_he : Nat) (t_port : Option VirtualPort),
      cyclic_walk L T s1 fuel l_he_start t_port_start n l_he t_port =
        cyclic_walk L T s fuel l_he_start t_port_start n l_he t_port := by
  intro n
  induction n with
  | zero => intro l_he t_port; rfl
  | succ n ih =>
      intro l_he t_port
      unfold cyclic_walk
      rw [h]
      by_cases he : T.is_embedded l_he = true
      · simp only [he, if_true]
      · simp only [he, Bool.false_eq_true, if_false]
        cases hc : cyclic_inner T fuel t_port (s.l_port l_he) t_port_start with
        | fatal => rfl
        | timeout => rfl
        | done r =>
            obtain ⟨t1, c⟩ := r
            simp only
            split
            · exact ih _ _
            · rfl

/-- Around a vertex without embedded outgoing halfedge the loop over the sectors does
nothing. -/
theorem sectors_of_vertex_none (L : LayoutMesh) (T : TargetQueries) (fuel : Nat)
    (hes : List Nat) :
    ∀ (flag : Bool) (s : Sentinel), (∀ h ∈ hes, T.is_embedded h = false) →
      sectors_of_vertex L T fuel hes flag s = Res.done (flag, s) := by
  induction hes with
  | nil => intro flag s _; rfl
  | cons he rest ih =>
      intro flag s h
      unfold sectors_of_vertex
      rw [h he (List.mem_cons_self _ _)]
      simp only [Bool.false_eq_true, if_false]
      exact ih flag s (fun x hx => h x (List.mem_cons_of_mem _ hx))

/-- The double loop records every pair of distinct edges of the list. -/
theorem mark_all_pairs_records (es : List Nat) (a b : Nat) (ha : a ∈ es) (hb : b ∈ es)
    (hne : a ≠ b) (s : Sentinel) :
    a ∈ (mark_all_pairs es s).global_conflicts ∧
    b ∈ (mark_all_pairs es s).global_conflicts ∧
    minmax a b ∈ (mark_all_pairs es s).global_conflict_relation := by
  unfold mark_all_pairs
  have hinner_grows : ∀ (x : Nat) (st : Sentinel),
      Grows st (es.foldl (fun st1 y => mark_conflicting x y st1) st) :=
    fun x st => foldl_grows _ es (fun s1 y => mark_conflicting_grows x y s1) st
  apply foldl_records
    (fun t => a ∈ t.global_conflicts ∧ b ∈ t.global_conflicts ∧
      minmax a b ∈ t.global_conflict_relation)
    (fun st x => es.foldl (fun st1 y => mark_conflicting x y st1) st) es a ha
  · intro st
    apply foldl_records
      (fun t => a ∈ t.global_conflicts ∧ b ∈ t.global_conflicts ∧
        minmax a b ∈ t.global_conflict_relation)
      (fun st1 y => mark_conflicting a y st1) es b hb
    · intro s1
      exact mark_conflicting_records a b s1 hne
    · intro s1 y hq
      have hg := mark_conflicting_grows a y s1
      exact ⟨hg.conflicts hq.1, hg.conflicts hq.2.1, hg.relation hq.2.2⟩
  · intro st x hq
    have hg := hinner_grows x st
    exact ⟨hg.conflicts hq.1, hg.conflicts hq.2.1, hg.relation hq.2.2⟩

/-- The double loop over a single edge marks nothing. -/
theorem mark_all_pairs_single (e : Nat) (s : Sentinel) : mark_all_pairs [e] s = s := by
  simp [mark_all_pairs, mark_conflicting]

/-- Processing a layout vertex leaves the ports as they are and only adds conflicts. -/
theorem check_vertex_ports (L : LayoutMesh) (T : TargetQueries) (fuel l_v : Nat)
    (hv : l_v < L.num_vertices) (s s1 : Sentinel)
    (h : check_vertex L T fuel l_v s = Res.done s1) :
    s1.l_port = s.l_port ∧ s1.t_port = s.t_port ∧ Grows s s1 := by
  refine check_vertex_preserves
    (fun t => t.l_port = s.l_port ∧ t.t_port = s.t_port ∧ Grows s t) (fun _ => True) ?_
    L T (fun _ => True) (orderingLabels_trivial L T) fuel l_v hv s s1
    ⟨rfl, rfl, Grows.refl s⟩ h
  intro a b t _ _ ht
  obtain ⟨_, _, _, k4, k5⟩ := mark_conflicting_labels a b t
  exact ⟨k4.trans ht.1, k5.trans ht.2.1, ht.2.2.trans (mark_conflicting_grows a b t)⟩

theorem check_vertices_ports (L : LayoutMesh) (T : TargetQueries) (fuel : Nat)
    (vs : List Nat) :
    ∀ s s1 : Sentinel, (∀ v ∈ vs, v < L.num_vertices) →
      check_vertices L T fuel vs s = Res.done s1 →
      s1.l_port = s.l_port ∧ s1.t_port = s.t_port ∧ Grows s s1 := by
  induction vs with
  | nil =>
      intro s s1 _ h
      simp only [check_vertices, Res.done.injEq] at h
      subst h
      exact ⟨rfl, rfl, Grows.refl s⟩
  | cons v vs ih =>
      intro s s1 hv h
      unfold check_vertices at h
      cases hc : check_vertex L T fuel v s with
      | fatal => rw [hc] at h; simp at h
      | timeout => rw [hc] at h; simp at h
      | done s2 =>
          rw [hc] at h
          simp only at h
          obtain ⟨a1, a2, a3⟩ := check_vertex_ports L T fuel v (hv v (List.mem_cons_self _ _))
            s s2 hc
          obtain ⟨b1, b2, b3⟩ := ih s2 s1 (fun x hx => hv x (List.mem_cons_of_mem _ hx)) h
          exact ⟨b1.trans a1, b2.trans a2, a3.trans b3⟩

/-- What processing a vertex without embedded outgoing halfedge does when the walk reports a
mismatch. -/
theorem check_vertex_fallback (L : LayoutMesh) (T : TargetQueries) (fuel l_v : Nat)
    (s : Sentinel) (hno : ∀ h ∈ L.outgoing_halfedges l_v, T.is_embedded h = false)
    (hwalk : cyclic_walk L T s fuel (L.any_outgoing_halfedge l_v)
      (s.l_port (L.any_outgoing_halfedge l_v)) fuel (L.any_outgoing_halfedge l_v)
      (s.l_port (L.any_outgoing_halfedge l_v)) = Res.done true) :
    check_vertex L T fuel l_v s = Res.done (mark_all_pairs (L.vertex_edges l_v) s) ∨
    check_vertex L T fuel l_v s = Res.fatal := by
  unfold check_vertex
  rw [sectors_of_vertex_none L T fuel _ false s hno]
  simp only
  unfold no_sector_check
  by_cases hemb : T.is_embedded (L.any_outgoing_halfedge l_v) = true
  · right
    rw [if_pos hemb]
  · left
    rw [if_neg hemb, hwalk]

theorem check_vertices_fallback (L : LayoutMesh) (T : TargetQueries) (fuel : Nat) (v a b : Nat)
    (hno : ∀ h ∈ L.outgoing_halfedges v, T.is_embedded h = false)
    (ha : a ∈ L.vertex_edges v) (hb : b ∈ L.vertex_edges v) (hne : a ≠ b) (vs : List Nat) :
    ∀ s s1 : Sentinel, (∀ x ∈ vs, x < L.num_vertices) → v ∈ vs →
      cyclic_walk L T s fuel (L.any_outgoing_halfedge v)
        (s.l_port (L.any_outgoing_halfedge v)) fuel (L.any_outgoing_halfedge v)
        (s.l_port (L.any_outgoing_halfedge v)) = Res.done true →
      check_vertices L T fuel vs s = Res.done s1 →
      a ∈ s1.global_conflicts ∧ b ∈ s1.global_conflicts ∧
      minmax a b ∈ s1.global_conflict_relation := by
  induction vs with
  | nil => intro s s1 _ hmem; simp at hmem
  | cons x xs ih =>
      intro s s1 hv hmem hwalk h
      unfold check_vertices at h
      cases hc : check_vertex L T fuel x s with
      | fatal => rw [hc] at h; simp at h
      | timeout => rw [hc] at h; simp at h
      | done s2 =>
          rw [hc] at h
          simp only at h
          obtain ⟨a1, _, _⟩ := check_vertex_ports L T fuel x (hv x (List.mem_cons_self _ _))
            s s2 hc
          by_cases hx : v = x
          · subst hx
            rcases check_vertex_fallback L T fuel v s hno hwalk with h1 | h1
            · rw [h1] at hc
              simp only [Res.done.injEq] at hc
              obtain ⟨_, _, g3⟩ := check_vertices_ports L T fuel xs s2 s1
                (fun y hy => hv y (List.mem_cons_of_mem _ hy)) h
              obtain ⟨r1, r2, r3⟩ := mark_all_pairs_records _ a b ha hb hne s
              rw [hc] at r1 r2 r3
              exact ⟨g3.conflicts r1, g3.conflicts r2, g3.relation r3⟩
            · rw [h1] at hc; cases hc
          · have hmem1 : v ∈ xs := by
              rcases List.mem_cons.1 hmem with h1 | h1
              · exact absurd h1 hx
              · exact h1
            refine ih s2 s1 (fun y hy => hv y (List.mem_cons_of_mem _ hy)) hmem1 ?_ h
            rw [a1, cyclic_walk_congr L T s s2 a1]
            exact hwalk

/-- C22: the coarse fallback. When `check_path_ordering` returns, then for every layout vertex
without embedded outgoing halfedge for which the cyclic-order walk reports a mismatch, every
pair of distinct edges of `l_v.edges()` is in `global_conflict_relation`, stored as (smaller,
larger), and both edges are in `global_conflicts`; the double loop over the edges of a vertex
with a single edge marks nothing. -/
theorem coarse_fallback_marks_all_pairs (L : LayoutMesh) (T : TargetQueries) (fuel : Nat)
    (s s1 : Sentinel) (h : check_path_ordering L T fuel s = Res.done s1)
    (v : Nat) (hv : v < L.num_vertices)
    (hno : ∀ h ∈ L.outgoing_halfedges v, T.is_embedded h = false)
    (hwalk : cyclic_walk L T s fuel (L.any_outgoing_halfedge v)
      (s.l_port (L.any_outgoing_halfedge v)) fuel (L.any_outgoing_halfedge v)
      (s.l_port (L.any_outgoing_halfedge v)) = Res.done true) :
    (∀ a ∈ L.vertex_edges v, ∀ b ∈ L.vertex_edges v, a ≠ b →
      (min a b, max a b) ∈ s1.global_conflict_relation ∧
      a ∈ s1.global_conflicts ∧ b ∈ s1.global_conflicts) ∧
    (∀ e t, L.vertex_edges v = [e] → mark_all_pairs (L.vertex_edges v) t = t) := by
  refine ⟨?_, fun e t he => by rw [he]; exact mark_all_pairs_single e t⟩
  intro a ha b hb hne
  obtain ⟨r1, r2, r3⟩ := check_vertices_fallback L T fuel v a b hno ha hb hne
    (List.range L.num_vertices) s s1 (fun x hx => List.mem_range.1 hx)
    (List.mem_range.2 hv) hwalk h
  rw [minmax_eq] at r3
  exact ⟨r3, r1, r2⟩

/-- C22 on the star with nothing embedded: around the centre the candidate ports of the layout
edges `0, 1, 2, 3` point to `10, 12, 11, 13`, out of order, so the walk reports a mismatch and
the edges `1` and `3`, whose ports are in order, are marked as conflicting as well. -/
theorem coarse_fallback_marks_all_pairs_witness :
    ∃ s s1, run_ops starLayout (starQueries []) starInsertsAll Sentinel.init = Res.done s ∧
      check_path_ordering starLayout (starQueries []) 8 s = Res.done s1 ∧
      (1, 3) ∈ s1.global_conflict_relation ∧ 1 ∈ s1.global_conflicts ∧
      3 ∈ s1.global_conflicts := by
  obtain ⟨s, hs, hw⟩ := Res.of_check
    (r := run_ops starLayout (starQueries []) starInsertsAll Sentinel.init)
    (p := fun s => decide (cyclic_walk starLayout (starQueries []) s 8 0 (s.l_port 0) 8 0
      (s.l_port 0) = Res.done true)) (by decide!)
  obtain ⟨s1, hs1, _⟩ := Res.of_check
    (r := run_ops starLayout (starQueries [])
      (starInsertsAll ++ [SentinelOp.checkPathOrdering 8]) Sentinel.init)
    (p := fun _ => true) (by decide!)
  have hchk : check_path_ordering starLayout (starQueries []) 8 s = Res.done s1 := by
    have happ : ∀ (ops : List SentinelOp) (t : Sentinel),
        run_ops starLayout (starQueries []) ops Sentinel.init = Res.done t →
        run_ops starLayout (starQueries []) (ops ++ [SentinelOp.checkPathOrdering 8])
          Sentinel.init = check_path_ordering starLayout (starQueries []) 8 t := by
      intro ops
      generalize Sentinel.init = t0
      induction ops generalizing t0 with
      | nil =>
          intro t ht
          simp only [run_ops, Res.done.injEq] at ht
          subst ht
          simp only [List.nil_append, run_ops, SentinelOp.run]
          cases check_path_ordering starLayout (starQueries []) 8 t0 <;> rfl
      | cons op ops ih =>
          intro t ht
          simp only [List.cons_append, run_ops] at ht ⊢
          cases hop : op.run starLayout (starQueries []) t0 with
          | done t1 => rw [hop] at ht; simp only at ht ⊢; exact ih t1 t ht
          | fatal => rw [hop] at ht; cases ht
          | timeout => rw [hop] at ht; cases ht
    rw [← happ _ s hs]
    exact hs1
  have hv : 0 < starLayout.num_vertices := by decide
  have hno : ∀ h ∈ starLayout.outgoing_halfedges 0, (starQueries []).is_embedded h = false := by
    decide
  have hwalk : cyclic_walk starLayout (starQueries []) s 8 (starLayout.any_outgoing_halfedge 0)
      (s.l_port (starLayout.any_outgoing_halfedge 0)) 8 (starLayout.any_outgoing_halfedge 0)
      (s.l_port (starLayout.any_outgoing_halfedge 0)) = Res.done true := of_decide_eq_true hw
  have h1 : 1 ∈ starLayout.vertex_edges 0 := by decide
  have h3 : 3 ∈ starLayout.vertex_edges 0 := by decide
  have hthm := (coarse_fallback_marks_all_pairs starLayout (starQueries []) 8 s s1 hchk 0
    hv hno hwalk).1 1 h1 3 h3 (by decide)
  exact ⟨s, s1, hs, hchk, hthm.1, hthm.2.1, hthm.2.2⟩

/-! ## Sentinel: the two sweeps inside a sector -/

/-- The counter-clockwise sweep along the ports `P i, P (i+1), ..` of a sector whose inner
ports are not blocked and whose boundary port `P N` is: it returns, having found the end port
or having stopped at the boundary. -/
theorem sweep_ccw_in_sector (T : TargetQueries) (P : Nat → VirtualPort) (N : Nat)
    (end_ : VirtualPort)
    (hccw : ∀ k, k < N → T.port_rotated_ccw (P k) = P (k + 1))
    (hin : ∀ k, 0 < k → k < N → port_on_blocked_edge T (P k) = Res.done false)
    (hB : port_on_blocked_edge T (P N) = Res.done true) :
    ∀ (d i fuel : Nat), i + (d + 1) = N → 0 < i → d + 1 ≤ fuel →
      (∃ k, sweep_ccw T fuel (P i) end_ = Res.done (true, P k)) ∨
      sweep_ccw T fuel (P i) end_ = Res.done (false, P N) := by
  intro d
  induction d with
  | zero =>
      intro i fuel hi _ hfuel
      unfold sweep_ccw
      by_cases he : P i = end_
      · left; exact ⟨i, by rw [if_pos he]⟩
      · right
        rw [if_neg he]
        obtain ⟨f, hf⟩ : ∃ f, fuel = f + 1 := ⟨fuel - 1, by omega⟩
        subst hf
        simp only
        have hN : i + 1 = N := by omega
        rw [hccw i (by omega), hN, hB]
  | succ d ih =>
      intro i fuel hi hpos hfuel
      unfold sweep_ccw
      by_cases he : P i = end_
      · left; exact ⟨i, by rw [if_pos he]⟩
      · rw [if_neg he]
        obtain ⟨f, hf⟩ : ∃ f, fuel = f + 1 := ⟨fuel - 1, by omega⟩
        subst hf
        simp only
        rw [hccw i (by omega), hin (i + 1) (by omega) (by omega)]
        simp only
        exact ih (i + 1) f (by omega) (by omega) (by omega)

/-- The clockwise sweep from the port `P k` back to the inner port `P j` of such a sector
meets no blocked edge and returns at `P j`. -/
theorem sweep_cw_in_sector (T : TargetQueries) (P : Nat → VirtualPort) (N j l : Nat)
    (hcw : ∀ k, k < N → T.port_rotated_cw (P (k + 1)) = P k)
    (hin : ∀ k, 0 < k → k < N → port_on_blocked_edge T (P k) = Res.done false)
    (hj : 0 < j) :
    ∀ (d k fuel : Nat) (s : Sentinel), k = j + d → k ≤ N → d ≤ fuel →
      ∃ s1, sweep_cw T l fuel (P k) (P j) s = Res.done (s1, P j) := by
  intro d
  induction d with
  | zero =>
      intro k fuel s hk _ _
      have hkj : k = j := by omega
      subst hkj
      unfold sweep_cw
      exact ⟨s, by rw [if_pos rfl]⟩
  | succ d ih =>
      intro k fuel s hk hkN hfuel
      unfold sweep_cw
      by_cases he : P k = P j
      · exact ⟨s, by rw [if_pos he, he]⟩
      · rw [if_neg he]
        obtain ⟨f, hf⟩ : ∃ f, fuel = f + 1 := ⟨fuel - 1, by omega⟩
        subst hf
        simp only
        have hk1 : k = (k - 1) + 1 := by omega
        have hrot : T.port_rotated_cw (P k) = P (k - 1) := by
          rw [hk1]
          simpa using hcw (k - 1) (by omega)
        rw [hrot, hin (k - 1) (by omega) (by omega)]
        simp only
        exact ih (k - 1) f _ (by omega) (by omega) (by omega)

/-- C24: the sector-boundary assertion is unreachable for well-formed input. The ports
`P 0, P 1, .., P N` leave one target vertex and follow each other counter-clockwise; `P N`
points along the blocked edge that bounds the sector (as `P 0` does at its other end), the
ports strictly between them point along no blocked edge, and the clockwise rotation undoes the
counter-clockwise one. For two candidate ports `P i` and `P j` strictly inside the sector and
fuel for `N` rotations, the counter-clockwise sweep returns, and when it fails the clockwise
sweep that follows, from the port where the failed sweep stopped, returns at `P j`: it meets
no blocked edge, so the assertion in `mark_and_sweep_cw_in_sector` does not fail, and it does
not run out of fuel. -/
theorem sector_boundary_assertion_unreachable (T : TargetQueries) (P : Nat → VirtualPort)
    (N i j l fuel : Nat) (s : Sentinel)
    (hccw : ∀ k, k < N → T.port_rotated_ccw (P k) = P (k + 1))
    (hcw : ∀ k, k < N → T.port_rotated_cw (P (k + 1)) = P k)
    (hfrom : ∀ k, k ≤ N → (P k).from_v = (P 0).from_v)
    (hin : ∀ k, 0 < k → k < N → port_on_blocked_edge T (P k) = Res.done false)
    (hB : port_on_blocked_edge T (P N) = Res.done true)
    (hi : 0 < i ∧ i < N) (hj : 0 < j ∧ j < N) (hfuel : N ≤ fuel) :
    ∃ b cur1, reachable_by_sweep_ccw_in_sector T fuel (P i) (P j) = Res.done (b, cur1) ∧
      (b = false →
        ∃ s1, mark_and_sweep_cw_in_sector T fuel cur1 (P j) l s = Res.done (s1, P j)) := by
  have hfij : (P i).from_v = (P j).from_v := by
    rw [hfrom i (by omega), hfrom j (by omega)]
  unfold reachable_by_sweep_ccw_in_sector
  rw [if_neg (by simpa using hfij)]
  by_cases heq : P i = P j
  · rw [if_pos heq]
    refine ⟨false, P i, rfl, fun _ => ?_⟩
    unfold mark_and_sweep_cw_in_sector
    rw [if_neg (by simpa using hfij)]
    unfold sweep_cw
    rw [if_pos heq]
    exact ⟨_, by rw [heq]⟩
  · rw [if_neg heq]
    rcases sweep_ccw_in_sector T P N (P j) hccw hin hB (N - i - 1) i fuel (by omega) hi.1
        (by omega) with ⟨k, hk⟩ | hstop
    · exact ⟨true, P k, hk, fun h => by cases h⟩
    · refine ⟨false, P N, hstop, fun _ => ?_⟩
      unfold mark_and_sweep_cw_in_sector
      have hfN : (P N).from_v = (P j).from_v := by
        rw [hfrom N (le_refl _), hfrom j (by omega)]
      rw [if_neg (by simpa using hfN)]
      exact sweep_cw_in_sector T P N j l hcw hin hj.1 (N - j) N fuel _ (by omega) (le_refl _)
        (by omega)

/-- C24 on the star with layout edge `0` embedded: the ports around the centre, counted
counter-clockwise from the blocked direction to `10` and back to it, form one sector; the
candidate ports to `12` and to `11` lie inside it, against the order. -/
theorem sector_boundary_assertion_unreachable_witness :
    ∃ b cur1, reachable_by_sweep_ccw_in_sector (starQueries [0]) 8
        ⟨0, VirtualVertex.vertex 12⟩ ⟨0, VirtualVertex.vertex 11⟩ = Res.done (b, cur1) ∧
      (b = false →
        ∃ s1, mark_and_sweep_cw_in_sector (starQueries [0]) 8 cur1
          ⟨0, VirtualVertex.vertex 11⟩ 1 Sentinel.init
            = Res.done (s1, ⟨0, VirtualVertex.vertex 11⟩)) :=
  sector_boundary_assertion_unreachable (starQueries [0])
    (fun k => ⟨0, VirtualVertex.vertex (if k = 5 then 10 else 10 + k)⟩) 5 2 1 1 8 Sentinel.init
    (by decide) (by decide) (by decide)
    (by intro k h1 h2; interval_cases k <;> decide) (by decide) (by decide) (by decide)
    (by decide)

/-- C21 (the code departs from the claim): on the star with layout edge `0` embedded, the
sector of the centre holds the halfedges of the layout edges `1`, `2`, `3` with the candidate
ports to `12`, `11`, `13`. For the current edge `1` the port of the next edge, to `11`, is
not reachable counter-clockwise; the failed sweep has moved the current port on to the
blocked direction to `10`, and the clockwise sweep starts there and not at the port to `12`.
The arc from the current port to the next port holds the ports to `12` and to `11` only, where
label `3` is not registered, yet `check_path_ordering` marks the edges `1` and `3` as
conflicting. -/
theorem cw_sweep_starts_at_sector_boundary :
    ∃ s s1, run_ops starLayout (starQueries [0]) starInserts Sentinel.init = Res.done s ∧
      s.l_port 2 = some ⟨0, VirtualVertex.vertex 12⟩ ∧
      s.l_port 4 = some ⟨0, VirtualVertex.vertex 11⟩ ∧
      reachable_by_sweep_ccw_in_sector (starQueries [0]) 8
        ⟨0, VirtualVertex.vertex 12⟩ ⟨0, VirtualVertex.vertex 11⟩ =
          Res.done (false, ⟨0, VirtualVertex.vertex 10⟩) ∧
      (starQueries [0]).port_rotated_cw ⟨0, VirtualVertex.vertex 12⟩ =
        ⟨0, VirtualVertex.vertex 11⟩ ∧
      3 ∉ s.t_port (VirtualVertex.vertex 12) ∧ 3 ∉ s.t_port (VirtualVertex.vertex 11) ∧
      s.t_port (VirtualVertex.vertex 13) = {3} ∧
      s.global_conflict_relation = ∅ ∧
      check_path_ordering starLayout (starQueries [0]) 8 s = Res.done s1 ∧
      (1, 3) ∈ s1.global_conflict_relation ∧ 3 ∈ s1.global_conflicts := by
  obtain ⟨s, hs, hp⟩ := Res.of_check
    (r := run_ops starLayout (starQueries [0]) starInserts Sentinel.init)
    (p := fun s =>
      decide (s.l_port 2 = some ⟨0, VirtualVertex.vertex 12⟩) &&
      decide (s.l_port 4 = some ⟨0, VirtualVertex.vertex 11⟩) &&
      decide (3 ∉ s.t_port (VirtualVertex.vertex 12)) &&
      decide (3 ∉ s.t_port (VirtualVertex.vertex 11)) &&
      decide (s.t_port (VirtualVertex.vertex 13) = {3}) &&
      decide (s.global_conflict_relation = ∅) &&
      (check_path_ordering starLayout (starQueries [0]) 8 s).check (fun s1 =>
        decide ((1, 3) ∈ s1.global_conflict_relation) && decide (3 ∈ s1.global_conflicts)))
    (by decide!)
  simp only [Bool.and_eq_true, decide_eq_true_eq] at hp
  obtain ⟨⟨⟨⟨⟨⟨p1, p2⟩, p3⟩, p4⟩, p5⟩, p6⟩, p7⟩ := hp
  obtain ⟨s1, hs1, q⟩ := Res.of_check p7
  simp only [Bool.and_eq_true, decide_eq_true_eq] at q
  exact ⟨s, s1, hs, p1, p2, by decide, by decide, p3, p4, p5, p6, hs1, q.1, q.2⟩

/-! ## Sentinel: which pairs the ordering sweep can mark -/

/-- The loop over a sector reads `rotated_ccw` and `edge_of` of the layout only. -/
theorem sector_loop_congr (L L1 : LayoutMesh) (T : TargetQueries) (fuel : Nat)
    (h1 : L1.rotated_ccw = L.rotated_ccw) (h2 : L1.edge_of = L.edge_of) :
    ∀ (n l_current : Nat) (port : Option VirtualPort) (s : Sentinel),
      sector_loop L1 T fuel n l_current port s = sector_loop L T fuel n l_current port s := by
  intro n
  induction n with
  | zero => intro _ _ _; rfl
  | succ n ih =>
      intro l_current port s
      simp only [sector_loop, h1, h2, ih]

theorem sectors_of_vertex_congr (L L1 : LayoutMesh) (T : TargetQueries) (fuel : Nat)
    (h1 : L1.rotated_ccw = L.rotated_ccw) (h2 : L1.edge_of = L.edge_of) (hes : List Nat) :
    ∀ (flag : Bool) (s : Sentinel),
      sectors_of_vertex L1 T fuel hes flag s = sectors_of_vertex L T fuel hes flag s := by
  induction hes with
  | nil => intro _ _; rfl
  | cons he rest ih =>
      intro flag s
      simp only [sectors_of_vertex, h1, sector_loop_congr L L1 T fuel h1 h2, ih]

theorem cyclic_walk_layout_congr (L L1 : LayoutMesh) (T : TargetQueries) (s : Sentinel)
    (fuel l_he_start : Nat) (t_port_start : Option VirtualPort)
    (h1 : L1.rotated_ccw = L.rotated_ccw) :
    ∀ (n l_he : Nat) (t_port : Option VirtualPort),
      cyclic_walk L1 T s fuel l_he_start t_port_start n l_he t_port =
        cyclic_walk L T s fuel l_he_start t_port_start n l_he t_port := by
  intro n
  induction n with
  | zero => intro _ _; rfl
  | succ n ih =>
      intro l_he t_port
      simp only [cyclic_walk, h1, ih]

/-- Processing the layout vertex `v` reads the layout through `rotated_ccw`, `edge_of`, and
the halfedges and edges listed for `v`. -/
theorem check_vertex_congr (L L1 : LayoutMesh) (T : TargetQueries) (fuel v : Nat)
    (s : Sentinel) (h1 : L1.rotated_ccw = L.rotated_ccw) (h2 : L1.edge_of = L.edge_of)
    (h3 : L1.outgoing_halfedges v = L.outgoing_halfedges v)
    (h4 : L1.any_outgoing_halfedge v = L.any_outgoing_halfedge v)
    (h5 : L1.vertex_edges v = L.vertex_edges v) :
    check_vertex L1 T fuel v s = check_vertex L T fuel v s := by
  simp only [check_vertex, no_sector_check, h3, h4, h5,
    sectors_of_vertex_congr L L1 T fuel h1 h2, cyclic_walk_layout_congr L L1 T _ fuel _ _ h1]

/-- C30 (amended): the ordering sweep stays local on one side. On a layout in which the
halfedges listed for the layout vertex `v` leave `v`, `rotated_ccw` keeps the vertex a
halfedge leaves, and the edge of a halfedge that leaves `v` is among the edges listed for `v`:
every pair that `check_path_ordering` adds to `global_conflict_relation` while it processes
`v` is the pair (smaller, larger) of an edge incident to `v` and a label that is either an
edge incident to `v` as well or is registered in `t_port` at some target element, whichever
target vertex its path starts or ends at; and every label added to `global_conflicts` is of
one of these two kinds. -/
theorem ordering_sweep_locality (L : LayoutMesh) (T : TargetQueries) (fuel v : Nat)
    (s s1 : Sentinel) (hv : v < L.num_vertices)
    (hout : ∀ h ∈ L.outgoing_halfedges v, L.vertex_from h = v)
    (hrot : ∀ h, L.vertex_from h = v → L.vertex_from (L.rotated_ccw h) = v)
    (hedge : ∀ h, L.vertex_from h = v → L.edge_of h ∈ L.vertex_edges v)
    (h : check_vertex L T fuel v s = Res.done s1) :
    (∀ p ∈ s1.global_conflict_relation, p ∈ s.global_conflict_relation ∨
      ∃ a b, p = minmax a b ∧ a ∈ L.vertex_edges v ∧
        (b ∈ L.vertex_edges v ∨ ∃ vv, b ∈ s.t_port vv)) ∧
    (∀ x ∈ s1.global_conflicts, x ∈ s.global_conflicts ∨ x ∈ L.vertex_edges v ∨
      ∃ vv, x ∈ s.t_port vv) := by
  let L1 : LayoutMesh :=
    { L with
      outgoing_halfedges := fun x => if x = v then L.outgoing_halfedges v else []
      vertex_edges := fun x => if x = v then L.vertex_edges v else [] }
  have hcongr : check_vertex L1 T fuel v s = check_vertex L T fuel v s :=
    check_vertex_congr L L1 T fuel v s rfl rfl (by simp [L1]) rfl (by simp [L1])
  have hO : OrderingLabels L1 T (fun h => L.vertex_from h = v)
      (fun e => e ∈ L.vertex_edges v) := by
    refine ⟨?_, hrot, fun h hh _ => hedge h hh, ?_⟩
    · intro x _ h hh
      by_cases hx : x = v
      · simp only [L1, hx, if_true] at hh
        exact hout h hh
      · simp [L1, hx] at hh
    · intro x _ _ e he
      by_cases hx : x = v
      · simpa [L1, hx] using he
      · simp [L1, hx] at he
  have hres := check_vertex_preserves
    (fun t => t.t_port = s.t_port ∧
      (∀ p ∈ t.global_conflict_relation, p ∈ s.global_conflict_relation ∨
        ∃ a b, p = minmax a b ∧ a ∈ L.vertex_edges v ∧
          (b ∈ L.vertex_edges v ∨ ∃ vv, b ∈ s.t_port vv)) ∧
      (∀ x ∈ t.global_conflicts, x ∈ s.global_conflicts ∨ x ∈ L.vertex_edges v ∨
        ∃ vv, x ∈ s.t_port vv))
    (fun e => e ∈ L.vertex_edges v)
    (by
      intro a b t ha hb ht
      obtain ⟨t1, t2, t3⟩ := ht
      have hb1 : b ∈ L.vertex_edges v ∨ ∃ vv, b ∈ s.t_port vv := by
        rcases hb with hb | ⟨vv, hb⟩
        · exact Or.inl hb
        · exact Or.inr ⟨vv, by rw [← t1]; exact hb⟩
      refine ⟨(mark_conflicting_labels a b t).2.2.2.2.trans t1, ?_, ?_⟩
      · intro p hp
        unfold mark_conflicting at hp
        by_cases hab : a = b
        · rw [if_pos hab] at hp; exact t2 p hp
        · rw [if_neg hab] at hp
          simp only [Finset.mem_insert] at hp
          rcases hp with hp | hp
          · exact Or.inr ⟨a, b, hp, ha, hb1⟩
          · exact t2 p hp
      · intro x hx
        unfold mark_conflicting at hx
        by_cases hab : a = b
        · rw [if_pos hab] at hx; exact t3 x hx
        · rw [if_neg hab] at hx
          simp only [Finset.mem_insert] at hx
          rcases hx with hx | hx | hx
          · rw [hx]
            rcases hb1 with h1 | h1
            · exact Or.inr (Or.inl h1)
            · exact Or.inr (Or.inr h1)
          · rw [hx]; exact Or.inr (Or.inl ha)
          · exact t3 x hx)
    L1 T (fun h => L.vertex_from h = v) hO fuel v hv s s1
    ⟨rfl, fun p hp => Or.inl hp, fun x hx => Or.inl hx⟩ (hcongr.trans h)
  exact ⟨hres.2.1, hres.2.2⟩

/-- C30 (amended) on the star with layout edge `0` embedded: the pairs marked while the centre
is processed have the incident edge `1` as one member. -/
theorem ordering_sweep_locality_witness :
    ∃ s s1, run_ops starLayout (starQueries [0]) starInserts Sentinel.init = Res.done s ∧
      check_vertex starLayout (starQueries [0]) 8 0 s = Res.done s1 ∧
      ∀ p ∈ s1.global_conflict_relation, p ∈ s.global_conflict_relation ∨
        ∃ a b, p = minmax a b ∧ a ∈ starLayout.vertex_edges 0 ∧
          (b ∈ starLayout.vertex_edges 0 ∨ ∃ vv, b ∈ s.t_port vv) := by
  obtain ⟨s, hs, hp⟩ := Res.of_check
    (r := run_ops starLayout (starQueries [0]) starInserts Sentinel.init)
    (p := fun s => (check_vertex starLayout (starQueries [0]) 8 0 s).check (fun _ => true))
    (by decide!)
  obtain ⟨s1, hs1, _⟩ := Res.of_check hp
  have hcentre : ∀ h, starLayout.vertex_from h = 0 → h = 0 ∨ h = 2 ∨ h = 4 ∨ h = 6 := by
    intro h hh
    simp only [starLayout] at hh
    split_ifs at hh
    all_goals omega
  exact ⟨s, s1, hs, hs1,
    (ordering_sweep_locality starLayout (starQueries [0]) 8 0 s s1 (by decide) (by decide)
      (fun h hh => by rcases hcentre h hh with h0 | h0 | h0 | h0 <;> subst h0 <;> decide)
      (fun h hh => by rcases hcentre h hh with h0 | h0 | h0 | h0 <;> subst h0 <;> decide)
      hs1).1⟩

/-- C30 as stated fails on the star with layout edge `0` embedded: while the centre (layout
vertex `0`) is processed, the sweep for the current edge `1` passes the port to the target
vertex `12`, where `t_port` also holds the label of layout edge `4`, whose path runs from `30`
to `12`; the pair of the edges `1` and `4` is marked although edge `4`, which joins the
layout vertices `5` and `2`, is not incident to layout vertex `0`. -/
theorem ordering_sweep_counterexample :
    ∃ s s1, run_ops starLayout (starQueries [0]) starInserts Sentinel.init = Res.done s ∧
      s.global_conflict_relation = ∅ ∧
      s.t_port (VirtualVertex.vertex 12) = {4, 1} ∧
      check_vertex starLayout (starQueries [0]) 8 0 s = Res.done s1 ∧
      (1, 4) ∈ s1.global_conflict_relation ∧
      4 ∉ starLayout.vertex_edges 0 ∧
      starLayout.vertex_from (starLayout.halfedgeA 4) = 5 ∧
      starLayout.vertex_to (starLayout.halfedgeA 4) = 2 := by
  obtain ⟨s, hs, hp⟩ := Res.of_check
    (r := run_ops starLayout (starQueries [0]) starInserts Sentinel.init)
    (p := fun s =>
      decide (s.global_conflict_relation = ∅) &&
      decide (s.t_port (VirtualVertex.vertex 12) = {4, 1}) &&
      (check_vertex starLayout (starQueries [0]) 8 0 s).check (fun s1 =>
        decide ((1, 4) ∈ s1.global_conflict_relation)))
    (by decide!)
  simp only [Bool.and_eq_true, decide_eq_true_eq] at hp
  obtain ⟨⟨p1, p2⟩, p3⟩ := hp
  obtain ⟨s1, hs1, q⟩ := Res.of_check p3
  exact ⟨s, s1, hs, p1, p2, hs1, of_decide_eq_true q, by decide, by decide, by decide⟩

/-! ## Sentinel: the walk around a vertex without sectors -/

section WalkTheorems

variable (T : TargetQueries) (p0 : VirtualPort) (m : Nat)

/-- The ports of one revolution are pairwise different. -/
theorem revolution_injective
    (hrev : T.port_rotated_ccw^[m] p0 = p0)
    (hrev1 : ∀ j, 0 < j → j < m → T.port_rotated_ccw^[j] p0 ≠ p0) :
    ∀ a b, a < m → b < m → T.port_rotated_ccw^[a] p0 = T.port_rotated_ccw^[b] p0 → a = b := by
  have hlt : ∀ a b, a < b → b < m →
      T.port_rotated_ccw^[a] p0 ≠ T.port_rotated_ccw^[b] p0 := by
    intro a b hab hb heq
    have h1 : T.port_rotated_ccw^[m - b] (T.port_rotated_ccw^[a] p0) =
        T.port_rotated_ccw^[m - b] (T.port_rotated_ccw^[b] p0) := by rw [heq]
    rw [← Function.iterate_add_apply, ← Function.iterate_add_apply] at h1
    have h2 : m - b + b = m := by omega
    rw [h2, hrev] at h1
    exact hrev1 (m - b + a) (by omega) (by omega) h1
  intro a b ha hb heq
  rcases Nat.lt_trichotomy a b with h | h | h
  · exact absurd heq (hlt a b h hb)
  · exact h
  · exact absurd heq.symm (hlt b a h ha)

/-- The inner loop of the walk, started at the `a`-th port of the revolution: it stops at the
first later port equal to the target, or reports a conflict when the revolution is complete. -/
theorem cyclic_inner_spec
    (hrev : T.port_rotated_ccw^[m] p0 = p0)
    (hrev1 : ∀ j, 0 < j → j < m → T.port_rotated_ccw^[j] p0 ≠ p0) (t : VirtualPort) :
    ∀ (d a fuel : Nat), a + (d + 1) = m → d + 1 ≤ fuel →
      (∃ a1, a ≤ a1 ∧ a1 < m ∧ T.port_rotated_ccw^[a1] p0 = t ∧
        cyclic_inner T fuel (some (T.port_rotated_ccw^[a] p0)) (some t) (some p0) =
          Res.done (some (T.port_rotated_ccw^[a1] p0), false)) ∨
      ((∀ a1, a ≤ a1 → a1 < m → T.port_rotated_ccw^[a1] p0 ≠ t) ∧
        ∃ x, cyclic_inner T fuel (some (T.port_rotated_ccw^[a] p0)) (some t) (some p0) =
          Res.done (x, true)) := by
  intro d
  induction d with
  | zero =>
      intro a fuel ha hfuel
      unfold cyclic_inner
      by_cases he : T.port_rotated_ccw^[a] p0 = t
      · left
        exact ⟨a, le_refl _, by omega, he, by rw [if_pos (by rw [he])]⟩
      · right
        refine ⟨?_, ?_⟩
        · intro a1 h1 h2
          have : a1 = a := by omega
          rw [this]; exact he
        · rw [if_neg (by simpa using he)]
          obtain ⟨f, hf⟩ : ∃ f, fuel = f + 1 := ⟨fuel - 1, by omega⟩
          subst hf
          simp only
          have hnext : T.port_rotated_ccw (T.port_rotated_ccw^[a] p0) = p0 := by
            rw [← Function.iterate_succ_apply' T.port_rotated_ccw a p0]
            have hsucc : a.succ = m := by omega
            rw [hsucc, hrev]
          rw [hnext]
          exact ⟨_, by rw [if_pos rfl]⟩
  | succ d ih =>
      intro a fuel ha hfuel
      unfold cyclic_inner
      by_cases he : T.port_rotated_ccw^[a] p0 = t
      · left
        exact ⟨a, le_refl _, by omega, he, by rw [if_pos (by rw [he])]⟩
      · rw [if_neg (by simpa using he)]
        obtain ⟨f, hf⟩ : ∃ f, fuel = f + 1 := ⟨fuel - 1, by omega⟩
        subst hf
        simp only
        have hnext : T.port_rotated_ccw (T.port_rotated_ccw^[a] p0) =
            T.port_rotated_ccw^[a + 1] p0 :=
          (Function.iterate_succ_apply' T.port_rotated_ccw a p0).symm
        have hne : T.port_rotated_ccw^[a + 1] p0 ≠ p0 := hrev1 (a + 1) (by omega) (by omega)
        rw [hnext, if_neg (by simpa using hne)]
        rcases ih (a + 1) f (by omega) (by omega) with ⟨a1, h1, h2, h3, h4⟩ | ⟨h1, h2⟩
        · left
          exact ⟨a1, by omega, h2, h3, h4⟩
        · right
          refine ⟨?_, h2⟩
          intro a1 h3 h4
          by_cases h5 : a1 = a
          · rw [h5]; exact he
          · exact h1 a1 (by omega) h4

/-- The walk around a vertex, from the `k`-th halfedge on and with the port at the `a`-th place
of the revolution: it returns, and it reports no conflict exactly when the ports of the
remaining halfedges lie at places of the revolution that do not decrease. -/
theorem cyclic_walk_spec (L : LayoutMesh) (s : Sentinel) (start n : Nat)
    (p : Nat → VirtualPort) (fuel : Nat)
    (hcycle : L.rotated_ccw^[n] start = start)
    (hfirst : ∀ k, 0 < k → k < n → L.rotated_ccw^[k] start ≠ start)
    (hunemb : ∀ k, k < n → T.is_embedded (L.rotated_ccw^[k] start) = false)
    (hport : ∀ k, k < n → s.l_port (L.rotated_ccw^[k] start) = some (p k))
    (hrev : T.port_rotated_ccw^[m] p0 = p0)
    (hrev1 : ∀ j, 0 < j → j < m → T.port_rotated_ccw^[j] p0 ≠ p0)
    (hfuel : m ≤ fuel) :
    ∀ (r k a cnt : Nat), k + (r + 1) = n → r + 1 ≤ cnt → a < m →
      ∃ b, cyclic_walk L T s fuel start (some p0) cnt (L.rotated_ccw^[k] start)
          (some (T.port_rotated_ccw^[a] p0)) = Res.done b ∧
        (b = false ↔ ∃ pos : Nat → Nat, a ≤ pos k ∧
          (∀ i, k ≤ i → i + 1 < n → pos i ≤ pos (i + 1)) ∧
          (∀ i, k ≤ i → i < n → pos i < m ∧ p i = T.port_rotated_ccw^[pos i] p0)) := by
  have hinj := revolution_injective T p0 m hrev hrev1
  intro r
  induction r with
  | zero =>
      intro k a cnt hk hcnt ha
      obtain ⟨c, hc⟩ : ∃ c, cnt = c + 1 := ⟨cnt - 1, by omega⟩
      subst hc
      unfold cyclic_walk
      rw [hunemb k (by omega), hport k (by omega)]
      simp only [Bool.false_eq_true, if_false]
      have hnext : L.rotated_ccw (L.rotated_ccw^[k] start) = start := by
        rw [← Function.iterate_succ_apply' L.rotated_ccw k start]
        have hsucc : k.succ = n := by omega
        rw [hsucc, hcycle]
      rcases cyclic_inner_spec T p0 m hrev hrev1 (p k) (m - a - 1) a fuel (by omega)
          (by omega) with ⟨a1, h1, h2, h3, h4⟩ | ⟨h1, x, h2⟩
      · rw [h4]
        simp only
        rw [if_neg (by simp [hnext])]
        refine ⟨false, rfl, ?_⟩
        simp only [true_iff]
        refine ⟨fun _ => a1, h1, fun i _ _ => le_refl _, fun i hi1 hi2 => ⟨h2, ?_⟩⟩
        have : i = k := by omega
        rw [this, h3]
      · rw [h2]
        simp only
        rw [if_neg (by simp)]
        refine ⟨true, rfl, ?_⟩
        constructor
        · intro h; cases h
        · rintro ⟨pos, q1, _, q3⟩
          exact absurd (q3 k (le_refl _) (by omega)).2.symm
            (h1 (pos k) q1 (q3 k (le_refl _) (by omega)).1)
  | succ r ih =>
      intro k a cnt hk hcnt ha
      obtain ⟨c, hc⟩ : ∃ c, cnt = c + 1 := ⟨cnt - 1, by omega⟩
      subst hc
      unfold cyclic_walk
      rw [hunemb k (by omega), hport k (by omega)]
      simp only [Bool.false_eq_true, if_false]
      have hnext : L.rotated_ccw (L.rotated_ccw^[k] start) = L.rotated_ccw^[k + 1] start :=
        (Function.iterate_succ_apply' L.rotated_ccw k start).symm
      have hne : L.rotated_ccw^[k + 1] start ≠ start := hfirst (k + 1) (by omega) (by omega)
      rcases cyclic_inner_spec T p0 m hrev hrev1 (p k) (m - a - 1) a fuel (by omega)
          (by omega) with ⟨a1, h1, h2, h3, h4⟩ | ⟨h1, x, h2⟩
      · rw [h4]
        simp only
        rw [hnext, if_pos ⟨hne, trivial⟩]
        obtain ⟨b, hb, hiff⟩ := ih (k + 1) a1 c (by omega) (by omega) h2
        refine ⟨b, hb, ?_⟩
        rw [hiff]
        constructor
        · rintro ⟨pos, q1, q2, q3⟩
          refine ⟨Function.update pos k a1, ?_, ?_, ?_⟩
          · simp [h1]
          · intro i hi1 hi2
            by_cases hik : i = k
            · subst hik
              simp only [Function.update_same]
              rw [Function.update_noteq (by omega)]
              exact q1
            · rw [Function.update_noteq hik, Function.update_noteq (by omega)]
              exact q2 i (by omega) hi2
          · intro i hi1 hi2
            by_cases hik : i = k
            · subst hik
              simp only [Function.update_same]
              exact ⟨h2, h3.symm⟩
            · rw [Function.update_noteq hik]
              exact q3 i (by omega) hi2
        · rintro ⟨pos, q1, q2, q3⟩
          refine ⟨pos, ?_, fun i hi1 hi2 => q2 i (by omega) hi2,
            fun i hi1 hi2 => q3 i (by omega) hi2⟩
          obtain ⟨g1, g2⟩ := q3 k (le_refl _) (by omega)
          have hpk : pos k = a1 := hinj _ _ g1 h2 (by rw [← g2, h3])
          rw [← hpk]
          exact q2 k (le_refl _) (by omega)
      · rw [h2]
        simp only
        rw [if_neg (by simp)]
        refine ⟨true, rfl, ?_⟩
        constructor
        · intro h; cases h
        · rintro ⟨pos, q1, _, q3⟩
          exact absurd (q3 k (le_refl _) (by omega)).2.symm
            (h1 (pos k) q1 (q3 k (le_refl _) (by omega)).1)

end WalkTheorems

/-- C23: the fallback order test. Around a layout vertex without embedded outgoing halfedge
let the outgoing halfedges, in the counter-clockwise order of the layout from the starting
halfedge, be `n` halfedges with the candidate ports `p 0, .., p (n-1)`, and let the
counter-clockwise rotation of ports return to the first port `p 0` after `m` steps and not
before. With fuel for `n` and for `m` rounds the do-while walk returns, and it reports no
cyclic conflict exactly when the ports lie at places `pos 0 = 0 <= pos 1 <= .. <= pos (n-1)`
of that one revolution, all before its return to the first port. -/
theorem fallback_order_test (L : LayoutMesh) (T : TargetQueries) (s : Sentinel)
    (start n m fuel : Nat) (p : Nat → VirtualPort) (hn : 0 < n) (hm : 0 < m)
    (hcycle : L.rotated_ccw^[n] start = start)
    (hfirst : ∀ k, 0 < k → k < n → L.rotated_ccw^[k] start ≠ start)
    (hunemb : ∀ k, k < n → T.is_embedded (L.rotated_ccw^[k] start) = false)
    (hport : ∀ k, k < n → s.l_port (L.rotated_ccw^[k] start) = some (p k))
    (hrev : T.port_rotated_ccw^[m] (p 0) = p 0)
    (hrev1 : ∀ j, 0 < j → j < m → T.port_rotated_ccw^[j] (p 0) ≠ p 0)
    (hfuel : n ≤ fuel ∧ m ≤ fuel) :
    ∃ b, cyclic_walk L T s fuel start (s.l_port start) fuel start (s.l_port start)
        = Res.done b ∧
      (b = false ↔ ∃ pos : Nat → Nat, pos 0 = 0 ∧
        (∀ k, k + 1 < n → pos k ≤ pos (k + 1)) ∧
        (∀ k, k < n → pos k < m ∧ p k = T.port_rotated_ccw^[pos k] (p 0))) := by
  have hstart : s.l_port start = some (p 0) := hport 0 hn
  obtain ⟨b, hb, hiff⟩ := cyclic_walk_spec T (p 0) m L s start n p fuel hcycle hfirst hunemb
    hport hrev hrev1 hfuel.2 (n - 1) 0 0 fuel (by omega) (by omega) hm
  rw [hstart]
  refine ⟨b, hb, ?_⟩
  rw [hiff]
  constructor
  · rintro ⟨pos, _, q2, q3⟩
    refine ⟨pos, ?_, fun k hk => q2 k (Nat.zero_le _) hk, fun k hk => q3 k (Nat.zero_le _) hk⟩
    obtain ⟨g1, g2⟩ := q3 0 (le_refl _) hn
    exact revolution_injective T (p 0) m hrev hrev1 _ _ g1 hm (by rw [← g2]; rfl)
  · rintro ⟨pos, q1, q2, q3⟩
    exact ⟨pos, by omega, fun k _ hk => q2 k hk, fun k _ hk => q3 k hk⟩

/-- C23 on the star with nothing embedded: the four halfedges around the centre have the
candidate ports to `10`, `12`, `11`, `13`, and a revolution around the target vertex `0` has
five ports; the walk returns, and its answer is the order test. -/
theorem fallback_order_test_witness :
    ∃ s b, run_ops starLayout (starQueries []) starInsertsAll Sentinel.init = Res.done s ∧
      cyclic_walk starLayout (starQueries []) s 8 0 (s.l_port 0) 8 0 (s.l_port 0)
        = Res.done b ∧
      (b = false ↔ ∃ pos : Nat → Nat, pos 0 = 0 ∧
        (∀ k, k + 1 < 4 → pos k ≤ pos (k + 1)) ∧
        (∀ k, k < 4 → pos k < 5 ∧
          (if k = 0 then (⟨0, VirtualVertex.vertex 10⟩ : VirtualPort)
            else if k = 1 then ⟨0, VirtualVertex.vertex 12⟩
            else if k = 2 then ⟨0, VirtualVertex.vertex 11⟩
            else ⟨0, VirtualVertex.vertex 13⟩) =
            (starQueries []).port_rotated_ccw^[pos k] ⟨0, VirtualVertex.vertex 10⟩)) := by
  obtain ⟨s, hs, hp⟩ := Res.of_check
    (r := run_ops starLayout (starQueries []) starInsertsAll Sentinel.init)
    (p := fun s =>
      decide (s.l_port 0 = some ⟨0, VirtualVertex.vertex 10⟩) &&
      decide (s.l_port 2 = some ⟨0, VirtualVertex.vertex 12⟩) &&
      decide (s.l_port 4 = some ⟨0, VirtualVertex.vertex 11⟩) &&
      decide (s.l_port 6 = some ⟨0, VirtualVertex.vertex 13⟩))
    (by decide!)
  simp only [Bool.and_eq_true, decide_eq_true_eq] at hp
  obtain ⟨⟨⟨p0, p2⟩, p4⟩, p6⟩ := hp
  obtain ⟨b, hb, hiff⟩ := fallback_order_test starLayout (starQueries []) s 0 4 5 8
    (fun k => if k = 0 then (⟨0, VirtualVertex.vertex 10⟩ : VirtualPort)
      else if k = 1 then ⟨0, VirtualVertex.vertex 12⟩
      else if k = 2 then ⟨0, VirtualVertex.vertex 11⟩
      else ⟨0, VirtualVertex.vertex 13⟩)
    (by decide) (by decide) (by decide)
    (by intro k h1 h2; interval_cases k <;> decide)
    (by intro k h2; interval_cases k <;> decide)
    (by
      intro k h2
      interval_cases k
      · exact p0
      · exact p2
      · exact p4
      · exact p6)
    (by decide)
    (by intro j h1 h2; interval_cases j <;> decide)
    (by decide)
  exact ⟨s, b, hs, hb, hiff⟩

/-! ## EmbeddingState: the two records of the embedded edges -/

section AgreementTheorems

variable {Em Pos C : Type} [Add C] [Zero C] [Top C]

/-- A single-edge call of `extend` ends, returning or in an assertion, either with the
embedding and `embedded_l_edges` as they were, or after `embed_path` and the insertion of the
edge; it needs no fuel. -/
theorem extendCall_ends (ops : EmbeddingOps Em C) (c : ExtendCall) (s s1 : EmbeddingState Em C)
    (h : c.run ops s = Outcome.done s1 ∨ c.run ops s = Outcome.fatal s1) :
    (s1.em = s.em ∧ s1.embedded_l_edges = s.embedded_l_edges) ∨
    (∃ p, ops.embed_path s.em (ops.layout.halfedgeA c.l_e) p = some s1.em ∧
      s1.embedded_l_edges = insert c.l_e s.embedded_l_edges) := by
  cases c with
  | edge l_e =>
      simp only [ExtendCall.run, ExtendCall.l_e] at h ⊢
      unfold extend at h
      by_cases hemb : l_e ∈ s.embedded_l_edges
      · rw [if_pos hemb] at h
        rcases h with h | h
        · cases h
        · cases h; exact Or.inl ⟨rfl, rfl⟩
      rw [if_neg hemb] at h
      simp only at h
      by_cases hp : (ops.find_shortest_path s.em (ops.layout.halfedgeA l_e)).isEmpty = true
      · rw [if_pos hp] at h
        rcases h with h | h
        · cases h; exact Or.inl ⟨rfl, rfl⟩
        · cases h
      rw [if_neg hp] at h
      cases hembed : ops.embed_path s.em (ops.layout.halfedgeA l_e)
          (ops.find_shortest_path s.em (ops.layout.halfedgeA l_e)) with
      | none =>
          rw [hembed] at h
          rcases h with h | h
          · cases h
          · cases h; exact Or.inl ⟨rfl, rfl⟩
      | some em1 =>
          rw [hembed] at h
          rcases h with h | h
          · cases h; exact Or.inr ⟨_, hembed, rfl⟩
          · cases h
  | withPath l_e path =>
      simp only [ExtendCall.run, ExtendCall.l_e] at h ⊢
      unfold extend_path at h
      by_cases hemb : l_e ∈ s.embedded_l_edges
      · rw [if_pos hemb] at h
        rcases h with h | h
        · cases h
        · cases h; exact Or.inl ⟨rfl, rfl⟩
      rw [if_neg hemb] at h
      by_cases hlen : path.length < 2
      · rw [if_pos hlen] at h
        rcases h with h | h
        · cases h
        · cases h; exact Or.inl ⟨rfl, rfl⟩
      rw [if_neg hlen] at h
      simp only at h
      split at h
      · split at h
        · rcases h with h | h
          · cases h
          · cases h; exact Or.inl ⟨rfl, rfl⟩
        · split at h
          · rcases h with h | h
            · cases h
            · cases h; exact Or.inl ⟨rfl, rfl⟩
          · split at h
            · rcases h with h | h
              · cases h
              · cases h; exact Or.inl ⟨rfl, rfl⟩
            · rename_i em1 hembed
              rcases h with h | h
              · cases h; exact Or.inr ⟨_, hembed, rfl⟩
              · cases h
      · rcases h with h | h
        · cases h
        · cases h; exact Or.inl ⟨rfl, rfl⟩

/-- A single-edge call of `extend` for a layout edge keeps the two records of the embedded
edges equal, whether it returns or stops in an assertion. -/
theorem extendCall_agree (ops : EmbeddingOps Em C) (hW : TracksEmbedded ops) (c : ExtendCall)
    (s s1 : EmbeddingState Em C) (hl : c.l_e < ops.layout.num_edges) (hs : EmbeddedAgree ops s)
    (h : c.run ops s = Outcome.done s1 ∨ c.run ops s = Outcome.fatal s1) :
    EmbeddedAgree ops s1 := by
  rcases extendCall_ends ops c s s1 h with ⟨h1, h2⟩ | ⟨p, h1, h2⟩
  · refine ⟨fun x => ?_, fun e he => ?_⟩
    · rw [h1, h2]; exact hs.agree x
    · rw [h2] at he; exact hs.in_range e he
  · exact embeddedAgree_commit ops hW s s1 c.l_e p hl hs h1 h2

/-- A sequence of single-edge calls of `extend` for layout edges keeps the two records of the
embedded edges equal, up to and including a call that stops in an assertion. -/
theorem run_extends_agree (ops : EmbeddingOps Em C) (hW : TracksEmbedded ops)
    (calls : List ExtendCall) :
    ∀ s s1 : EmbeddingState Em C, (∀ c ∈ calls, c.l_e < ops.layout.num_edges) →
      EmbeddedAgree ops s →
      (run_extends ops calls s = Outcome.done s1 ∨ run_extends ops calls s = Outcome.fatal s1) →
      EmbeddedAgree ops s1 := by
  induction calls with
  | nil =>
      intro s s1 _ hs h
      simp only [run_extends, Outcome.done.injEq] at h
      rcases h with h | h
      · rw [← h]; exact hs
      · cases h
  | cons c calls ih =>
      intro s s1 hl hs h
      unfold run_extends at h
      cases hx : c.run ops s with
      | timeout => rw [hx] at h; simp at h
      | fatal s2 =>
          rw [hx] at h
          simp only [Outcome.fatal.injEq] at h
          rcases h with h | h
          · cases h
          · rw [← h]
            exact extendCall_agree ops hW c s s2 (hl c (List.mem_cons_self _ _)) hs (Or.inr hx)
      | done s2 =>
          rw [hx] at h
          simp only at h
          exact ih s2 s1 (fun x hx1 => hl x (List.mem_cons_of_mem _ hx1))
            (extendCall_agree ops hW c s s2 (hl c (List.mem_cons_self _ _)) hs (Or.inl hx)) h

/-- The loop of `count_connected_components` reads the embedding through the flags
`is_embedded` of the layout edges only. -/
theorem count_loop_congr (R R1 : EmbeddingReads Em Pos) (em : Em)
    (hA : R1.faceA = R.faceA) (hB : R1.faceB = R.faceB) (hF : R1.num_faces = R.num_faces)
    (es : List Nat) (hE : ∀ e ∈ es, R1.is_embedded em e = R.is_embedded em e) :
    ∀ acc, count_loop R1 em es acc = count_loop R em es acc := by
  induction es with
  | nil => intro acc; rfl
  | cons e es ih =>
      intro acc
      have hstep : count_step R1 em acc e = count_step R em acc e := by
        unfold count_step
        rw [hE e (List.mem_cons_self _ _), hA, hB, hF]
      unfold count_loop
      rw [hstep]
      cases count_step R em acc e with
      | done acc1 => exact ih (fun x hx => hE x (List.mem_cons_of_mem _ hx)) acc1
      | fatal => rfl
      | timeout => rfl

/-- C31: the state's own set of embedded edges agrees with the embedding. A state that starts
with no edge in `embedded_l_edges`, on an embedding that reports no layout halfedge as
embedded, is modified by single-edge calls of `extend` of either form for layout edges,
calls that find no path and a last call that stops in an assertion included (a call that
stops in an assertion leaves the embedding as it was). Where `embed_path` marks the halfedges
of the committed edge, and no other, as embedded, and `is_embedded` of a layout edge is that
of its `halfedgeA`: afterwards `embedded_l_edges` is the set of the layout edges that the
embedding reports as embedded, a layout halfedge is reported as embedded exactly when its edge
is in `embedded_l_edges`, and `hash()` and `count_connected_components()` return what they
return when they ask `embedded_l_edges` instead of the embedding. -/
theorem embedded_edges_agree (ops : EmbeddingOps Em C) (R : EmbeddingReads Em Pos)
    (hW : TracksEmbedded ops)
    (hR : ∀ em e, R.is_embedded em e = (ops.queries em).is_embedded (ops.layout.halfedgeA e))
    (calls : List ExtendCall) (s0 s1 : EmbeddingState Em C)
    (h0 : s0.embedded_l_edges = ∅)
    (hem0 : ∀ h, (ops.queries s0.em).is_embedded h = false)
    (hcalls : ∀ c ∈ calls, c.l_e < ops.layout.num_edges)
    (hrun : run_extends ops calls s0 = Outcome.done s1 ∨
      run_extends ops calls s0 = Outcome.fatal s1) :
    s1.embedded_l_edges =
      (Finset.range ops.layout.num_edges).filter (fun e => R.is_embedded s1.em e = true) ∧
    (∀ h, (ops.queries s1.em).is_embedded h = true ↔
      ops.layout.edge_of h ∈ s1.embedded_l_edges) ∧
    hash R s1 = hash (R.asking s1.embedded_l_edges) s1 ∧
    count_connected_components R s1 =
      count_connected_components (R.asking s1.embedded_l_edges) s1 := by
  have hs0 : EmbeddedAgree ops s0 := by
    refine ⟨fun h => ?_, fun e he => ?_⟩
    · rw [hem0 h, h0]; simp
    · rw [h0] at he; simp at he
  have hs1 := run_extends_agree ops hW calls s0 s1 hcalls hs0 hrun
  have hiff : ∀ e, R.is_embedded s1.em e = decide (e ∈ s1.embedded_l_edges) := by
    intro e
    have := hs1.agree (ops.layout.halfedgeA e)
    rw [hW.edge_of_halfedgeA, ← hR] at this
    by_cases he : e ∈ s1.embedded_l_edges
    · rw [this.2 he]; simp [he]
    · have hf : R.is_embedded s1.em e = false := by
        cases hb : R.is_embedded s1.em e with
        | false => rfl
        | true => exact absurd (this.1 hb) he
      rw [hf]; simp [he]
  refine ⟨?_, hs1.agree, ?_, ?_⟩
  · ext e
    rw [Finset.mem_filter, Finset.mem_range, hiff e, decide_eq_true_eq]
    exact ⟨fun he => ⟨hs1.in_range e he, he⟩, fun he => he.2⟩
  · unfold hash
    simp only [EmbeddingReads.asking, hiff]
  · unfold count_connected_components
    rw [count_loop_congr R (R.asking s1.embedded_l_edges) s1.em rfl rfl rfl _
      (fun e _ => (hiff e).symm)]
    rfl

end AgreementTheorems

/-- C31 on the small instance: edge `0` is committed, the call for edge `1` finds no path
and clears `valid`, and a further call for edge `0` stops in the first assertion of `extend`;
in the state it stops in the set `embedded_l_edges` holds edge `0`, the one layout edge the
embedding reports as embedded, and `hash()` is the same whichever record it asks. -/
theorem embedded_edges_agree_witness :
    ∃ s1, run_extends toyOps
        [ExtendCall.edge 0, ExtendCall.edge 1,
          ExtendCall.withPath 0 [VirtualVertex.vertex 1, VirtualVertex.vertex 0]]
        toyState = Outcome.fatal s1 ∧
      s1.valid = false ∧ s1.embedded_l_edges = {0} ∧
      s1.embedded_l_edges = (Finset.range toyOps.layout.num_edges).filter
        (fun e => toyReads.is_embedded s1.em e = true) ∧
      hash toyReads s1 = hash (toyReads.asking s1.embedded_l_edges) s1 := by
  have hrun : run_extends toyOps
      [ExtendCall.edge 0, ExtendCall.edge 1,
        ExtendCall.withPath 0 [VirtualVertex.vertex 1, VirtualVertex.vertex 0]]
      toyState = Outcome.fatal
        { toyState with
          em := [0], embedded_l_edges := {0}, embedded_cost := ⊤, valid := false } := rfl
  obtain ⟨h1, _, h3, _⟩ := embedded_edges_agree toyOps toyReads toyOps_tracks
    (fun em e => by
      simp only [toyReads, toyOps, toyQueries, toyLayout]
      rw [Nat.mul_div_cancel_left e (by decide)])
    _ toyState _ rfl (fun h => rfl) (by decide) (Or.inr hrun)
  exact ⟨_, hrun, rfl, rfl, h1, h3⟩

/-! ## `count_connected_components` counts connected components -/

section CountingTheorems

variable {Em Pos C : Type}

/-- Merging `x` and `y` in a union-find whose classes are those of a relation gives the
classes of the relation with the link from `x` to `y` added. -/
theorem merge_classes (u : UnionFind) (rel : Nat → Nat → Prop) (x y : Nat)
    (hinv : ∀ a b, u.rep a = u.rep b ↔ Relation.EqvGen rel a b) :
    ∀ a b, (u.merge x y).rep a = (u.merge x y).rep b ↔
      Relation.EqvGen (fun p q => rel p q ∨ (p = x ∧ q = y)) a b := by
  have hmono : ∀ p q, Relation.EqvGen rel p q →
      Relation.EqvGen (fun p q => rel p q ∨ (p = x ∧ q = y)) p q :=
    fun p q h => Relation.EqvGen.mono (fun _ _ hr => Or.inl hr) h
  have hxy : Relation.EqvGen (fun p q => rel p q ∨ (p = x ∧ q = y)) x y :=
    Relation.EqvGen.rel _ _ (Or.inr ⟨rfl, rfl⟩)
  have hcongr : ∀ p q, u.rep p = u.rep q → (u.merge x y).rep p = (u.merge x y).rep q := by
    intro p q h
    simp only [UnionFind.merge, h]
  intro a b
  constructor
  · intro h
    simp only [UnionFind.merge] at h
    by_cases ha : u.rep a = u.rep x
    · by_cases hb : u.rep b = u.rep x
      · exact hmono _ _ ((hinv a b).1 (ha.trans hb.symm))
      · rw [if_pos ha, if_neg hb] at h
        exact Relation.EqvGen.trans _ _ _ (hmono _ _ ((hinv a x).1 ha))
          (Relation.EqvGen.trans _ _ _ hxy (hmono _ _ ((hinv y b).1 h)))
    · by_cases hb : u.rep b = u.rep x
      · rw [if_neg ha, if_pos hb] at h
        exact Relation.EqvGen.trans _ _ _ (hmono _ _ ((hinv a y).1 h))
          (Relation.EqvGen.trans _ _ _ (Relation.EqvGen.symm _ _ hxy)
            (hmono _ _ ((hinv x b).1 hb.symm)))
      · rw [if_neg ha, if_neg hb] at h
        exact hmono _ _ ((hinv a b).1 h)
  · intro h
    induction h with
    | rel p q hpq =>
        rcases hpq with hr | ⟨hp, hq⟩
        · exact hcongr p q ((hinv p q).2 (Relation.EqvGen.rel _ _ hr))
        · subst hp; subst hq
          simp only [UnionFind.merge, if_true]
          split <;> rfl
    | refl p => rfl
    | symm p q _ ih => exact ih.symm
    | trans p q r _ _ ih1 ih2 => exact ih1.trans ih2

/-- Merging keeps the representatives fixed points and, for indices in range, in range. -/
theorem merge_reps (u : UnionFind) (n x y : Nat) (hy : y < n)
    (hidem : ∀ a, u.rep (u.rep a) = u.rep a) (hrange : ∀ a, a < n → u.rep a < n) :
    (∀ a, (u.merge x y).rep ((u.merge x y).rep a) = (u.merge x y).rep a) ∧
    (∀ a, a < n → (u.merge x y).rep a < n) := by
  constructor
  · intro a
    simp only [UnionFind.merge]
    by_cases ha : u.rep a = u.rep x
    · rw [if_pos ha, hidem y]
      split <;> rfl
    · rw [if_neg ha, hidem a, if_neg ha]
  · intro a ha
    simp only [UnionFind.merge]
    split
    · exact hrange y hy
    · exact hrange a ha

/-- The links through the edges of a list with one more edge. -/
theorem faceLinkedBy_snoc (R : EmbeddingReads Em Pos) (em : Em) (pre : List Nat) (e : Nat) :
    FaceLinkedBy R em (pre ++ [e]) = fun p q =>
      FaceLinkedBy R em pre p q ∨
        (R.is_embedded em e = false ∧ R.faceA e = some p ∧ R.faceB e = some q) := by
  funext p q
  apply propext
  unfold FaceLinkedBy
  constructor
  · rintro ⟨e1, he1, h⟩
    rcases List.mem_append.1 he1 with h1 | h1
    · exact Or.inl ⟨e1, h1, h⟩
    · rw [List.mem_singleton] at h1
      subst h1
      exact Or.inr h
  · rintro (⟨e1, he1, h⟩ | h)
    · exact ⟨e1, List.mem_append_left _ he1, h⟩
    · exact ⟨e, List.mem_append_right _ (List.mem_singleton.2 rfl), h⟩

/-- The union-find built by the loop of `count_connected_components`: its classes are the
connected components of the links through the edges visited, and its representatives are
fixed points in range. -/
theorem join_faces_classes (R : EmbeddingReads Em Pos) (em : Em) (es : List Nat) :
    ∀ (pre : List Nat) (u : UnionFind),
      (∀ e ∈ es, R.is_embedded em e = false →
        ∃ a b, R.faceA e = some a ∧ R.faceB e = some b ∧ a < R.num_faces ∧ b < R.num_faces) →
      (∀ a b, u.rep a = u.rep b ↔ Relation.EqvGen (FaceLinkedBy R em pre) a b) →
      (∀ a, u.rep (u.rep a) = u.rep a) → (∀ a, a < R.num_faces → u.rep a < R.num_faces) →
      (∀ a b, (join_faces R em es u).rep a = (join_faces R em es u).rep b ↔
        Relation.EqvGen (FaceLinkedBy R em (pre ++ es)) a b) ∧
      (∀ a, (join_faces R em es u).rep ((join_faces R em es u).rep a) =
        (join_faces R em es u).rep a) ∧
      (∀ a, a < R.num_faces → (join_faces R em es u).rep a < R.num_faces) := by
  induction es with
  | nil =>
      intro pre u _ h1 h2 h3
      rw [List.append_nil]
      exact ⟨h1, h2, h3⟩
  | cons e es ih =>
      intro pre u hv h1 h2 h3
      have hv1 : ∀ x ∈ es, R.is_embedded em x = false →
          ∃ a b, R.faceA x = some a ∧ R.faceB x = some b ∧ a < R.num_faces ∧ b < R.num_faces :=
        fun x hx => hv x (List.mem_cons_of_mem _ hx)
      have happ : pre ++ e :: es = (pre ++ [e]) ++ es := by simp
      rw [happ]
      by_cases hemb : R.is_embedded em e = true
      · have hjoin : join_faces R em (e :: es) u = join_faces R em es u := by
          unfold join_faces
          rw [List.foldl_cons, if_pos hemb]
        rw [hjoin]
        refine ih (pre ++ [e]) u hv1 ?_ h2 h3
        rw [faceLinkedBy_snoc]
        have : (fun p q => FaceLinkedBy R em pre p q ∨
            (R.is_embedded em e = false ∧ R.faceA e = some p ∧ R.faceB e = some q)) =
            FaceLinkedBy R em pre := by
          funext p q
          apply propext
          constructor
          · rintro (h | ⟨h, _⟩)
            · exact h
            · rw [hemb] at h; cases h
          · exact Or.inl
        rw [this]
        exact h1
      · have hf : R.is_embedded em e = false := by simpa using hemb
        obtain ⟨a, b, ha, hb, hal, hbl⟩ := hv e (List.mem_cons_self _ _) hf
        have hjoin : join_faces R em (e :: es) u = join_faces R em es (u.merge a b) := by
          unfold join_faces
          rw [List.foldl_cons, if_neg hemb, ha, hb]
        rw [hjoin]
        obtain ⟨m1, m2⟩ := merge_reps u R.num_faces a b hbl h2 h3
        refine ih (pre ++ [e]) (u.merge a b) hv1 ?_ m1 m2
        rw [faceLinkedBy_snoc]
        have : (fun p q => FaceLinkedBy R em pre p q ∨
            (R.is_embedded em e = false ∧ R.faceA e = some p ∧ R.faceB e = some q)) =
            fun p q => FaceLinkedBy R em pre p q ∨ (p = a ∧ q = b) := by
          funext p q
          apply propext
          rw [ha, hb]
          constructor
          · rintro (h | ⟨_, hp, hq⟩)
            · exact Or.inl h
            · exact Or.inr ⟨(Option.some.inj hp).symm, (Option.some.inj hq).symm⟩
          · rintro (h | ⟨hp, hq⟩)
            · exact Or.inl h
            · exact Or.inr ⟨hf, by rw [hp], by rw [hq]⟩
        rw [this]
        exact merge_classes u _ a b h1

/-- Without links every face is connected to itself only. -/
theorem eqvGen_of_no_link (rel : Nat → Nat → Prop) (h : ∀ p q, ¬ rel p q) (a b : Nat)
    (hab : Relation.EqvGen rel a b) : a = b := by
  induction hab with
  | rel p q hpq => exact absurd hpq (h p q)
  | refl p => rfl
  | symm p q _ ih => exact ih.symm
  | trans p q r _ _ ih1 ih2 => exact ih1.trans ih2

/-- The number of classes of the union-find built from any list that holds exactly the layout
edges is a number of connected components. -/
theorem join_faces_count (R : EmbeddingReads Em Pos) (em : Em) (es : List Nat)
    (hes : ∀ e, e ∈ es ↔ e < R.layout.num_edges)
    (hv : ∀ e, e < R.layout.num_edges → R.is_embedded em e = false →
      ∃ a b, R.faceA e = some a ∧ R.faceB e = some b ∧ a < R.num_faces ∧ b < R.num_faces) :
    IsComponentCount R em
      ((join_faces R em es (UnionFind.init R.num_faces)).num_classes R.num_faces) := by
  obtain ⟨j1, j2, j3⟩ := join_faces_classes R em es [] (UnionFind.init R.num_faces)
    (fun e he => hv e ((hes e).1 he))
    (by
      intro a b
      simp only [UnionFind.init]
      constructor
      · intro h; rw [h]; exact Relation.EqvGen.refl _
      · exact eqvGen_of_no_link _ (by rintro p q ⟨e, he, _⟩; simp at he) a b)
    (fun a => rfl) (fun a ha => ha)
  have hrel : FaceLinkedBy R em ([] ++ es) = FaceLinked R em := by
    funext p q
    apply propext
    unfold FaceLinkedBy FaceLinked
    rw [List.nil_append]
    constructor
    · rintro ⟨e, he, h⟩; exact ⟨e, (hes e).1 he, h⟩
    · rintro ⟨e, he, h⟩; exact ⟨e, (hes e).2 he, h⟩
  rw [hrel] at j1
  refine ⟨(Finset.range R.num_faces).image
    (join_faces R em es (UnionFind.init R.num_faces)).rep, rfl, ?_, ?_⟩
  · intro r hr
    obtain ⟨a, ha, rfl⟩ := Finset.mem_image.1 hr
    exact j3 a (Finset.mem_range.1 ha)
  · intro a ha
    refine ⟨(join_faces R em es (UnionFind.init R.num_faces)).rep a,
      ⟨Finset.mem_image.2 ⟨a, Finset.mem_range.2 ha, rfl⟩, (j1 _ _).1 (j2 a).symm⟩, ?_⟩
    rintro r ⟨hr, hc⟩
    obtain ⟨c, _, rfl⟩ := Finset.mem_image.1 hr
    exact ((j1 _ _).2 hc).trans (j2 c) |>.symm

/-- The number of connected components is determined. -/
theorem isComponentCount_unique (R : EmbeddingReads Em Pos) (em : Em) (j k : Nat)
    (hj : IsComponentCount R em j) (hk : IsComponentCount R em k) : j = k := by
  have key : ∀ j k, IsComponentCount R em j → IsComponentCount R em k → j ≤ k := by
    rintro j k ⟨s, hs, hsr, hsu⟩ ⟨t, ht, htr, htu⟩
    rw [← hs, ← ht]
    apply Finset.card_le_card_of_forall_subsingleton
      (fun a b => Relation.EqvGen (FaceLinked R em) a b)
    · intro a ha
      obtain ⟨b, ⟨hb, hab⟩, _⟩ := htu a (hsr a ha)
      exact ⟨b, hb, hab⟩
    · intro b hb a1 h1 a2 h2
      obtain ⟨r, _, hr⟩ := hsu b (htr b hb)
      rw [hr a1 ⟨h1.1, Relation.EqvGen.symm _ _ h1.2⟩,
        hr a2 ⟨h2.1, Relation.EqvGen.symm _ _ h2.2⟩]
  exact le_antisymm (key j k hj hk) (key k j hk hj)

/-- C32: `count_connected_components()` counts the connected components of the layout faces
linked across the layout edges that are not embedded. On a layout mesh in which every edge has
two adjacent faces (with indices below the number of faces) the method returns, so no index
handed to the union-find is out of range; the number `k` it returns is the number of connected
components of that graph, and it is the only such number; the loop returns the same `k`
whatever the order in which it visits the layout edges; `k` is the number of layout faces
when every edge is embedded; and `k` is `1` when no edge is embedded and the layout faces,
of which there is at least one, are all connected across the layout edges. -/
theorem count_connected_components_counts_components (R : EmbeddingReads Em Pos)
    (s : EmbeddingState Em C)
    (hfaces : ∀ e, e < R.layout.num_edges →
      ∃ a b, R.faceA e = some a ∧ R.faceB e = some b ∧ a < R.num_faces ∧ b < R.num_faces) :
    ∃ k : Nat, count_connected_components R s = Res.done (k : Int) ∧
      IsComponentCount R s.em k ∧
      (∀ j, IsComponentCount R s.em j → j = k) ∧
      (∀ es : List Nat, es.Perm (List.range R.layout.num_edges) →
        ∃ u, count_loop R s.em es ((R.num_faces : Int), UnionFind.init R.num_faces) =
          Res.done ((k : Int), u)) ∧
      ((∀ e, e < R.layout.num_edges → R.is_embedded s.em e = true) → k = R.num_faces) ∧
      ((∀ e, e < R.layout.num_edges → R.is_embedded s.em e = false) → 0 < R.num_faces →
        (∀ a b, a < R.num_faces → b < R.num_faces →
          Relation.EqvGen (FaceAdjacent R) a b) → k = 1) := by
  have hv : ∀ e, e < R.layout.num_edges → R.is_embedded s.em e = false →
      ∃ a b, R.faceA e = some a ∧ R.faceB e = some b ∧ a < R.num_faces ∧ b < R.num_faces :=
    fun e he _ => hfaces e he
  have hloop : ∀ es : List Nat, (∀ e, e ∈ es ↔ e < R.layout.num_edges) →
      count_loop R s.em es ((R.num_faces : Int), UnionFind.init R.num_faces) =
        Res.done ((((join_faces R s.em es (UnionFind.init R.num_faces)).num_classes
          R.num_faces : Nat) : Int), join_faces R s.em es (UnionFind.init R.num_faces)) ∧
      IsComponentCount R s.em
        ((join_faces R s.em es (UnionFind.init R.num_faces)).num_classes R.num_faces) := by
    intro es hes
    refine ⟨?_, join_faces_count R s.em es hes hv⟩
    exact count_loop_spec R s.em es ((R.num_faces : Int), UnionFind.init R.num_faces)
      (by simp only; rw [num_classes_init]) (fun e he => hv e ((hes e).1 he))
  obtain ⟨hrun, hcount⟩ := hloop (List.range R.layout.num_edges) (fun e => List.mem_range)
  refine ⟨_, ?_, hcount, fun j hj => isComponentCount_unique R s.em _ _ hj hcount, ?_, ?_, ?_⟩
  · unfold count_connected_components
    rw [hrun]
  · intro es hperm
    obtain ⟨h1, h2⟩ := hloop es (fun e => by rw [hperm.mem_iff, List.mem_range])
    refine ⟨join_faces R s.em es (UnionFind.init R.num_faces), ?_⟩
    rw [h1, isComponentCount_unique R s.em _ _ h2 hcount]
  · intro hall
    refine isComponentCount_unique R s.em _ _ hcount
      ⟨Finset.range R.num_faces, Finset.card_range _, fun r hr => Finset.mem_range.1 hr, ?_⟩
    intro a ha
    refine ⟨a, ⟨Finset.mem_range.2 ha, Relation.EqvGen.refl _⟩, ?_⟩
    rintro r ⟨_, hc⟩
    exact (eqvGen_of_no_link _ (by
      rintro p q ⟨e, he, hf, _⟩
      rw [hall e he] at hf
      cases hf) a r hc).symm
  · intro hnone hpos hconn
    refine isComponentCount_unique R s.em _ _ hcount
      ⟨{0}, Finset.card_singleton _, fun r hr => by rw [Finset.mem_singleton.1 hr]; exact hpos,
        ?_⟩
    intro a ha
    refine ⟨0, ⟨Finset.mem_singleton_self _, ?_⟩, fun r hr => Finset.mem_singleton.1 hr.1⟩
    exact Relation.EqvGen.mono (fun p q ⟨e, he, hA, hB⟩ => ⟨e, he, hnone e he, hA, hB⟩)
      (hconn a 0 ha hpos)

end CountingTheorems

/-- C32 on the tetrahedral instance. With all edges but edge `0` embedded the faces `2` and
`3` are linked and the count is `3`, the number of connected components; with no edge
embedded the four faces are connected and the count is `1`. -/
theorem count_connected_components_counts_components_witness :
    (count_connected_components tetraReads (tetraState [1, 2, 3, 4, 5]) = Res.done 3 ∧
      IsComponentCount tetraReads (tetraState [1, 2, 3, 4, 5]).em 3) ∧
    (count_connected_components tetraReads (tetraState []) = Res.done 1 ∧
      IsComponentCount tetraReads (tetraState []).em 1) := by
  have hfaces : ∀ e, e < tetraReads.layout.num_edges →
      ∃ a b, tetraReads.faceA e = some a ∧ tetraReads.faceB e = some b ∧
        a < tetraReads.num_faces ∧ b < tetraReads.num_faces := by
    intro e he
    have he6 : e < 6 := he
    interval_cases e <;> exact ⟨_, _, rfl, rfl, by decide, by decide⟩
  constructor
  · obtain ⟨k, h1, h2, _⟩ :=
      count_connected_components_counts_components tetraReads (tetraState [1, 2, 3, 4, 5]) hfaces
    have h3 : count_connected_components tetraReads (tetraState [1, 2, 3, 4, 5]) = Res.done 3 := by
      decide
    have hk : k = 3 := by
      rw [h1] at h3
      simp only [Res.done.injEq] at h3
      exact_mod_cast h3
    rw [hk] at h2
    exact ⟨h3, h2⟩
  · obtain ⟨k, h1, h2, _, _, _, h6⟩ :=
      count_connected_components_counts_components tetraReads (tetraState []) hfaces
    have hto3 : ∀ a, a < 4 → Relation.EqvGen (FaceAdjacent tetraReads) a 3 := by
      intro a ha
      interval_cases a
      · exact Relation.EqvGen.rel _ _ ⟨1, by decide, rfl, rfl⟩
      · exact Relation.EqvGen.rel _ _ ⟨2, by decide, rfl, rfl⟩
      · exact Relation.EqvGen.rel _ _ ⟨0, by decide, rfl, rfl⟩
      · exact Relation.EqvGen.refl _
    have hk : k = 1 := h6 (by decide) (by decide) (fun a b ha hb =>
      Relation.EqvGen.trans _ _ _ (hto3 a ha) (Relation.EqvGen.symm _ _ (hto3 b hb)))
    rw [hk] at h1 h2
    exact ⟨h1, h2⟩

/-! ## The arithmetic of `Dbl` -/

theorem Dbl.le_iff (a b : Dbl) : a ≤ b ↔ a.toWithTop ≤ b.toWithTop := Iff.rfl

theorem Dbl.lt_iff (a b : Dbl) : a < b ↔ a.toWithTop < b.toWithTop := Iff.rfl

theorem Dbl.fin_le_fin (a b : Nat) : Dbl.fin a ≤ Dbl.fin b ↔ a ≤ b := by
  rw [Dbl.le_iff]
  simp [Dbl.toWithTop]

theorem Dbl.fin_lt_fin (a b : Nat) : Dbl.fin a < Dbl.fin b ↔ a < b := by
  rw [Dbl.lt_iff]
  simp [Dbl.toWithTop]

theorem Dbl.top_eq : (⊤ : Dbl) = Dbl.inf := rfl

theorem Dbl.zero_eq : (0 : Dbl) = Dbl.fin 0 := rfl

theorem Dbl.add_eq (a b : Dbl) : a + b = Dbl.add a b := rfl

theorem Dbl.inf_add (a : Dbl) : Dbl.inf + a = Dbl.inf := by
  cases a <;> rfl

theorem Dbl.add_inf (a : Dbl) : a + Dbl.inf = Dbl.inf := by
  cases a <;> rfl

theorem Dbl.fin_add_fin (a b : Nat) : Dbl.fin a + Dbl.fin b = Dbl.round_ratio (a + b) 1 := rfl

/-- A finite sum has finite terms. -/
theorem Dbl.add_eq_fin (a b : Dbl) (v : Nat) (h : a + b = Dbl.fin v) :
    ∃ x y, a = Dbl.fin x ∧ b = Dbl.fin y ∧ Dbl.round_ratio (x + y) 1 = Dbl.fin v := by
  cases a with
  | inf => rw [Dbl.inf_add] at h; cases h
  | fin x =>
      cases b with
      | inf => rw [Dbl.add_inf] at h; cases h
      | fin y => exact ⟨x, y, rfl, rfl, h⟩

/-- What `find_shift` finds. -/
theorem Dbl.find_shift_spec (p q : Nat) (fuel : Nat) :
    ∀ s0 sh, Dbl.find_shift p q fuel s0 = some sh →
      s0 ≤ sh ∧ p / (q * 2 ^ sh) < 2 ^ 53 ∧ ∀ t, s0 ≤ t → t < sh → 2 ^ 53 ≤ p / (q * 2 ^ t) := by
  induction fuel with
  | zero => intro s0 sh h; simp [Dbl.find_shift] at h
  | succ n ih =>
      intro s0 sh h
      unfold Dbl.find_shift at h
      by_cases hc : p / (q * 2 ^ s0) < 2 ^ 53
      · rw [if_pos hc] at h
        simp only [Option.some.injEq] at h
        subst h
        exact ⟨le_refl _, hc, fun t h1 h2 => by omega⟩
      · rw [if_neg hc] at h
        obtain ⟨h1, h2, h3⟩ := ih (s0 + 1) sh h
        refine ⟨by omega, h2, fun t ht1 ht2 => ?_⟩
        by_cases ht : t = s0
        · subst ht; exact not_lt.1 hc
        · exact h3 t (by omega) ht2

/-- Rounding a number of units changes it by a factor of at most `1 + 2^-53`, either way. -/
theorem Dbl.round_bounds (n v : Nat) (h : Dbl.round_ratio n 1 = Dbl.fin v) :
    v * 2 ^ 53 ≤ n * (2 ^ 53 + 1) ∧ n * 2 ^ 53 ≤ v * (2 ^ 53 + 1) := by
  unfold Dbl.round_ratio at h
  cases hs : Dbl.find_shift n 1 2046 0 with
  | none => rw [hs] at h; cases h
  | some sh =>
      rw [hs] at h
      simp only [one_mul] at h
      obtain ⟨_, h2, h3⟩ := Dbl.find_shift_spec n 1 2046 0 sh hs
      simp only [one_mul] at h2 h3
      have hU : 0 < 2 ^ sh := Nat.pos_of_ne_zero (by positivity)
      have hdm := Nat.div_add_mod n (2 ^ sh)
      have hrem : n % 2 ^ sh < 2 ^ sh := Nat.mod_lt _ hU
      have hk : sh = 0 ∨ 2 ^ 52 * 2 ^ sh ≤ 2 ^ sh * (n / 2 ^ sh) := by
        by_cases h0 : sh = 0
        · exact Or.inl h0
        · right
          have h4 := h3 (sh - 1) (Nat.zero_le _) (by omega)
          have hpow : (2 : Nat) ^ sh = 2 * 2 ^ (sh - 1) := by
            conv_lhs => rw [show sh = (sh - 1) + 1 by omega]
            rw [pow_succ]; ring
          have h5 : 2 ^ 53 * 2 ^ (sh - 1) ≤ n := by
            have := Nat.div_mul_le_self n (2 ^ (sh - 1))
            calc 2 ^ 53 * 2 ^ (sh - 1) ≤ n / 2 ^ (sh - 1) * 2 ^ (sh - 1) :=
                  Nat.mul_le_mul_right _ h4
              _ ≤ n := this
          have h6 : 2 ^ 52 ≤ n / 2 ^ sh := by
            rw [Nat.le_div_iff_mul_le hU, hpow]
            calc 2 ^ 52 * (2 * 2 ^ (sh - 1)) = 2 ^ 53 * 2 ^ (sh - 1) := by ring
              _ ≤ n := h5
          calc 2 ^ 52 * 2 ^ sh = 2 ^ sh * 2 ^ 52 := by ring
            _ ≤ 2 ^ sh * (n / 2 ^ sh) := Nat.mul_le_mul_left _ h6
      generalize hUd : 2 ^ sh = U at *
      generalize hkd : n / U = k at *
      generalize hrd : n % U = rem at *
      have e52 : (2 : Nat) ^ 52 = 4503599627370496 := by norm_num
      have e53 : (2 : Nat) ^ 53 = 9007199254740992 := by norm_num
      rw [e52] at hk
      rw [e53]
      generalize hw : U * k = w at *
      split at h
      · split at h
        · cases h
        · simp only [Dbl.fin.injEq] at h
          rename_i hup _
          have hup2 : U ≤ 2 * rem := by
            rcases hup with h7 | ⟨h7, _⟩
            · omega
            · omega
          have hv : v = w + U := by rw [← h, ← hw]; ring
          rcases hk with h0 | hk
          · exfalso
            rw [h0] at hUd
            simp at hUd
            omega
          · omega
      · split at h
        · cases h
        · simp only [Dbl.fin.injEq] at h
          rename_i hup _
          have hup2 : 2 * rem ≤ U := by
            by_contra hc
            exact hup (Or.inl (by omega))
          have hv : v = w := by rw [← h, ← hw]; ring
          rcases hk with h0 | hk
          · rw [h0] at hUd
            simp at hUd
            omega
          · omega
theorem Outcome.done_of_check {σ : Type} {r : Outcome σ} {p : σ → Bool} (h : r.check p = true) :
    ∃ s, r = Outcome.done s ∧ p s = true := by
  cases r with
  | done s => exact ⟨s, rfl, h⟩
  | fatal s => simp [Outcome.check] at h
  | timeout => simp [Outcome.check] at h

section CommittedCostTheorems

variable {Em C : Type} [Add C] [Zero C] [Top C]

/-- A sequence of calls that returns with `valid` still set has committed every call: the
embedded set grows by the edges of the log, which are new and pairwise distinct, and
`embedded_cost` is what the additions of the lengths in the log, one after the other in the
order of the calls, make of it. -/
theorem run_extends_log (ops : EmbeddingOps Em C) (calls : List ExtendCall) :
    ∀ s s1 : EmbeddingState Em C, run_extends ops calls s = Outcome.done s1 →
      s1.valid = true →
      (commit_log ops calls s.em).map Prod.fst = calls.map ExtendCall.l_e ∧
      ((commit_log ops calls s.em).map Prod.fst).Nodup ∧
      (∀ e ∈ (commit_log ops calls s.em).map Prod.fst, e ∉ s.embedded_l_edges) ∧
      s1.embedded_l_edges =
        s.embedded_l_edges ∪ ((commit_log ops calls s.em).map Prod.fst).toFinset ∧
      s1.embedded_cost =
        ((commit_log ops calls s.em).map Prod.snd).foldl (· + ·) s.embedded_cost := by
  induction calls with
  | nil =>
      intro s s1 h _
      simp only [run_extends, Outcome.done.injEq] at h
      subst h
      simp [commit_log]
  | cons c rest ih =>
      intro s s1 h hv
      unfold run_extends at h
      cases hc : c.run ops s with
      | fatal s2 => rw [hc] at h; cases h
      | timeout => rw [hc] at h; cases h
      | done s2 =>
          rw [hc] at h
          simp only at h
          obtain ⟨i1, i2, i3, i4, i5⟩ := ih s2 s1 h hv
          have hv2 : s2.valid = true := run_extends_valid ops rest s2 s1 h hv
          obtain ⟨hnot, _, em1, hemb, k1, k2, k3⟩ := extendCall_done ops c s s2 hc hv2
          have hlog : commit_log ops (c :: rest) s.em =
              (c.l_e, ops.path_length s.em (c.path ops s.em)) :: commit_log ops rest s2.em := by
            rw [k1]
            simp only [commit_log, hemb]
          rw [hlog]
          simp only [List.map_cons, List.foldl_cons, List.toFinset_cons]
          have hfresh : c.l_e ∉ (commit_log ops rest s2.em).map Prod.fst := by
            intro hin
            exact i3 _ hin (by rw [k2]; exact Finset.mem_insert_self _ _)
          refine ⟨by rw [i1], List.nodup_cons.2 ⟨hfresh, i2⟩, ?_, ?_, ?_⟩
          · intro e he
            rcases List.mem_cons.1 he with h1 | h1
            · rw [h1]; exact hnot
            · intro hin
              exact i3 e h1 (by rw [k2]; exact Finset.mem_insert_of_mem hin)
          · rw [i4, k2]
            ext x
            simp only [Finset.mem_union, Finset.mem_insert, List.mem_toFinset]
            tauto
          · rw [i5, k3]

/-- In a log with pairwise distinct edges, the length recorded for an edge of the log is
the length of its one entry. -/
theorem committed_length_mem (log : List (Nat × C)) (hnd : (log.map Prod.fst).Nodup)
    (e : Nat) (v : C) (h : (e, v) ∈ log) : committed_length log e = v := by
  induction log with
  | nil => cases h
  | cons kv rest ih =>
      obtain ⟨k, w⟩ := kv
      simp only [List.map_cons, List.nodup_cons] at hnd
      rcases List.mem_cons.1 h with h1 | h1
      · simp only [Prod.mk.injEq] at h1
        simp [committed_length, h1.1, h1.2]
      · have hne : k ≠ e := by
          intro hk
          exact hnd.1 (hk ▸ List.mem_map.2 ⟨(e, v), h1, rfl⟩)
        simp only [committed_length, hne, if_false]
        exact ih hnd.2 h1

/-- C27 (amended): `embedded_cost` is the committed lengths added one after the other in the
order of the commits. For a state that starts with `embedded_cost` zero and no embedded edge
and is modified by calls of the two forms of `extend` that all succeed (every call returns and
`valid` is still set at the end): every call has committed its path, the embedded edges are
pairwise distinct and are the edges of the calls, and `embedded_cost` is the result of the
additions `(..((0 + l_1) + l_2) + ..) + l_k` of type `double`, where `l_i` is `path_length` of
the path committed by the `i`-th call, the one length recorded for its edge. -/
theorem embedded_cost_is_committed_length (ops : EmbeddingOps Em C) (calls : List ExtendCall)
    (s0 s : EmbeddingState Em C) (hcost : s0.embedded_cost = 0)
    (hemb : s0.embedded_l_edges = ∅) (hrun : run_extends ops calls s0 = Outcome.done s)
    (hvalid : s.valid = true) :
    (commit_log ops calls s0.em).map Prod.fst = calls.map ExtendCall.l_e ∧
    (calls.map ExtendCall.l_e).Nodup ∧
    s.embedded_l_edges = (calls.map ExtendCall.l_e).toFinset ∧
    s.embedded_cost = ((commit_log ops calls s0.em).map Prod.snd).foldl (· + ·) 0 ∧
    (commit_log ops calls s0.em).map Prod.snd =
      (calls.map ExtendCall.l_e).map (committed_length (commit_log ops calls s0.em)) := by
  obtain ⟨i1, i2, _, i4, i5⟩ := run_extends_log ops calls s0 s hrun hvalid
  rw [hemb, Finset.empty_union] at i4
  rw [hcost] at i5
  refine ⟨i1, i1 ▸ i2, i1 ▸ i4, i5, ?_⟩
  rw [← i1, List.map_map]
  apply List.map_congr_left
  intro kv hkv
  obtain ⟨k, v⟩ := kv
  exact (committed_length_mem _ i2 k v hkv).symm

end CommittedCostTheorems

/-- C27 (amended) on the instance with the lengths `0.1`, `0.2`, `0.3`: the edges are committed
in the order `2`, `1`, `0`, and `embedded_cost` is `((0 + 0.3) + 0.2) + 0.1`, the double
`0.6`. -/
theorem embedded_cost_is_committed_length_witness :
    ∃ s, run_extends dblOps [ExtendCall.edge 2, ExtendCall.edge 1, ExtendCall.edge 0]
        (EmbeddingState.init []) = Outcome.done s ∧
      s.valid = true ∧ s.embedded_l_edges = {2, 1, 0} ∧
      s.embedded_cost =
        ((0 + Dbl.mk2 5404319552844595 54) + Dbl.mk2 3602879701896397 54)
          + Dbl.mk2 3602879701896397 55 ∧
      s.embedded_cost = Dbl.mk2 5404319552844595 53 := by
  obtain ⟨s, hrun, hp⟩ := Outcome.done_of_check
    (r := run_extends dblOps [ExtendCall.edge 2, ExtendCall.edge 1, ExtendCall.edge 0]
      (EmbeddingState.init []))
    (p := fun s => s.valid && decide (s.embedded_cost = Dbl.mk2 5404319552844595 53))
    (by decide!)
  simp only [Bool.and_eq_true, decide_eq_true_eq] at hp
  obtain ⟨_, _, h3, h4, _⟩ := embedded_cost_is_committed_length dblOps _ _ s rfl rfl hrun hp.1
  refine ⟨s, hrun, hp.1, ?_, ?_, hp.2⟩
  · rw [h3]; decide
  · rw [h4]; rfl

/-- C27 as stated fails on the instance with the lengths `0.1`, `0.2`, `0.3`. After the
commits `2`, `1`, `0` the set `embedded_l_edges` holds the three edges and `embedded_cost` is
the double `0.6`; after the commits `0`, `1`, `2` the set and the committed paths are the
same and `embedded_cost` is `0.6000000000000001`: the value is not determined by the edges of
`embedded_l_edges` and the lengths of their paths. It is neither the lengths of the paths of
the edges of the set added up as doubles in the order of the set, nor their exact sum, which
is no double (in units of `2^-1074`, the sum of the three lengths differs from
`embedded_cost`). -/
theorem embedded_cost_counterexample :
    ∃ s t, run_extends dblOps [ExtendCall.edge 2, ExtendCall.edge 1, ExtendCall.edge 0]
        (EmbeddingState.init []) = Outcome.done s ∧
      run_extends dblOps [ExtendCall.edge 0, ExtendCall.edge 1, ExtendCall.edge 2]
        (EmbeddingState.init []) = Outcome.done t ∧
      s.valid = true ∧ t.valid = true ∧
      s.embedded_l_edges = {0, 1, 2} ∧ t.embedded_l_edges = {0, 1, 2} ∧
      (∀ e, committed_length (commit_log dblOps
          [ExtendCall.edge 2, ExtendCall.edge 1, ExtendCall.edge 0] []) e =
        committed_length (commit_log dblOps
          [ExtendCall.edge 0, ExtendCall.edge 1, ExtendCall.edge 2] []) e) ∧
      s.embedded_cost = Dbl.mk2 5404319552844595 53 ∧
      t.embedded_cost = Dbl.mk2 1351079888211149 51 ∧
      s.embedded_cost ≠ t.embedded_cost ∧
      s.embedded_cost ≠ (ascending s.embedded_l_edges).foldl
        (fun acc e => acc + committed_length (commit_log dblOps
          [ExtendCall.edge 2, ExtendCall.edge 1, ExtendCall.edge 0] []) e) 0 ∧
      Dbl.fin (3602879701896397 * 2 ^ 1019 + 3602879701896397 * 2 ^ 1020
        + 5404319552844595 * 2 ^ 1020) ≠ s.embedded_cost := by
  obtain ⟨s, hs, hp⟩ := Outcome.done_of_check
    (r := run_extends dblOps [ExtendCall.edge 2, ExtendCall.edge 1, ExtendCall.edge 0]
      (EmbeddingState.init []))
    (p := fun s => s.valid && decide (s.embedded_l_edges = {0, 1, 2}) &&
      decide (s.embedded_cost = Dbl.mk2 5404319552844595 53))
    (by decide!)
  obtain ⟨t, ht, hq⟩ := Outcome.done_of_check
    (r := run_extends dblOps [ExtendCall.edge 0, ExtendCall.edge 1, ExtendCall.edge 2]
      (EmbeddingState.init []))
    (p := fun s => s.valid && decide (s.embedded_l_edges = {0, 1, 2}) &&
      decide (s.embedded_cost = Dbl.mk2 1351079888211149 51))
    (by decide!)
  simp only [Bool.and_eq_true, decide_eq_true_eq] at hp hq
  obtain ⟨⟨p1, p2⟩, p3⟩ := hp
  obtain ⟨⟨q1, q2⟩, q3⟩ := hq
  refine ⟨s, t, hs, ht, p1, q1, p2, q2, ?_, p3, q3, ?_, ?_, ?_⟩
  · intro e
    by_cases h0 : e = 0
    · subst h0; decide!
    by_cases h1 : e = 1
    · subst h1; decide!
    by_cases h2 : e = 2
    · subst h2; decide!
    simp [commit_log, committed_length, dblOps, dblLayout, ExtendCall.path, ExtendCall.l_e, h0,
      h1, h2, Ne.symm h0, Ne.symm h1, Ne.symm h2]
  · rw [p3, q3]; decide!
  · rw [p2, p3]; decide!
  · rw [p3]; decide!

/-! ## EmbeddingState: the lower bound in `double` arithmetic -/

theorem Dbl.ulp_factor_ge_one : (1 : ℚ) ≤ Dbl.ulp_factor := by
  unfold Dbl.ulp_factor
  have : (0 : ℚ) ≤ 1 / 2 ^ 53 := by positivity
  linarith

theorem Dbl.ulp_factor_pow_ge_one (k : Nat) : (1 : ℚ) ≤ Dbl.ulp_factor ^ k :=
  one_le_pow₀ Dbl.ulp_factor_ge_one

/-- A finite sum of two finite values is within the factor `1 + 2^-53` of the exact sum,
either way. -/
theorem Dbl.add_bounds (a b v : Nat) (h : Dbl.fin a + Dbl.fin b = Dbl.fin v) :
    (v : ℚ) ≤ Dbl.ulp_factor * ((a : ℚ) + b) ∧ (a : ℚ) + b ≤ Dbl.ulp_factor * v := by
  obtain ⟨h1, h2⟩ := Dbl.round_bounds (a + b) v h
  have q1 : (v : ℚ) * 2 ^ 53 ≤ ((a : ℚ) + b) * (2 ^ 53 + 1) := by exact_mod_cast h1
  have q2 : ((a : ℚ) + b) * 2 ^ 53 ≤ (v : ℚ) * (2 ^ 53 + 1) := by exact_mod_cast h2
  have hpos : (0 : ℚ) < 2 ^ 53 := by positivity
  unfold Dbl.ulp_factor
  constructor
  · rw [show (1 + 1 / 2 ^ 53 : ℚ) * ((a : ℚ) + b) = ((a + b) * (2 ^ 53 + 1)) / 2 ^ 53 by
      field_simp; ring]
    rw [le_div_iff₀ hpos]
    exact q1
  · rw [show (1 + 1 / 2 ^ 53 : ℚ) * (v : ℚ) = (v * (2 ^ 53 + 1)) / 2 ^ 53 by
      field_simp; ring]
    rw [le_div_iff₀ hpos]
    exact q2

section DoubleBoundTheorems

variable {Em : Type}

/-- Once `embedded_cost` is `+infinity` it stays so under further `extend` calls. -/
theorem extend_calls_inf (ops : EmbeddingOps Em Dbl) (es : List Nat) :
    ∀ s sf : EmbeddingState Em Dbl, s.embedded_cost = Dbl.inf →
      extend_calls ops es s = Outcome.done sf → sf.embedded_cost = Dbl.inf := by
  induction es with
  | nil =>
      intro s sf htop h
      simp only [extend_calls, Outcome.done.injEq] at h
      rw [← h]; exact htop
  | cons e es ih =>
      intro s sf htop h
      unfold extend_calls at h
      cases hx : extend ops e s with
      | timeout => rw [hx] at h; simp at h
      | fatal s1 => rw [hx] at h; simp at h
      | done s1 =>
          rw [hx] at h
          simp only at h
          apply ih s1 sf _ h
          obtain ⟨_, ⟨_, hs1⟩ | ⟨_, em1, _, hs1⟩⟩ := extend_done ops e s s1 hx
          · rw [hs1]; rfl
          · rw [hs1]
            simp only [htop]
            exact Dbl.inf_add _

/-- The cost that further `extend` calls reach is, up to the rounding of one addition per call,
at least the cost they start from plus lower estimates of the candidate costs of the edges they
commit. -/
theorem extend_calls_lower (ops : EmbeddingOps Em Dbl)
    (hmono : ∀ em e em1, ops.embed_path em (ops.layout.halfedgeA e)
        (ops.find_shortest_path em (ops.layout.halfedgeA e)) = some em1 →
      ∀ e1, e1 ≠ e → (trace_candidate ops em e1).cost ≤ (trace_candidate ops em1 e1).cost)
    (es : List Nat) :
    ∀ (s sf : EmbeddingState Em Dbl) (S : Finset Nat) (f : Nat → Nat) (a F : Nat),
      extend_calls ops es s = Outcome.done sf →
      (∀ e ∈ es, e ∈ S ∨ e ∈ s.embedded_l_edges) →
      (∀ e ∈ S, e ∉ s.embedded_l_edges ∧ e ∈ sf.embedded_l_edges) →
      (∀ e ∈ S, Dbl.fin (f e) ≤ (trace_candidate ops s.em e).cost) →
      s.embedded_cost = Dbl.fin a → sf.embedded_cost = Dbl.fin F →
      (a : ℚ) + ∑ e in S, (f e : ℚ) ≤ Dbl.ulp_factor ^ es.length * F := by
  induction es with
  | nil =>
      intro s sf S f a F h _ hS _ ha hF
      simp only [extend_calls, Outcome.done.injEq] at h
      subst h
      have hempty : S = ∅ := by
        apply Finset.eq_empty_of_forall_not_mem
        intro e he
        exact (hS e he).1 (hS e he).2
      rw [ha] at hF
      simp only [Dbl.fin.injEq] at hF
      simp [hempty, hF]
  | cons e es ih =>
      intro s sf S f a F h hes hS hf ha hF
      unfold extend_calls at h
      cases hx : extend ops e s with
      | timeout => rw [hx] at h; simp at h
      | fatal s1 => rw [hx] at h; simp at h
      | done s1 =>
          rw [hx] at h
          simp only at h
          obtain ⟨hnew, ⟨_, hs1⟩ | ⟨hne, em1, hem, hs1⟩⟩ := extend_done ops e s s1 hx
          · have htop : sf.embedded_cost = Dbl.inf :=
              extend_calls_inf ops es s1 sf (by rw [hs1]; rfl) h
            rw [htop] at hF; cases hF
          · have hemb1 : s1.embedded_l_edges = insert e s.embedded_l_edges := by rw [hs1]
            have hem1 : s1.em = em1 := by rw [hs1]
            have hcost1 : s1.embedded_cost = s.embedded_cost + ops.path_length s.em
                (ops.find_shortest_path s.em (ops.layout.halfedgeA e)) := by rw [hs1]
            have heS : e ∈ S := by
              rcases hes e (List.mem_cons_self _ _) with h1 | h1
              · exact h1
              · exact absurd h1 hnew
            cases hc1 : s1.embedded_cost with
            | inf =>
                have htop := extend_calls_inf ops es s1 sf hc1 h
                rw [htop] at hF; cases hF
            | fin a1 =>
                rw [hc1] at hcost1
                obtain ⟨x, b, hx1, hb, hr⟩ := Dbl.add_eq_fin _ _ _ hcost1.symm
                rw [ha] at hx1
                simp only [Dbl.fin.injEq] at hx1
                subst hx1
                have hbound := (Dbl.add_bounds a b a1 hr).2
                have hih := ih s1 sf (S.erase e) f a1 F h
                  (by
                    intro x hx
                    by_cases hxe : x = e
                    · right; rw [hemb1, hxe]; exact Finset.mem_insert_self _ _
                    · rcases hes x (List.mem_cons_of_mem _ hx) with h1 | h1
                      · left; exact Finset.mem_erase.2 ⟨hxe, h1⟩
                      · right; rw [hemb1]; exact Finset.mem_insert_of_mem h1)
                  (by
                    intro x hx
                    obtain ⟨hxe, hxS⟩ := Finset.mem_erase.1 hx
                    refine ⟨?_, (hS x hxS).2⟩
                    rw [hemb1, Finset.mem_insert]
                    rintro (h1 | h1)
                    · exact hxe h1
                    · exact (hS x hxS).1 h1)
                  (by
                    intro x hx
                    obtain ⟨hxe, hxS⟩ := Finset.mem_erase.1 hx
                    rw [hem1]
                    exact (hf x hxS).trans (hmono s.em e em1 hem x hxe))
                  hc1 hF
                have hfe : f e ≤ b := by
                  have h2 := hf e heS
                  unfold trace_candidate at h2
                  have h3 : (ops.find_shortest_path s.em (ops.layout.halfedgeA e)).isEmpty
                      = false := by
                    cases hq : ops.find_shortest_path s.em (ops.layout.halfedgeA e) with
                    | nil => exact absurd hq hne
                    | cons a r => rfl
                  simp only [h3, Bool.false_eq_true, if_false, hb] at h2
                  exact (Dbl.fin_le_fin _ _).1 h2
                have hfeq : (f e : ℚ) ≤ b := by exact_mod_cast hfe
                have hsum : ∑ x in S, (f x : ℚ) = f e + ∑ x in S.erase e, (f x : ℚ) :=
                  (Finset.add_sum_erase S (fun x => (f x : ℚ)) heS).symm
                have hrest : (0 : ℚ) ≤ ∑ x in S.erase e, (f x : ℚ) :=
                  Finset.sum_nonneg (fun x _ => by positivity)
                have h1le := Dbl.ulp_factor_ge_one
                have hFnn : (0 : ℚ) ≤ Dbl.ulp_factor ^ es.length * F := by positivity
                rw [hsum, List.length_cons, pow_succ]
                calc (a : ℚ) + (f e + ∑ x in S.erase e, (f x : ℚ))
                    ≤ ((a : ℚ) + b) + ∑ x in S.erase e, (f x : ℚ) := by linarith
                  _ ≤ Dbl.ulp_factor * a1 + ∑ x in S.erase e, (f x : ℚ) := by linarith
                  _ ≤ Dbl.ulp_factor * (a1 + ∑ x in S.erase e, (f x : ℚ)) := by
                      have : ∑ x in S.erase e, (f x : ℚ)
                          ≤ Dbl.ulp_factor * ∑ x in S.erase e, (f x : ℚ) :=
                        le_mul_of_one_le_left hrest h1le
                      linarith
                  _ ≤ Dbl.ulp_factor * (Dbl.ulp_factor ^ es.length * F) :=
                      mul_le_mul_of_nonneg_left hih (by linarith)
                  _ = Dbl.ulp_factor ^ es.length * Dbl.ulp_factor * F := by ring

/-- A candidate cost of `+infinity` makes the cost of every complete state `+infinity`. -/
theorem extend_calls_infinite_candidate (ops : EmbeddingOps Em Dbl)
    (hmono : ∀ em e em1, ops.embed_path em (ops.layout.halfedgeA e)
        (ops.find_shortest_path em (ops.layout.halfedgeA e)) = some em1 →
      ∀ e1, e1 ≠ e → (trace_candidate ops em e1).cost ≤ (trace_candidate ops em1 e1).cost)
    (es : List Nat) :
    ∀ (s sf : EmbeddingState Em Dbl) (e0 : Nat),
      extend_calls ops es s = Outcome.done sf →
      e0 ∉ s.embedded_l_edges → e0 ∈ sf.embedded_l_edges →
      (trace_candidate ops s.em e0).cost = Dbl.inf → sf.embedded_cost = Dbl.inf := by
  induction es with
  | nil =>
      intro s sf e0 h h1 h2 _
      simp only [extend_calls, Outcome.done.injEq] at h
      subst h
      exact absurd h2 h1
  | cons e es ih =>
      intro s sf e0 h h1 h2 hc
      unfold extend_calls at h
      cases hx : extend ops e s with
      | timeout => rw [hx] at h; simp at h
      | fatal s1 => rw [hx] at h; simp at h
      | done s1 =>
          rw [hx] at h
          simp only at h
          obtain ⟨hnew, ⟨_, hs1⟩ | ⟨hne, em1, hem, hs1⟩⟩ := extend_done ops e s s1 hx
          · exact extend_calls_inf ops es s1 sf (by rw [hs1]; rfl) h
          · by_cases he : e0 = e
            · subst he
              apply extend_calls_inf ops es s1 sf _ h
              unfold trace_candidate at hc
              have h3 : (ops.find_shortest_path s.em (ops.layout.halfedgeA e0)).isEmpty
                  = false := by
                cases hq : ops.find_shortest_path s.em (ops.layout.halfedgeA e0) with
                | nil => exact absurd hq hne
                | cons a r => rfl
              simp only [h3, Bool.false_eq_true, if_false] at hc
              rw [hs1]
              simp only [hc]
              exact Dbl.add_inf _
            · apply ih s1 sf e0 h
              · rw [hs1]
                simp only [Finset.mem_insert, not_or]
                exact ⟨he, h1⟩
              · exact h2
              · have h4 := hmono s.em e em1 hem e0 he
                rw [hc] at h4
                have hem1 : s1.em = em1 := by rw [hs1]
                rw [hem1]
                exact le_antisymm le_top h4

/-- Adding to `+infinity` one value after the other leaves `+infinity`. -/
theorem foldl_add_inf (cost : Nat → Dbl) (es : List Nat) :
    es.foldl (fun u e => u + cost e) Dbl.inf = Dbl.inf := by
  induction es with
  | nil => rfl
  | cons e es ih => rw [List.foldl_cons, Dbl.inf_add, ih]

/-- A finite result of adding values one after the other is, up to the rounding of one
addition per value, at most the exact sum; and every value added was finite. -/
theorem foldl_add_upper (cost : Nat → Dbl) (es : List Nat) :
    ∀ u0 U : Nat, es.foldl (fun u e => u + cost e) (Dbl.fin u0) = Dbl.fin U →
      (∀ e ∈ es, cost e = Dbl.fin (cost e).units) ∧
      (U : ℚ) ≤ Dbl.ulp_factor ^ es.length *
        ((u0 : ℚ) + (es.map (fun e => ((cost e).units : ℚ))).sum) := by
  induction es with
  | nil =>
      intro u0 U h
      simp only [List.foldl_nil, Dbl.fin.injEq] at h
      simp [h]
  | cons e es ih =>
      intro u0 U h
      rw [List.foldl_cons] at h
      cases hc : cost e with
      | inf =>
          rw [hc, Dbl.add_inf, foldl_add_inf] at h
          cases h
      | fin c =>
          rw [hc] at h
          cases hu : Dbl.fin u0 + Dbl.fin c with
          | inf =>
              rw [hu, foldl_add_inf] at h
              cases h
          | fin u1 =>
              rw [hu] at h
              obtain ⟨i1, i2⟩ := ih u1 U h
              have hb := (Dbl.add_bounds u0 c u1 hu).1
              refine ⟨?_, ?_⟩
              · intro x hx
                rcases List.mem_cons.1 hx with h1 | h1
                · rw [h1, hc]; rfl
                · exact i1 x h1
              · simp only [List.map_cons, List.sum_cons, List.length_cons, hc, Dbl.units]
                have hs : (0 : ℚ) ≤ (es.map (fun e => ((cost e).units : ℚ))).sum :=
                  List.sum_nonneg (by
                    intro x hx
                    obtain ⟨y, _, rfl⟩ := List.mem_map.1 hx
                    positivity)
                have h1le := Dbl.ulp_factor_ge_one
                have hp := Dbl.ulp_factor_pow_ge_one es.length
                have hpp : (0 : ℚ) ≤ Dbl.ulp_factor ^ es.length := by linarith
                calc (U : ℚ) ≤ Dbl.ulp_factor ^ es.length *
                      ((u1 : ℚ) + (es.map (fun e => ((cost e).units : ℚ))).sum) := i2
                  _ ≤ Dbl.ulp_factor ^ es.length *
                      (Dbl.ulp_factor * ((u0 : ℚ) + c) +
                        Dbl.ulp_factor * (es.map (fun e => ((cost e).units : ℚ))).sum) := by
                      apply mul_le_mul_of_nonneg_left _ hpp
                      have := le_mul_of_one_le_left hs h1le
                      linarith
                  _ = Dbl.ulp_factor ^ (es.length + 1) *
                      ((u0 : ℚ) + (c + (es.map (fun e => ((cost e).units : ℚ))).sum)) := by
                      ring

/-- C1 (amended): the lower bound is admissible up to the rounding of the additions. Let
`compute_candidate_paths()` have been run (no commit since), and let a complete state be reached
from there by further calls `extend(e)` on layout edges, where committing a traced path never
shortens the candidate of another layout edge. In `double` arithmetic: when `cost_lower_bound()`
of the first state and `embedded_cost` of the complete state are finite, the bound is at most
`(1 + 2^-53)^m` times that `embedded_cost`, with one factor for each addition on either side
(`m` is the number of layout edges plus the number of calls plus one); and when the candidate
cost of an edge that is not embedded is `+infinity`, so is `embedded_cost` of the complete
state. -/
theorem cost_lower_bound_admissible (ops : EmbeddingOps Em Dbl)
    (s0 sf : EmbeddingState Em Dbl) (es : List Nat)
    (hmono : ∀ em e em1, ops.embed_path em (ops.layout.halfedgeA e)
        (ops.find_shortest_path em (ops.layout.halfedgeA e)) = some em1 →
      ∀ e1, e1 ≠ e → (trace_candidate ops em e1).cost ≤ (trace_candidate ops em1 e1).cost)
    (hes : ∀ e ∈ es, e < ops.layout.num_edges)
    (hrun : extend_calls ops es (compute_candidate_paths ops s0) = Outcome.done sf)
    (hcomplete : ∀ e, e < ops.layout.num_edges → e ∈ sf.embedded_l_edges) :
    (∀ B F : Nat, cost_lower_bound (compute_candidate_paths ops s0) = Dbl.fin B →
      sf.embedded_cost = Dbl.fin F →
      (B : ℚ) ≤ Dbl.ulp_factor ^ (ops.layout.num_edges + es.length + 1) * F) ∧
    ((∃ e, e < ops.layout.num_edges ∧ e ∉ s0.embedded_l_edges ∧
        (trace_candidate ops s0.em e).cost = Dbl.inf) → sf.embedded_cost = Dbl.inf) := by
  obtain ⟨hem, hemb, _, _, hcost, _, hsum, _⟩ := compute_candidate_paths_fields ops s0
  constructor
  · intro B F hB hF
    unfold cost_lower_bound at hB
    obtain ⟨a, U, ha, hU, hr⟩ := Dbl.add_eq_fin _ _ _ hB
    have hBb := (Dbl.add_bounds a U B hr).1
    rw [hsum] at hU
    obtain ⟨hfin, hUb⟩ := foldl_add_upper (fun e => (trace_candidate ops s0.em e).cost)
      ((List.range ops.layout.num_edges).filter (fun e => e ∉ s0.embedded_l_edges)) 0 U hU
    have hlow := extend_calls_lower ops hmono es (compute_candidate_paths ops s0) sf
      ((Finset.range ops.layout.num_edges).filter (fun e => e ∉ s0.embedded_l_edges))
      (fun e => (trace_candidate ops s0.em e).cost.units) a F hrun
      (by
        intro e he
        by_cases hm : e ∈ s0.embedded_l_edges
        · right; rw [hemb]; exact hm
        · left
          exact Finset.mem_filter.2 ⟨Finset.mem_range.2 (hes e he), hm⟩)
      (by
        intro e he
        obtain ⟨h1, h2⟩ := Finset.mem_filter.1 he
        refine ⟨?_, hcomplete e (Finset.mem_range.1 h1)⟩
        rw [hemb]; exact h2)
      (by
        intro e he
        obtain ⟨h1, h2⟩ := Finset.mem_filter.1 he
        rw [hem, ← hfin e (List.mem_filter.2 ⟨List.mem_range.2 (Finset.mem_range.1 h1),
          by simpa using h2⟩)])
      ha hF
    have hlist : (((List.range ops.layout.num_edges).filter
          (fun e => e ∉ s0.embedded_l_edges)).map
        (fun e => ((trace_candidate ops s0.em e).cost.units : ℚ))).sum =
        ∑ e in (Finset.range ops.layout.num_edges).filter (fun e => e ∉ s0.embedded_l_edges),
          ((trace_candidate ops s0.em e).cost.units : ℚ) := by
      rw [← List.sum_toFinset _ ((List.nodup_range _).filter _)]
      congr 1
      ext x
      simp
    rw [hlist] at hUb
    simp only [Nat.cast_zero, zero_add] at hUb
    set sc := ∑ e in (Finset.range ops.layout.num_edges).filter
      (fun e => e ∉ s0.embedded_l_edges), ((trace_candidate ops s0.em e).cost.units : ℚ)
    have hsc : (0 : ℚ) ≤ sc := Finset.sum_nonneg (fun x _ => by positivity)
    have hlen : ((List.range ops.layout.num_edges).filter
        (fun e => e ∉ s0.embedded_l_edges)).length ≤ ops.layout.num_edges := by
      calc _ ≤ (List.range ops.layout.num_edges).length := List.length_filter_le _ _
        _ = ops.layout.num_edges := List.length_range _
    have hpn : Dbl.ulp_factor ^ ((List.range ops.layout.num_edges).filter
        (fun e => e ∉ s0.embedded_l_edges)).length ≤ Dbl.ulp_factor ^ ops.layout.num_edges :=
      pow_le_pow_right₀ Dbl.ulp_factor_ge_one hlen
    have h1le := Dbl.ulp_factor_ge_one
    have hpn1 := Dbl.ulp_factor_pow_ge_one ops.layout.num_edges
    have hU2 : (U : ℚ) ≤ Dbl.ulp_factor ^ ops.layout.num_edges * sc :=
      hUb.trans (mul_le_mul_of_nonneg_right hpn hsc)
    have ha0 : (0 : ℚ) ≤ a := by positivity
    have hF0 : (0 : ℚ) ≤ Dbl.ulp_factor ^ es.length * F := by positivity
    calc (B : ℚ) ≤ Dbl.ulp_factor * ((a : ℚ) + U) := hBb
      _ ≤ Dbl.ulp_factor * (Dbl.ulp_factor ^ ops.layout.num_edges * ((a : ℚ) + sc)) := by
          apply mul_le_mul_of_nonneg_left _ (by linarith)
          have := le_mul_of_one_le_left ha0 hpn1
          linarith
      _ ≤ Dbl.ulp_factor * (Dbl.ulp_factor ^ ops.layout.num_edges *
            (Dbl.ulp_factor ^ es.length * F)) := by
          apply mul_le_mul_of_nonneg_left _ (by linarith)
          exact mul_le_mul_of_nonneg_left hlow (by linarith)
      _ = Dbl.ulp_factor ^ (ops.layout.num_edges + es.length + 1) * F := by ring
  · rintro ⟨e, he, hne, hc⟩
    apply extend_calls_infinite_candidate ops hmono es (compute_candidate_paths ops s0) sf e hrun
    · rw [hemb]; exact hne
    · exact hcomplete e he
    · rw [hem]; exact hc

end DoubleBoundTheorems
/-- In the instance with the lengths `0.1`, `0.2`, `0.3` the candidate of an edge does not
depend on what is embedded: committing an edge never shortens another candidate. -/
theorem dblOps_monotone (em : List Nat) (e : Nat) (em1 : List Nat)
    (_ : dblOps.embed_path em (dblOps.layout.halfedgeA e)
      (dblOps.find_shortest_path em (dblOps.layout.halfedgeA e)) = some em1)
    (e1 : Nat) (_ : e1 ≠ e) :
    (trace_candidate dblOps em e1).cost ≤ (trace_candidate dblOps em1 e1).cost :=
  le_of_eq rfl

/-- C1 (amended) on the instance with the lengths `0.1`, `0.2`, `0.3`: the bound after tracing
the three candidates is `0.6000000000000001`, the complete state reached by committing the
edges `2`, `1`, `0` costs `0.6`, and the bound is within `(1 + 2^-53)^7` of that cost. -/
theorem cost_lower_bound_admissible_witness :
    ∃ sf, extend_calls dblOps [2, 1, 0]
        (compute_candidate_paths dblOps (EmbeddingState.init [])) = Outcome.done sf ∧
      cost_lower_bound (compute_candidate_paths dblOps (EmbeddingState.init []))
        = Dbl.fin (1351079888211149 * 2 ^ 1023) ∧
      sf.embedded_cost = Dbl.fin (5404319552844595 * 2 ^ 1021) ∧
      ((1351079888211149 * 2 ^ 1023 : Nat) : ℚ) ≤
        Dbl.ulp_factor ^ (dblOps.layout.num_edges + [2, 1, 0].length + 1) *
          ((5404319552844595 * 2 ^ 1021 : Nat) : ℚ) := by
  obtain ⟨sf, hrun, hp⟩ := Outcome.done_of_check
    (r := extend_calls dblOps [2, 1, 0]
      (compute_candidate_paths dblOps (EmbeddingState.init [])))
    (p := fun sf => decide (sf.embedded_l_edges = {0, 1, 2}) &&
      decide (sf.embedded_cost = Dbl.fin (5404319552844595 * 2 ^ 1021)))
    (by decide!)
  simp only [Bool.and_eq_true, decide_eq_true_eq] at hp
  have hB : cost_lower_bound (compute_candidate_paths dblOps (EmbeddingState.init []))
      = Dbl.fin (1351079888211149 * 2 ^ 1023) := by decide!
  exact ⟨sf, hrun, hB, hp.2,
    (cost_lower_bound_admissible dblOps (EmbeddingState.init []) sf [2, 1, 0] dblOps_monotone
      (by decide) hrun (by
        intro e he
        rw [hp.1]
        have he3 : e < 3 := he
        interval_cases e <;> decide)).1 _ _ hB hp.2⟩

/-- C1 as stated fails on the instance with the lengths `0.1`, `0.2`, `0.3`. Every layout edge
has one path, which does not depend on what is embedded, so the traced paths are shortest and
committing one never shortens another. After `compute_candidate_paths()` on the fresh state
the bound is `0.0 + (((0.0 + 0.1) + 0.2) + 0.3)`, the double `0.6000000000000001`; the calls
`extend(2)`, `extend(1)`, `extend(0)` reach a complete, valid state whose `embedded_cost` is
`((0.0 + 0.3) + 0.2) + 0.1`, the double `0.6`, which is less than the bound. -/
theorem cost_lower_bound_counterexample :
    (∀ em e em1, dblOps.embed_path em (dblOps.layout.halfedgeA e)
        (dblOps.find_shortest_path em (dblOps.layout.halfedgeA e)) = some em1 →
      ∀ e1, e1 ≠ e →
        (trace_candidate dblOps em e1).cost ≤ (trace_candidate dblOps em1 e1).cost) ∧
    ∃ sf, extend_calls dblOps [2, 1, 0]
        (compute_candidate_paths dblOps (EmbeddingState.init [])) = Outcome.done sf ∧
      sf.valid = true ∧
      (∀ e, e < dblOps.layout.num_edges → e ∈ sf.embedded_l_edges) ∧
      cost_lower_bound (compute_candidate_paths dblOps (EmbeddingState.init []))
        = Dbl.mk2 1351079888211149 51 ∧
      sf.embedded_cost = Dbl.mk2 5404319552844595 53 ∧
      sf.embedded_cost <
        cost_lower_bound (compute_candidate_paths dblOps (EmbeddingState.init [])) := by
  refine ⟨dblOps_monotone, ?_⟩
  obtain ⟨sf, hrun, hp⟩ := Outcome.done_of_check
    (r := extend_calls dblOps [2, 1, 0]
      (compute_candidate_paths dblOps (EmbeddingState.init [])))
    (p := fun sf => sf.valid && decide (sf.embedded_l_edges = {0, 1, 2}) &&
      decide (sf.embedded_cost = Dbl.mk2 5404319552844595 53))
    (by decide!)
  simp only [Bool.and_eq_true, decide_eq_true_eq] at hp
  obtain ⟨⟨p1, p2⟩, p3⟩ := hp
  have hB : cost_lower_bound (compute_candidate_paths dblOps (EmbeddingState.init []))
      = Dbl.mk2 1351079888211149 51 := by decide!
  refine ⟨sf, hrun, p1, ?_, hB, p3, ?_⟩
  · intro e he
    rw [p2]
    have he3 : e < 3 := he
    interval_cases e <;> decide
  · rw [p3, hB]; decide!

/-! ## The gap tests in `double` arithmetic -/

section DoubleGapTheorems

variable {Em : Type}

/-- On costs of type `double` the stopping test of `branch_and_bound` is the comparison of the
double `1.0 - lower_bound / global_upper_bound` with the double `0.03`. -/
theorem gap_le_max_gap_dbl (lb ub : Dbl) :
    gap_le_max_gap lb ub = Dbl.gap_le Dbl.max_gap lb ub := rfl

/-- On costs of type `double` the pruning test of `branch_and_bound` is the comparison of the
double `1.0 - lower_bound / global_upper_bound` with the double `0.03`. -/
theorem gap_gt_max_gap_dbl (lb ub : Dbl) :
    gap_gt_max_gap lb ub = Dbl.gap_gt Dbl.max_gap lb ub := rfl

/-- C12 (amended): the optimality-gap threshold is the constant `0.03` of `branch_and_bound`
and not the setting of the caller. The result of `branch_and_bound` is the same for all
settings; an iteration that pops the candidate `c` ends the loop exactly when the double
`1.0 - lower_bound / global_upper_bound` is at most the double `0.03`; and a child is enqueued
for a conflicting edge exactly when its bound is computed and the double
`1.0 - lower_bound / global_upper_bound` exceeds the double `0.03`. -/
theorem gap_threshold_is_constant
    (pop : List (Candidate Dbl) → Option (Candidate Dbl × List (Candidate Dbl)))
    (ops : SearchOps Em Dbl) (em : Em) (st : SearchState Dbl)
    (c : Candidate Dbl) (rest : List (Candidate Dbl)) (hp : pop st.q = some (c, rest)) :
    (∀ (fuel : Nat) (s1 s2 : BranchAndBoundSettings),
      branch_and_bound pop ops fuel em s1 = branch_and_bound pop ops fuel em s2) ∧
    ((∃ st1, search_step pop ops em st = Res.done (false, st1)) ↔
      Dbl.gap_le Dbl.max_gap c.lower_bound st.global_upper_bound = true) ∧
    (∀ (node_em : Em) (e : Nat) (x : Candidate Dbl),
      child_of ops node_em c st.global_upper_bound e = some x ↔
        calc_cost_lower_bound ops node_em (c.insertions ++ [e]) = Res.done x.lower_bound ∧
        x.insertions = c.insertions ++ [e] ∧
        Dbl.gap_gt Dbl.max_gap x.lower_bound st.global_upper_bound = true) := by
  refine ⟨fun _ _ _ => rfl, ?_, ?_⟩
  · rw [← gap_le_max_gap_dbl]
    constructor
    · rintro ⟨st1, h⟩
      rcases search_step_cases pop ops em st st1 false h with ⟨h0, _, _⟩ | ⟨c1, rest1, hp1, hc⟩
      · rw [h0] at hp; simp at hp
      · rw [hp1] at hp
        simp only [Option.some.injEq, Prod.mk.injEq] at hp
        obtain ⟨rfl, rfl⟩ := hp
        rcases hc with ⟨hg, _, _⟩ | ⟨_, hb, _⟩
        · exact hg
        · simp at hb
    · intro hgap
      refine ⟨{ st with q := rest }, ?_⟩
      unfold search_step
      rw [hp]
      simp only [hgap, if_true]
  · intro node_em e x
    rw [← gap_gt_max_gap_dbl]
    exact child_of_eq_some ops node_em c st.global_upper_bound e x

/-- C17: child expansion. For an iteration of the loop of `branch_and_bound` that evaluates
the node of the popped candidate `c`, with costs of type `double`: when the conflicting set is
not empty and the bound of the node is below `global_upper_bound`, the new queue is the old one
without `c` on which the children were pushed, one for each edge `e` of the conflicting set by
ascending index that passes the gap test, and no two of them alike; a candidate is such a
child exactly when its insertions are those of `c` followed by `e`, its `lower_bound` is
`calc_cost_lower_bound` of that sequence on the embedding of the node, and the double
`1.0 - lower_bound / global_upper_bound` exceeds `max_gap`, the double `0.03`; when the bound
of the node is not below `global_upper_bound`, or the conflicting set is empty, nothing is
pushed. -/
theorem child_expansion
    (pop : List (Candidate Dbl) → Option (Candidate Dbl × List (Candidate Dbl)))
    (ops : SearchOps Em Dbl) (em : Em) (st st1 : SearchState Dbl) (b : Bool)
    (c : Candidate Dbl) (rest : List (Candidate Dbl)) (node : Node Em Dbl)
    (h : search_step pop ops em st = Res.done (b, st1))
    (hp : pop st.q = some (c, rest))
    (hgap : Dbl.gap_le Dbl.max_gap c.lower_bound st.global_upper_bound = false)
    (hn : evaluate_node ops em c = Res.done node) :
    (node.conflicting_l_e ≠ ∅ → node.cost_lower_bound < st.global_upper_bound →
      st1.q = ((ascending node.conflicting_l_e).filterMap
          (child_of ops node.em c st.global_upper_bound)).reverse ++ rest ∧
      ((ascending node.conflicting_l_e).filterMap
          (child_of ops node.em c st.global_upper_bound)).Nodup ∧
      ∀ x, x ∈ (ascending node.conflicting_l_e).filterMap
            (child_of ops node.em c st.global_upper_bound) ↔
        ∃ e ∈ node.conflicting_l_e,
          calc_cost_lower_bound ops node.em (c.insertions ++ [e]) = Res.done x.lower_bound ∧
          x.insertions = c.insertions ++ [e] ∧
          Dbl.gap_gt Dbl.max_gap x.lower_bound st.global_upper_bound = true) ∧
    (¬ node.cost_lower_bound < st.global_upper_bound → st1.q = rest) ∧
    (node.conflicting_l_e = ∅ → st1.q = rest) := by
  rcases search_step_cases pop ops em st st1 b h with ⟨h0, _, _⟩ | ⟨c1, rest1, hp1, hc⟩
  · rw [h0] at hp; simp at hp
  rw [hp1] at hp
  simp only [Option.some.injEq, Prod.mk.injEq] at hp
  obtain ⟨rfl, rfl⟩ := hp
  rcases hc with ⟨hg, _, _⟩ | ⟨_, _, node1, hn1, hc⟩
  · rw [gap_le_max_gap_dbl, hgap] at hg; simp at hg
  rw [hn1] at hn
  simp only [Res.done.injEq] at hn
  subst hn
  refine ⟨?_, ?_, ?_⟩
  · intro hne hlt
    rcases hc with ⟨he, _, _⟩ | ⟨hnlt, _⟩ | ⟨_, _, q1, hq1, h1⟩
    · exact absurd he hne
    · exact absurd hlt hnlt
    · subst h1
      refine ⟨push_children_eq ops _ c1 _ _ rest1 q1 hq1, ?_, ?_⟩
      · apply List.Nodup.filterMap _ (ascending_nodup _)
        intro e1 e2 x h1 h2
        have k1 := ((child_of_eq_some ops _ c1 _ e1 x).1 (by simpa using h1)).2.1
        have k2 := ((child_of_eq_some ops _ c1 _ e2 x).1 (by simpa using h2)).2.1
        rw [k1] at k2
        simpa using k2
      · intro x
        rw [List.mem_filterMap]
        constructor
        · rintro ⟨e, he, hx⟩
          exact ⟨e, (mem_ascending _ e).1 he, (child_of_eq_some ops _ c1 _ e x).1 hx⟩
        · rintro ⟨e, he, hx⟩
          exact ⟨e, (mem_ascending _ e).2 he, (child_of_eq_some ops _ c1 _ e x).2 hx⟩
  · intro hnlt
    rcases hc with ⟨_, hlt, _⟩ | ⟨_, h1⟩ | ⟨_, hlt, _⟩
    · exact absurd hlt hnlt
    · subst h1; rfl
    · exact absurd hlt hnlt
  · intro he
    rcases hc with ⟨_, _, h1⟩ | ⟨_, h1⟩ | ⟨hne, _⟩
    · subst h1; rfl
    · subst h1; rfl
    · exact absurd he hne

end DoubleGapTheorems

/-- C12 (amended) on the instance `gapOpsD`: with incumbent `100` the popped bound `97` has the
gap `1.0 - 97.0 / 100.0`, which is the double `0.030000000000000027` and exceeds the double
`0.03`; the iteration does not end the loop. -/
theorem gap_threshold_is_constant_witness :
    pop_min ([⟨Dbl.mk2 120 0, [0, 3]⟩, ⟨Dbl.mk2 97 0, [1]⟩] : List (Candidate Dbl)) =
        some (⟨Dbl.mk2 97 0, [1]⟩, [⟨Dbl.mk2 120 0, [0, 3]⟩]) ∧
    Dbl.div (Dbl.mk2 97 0) (Dbl.mk2 100 0) = some (Dbl.mk2 4368491638549381 52) ∧
    Dbl.one_minus (Dbl.mk2 4368491638549381 52) = (false, Dbl.mk2 135107988821115 52) ∧
    Dbl.max_gap < Dbl.mk2 135107988821115 52 ∧
    Dbl.gap_le Dbl.max_gap (Dbl.mk2 97 0) (Dbl.mk2 100 0) = false ∧
    ¬ ∃ st1, search_step pop_min gapOpsD []
          ⟨[⟨Dbl.mk2 120 0, [0, 3]⟩, ⟨Dbl.mk2 97 0, [1]⟩], Dbl.mk2 100 0,
            some ⟨Dbl.mk2 98 0, [0, 1]⟩⟩ = Res.done (false, st1) := by
  refine ⟨by decide!, by decide!, by decide!, by decide!, by decide!, ?_⟩
  rw [(gap_threshold_is_constant pop_min gapOpsD []
      ⟨[⟨Dbl.mk2 120 0, [0, 3]⟩, ⟨Dbl.mk2 97 0, [1]⟩], Dbl.mk2 100 0,
        some ⟨Dbl.mk2 98 0, [0, 1]⟩⟩ ⟨Dbl.mk2 97 0, [1]⟩ [⟨Dbl.mk2 120 0, [0, 3]⟩]
      (by decide!)).2.1]
  decide!

/-- C12 as stated fails on the instance `gapOpsD` with the setting `max_gap = 0`: after three
iterations the incumbent is `100` and the queue pops a candidate with bound `99`; by the
caller's threshold the loop must go on (the double `1.0 - 99.0 / 100.0` is positive, the bound
is below the incumbent), but the iteration ends the loop, just as it does with the setting
`max_gap = 0.03`. -/
theorem gap_threshold_counterexample :
    search_iterate pop_min gapOpsD [] 3 SearchState.init =
      Res.done ⟨[⟨Dbl.mk2 120 0, [0, 3]⟩, ⟨Dbl.mk2 99 0, [1]⟩], Dbl.mk2 100 0,
        some ⟨Dbl.mk2 98 0, [0, 1]⟩⟩ ∧
    pop_min ([⟨Dbl.mk2 120 0, [0, 3]⟩, ⟨Dbl.mk2 99 0, [1]⟩] : List (Candidate Dbl)) =
      some (⟨Dbl.mk2 99 0, [1]⟩, [⟨Dbl.mk2 120 0, [0, 3]⟩]) ∧
    Dbl.gap_le 0 (Dbl.mk2 99 0) (Dbl.mk2 100 0) = false ∧
    Dbl.mk2 99 0 < Dbl.mk2 100 0 ∧
    search_step pop_min gapOpsD []
        ⟨[⟨Dbl.mk2 120 0, [0, 3]⟩, ⟨Dbl.mk2 99 0, [1]⟩], Dbl.mk2 100 0,
          some ⟨Dbl.mk2 98 0, [0, 1]⟩⟩ =
      Res.done (false, ⟨[⟨Dbl.mk2 120 0, [0, 3]⟩], Dbl.mk2 100 0,
        some ⟨Dbl.mk2 98 0, [0, 1]⟩⟩) ∧
    branch_and_bound pop_min gapOpsD 10 [] ⟨10, false, 0⟩ =
      branch_and_bound pop_min gapOpsD 10 [] ⟨10, false, 3 / 100⟩ := by
  refine ⟨by decide!, by decide!, by decide!, by decide!, by decide!, rfl⟩

/-- C17 on the instance `pruneOps` with incumbent `100`: the iteration pops the sequence `[0]`,
whose node has the bound `42` and the conflicting edges `1` and `3`. The child `[0, 1]` has the
bound `97`, its gap is the double `0.030000000000000027`, above `0.03`, and it is pushed; the
child `[0, 3]` has the bound `120` and is not pushed. -/
theorem child_expansion_witness :
    search_step pop_min pruneOps [] ⟨[⟨Dbl.mk2 29 0, [0]⟩], Dbl.mk2 100 0, none⟩ =
      Res.done (true, ⟨[⟨Dbl.mk2 97 0, [0, 1]⟩], Dbl.mk2 100 0, none⟩) ∧
    evaluate_node pruneOps [] ⟨Dbl.mk2 29 0, [0]⟩ =
      Res.done ⟨[0], {0}, {1, 3}, ∅, {2}, Dbl.mk2 42 0⟩ ∧
    calc_cost_lower_bound pruneOps [0] [0, 1] = Res.done (Dbl.mk2 97 0) ∧
    calc_cost_lower_bound pruneOps [0] [0, 3] = Res.done (Dbl.mk2 120 0) ∧
    Dbl.gap_gt Dbl.max_gap (Dbl.mk2 97 0) (Dbl.mk2 100 0) = true ∧
    Dbl.gap_gt Dbl.max_gap (Dbl.mk2 120 0) (Dbl.mk2 100 0) = false ∧
    ([⟨Dbl.mk2 97 0, [0, 1]⟩] : List (Candidate Dbl)) =
      ((ascending {1, 3}).filterMap
        (child_of pruneOps [0] ⟨Dbl.mk2 29 0, [0]⟩ (Dbl.mk2 100 0))).reverse ++ [] :=
  ⟨by decide!, by decide!, by decide!, by decide!, by decide!, by decide!,
    ((child_expansion pop_min pruneOps [] ⟨[⟨Dbl.mk2 29 0, [0]⟩], Dbl.mk2 100 0, none⟩
      ⟨[⟨Dbl.mk2 97 0, [0, 1]⟩], Dbl.mk2 100 0, none⟩ true ⟨Dbl.mk2 29 0, [0]⟩ []
      ⟨[0], {0}, {1, 3}, ∅, {2}, Dbl.mk2 42 0⟩ (by decide!) (by decide!) (by decide!)
      (by decide!)).1 (by decide) (by decide!)).1⟩

/-! ## The run of `branch_and_bound2` -/

section DescentRunTheorems

variable {Em C : Type} [LinearOrder C] [Add C] [Zero C] [Top C] [GapTests C]

/-- An iteration of `branch_and_bound2` that goes on is a forced insertion. -/
theorem descend_step_forced (rand : Nat → Nat) (ops : SearchOps Em C) (d d1 : Descent Em)
    (h : descend_step rand ops d = Res.done (true, d1)) : ForcedInsertion rand ops d d1 := by
  obtain ⟨cl, hc, hcase⟩ := descend_step_cases rand ops d d1 true h
  rcases hcase with ⟨_, hb, _⟩ | ⟨hne, _, e0, em0, _, _, _, _, _, _, _⟩
  · cases hb
  unfold descend_step at h
  rw [hc] at h
  simp only [if_neg hne] at h
  cases hget : (ascending cl.conflicting_l_e)[rand d.num_decisions %
      cl.conflicting_l_e.card]? with
  | none => rw [hget] at h; simp at h
  | some e =>
      rw [hget] at h
      simp only at h
      cases hemb : ops.embed_path d.em (ops.layout.halfedgeA e)
          (ops.find_shortest_path d.em (ops.layout.halfedgeA e)) with
      | none => rw [hemb] at h; simp at h
      | some em1 =>
          rw [hemb] at h
          simp only [Res.done.injEq, Prod.mk.injEq, true_and] at h
          have hmem : e ∈ cl.conflicting_l_e := (mem_ascending _ e).1 (List.getElem?_mem hget)
          obtain ⟨D, _, hinv⟩ := classInv2_loop ops d (List.range ops.layout.num_edges)
            [] _ cl (List.nodup_range _) (fun e _ => by simp) (classInv_init ops _) hc
          exact ⟨cl, e, em1, hc, hne, hget, hmem, (hinv.conflicting_in e hmem).2.2, hemb,
            h.symm⟩

/-- An iteration of `branch_and_bound2` that leaves the loop changes nothing and has found an
empty conflicting set. -/
theorem descend_step_leaves (rand : Nat → Nat) (ops : SearchOps Em C) (d d1 : Descent Em)
    (h : descend_step rand ops d = Res.done (false, d1)) :
    d1 = d ∧ ∃ cl, classify2_loop ops d (List.range ops.layout.num_edges)
        { covered := fun _ => ∅, conflicting_l_e := ∅, blocked_l_e := ∅,
          unembedded_cost := 0 } = Res.done cl ∧ cl.conflicting_l_e = ∅ := by
  obtain ⟨cl, hc, hcase⟩ := descend_step_cases rand ops d d1 false h
  rcases hcase with ⟨he, _, hd⟩ | ⟨_, hb, _⟩
  · exact ⟨hd, cl, hc, he⟩
  · cases hb

/-- The loop of `branch_and_bound2` returns the last state of a chain of forced insertions, on
which the conflicting set is empty. -/
theorem descend_loop_chain (rand : Nat → Nat) (ops : SearchOps Em C) (fuel : Nat) :
    ∀ d d1 : Descent Em, descend_loop rand ops fuel d = Res.done d1 →
      ∃ ds : List (Descent Em),
        List.Chain (ForcedInsertion rand ops) d ds ∧
        (d :: ds).getLast? = some d1 ∧
        d1.num_decisions = d.num_decisions + ds.length ∧
        ∃ cl, classify2_loop ops d1 (List.range ops.layout.num_edges)
            { covered := fun _ => ∅, conflicting_l_e := ∅, blocked_l_e := ∅,
              unembedded_cost := 0 } = Res.done cl ∧ cl.conflicting_l_e = ∅ := by
  induction fuel with
  | zero => intro d d1 h; simp [descend_loop] at h
  | succ n ih =>
      intro d d1 h
      unfold descend_loop at h
      cases hs : descend_step rand ops d with
      | fatal => rw [hs] at h; simp at h
      | timeout => rw [hs] at h; simp at h
      | done r =>
          obtain ⟨b, d2⟩ := r
          rw [hs] at h
          cases b with
          | false =>
              simp only [Res.done.injEq] at h
              subst h
              obtain ⟨hd, hcl⟩ := descend_step_leaves rand ops d d2 hs
              subst hd
              exact ⟨[], List.Chain.nil, by simp, by simp, hcl⟩
          | true =>
              simp only at h
              obtain ⟨ds, k1, k2, k3, k4⟩ := ih d2 d1 h
              have hf := descend_step_forced rand ops d d2 hs
              have hnum : d2.num_decisions = d.num_decisions + 1 := by
                obtain ⟨cl, e, em1, _, _, _, _, _, _, hd⟩ := hf
                rw [hd]
              refine ⟨d2 :: ds, List.Chain.cons hf k1, ?_, ?_, k4⟩
              · rw [List.getLast?_cons_cons]; exact k2
              · rw [k3, hnum, List.length_cons]; omega

/-- More fuel does not change what the loop of `branch_and_bound2` returns. -/
theorem descend_loop_fuel (rand : Nat → Nat) (ops : SearchOps Em C) (fuel : Nat) :
    ∀ (d : Descent Em) (k : Nat), descend_loop rand ops fuel d ≠ Res.timeout →
      descend_loop rand ops (fuel + k) d = descend_loop rand ops fuel d := by
  induction fuel with
  | zero => intro d k h; simp [descend_loop] at h
  | succ n ih =>
      intro d k h
      rw [show n + 1 + k = (n + k) + 1 by omega]
      unfold descend_loop at h ⊢
      cases hs : descend_step rand ops d with
      | fatal => rfl
      | timeout => rfl
      | done r =>
          obtain ⟨b, d2⟩ := r
          rw [hs] at h
          cases b with
          | false => rfl
          | true => exact ih d2 k h

/-- The classification loop of `branch_and_bound2` does not fail when no path is empty. -/
theorem classify2_loop_ne_fatal (ops : SearchOps Em C)
    (hpath : ∀ em e, ops.find_shortest_path_edge em e ≠ [])
    (d : Descent Em) (es : List Nat) :
    ∀ cl : Classification C, classify2_loop ops d es cl ≠ Res.fatal := by
  induction es with
  | nil => intro cl; simp [classify2_loop]
  | cons e es ih =>
      intro cl
      unfold classify2_loop
      cases hs : classify2_step ops d cl e with
      | timeout => simp
      | done cl1 => exact ih cl1
      | fatal =>
          exfalso
          unfold classify2_step at hs
          split at hs
          · simp at hs
          · split at hs
            · simp at hs
            · simp only at hs
              split at hs
              · rename_i hlt
                have hpos : 0 < (ops.find_shortest_path_edge d.em e).length :=
                  List.length_pos.2 (hpath d.em e)
                unfold size_minus_one at hlt
                have : ((ops.find_shortest_path_edge d.em e).length + 2 ^ 64 - 1) % 2 ^ 64 ≤
                    (ops.find_shortest_path_edge d.em e).length - 1 := by
                  have h1 : (ops.find_shortest_path_edge d.em e).length + 2 ^ 64 - 1 =
                      ((ops.find_shortest_path_edge d.em e).length - 1) + 2 ^ 64 := by omega
                  rw [h1, Nat.add_mod_right]
                  exact Nat.mod_le _ _
                omega
              · simp at hs

/-- An iteration of `branch_and_bound2` does not fail when no path is empty and `embed_path`
does not fail. -/
theorem descend_step_ne_fatal (rand : Nat → Nat) (ops : SearchOps Em C)
    (hpath : ∀ em e, ops.find_shortest_path_edge em e ≠ [])
    (hemb : ∀ em h p, ops.embed_path em h p ≠ none) (d : Descent Em) :
    descend_step rand ops d ≠ Res.fatal := by
  unfold descend_step
  cases hc : classify2_loop ops d (List.range ops.layout.num_edges)
      { covered := fun _ => ∅, conflicting_l_e := ∅, blocked_l_e := ∅,
        unembedded_cost := 0 } with
  | fatal => exact absurd hc (classify2_loop_ne_fatal ops hpath d _ _)
  | timeout => simp
  | done cl =>
      simp only
      split
      · simp
      · rename_i hne
        have hcard : 0 < cl.conflicting_l_e.card :=
          Finset.card_pos.2 (Finset.nonempty_iff_ne_empty.2 hne)
        have hlt : rand d.num_decisions % cl.conflicting_l_e.card <
            (ascending cl.conflicting_l_e).length := by
          rw [ascending_length]; exact Nat.mod_lt _ hcard
        rw [List.getElem?_eq_getElem hlt]
        simp only
        split
        · rename_i he; exact absurd he (hemb _ _ _)
        · simp

/-- The loop of `branch_and_bound2` does not fail when no iteration does. -/
theorem descend_loop_ne_fatal (rand : Nat → Nat) (ops : SearchOps Em C)
    (hpath : ∀ em e, ops.find_shortest_path_edge em e ≠ [])
    (hemb : ∀ em h p, ops.embed_path em h p ≠ none) (fuel : Nat) :
    ∀ d : Descent Em, descend_loop rand ops fuel d ≠ Res.fatal := by
  induction fuel with
  | zero => intro d; simp [descend_loop]
  | succ n ih =>
      intro d
      unfold descend_loop
      cases hs : descend_step rand ops d with
      | fatal => exact absurd hs (descend_step_ne_fatal rand ops hpath hemb d)
      | timeout => simp
      | done r =>
          obtain ⟨b, d2⟩ := r
          cases b with
          | false => simp
          | true => exact ih d2

/-- C28: `branch_and_bound2` terminates after at most (number of layout vertices - 1) forced
insertions. On a layout whose edges end at layout vertices, with at least as much fuel as
there are layout vertices (and at least one round): the loop does not run out of fuel, and more
fuel gives the same result; when no shortest path is empty and `embed_path` does not fail, the
function returns; and whenever it returns locals `d`, these are reached from the initial locals
by a chain of forced insertions, at most `num_vertices - 1` of them and as many as
`num_decisions` counts, where every forced edge is taken from the conflicting set of its
iteration and joins two different union-find classes, which are merged, and the conflicting
set computed on `d`, in the iteration that leaves the loop, is empty. -/
theorem branch_and_bound2_terminates (rand : Nat → Nat) (ops : SearchOps Em C) (em : Em)
    (settings : BranchAndBoundSettings)
    (hV : ∀ e, e < ops.layout.num_edges →
      ops.layout.vertexA e < ops.layout.num_vertices ∧
      ops.layout.vertexB e < ops.layout.num_vertices)
    (fuel : Nat) (hfuel : ops.layout.num_vertices ≤ fuel) (hpos : 0 < fuel) :
    branch_and_bound2 rand ops fuel em settings ≠ Res.timeout ∧
    (∀ k, branch_and_bound2 rand ops (fuel + k) em settings =
      branch_and_bound2 rand ops fuel em settings) ∧
    ((∀ em1 e, ops.find_shortest_path_edge em1 e ≠ []) →
      (∀ em1 h p, ops.embed_path em1 h p ≠ none) →
      ∃ d, branch_and_bound2 rand ops fuel em settings = Res.done d) ∧
    (∀ d, branch_and_bound2 rand ops fuel em settings = Res.done d →
      ∃ ds : List (Descent Em),
        List.Chain (ForcedInsertion rand ops)
          { em := em
            embedded_l_e := ∅
            l_v_components := UnionFind.init ops.layout.num_vertices
            num_decisions := 0
            num_potential_leaves := 1 } ds ∧
        (({ em := em
            embedded_l_e := ∅
            l_v_components := UnionFind.init ops.layout.num_vertices
            num_decisions := 0
            num_potential_leaves := 1 } : Descent Em) :: ds).getLast? = some d ∧
        ds.length ≤ ops.layout.num_vertices - 1 ∧
        d.num_decisions = ds.length ∧
        ∃ cl, classify2_loop ops d (List.range ops.layout.num_edges)
            { covered := fun _ => ∅, conflicting_l_e := ∅, blocked_l_e := ∅,
              unembedded_cost := 0 } = Res.done cl ∧ cl.conflicting_l_e = ∅) := by
  have hinit : (UnionFind.init ops.layout.num_vertices).num_classes ops.layout.num_vertices
      = ops.layout.num_vertices := num_classes_init _
  obtain ⟨h1, h2⟩ := descend_loop_spec rand ops hV fuel
    { em := em, embedded_l_e := ∅,
      l_v_components := UnionFind.init ops.layout.num_vertices,
      num_decisions := 0, num_potential_leaves := 1 }
    (by simp only; rw [hinit]; exact hfuel) hpos
  refine ⟨h1, fun k => descend_loop_fuel rand ops fuel _ k h1, ?_, ?_⟩
  · intro hpath hemb
    cases hr : branch_and_bound2 rand ops fuel em settings with
    | done d => exact ⟨d, rfl⟩
    | fatal => exact absurd hr (descend_loop_ne_fatal rand ops hpath hemb fuel _)
    | timeout => exact absurd hr h1
  · intro d hd
    obtain ⟨ds, k1, k2, k3, k4⟩ := descend_loop_chain rand ops fuel _ d hd
    have hnum := h2 d hd
    simp only at hnum k3
    rw [hinit, zero_add] at hnum
    rw [zero_add] at k3
    refine ⟨ds, k1, k2, ?_, k3, k4⟩
    rw [← k3]
    by_cases hz : ops.layout.num_vertices = 0
    · omega
    · have := num_classes_pos d.l_v_components ops.layout.num_vertices (by omega)
      omega

end DescentRunTheorems

/-- C28 on the search instance `bbOps` (four layout vertices, no empty path, `embed_path` never
fails) with `std::rand` returning `0`: with four rounds of fuel `branch_and_bound2` returns,
after two forced insertions (edge `0`, then edge `1`), locals on which the classification
finds no conflict. -/
theorem branch_and_bound2_terminates_witness :
    bbOps.layout.num_vertices ≤ 4 ∧
    (∃ d, branch_and_bound2 (fun _ => 0) bbOps 4 [] ⟨10, false, 0⟩ = Res.done d) ∧
    (branch_and_bound2 (fun _ => 0) bbOps 4 [] ⟨10, false, 0⟩).check
      (fun d => decide (d.em = [1, 0] ∧ d.embedded_l_e = {1, 0} ∧ d.num_decisions = 2 ∧
        d.num_potential_leaves = 4)) = true :=
  ⟨by decide,
    (branch_and_bound2_terminates (fun _ => 0) bbOps [] ⟨10, false, 0⟩ (by decide) 4
      (by decide) (by decide)).2.2.1
      (fun em e => by unfold bbOps bbPath; simp only; split_ifs <;> simp)
      (fun em h p => by simp [bbOps]),
    by decide!⟩

/-! ## Candidates without conflicts -/

/-- C10 (amended). A candidate without conflicts has candidate paths with disjoint interiors
among the edges the classification examines: when the node computed for a candidate has an
empty conflicting set, no two distinct layout edges that are outside the candidate's insertion
sequence and not blocked (their end points are not connected by the insertions) have candidate
paths, traced on the node's embedding, with a common interior virtual vertex `path[i]` (the
same target vertex, or the same target edge as crossing point). The segments between the
virtual vertices are not compared. -/
theorem no_conflict_disjoint_interiors {Em C : Type} [LinearOrder C] [Add C] [Zero C] [Top C]
    [GapTests C]
    (ops : SearchOps Em C) (em : Em) (c : Candidate C) (node : Node Em C)
    (h : evaluate_node ops em c = Res.done node) (hempty : node.conflicting_l_e = ∅)
    (e1 e2 : Nat) (h1 : e1 < ops.layout.num_edges) (h2 : e2 < ops.layout.num_edges)
    (hne : e1 ≠ e2) (hi1 : e1 ∉ c.insertions) (hi2 : e2 ∉ c.insertions)
    (hb1 : e1 ∉ node.blocked_l_e) (hb2 : e2 ∉ node.blocked_l_e) :
    ∀ x ∈ interior (ops.find_shortest_path_edge node.em e1),
      x ∉ interior (ops.find_shortest_path_edge node.em e2) :=
  (evaluate_node_spec ops em c node h).2.2 hempty e1 e2 h1 h2 hne hi1 hi2 hb1 hb2

/-- C10 (amended) on the search instance `bbOps`: with edge `1` inserted nothing conflicts, the
edges `0` and `2` are not blocked, and their paths pass through different target vertices. -/
theorem no_conflict_disjoint_interiors_witness :
    evaluate_node bbOps [] ⟨32, [1]⟩ = Res.done ⟨[1], {1}, ∅, ∅, {3, 2, 0}, 32⟩ ∧
    VirtualVertex.vertex 20 ∈ interior (bbOps.find_shortest_path_edge [1] 0) ∧
    ∀ x ∈ interior (bbOps.find_shortest_path_edge [1] 0),
      x ∉ interior (bbOps.find_shortest_path_edge [1] 2) :=
  ⟨by decide, by decide,
    no_conflict_disjoint_interiors bbOps [] ⟨32, [1]⟩ ⟨[1], {1}, ∅, ∅, {3, 2, 0}, 32⟩
      (by decide) (by decide) 0 2 (by decide) (by decide) (by decide) (by decide) (by decide)
      (by decide) (by decide)⟩

/-- C10 as stated fails in two ways. On the instance `bbOps` the third candidate popped is the
sequence `[0, 1]`; it is not cut by the gap test, its classification finds no conflicting edge,
and yet the layout edges `2` and `3`, both outside the sequence, have candidate paths that
share the interior target vertex `12`: edge `2` joins two layout vertices the insertions
already connect, it is put in the blocked set and its path is not looked at. On the instance
`crossOps` the first candidate popped is the empty sequence; its classification finds no
conflicting and no blocked edge, and yet the candidate path of layout edge `0` runs along
target edge `0` and the candidate path of layout edge `1` crosses target edge `0`: both paths
lie on the element `edgeEl 0` of the target mesh, the first with its segment, the second with
the interior virtual vertex `path[1]`; the first path has no interior virtual vertex, and the
classification compares nothing else. -/
theorem no_conflict_crossing_free_counterexample :
    (search_iterate pop_min bbOps [] 2 SearchState.init =
        Res.done ⟨[⟨24, [0, 3]⟩, ⟨8, [0, 1]⟩, ⟨32, [1]⟩], ⊤, none⟩ ∧
      pop_min ([⟨24, [0, 3]⟩, ⟨8, [0, 1]⟩, ⟨32, [1]⟩] : List (Candidate ℕ∞)) =
        some (⟨8, [0, 1]⟩, [⟨24, [0, 3]⟩, ⟨32, [1]⟩]) ∧
      gap_le_max_gap (8 : ℕ∞) ⊤ = false ∧
      evaluate_node bbOps [] ⟨8, [0, 1]⟩ = Res.done ⟨[1, 0], {1, 0}, ∅, {2}, {3}, 8⟩ ∧
      (2 : Nat) ≠ 3 ∧ 2 < bbOps.layout.num_edges ∧ 3 < bbOps.layout.num_edges ∧
      2 ∉ [0, 1] ∧ 3 ∉ [0, 1] ∧
      VirtualVertex.vertex 12 ∈ interior (bbOps.find_shortest_path_edge [1, 0] 2) ∧
      VirtualVertex.vertex 12 ∈ interior (bbOps.find_shortest_path_edge [1, 0] 3)) ∧
    (pop_min (SearchState.init : SearchState Dbl).q = some (⟨0, []⟩, []) ∧
      gap_le_max_gap (0 : Dbl) ⊤ = false ∧
      evaluate_node crossOps [] ⟨0, []⟩ = Res.done ⟨[], ∅, ∅, ∅, {1, 0}, Dbl.mk2 3 0⟩ ∧
      (0 : Nat) ≠ 1 ∧ 0 < crossOps.layout.num_edges ∧ 1 < crossOps.layout.num_edges ∧
      0 ∉ ([] : List Nat) ∧ 1 ∉ ([] : List Nat) ∧
      crossOps.find_shortest_path_edge [] 0 =
        [VirtualVertex.vertex 0, VirtualVertex.vertex 1] ∧
      crossOps.find_shortest_path_edge [] 1 =
        [VirtualVertex.vertex 2, VirtualVertex.edge 0, VirtualVertex.vertex 3] ∧
      segment_element crossQueries (VirtualVertex.vertex 0) (VirtualVertex.vertex 1) =
        some (SegmentElement.onEdge 0) ∧
      Element.edgeEl 0 ∈ path_elements crossQueries (crossOps.find_shortest_path_edge [] 0) ∧
      Element.edgeEl 0 ∈ path_elements crossQueries (crossOps.find_shortest_path_edge [] 1) ∧
      interior (crossOps.find_shortest_path_edge [] 0) = []) := by
  refine ⟨by decide, by decide!, by decide!, by decide!, by decide, by decide, by decide,
    by decide, by decide, by decide, by decide, by decide, by decide, by decide, by decide⟩

end LayoutEmbedding
